import Mathlib

/-! minSTL: the linked sequence (`list_lt.h`), the contiguous sequence (`vector.h`)
and the growable buffer (`string_lt.h`)

A shallow embedding of the three containers.  Memory is explicit: the linked
sequence lives in a store of nodes addressed by natural numbers, the list
objects themselves are addressed by an identity (so that `this == &other` can be
tested), and every member function is a state transformer that performs the
pointer writes of the C++ body in the order of the source.  The contiguous
sequence and the growable buffer live in a store of slots addressed by integers.
-/

namespace leistd

/-! ## Machine integers -/

/-- Number of values of `std::size_t` (64 bit). -/
def SIZE_MOD : Nat := 2 ^ 64

/-- The `size_type` subtraction `a - b`, wrapping below zero. -/
def size_sub (a b : Nat) : Nat := if b ≤ a then a - b else (a + SIZE_MOD - b % SIZE_MOD) % SIZE_MOD

/-! ## Linked sequence: data model -/

/-- The `struct Node` of `list`: two links and the payload. -/
structure Node (T : Type) where
  prev : Nat
  next : Nat
  data : T

/-- The data members of a `list` object: the sentinel pointer `_M_node` and the
element count `_M_size`. -/
structure list where
  _M_node : Nat
  _M_size : Nat
deriving DecidableEq, Repr

/-- The store: node memory, the allocator's bookkeeping (`alive`, and `brk`, the
next address it hands out) and the list objects, addressed by identity. -/
structure State (T : Type) where
  mem : Nat → Node T
  alive : Nat → Bool
  brk : Nat
  obj : Nat → list

namespace State

variable {T : Type}

/-- The write `a->next = v`. -/
def wnext (st : State T) (a v : Nat) : State T :=
  { st with mem := fun x => if x = a then { st.mem x with next := v } else st.mem x }

/-- The write `a->prev = v`. -/
def wprev (st : State T) (a v : Nat) : State T :=
  { st with mem := fun x => if x = a then { st.mem x with prev := v } else st.mem x }

/-- Construction of the payload of node `a` from `v`. -/
def wdata (st : State T) (a : Nat) (v : T) : State T :=
  { st with mem := fun x => if x = a then { st.mem x with data := v } else st.mem x }

/-- The write `l._M_size = n` on the list object `l`. -/
def wsize (st : State T) (l n : Nat) : State T :=
  { st with obj := fun x => if x = l then { st.obj x with _M_size := n } else st.obj x }

/-- The write `l._M_node = p` on the list object `l`. -/
def wnode (st : State T) (l p : Nat) : State T :=
  { st with obj := fun x => if x = l then { st.obj x with _M_node := p } else st.obj x }

/-- The pointer `a->next`. -/
def next (st : State T) (a : Nat) : Nat := (st.mem a).next

/-- The pointer `a->prev`. -/
def prev (st : State T) (a : Nat) : Nat := (st.mem a).prev

/-- The payload `a->data`. -/
def data (st : State T) (a : Nat) : T := (st.mem a).data

/-- The sentinel `l._M_node` of list object `l`. -/
def sentinel (st : State T) (l : Nat) : Nat := (st.obj l)._M_node

/-- The member `l._M_size` of list object `l`. -/
def msize (st : State T) (l : Nat) : Nat := (st.obj l)._M_size

end State

variable {T : Type}

/-! ## Linked sequence: member functions -/

/-- `NodeTraits::allocate(_M_alloc, 1)`: a fresh node address. -/
def allocate (st : State T) : State T × Nat :=
  ({ st with brk := st.brk + 1, alive := fun x => if x = st.brk then true else st.alive x }, st.brk)

/-- `NodeTraits::destroy` followed by `NodeTraits::deallocate`. -/
def deallocate (st : State T) (node : Nat) : State T :=
  { st with alive := fun x => if x = node then false else st.alive x }

/-- `_M_create_node()`: the sentinel, whose payload is not constructed. -/
def _M_create_node (st : State T) : State T × Nat := allocate st

/-- `_M_create_node(U&& value)`: allocate, then construct the payload. -/
def _M_create_node_val (st : State T) (value : T) : State T × Nat :=
  let r := allocate st
  (r.1.wdata r.2 value, r.2)

/-- `_M_destroy_node(node)`: nothing for the sentinel, else destroy and free. -/
def _M_destroy_node (st : State T) (this node : Nat) : State T :=
  if node = st.sentinel this then st else deallocate st node

/-- `list()`: size 0 and a self-linked sentinel. -/
def list_ctor (st : State T) (this : Nat) : State T :=
  let st := st.wsize this 0
  let r := _M_create_node st
  let st := r.1.wnode this r.2
  let st := st.wnext (st.sentinel this) (st.sentinel this)
  let st := st.wprev (st.sentinel this) (st.sentinel this)
  st

/-- `empty()`. -/
def empty (st : State T) (this : Nat) : Bool := st.msize this == 0

/-- `size()`. -/
def size (st : State T) (this : Nat) : Nat := st.msize this

/-- `begin()`: the node after the sentinel. -/
def list_begin (st : State T) (this : Nat) : Nat := st.next (st.sentinel this)

/-- `end()`: the sentinel. -/
def list_end (st : State T) (this : Nat) : Nat := st.sentinel this

/-- `front()`. -/
def front (st : State T) (this : Nat) : T := st.data (st.next (st.sentinel this))

/-- `back()`. -/
def back (st : State T) (this : Nat) : T := st.data (st.prev (st.sentinel this))

/-- `_M_insert_node(pos, value)`: returns the state and the new node. -/
def _M_insert_node (st : State T) (this pos : Nat) (value : T) : State T × Nat :=
  let r := _M_create_node_val st value
  let st := r.1
  let node := r.2
  let prev := st.prev pos
  let st := st.wnext node pos
  let st := st.wprev node prev
  let st := st.wnext prev node
  let st := st.wprev pos node
  let st := st.wsize this (st.msize this + 1)
  (st, node)

/-- `push_back(value)`. -/
def push_back (st : State T) (this : Nat) (value : T) : State T :=
  (_M_insert_node st this (st.sentinel this) value).1

/-- `push_front(value)`. -/
def push_front (st : State T) (this : Nat) (value : T) : State T :=
  (_M_insert_node st this (st.next (st.sentinel this)) value).1

/-- `insert(pos, value)`. -/
def insert (st : State T) (this pos : Nat) (value : T) : State T × Nat :=
  _M_insert_node st this pos value

/-- `emplace(pos, args...)`, the payload being constructed from `value`. -/
def emplace (st : State T) (this pos : Nat) (value : T) : State T × Nat :=
  let cur := pos
  let prev := st.prev cur
  let r := allocate st
  let node := r.2
  let st := r.1.wdata node value
  let st := st.wprev node prev
  let st := st.wnext node cur
  let st := st.wnext prev node
  let st := st.wprev cur node
  let st := st.wsize this (st.msize this + 1)
  (st, node)

/-- `splice(pos, other)`: the whole of `other` before `pos`. -/
def splice (st : State T) (this pos other : Nat) : State T :=
  if empty st other then st
  else if this = other then st
  else
    let first := st.next (st.sentinel other)
    let last := st.prev (st.sentinel other)
    let cur := pos
    let prev := st.prev cur
    let st := st.wnext (st.sentinel other) (st.sentinel other)
    let st := st.wprev (st.sentinel other) (st.sentinel other)
    let st := st.wnext prev first
    let st := st.wprev first prev
    let st := st.wnext last cur
    let st := st.wprev cur last
    let st := st.wsize this (st.msize this + st.msize other)
    let st := st.wsize other 0
    st

/-- `splice(pos, other, it)`: the single node `it` before `pos`. -/
def splice_one (st : State T) (this pos other it : Nat) : State T :=
  if pos = it ∨ pos = st.next it then st
  else
    let n := it
    let nprev := st.prev n
    let nnext := st.next n
    let st := st.wnext nprev nnext
    let st := st.wprev nnext nprev
    let st := st.wsize other (size_sub (st.msize other) 1)
    let cur := pos
    let prev := st.prev cur
    let st := st.wnext prev n
    let st := st.wprev n prev
    let st := st.wnext n cur
    let st := st.wprev cur n
    let st := st.wsize this (st.msize this + 1)
    st

/-- The counting loop of the range splice,
`for (cur = firstNode; cur != lastNode; cur = cur->next) ++count`. -/
def count_loop (st : State T) (lastNode : Nat) : Nat → Nat → Nat → Option Nat
  | 0, _, _ => none
  | fuel + 1, cur, count =>
    if cur = lastNode then some count
    else count_loop st lastNode fuel (st.next cur) (count + 1)

/-- `splice(pos, other, first, last)`: the run `[first, last)` before `pos`. -/
def splice_range (fuel : Nat) (st : State T) (this pos other first last : Nat) :
    Option (State T) :=
  if first = last then some st
  else
    let firstNode := first
    let lastNode := last
    let beforeFirst := st.prev firstNode
    let beforeLast := st.prev lastNode
    let st := st.wnext beforeFirst lastNode
    let st := st.wprev lastNode beforeFirst
    match count_loop st lastNode fuel firstNode 0 with
    | none => none
    | some count =>
      let st := st.wsize other (size_sub (st.msize other) count)
      let cur := pos
      let prev := st.prev cur
      let st := st.wnext prev firstNode
      let st := st.wprev firstNode prev
      let st := st.wnext beforeLast cur
      let st := st.wprev cur beforeLast
      let st := st.wsize this (st.msize this + count)
      some st

/-- `pop_back()`. -/
def pop_back (st : State T) (this : Nat) : State T :=
  if empty st this then st
  else
    let tail := st.prev (st.sentinel this)
    let st := st.wnext (st.prev tail) (st.sentinel this)
    let st := st.wprev (st.sentinel this) (st.prev tail)
    let st := _M_destroy_node st this tail
    let st := st.wsize this (size_sub (st.msize this) 1)
    st

/-- `pop_front()`. -/
def pop_front (st : State T) (this : Nat) : State T :=
  if empty st this then st
  else
    let head := st.next (st.sentinel this)
    let st := st.wprev (st.next head) (st.sentinel this)
    let st := st.wnext (st.sentinel this) (st.next head)
    let st := _M_destroy_node st this head
    let st := st.wsize this (size_sub (st.msize this) 1)
    st

/-- The `while` loop of `merge`, with the two cursors as arguments. -/
def merge_loop (lt : T → T → Bool) (this other : Nat) :
    Nat → State T → Nat → Nat → Option (State T × Nat × Nat)
  | 0, _, _, _ => none
  | fuel + 1, st, thisCur, otherCur =>
    if thisCur ≠ st.sentinel this ∧ otherCur ≠ st.sentinel other then
      if lt (st.data otherCur) (st.data thisCur) then
        let nextOther := st.next otherCur
        let st := st.wnext (st.prev otherCur) (st.next otherCur)
        let st := st.wprev (st.next otherCur) (st.prev otherCur)
        let thisPrev := st.prev thisCur
        let st := st.wnext thisPrev otherCur
        let st := st.wprev otherCur thisPrev
        let st := st.wnext otherCur thisCur
        let st := st.wprev thisCur otherCur
        let otherCur := nextOther
        let st := st.wsize this (st.msize this + 1)
        let st := st.wsize other (size_sub (st.msize other) 1)
        merge_loop lt this other fuel st thisCur otherCur
      else
        merge_loop lt this other fuel st (st.next thisCur) otherCur
    else some (st, thisCur, otherCur)

/-- `merge(other)`, the element order being `lt` (`operator<`). -/
def merge (lt : T → T → Bool) (fuel : Nat) (st : State T) (this other : Nat) :
    Option (State T) :=
  if this = other ∨ empty st other then some st
  else
    let thisCur := st.next (st.sentinel this)
    let otherCur := st.next (st.sentinel other)
    match merge_loop lt this other fuel st thisCur otherCur with
    | none => none
    | some (st, _, otherCur) =>
      if otherCur ≠ st.sentinel other then
        let tail := st.prev (st.sentinel this)
        let st := st.wnext tail otherCur
        let st := st.wprev otherCur tail
        let st := st.wprev (st.sentinel this) (st.prev (st.sentinel other))
        let st := st.wnext (st.prev (st.sentinel other)) (st.sentinel this)
        let st := st.wsize this (st.msize this + st.msize other)
        let st := st.wsize other 0
        let st := st.wnext (st.sentinel other) (st.sentinel other)
        let st := st.wprev (st.sentinel other) (st.sentinel other)
        some st
      else some st

/-- The `while` loop of `clear`, destroying the nodes from `cur` on. -/
def clear_loop (this : Nat) : Nat → State T → Nat → Option (State T)
  | 0, _, _ => none
  | fuel + 1, st, cur =>
    if cur ≠ st.sentinel this then
      let tmp := cur
      let cur := st.next cur
      let st := _M_destroy_node st this tmp
      clear_loop this fuel st cur
    else some st

/-- `clear()`. -/
def clear (fuel : Nat) (st : State T) (this : Nat) : Option (State T) :=
  match clear_loop this fuel st (st.next (st.sentinel this)) with
  | none => none
  | some st =>
    let st := st.wnext (st.sentinel this) (st.sentinel this)
    let st := st.wprev (st.sentinel this) (st.sentinel this)
    let st := st.wsize this 0
    some st

/-! ## Linked sequence: abstraction -/

/-- Two nodes are adjacent: `a->next == b` and `b->prev == a`. -/
def Adj (st : State T) (a b : Nat) : Prop := st.next a = b ∧ st.prev b = a

instance (st : State T) (a b : Nat) : Decidable (Adj st a b) :=
  inferInstanceAs (Decidable (st.next a = b ∧ st.prev b = a))

/-- Starting from `a`, each node of the sequence is adjacent to the next one. -/
def Linked (st : State T) : Nat → List Nat → Prop
  | _, [] => True
  | a, b :: l => Adj st a b ∧ Linked st b l

instance instDecidableLinked (st : State T) : (a : Nat) → (l : List Nat) → Decidable (Linked st a l)
  | _, [] => isTrue trivial
  | a, b :: l =>
    have := instDecidableLinked st b l
    inferInstanceAs (Decidable (Adj st a b ∧ Linked st b l))

/-- The nodes of `c`, in order, are linked into a cycle in both directions. -/
def Cyc (st : State T) : List Nat → Prop
  | [] => True
  | a :: l => Linked st a (l ++ [a])

instance (st : State T) (c : List Nat) : Decidable (Cyc st c) :=
  match c with
  | [] => isTrue trivial
  | a :: l => inferInstanceAs (Decidable (Linked st a (l ++ [a])))

/-- The list object `l` is a ring through its sentinel and the data nodes `ns`
(in forward order), all of them distinct, handed out by the allocator, and
`_M_size` counts the data nodes. -/
def IsList (st : State T) (l : Nat) (ns : List Nat) : Prop :=
  Cyc st (st.sentinel l :: ns) ∧ (st.sentinel l :: ns).Nodup ∧
    (∀ n ∈ st.sentinel l :: ns, n < st.brk) ∧ st.msize l = ns.length

instance (st : State T) (l : Nat) (ns : List Nat) : Decidable (IsList st l ns) :=
  inferInstanceAs (Decidable (Cyc st (st.sentinel l :: ns) ∧ (st.sentinel l :: ns).Nodup ∧
    (∀ n ∈ st.sentinel l :: ns, n < st.brk) ∧ st.msize l = ns.length))

/-- The payloads of the nodes `ns`, in order. -/
def elems (st : State T) (ns : List Nat) : List T := ns.map st.data

/-- The iterator `pos` at index `p` of a list with sentinel `s` and data nodes
`ns`: the node `ns[p]`, or the sentinel (`end()`) for `p = size`. -/
def nodeAt (s : Nat) (ns : List Nat) (p : Nat) : Nat := (ns ++ [s]).getD p s

/-- A store with no list object constructed and every node unallocated. -/
def State.init (d : T) : State T :=
  { mem := fun _ => ⟨0, 0, d⟩, alive := fun _ => false, brk := 1, obj := fun _ => ⟨0, 0⟩ }

/-- The last node of the non-empty sequence `a :: l`. -/
def lastOf : Nat → List Nat → Nat
  | a, [] => a
  | _, b :: l => lastOf b l

/-- The state `st'` is `st` with the run from `r` to `e` unlinked from where it
was and linked in before `pos`, `k` nodes having gone from list `b` to list `a`;
the right-hand sides are pointers of `st`. -/
def Transfer (st st' : State T) (a b pos r e k : Nat) : Prop :=
  (∀ x, st'.next x = if x = e then pos else if x = st.prev pos then r
    else if x = st.prev r then st.next e else st.next x) ∧
  (∀ x, st'.prev x = if x = pos then e else if x = r then st.prev pos
    else if x = st.next e then st.prev r else st.prev x) ∧
  (∀ x, st'.data x = st.data x) ∧ (∀ c, st'.sentinel c = st.sentinel c) ∧
  (∀ c, st'.msize c = if c = a then (if a = b then size_sub (st.msize a) k + k else st.msize a + k)
    else if c = b then size_sub (st.msize b) k else st.msize c) ∧
  st'.brk = st.brk


/-- The state after one pass through the `if` branch of the loop of `merge`:
`otherCur` is unlinked, linked in before `thisCur`, and the sizes are adjusted. -/
def merge_move (st : State T) (this other thisCur otherCur : Nat) : State T :=
  let st := st.wnext (st.prev otherCur) (st.next otherCur)
  let st := st.wprev (st.next otherCur) (st.prev otherCur)
  let thisPrev := st.prev thisCur
  let st := st.wnext thisPrev otherCur
  let st := st.wprev otherCur thisPrev
  let st := st.wnext otherCur thisCur
  let st := st.wprev thisCur otherCur
  let st := st.wsize this (st.msize this + 1)
  let st := st.wsize other (size_sub (st.msize other) 1)
  st

/-- The state after the final `if` of `merge`: what is left of `other`, from
`otherCur` on, is appended to the list. -/
def merge_tail (st : State T) (this other otherCur : Nat) : State T :=
  let tail := st.prev (st.sentinel this)
  let st := st.wnext tail otherCur
  let st := st.wprev otherCur tail
  let st := st.wprev (st.sentinel this) (st.prev (st.sentinel other))
  let st := st.wnext (st.prev (st.sentinel other)) (st.sentinel this)
  let st := st.wsize this (st.msize this + st.msize other)
  let st := st.wsize other 0
  let st := st.wnext (st.sentinel other) (st.sentinel other)
  let st := st.wprev (st.sentinel other) (st.sentinel other)
  st

/-- The order in which `merge` leaves the nodes: the front node of the source
goes first exactly when its payload is less than that of the destination's. -/
def mergeNodes (lt : T → T → Bool) (data : Nat → T) : List Nat → List Nat → List Nat
  | [], os => os
  | t :: ts, [] => t :: ts
  | t :: ts, o :: os =>
    if lt (data o) (data t) then o :: mergeNodes lt data (t :: ts) os
    else t :: mergeNodes lt data ts (o :: os)
termination_by ts os => ts.length + os.length

/-- `list(std::initializer_list<T> ilist)`: `list()`, then `push_back` of each
element. -/
def list_ctor_ilist (st : State T) (this : Nat) (ilist : List T) : State T :=
  ilist.foldl (fun s x => push_back s this x) (list_ctor st this)

/-- A store with the two lists `A = {1, 2, 3}` (object 0) and `B = {4, 5}`
(object 1). -/
def demoSplice : State Nat :=
  list_ctor_ilist (list_ctor_ilist (State.init 0) 0 [1, 2, 3]) 1 [4, 5]

/-- A store with the two lists `{2, 4, 6}` (object 0) and `{1, 3, 5}`
(object 1). -/
def demoMerge : State Nat :=
  list_ctor_ilist (list_ctor_ilist (State.init 0) 0 [2, 4, 6]) 1 [1, 3, 5]

/-- The state `st'` differs from `st` at most in the links of the nodes `S`
and in the sizes of the lists `a` and `b`. -/
def Keeps (st st' : State T) (S : List Nat) (a b : Nat) : Prop :=
  (∀ x, x ∉ S → st'.next x = st.next x ∧ st'.prev x = st.prev x) ∧
  (∀ x, st'.data x = st.data x) ∧ (∀ c, st'.sentinel c = st.sentinel c) ∧
  (∀ c, c ≠ a → c ≠ b → st'.msize c = st.msize c) ∧ st'.brk = st.brk


/-! ## Sequences of operations -/

/-- The operations on list objects: the list objects are named by identity and
the positions by index (`size` standing for `end()`). -/
inductive Op (T : Type) where
  | construct : Op T
  | push_back (l : Nat) (v : T) : Op T
  | push_front (l : Nat) (v : T) : Op T
  | pop_back (l : Nat) : Op T
  | pop_front (l : Nat) : Op T
  | insert (l p : Nat) (v : T) : Op T
  | emplace (l p : Nat) (v : T) : Op T
  | clear (l : Nat) : Op T
  | splice (a p b : Nat) : Op T
  | splice_one (a p b k : Nat) : Op T
  | splice_range (a p b i j : Nat) : Op T
  | merge (a b : Nat) : Op T

/-- A store together with the number of list objects constructed in it (the
objects `0 .. count - 1`). -/
structure World (T : Type) where
  st : State T
  count : Nat

/-- The iterator `std::next(l.begin(), p)`. -/
def iterAt (st : State T) (l p : Nat) : Nat := (st.next)^[p] (list_begin st l)

/-- The operation names constructed lists, its positions belong to the stated
list, and the position of a range splice within one list is outside the range. -/
def Op.valid (w : World T) : Op T → Bool
  | .construct => true
  | .push_back l _ => decide (l < w.count)
  | .push_front l _ => decide (l < w.count)
  | .pop_back l => decide (l < w.count)
  | .pop_front l => decide (l < w.count)
  | .insert l p _ => decide (l < w.count ∧ p ≤ size w.st l)
  | .emplace l p _ => decide (l < w.count ∧ p ≤ size w.st l)
  | .clear l => decide (l < w.count)
  | .splice a p b => decide (a < w.count ∧ b < w.count ∧ p ≤ size w.st a)
  | .splice_one a p b k =>
    decide (a < w.count ∧ b < w.count ∧ p ≤ size w.st a ∧ k < size w.st b)
  | .splice_range a p b i j =>
    decide (a < w.count ∧ b < w.count ∧ p ≤ size w.st a ∧ i ≤ j ∧ j ≤ size w.st b ∧
      (a = b → p < i ∨ j ≤ p))
  | .merge a b => decide (a < w.count ∧ b < w.count)

/-- One operation; the loops are given as many passes as there are addresses
handed out. -/
def exec (lt : T → T → Bool) (w : World T) (op : Op T) : Option (World T) :=
  if op.valid w then
    match op with
    | .construct => some ⟨list_ctor w.st w.count, w.count + 1⟩
    | .push_back l v => some ⟨push_back w.st l v, w.count⟩
    | .push_front l v => some ⟨push_front w.st l v, w.count⟩
    | .pop_back l => some ⟨pop_back w.st l, w.count⟩
    | .pop_front l => some ⟨pop_front w.st l, w.count⟩
    | .insert l p v => some ⟨(insert w.st l (iterAt w.st l p) v).1, w.count⟩
    | .emplace l p v => some ⟨(emplace w.st l (iterAt w.st l p) v).1, w.count⟩
    | .clear l => (clear w.st.brk w.st l).map (fun s => ⟨s, w.count⟩)
    | .splice a p b => some ⟨splice w.st a (iterAt w.st a p) b, w.count⟩
    | .splice_one a p b k =>
      some ⟨splice_one w.st a (iterAt w.st a p) b (iterAt w.st b k), w.count⟩
    | .splice_range a p b i j =>
      (splice_range w.st.brk w.st a (iterAt w.st a p) b (iterAt w.st b i)
        (iterAt w.st b j)).map (fun s => ⟨s, w.count⟩)
    | .merge a b => (merge lt w.st.brk w.st a b).map (fun s => ⟨s, w.count⟩)
  else none

/-- A sequence of operations, from left to right. -/
def run (lt : T → T → Bool) : World T → List (Op T) → Option (World T)
  | w, [] => some w
  | w, op :: ops =>
    match exec lt w op with
    | none => none
    | some w' => run lt w' ops

/-- The lists of the world are rings through the data nodes `R l`, pairwise
disjoint. -/
def Inv (w : World T) (R : Nat → List Nat) : Prop :=
  (∀ l, l < w.count → IsList w.st l (R l)) ∧
  (∀ l₁ l₂, l₁ < w.count → l₂ < w.count → l₁ ≠ l₂ →
    ∀ x ∈ w.st.sentinel l₁ :: R l₁, x ∉ w.st.sentinel l₂ :: R l₂)

/-- Ring consistency of list `l`: every node reached from the sentinel has
`n.next.prev == n` and `n.prev.next == n`, and the walk from the sentinel, in
either direction, is back at the sentinel after `size() + 1` steps and not
before. -/
def RingOK (st : State T) (l : Nat) : Prop :=
  (∀ k, st.prev (st.next ((st.next)^[k] (st.sentinel l))) = (st.next)^[k] (st.sentinel l) ∧
    st.next (st.prev ((st.next)^[k] (st.sentinel l))) = (st.next)^[k] (st.sentinel l)) ∧
  (st.next)^[size st l + 1] (st.sentinel l) = st.sentinel l ∧
  (∀ k, 0 < k → k ≤ size st l → (st.next)^[k] (st.sentinel l) ≠ st.sentinel l) ∧
  (st.prev)^[size st l + 1] (st.sentinel l) = st.sentinel l ∧
  (∀ k, 0 < k → k ≤ size st l → (st.prev)^[k] (st.sentinel l) ≠ st.sentinel l)

/-- The world in which nothing has been constructed. -/
def World.init (d : T) : World T := ⟨State.init d, 0⟩


/-- A sequence of operations on two lists that uses every operation. -/
def demoOps : List (Op Nat) :=
  [.construct, .construct, .push_back 0 1, .push_back 0 3, .push_front 0 0, .insert 0 2 2,
    .emplace 1 0 7, .push_back 1 9, .push_back 1 8, .pop_back 1, .splice_one 0 1 1 0,
    .splice_range 1 0 0 1 3, .splice_range 0 0 0 1 2, .splice_one 0 0 0 1, .merge 1 0,
    .splice 0 0 1, .pop_front 0, .push_back 1 4, .clear 1]

/-- The world after `demoOps`. -/
def demoWorld : World Nat :=
  (run (fun x y => decide (x < y)) (World.init 0) demoOps).getD (World.init 0)


/-! ## Linked sequence: the sequence read off a ring -/

/-- The payloads read forward from `cur` until the node `stop` is reached, at
most `fuel` of them. -/
def walk (st : State T) (stop : Nat) : Nat → Nat → List T
  | 0, _ => []
  | fuel + 1, cur => if cur = stop then [] else st.data cur :: walk st stop fuel (st.next cur)

/-- The abstraction of list `l`: the payloads of the data nodes from `begin()`
to `end()`, read through the `next` links (no ring has more nodes than there
are addresses handed out). -/
def toSeq (st : State T) (l : Nat) : List T := walk st (list_end st l) st.brk (list_begin st l)

/-- Specification of `push_back` on a double-ended sequence: `xs ++ [v]`. -/
def spec_push_back (xs : List T) (v : T) : List T := xs ++ [v]

/-- Specification of `push_front` on a double-ended sequence: `[v] ++ xs`. -/
def spec_push_front (xs : List T) (v : T) : List T := [v] ++ xs

/-- Specification of `pop_back`: the sequence without its last element. -/
def spec_pop_back (xs : List T) : List T := xs.dropLast

/-- Specification of `pop_front`: the sequence without its first element. -/
def spec_pop_front (xs : List T) : List T := xs.tail

/-- Specification of `front()`: the first element. -/
def spec_front (xs : List T) : Option T := xs.head?

/-- Specification of `back()`: the last element. -/
def spec_back (xs : List T) : Option T := xs.getLast?

/-- Specification of `clear()`: the empty sequence. -/
def spec_clear (_xs : List T) : List T := []

/-- Specification of `size()`: the length of the sequence. -/
def spec_size (xs : List T) : Nat := xs.length

/-- The empty list `{}` as object 0. -/
def demoEmpty : State Nat := list_ctor (State.init 0) 0

/-- The one-element list `{1}` as object 0. -/
def demoOne : State Nat := push_back demoEmpty 0 1

/-! ## Contiguous sequence: data model

Element storage is a store of slots addressed by integers (addresses count
elements, `0` is `nullptr`); a slot holds `none` while it is raw storage and
`some x` once an element has been constructed in it.  Elements are values that
a move leaves in place (as for `int`, the element type of the tests).  The
parameter `value` of the `insert` overloads (`const T&`, `T&&`) is an `Arg`: a
reference to an object outside the slot store or to a slot of the store, read
where the source reads it.  The argument of `push_back` is an object outside
the slot store and is passed as its value.  The allocator hands out fresh
blocks and a block given back is not tracked any further. -/

/-- The slot store and the allocator's next free address. -/
structure VMem (T : Type) where
  cell : Int → Option T
  brk : Int

/-- The data members of a `vector` object: the pointers `_start`, `_end` and
`_cap`. -/
structure vector where
  _start : Int
  _end : Int
  _cap : Int
deriving DecidableEq, Repr

/-- The value of type `size_type` of a pointer difference. -/
def to_size (d : Int) : Nat := (d % (SIZE_MOD : Int)).toNat

namespace VMem

/-- A store in which nothing is allocated. -/
def init : VMem T := { cell := fun _ => none, brk := 1 }

/-- The slot `p` becomes `ov`: an assignment `*p = ...`, a `construct(p, ...)`
(`some`), or a `destroy(p)` (`none`). -/
def write (m : VMem T) (p : Int) (ov : Option T) : VMem T :=
  { m with cell := fun x => if x = p then ov else m.cell x }

/-- `_alloc.allocate(n)`: a fresh block of `n` slots. -/
def allocate (m : VMem T) (n : Nat) : VMem T × Int :=
  ({ m with brk := m.brk + n }, m.brk)

end VMem

/-- What a parameter `const T& value` or `T&& value` is bound to: an object
outside the slot store (a local, a temporary), which no statement of the vector
writes, or the object in the slot `p` of the store (such as `v[i]`). -/
inductive Arg (T : Type) where
  | obj (x : T) : Arg T
  | slot (p : Int) : Arg T

/-- What reading through the reference yields as the store stands: the object
outside the store, or the content of the slot (`none` if the slot holds no
object any more). -/
def Arg.read (m : VMem T) : Arg T → Option T
  | .obj x => some x
  | .slot p => m.cell p

namespace vector

/-- `vector()`: all three pointers null. -/
def null : vector := ⟨0, 0, 0⟩

/-- `size()`. -/
def size (v : vector) : Nat := to_size (v._end - v._start)

/-- `capacity()`. -/
def capacity (v : vector) : Nat := to_size (v._cap - v._start)

/-- `empty()`. -/
def empty (v : vector) : Bool := v._start == v._end

/-- The loop of `reserve`,
`for (p = _start; p != _end; ++p, ++new_end) { construct(new_end, move(*p)); destroy(p); }`. -/
def reserve_loop (_end : Int) : Nat → VMem T → Int → Int → Option (VMem T × Int)
  | 0, _, _, _ => none
  | fuel + 1, m, p, new_end =>
    if p ≠ _end then
      let m := m.write new_end (m.cell p)
      let m := m.write p none
      reserve_loop _end fuel m (p + 1) (new_end + 1)
    else some (m, new_end)

/-- `reserve(new_cap)`; the `deallocate` of the old block has no effect on the
store, whose slots `[_start, _end)` the loop has emptied. -/
def reserve (fuel : Nat) (m : VMem T) (v : vector) (new_cap : Nat) : Option (VMem T × vector) :=
  if new_cap ≤ v.capacity then some (m, v)
  else
    let r := m.allocate new_cap
    let new_start := r.2
    match reserve_loop v._end fuel r.1 v._start new_start with
    | none => none
    | some (m, new_end) => some (m, ⟨new_start, new_end, new_start + new_cap⟩)

/-- The growth step shared by `push_back` and the single-element `insert`,
`if (_end == _cap) reserve(capacity() == 0 ? 1 : capacity() * 2)`. -/
def grow (fuel : Nat) (m : VMem T) (v : vector) : Option (VMem T × vector) :=
  if v._end = v._cap then
    reserve fuel m v (if v.capacity = 0 then 1 else (v.capacity * 2) % SIZE_MOD)
  else some (m, v)

/-- `push_back(T&& value)`. -/
def push_back (fuel : Nat) (m : VMem T) (v : vector) (value : T) : Option (VMem T × vector) :=
  match grow fuel m v with
  | none => none
  | some (m, v) =>
    let m := m.write v._end (some value)
    some (m, { v with _end := v._end + 1 })

/-- `push_back(const T& value)`: the element is constructed at `_end`, and
`_end` is left where it is. -/
def push_back_const (fuel : Nat) (m : VMem T) (v : vector) (value : T) :
    Option (VMem T × vector) :=
  match grow fuel m v with
  | none => none
  | some (m, v) =>
    let m := m.write v._end (some value)
    some (m, v)

/-- `std::move_backward(first, last, d_last)` on pointers: `last - first`
assignments `*--d_last = move(*--last)`. -/
def move_backward_loop : Nat → VMem T → Int → Int → VMem T
  | 0, m, _, _ => m
  | n + 1, m, last, d_last =>
    move_backward_loop n (m.write (d_last - 1) (m.cell (last - 1))) (last - 1) (d_last - 1)

/-- `std::move_backward(first, last, d_last)`. -/
def move_backward (m : VMem T) (first last d_last : Int) : VMem T :=
  move_backward_loop (last - first).toNat m last d_last

/-- `std::move(first, last, d_first)` and `std::copy(first, last, d_first)` on
pointers: `last - first` assignments `*d_first++ = *first++`. -/
def copy_loop : Nat → VMem T → Int → Int → VMem T
  | 0, m, _, _ => m
  | n + 1, m, first, d_first =>
    copy_loop n (m.write d_first (m.cell first)) (first + 1) (d_first + 1)

/-- `std::move(first, last, d_first)`; a range whose `last` lies before
`first` is taken as empty. -/
def move (m : VMem T) (first last d_first : Int) : VMem T :=
  copy_loop (last - first).toNat m first d_first

/-- `std::copy(first, last, d_first)`. -/
def copy (m : VMem T) (first last d_first : Int) : VMem T :=
  copy_loop (last - first).toNat m first d_first

/-- The slots that `std::move_backward(first, last, d_last)` assigns to while
they hold no object: the targets `--d_last` that are raw storage when the
assignment `*--d_last = move(*--last)` is made. -/
def raw_targets_loop : Nat → VMem T → Int → Int → List Int
  | 0, _, _, _ => []
  | n + 1, m, last, d_last =>
    (if (m.cell (d_last - 1)).isNone then [d_last - 1] else []) ++
      raw_targets_loop n (m.write (d_last - 1) (m.cell (last - 1))) (last - 1) (d_last - 1)

/-- The raw slots assigned to by `std::move_backward(first, last, d_last)`. -/
def raw_targets (m : VMem T) (first last d_last : Int) : List Int :=
  raw_targets_loop (last - first).toNat m last d_last

/-- `insert(const_iterator pos, const T& value)`; returns the iterator too.
The reference `value` is read by `construct`, after `reserve` and
`std::move_backward`. -/
def insert (fuel : Nat) (m : VMem T) (v : vector) (pos : Int) (value : Arg T) :
    Option (VMem T × vector × Int) :=
  let idx := to_size (pos - v._start)
  match grow fuel m v with
  | none => none
  | some (m, v) =>
    let m := move_backward m (v._start + idx) v._end (v._end + 1)
    let m := m.write (v._start + idx) (value.read m)
    some (m, { v with _end := v._end + 1 }, v._start + idx)

/-- `insert(const_iterator pos, T&& value)`: the same statements, the element
being move-constructed from `value`, which is read at that point. -/
def insert_move (fuel : Nat) (m : VMem T) (v : vector) (pos : Int) (value : Arg T) :
    Option (VMem T × vector × Int) :=
  let idx := to_size (pos - v._start)
  match grow fuel m v with
  | none => none
  | some (m, v) =>
    let m := move_backward m (v._start + idx) v._end (v._end + 1)
    let m := m.write (v._start + idx) (value.read m)
    some (m, { v with _end := v._end + 1 }, v._start + idx)

/-- The loop `for (i = 0; i < count; ++i) construct(_start + idx + i, value)`,
with `p` for `_start + idx + i`; the reference `value` is read in every pass. -/
def construct_loop : Nat → VMem T → Int → Arg T → VMem T
  | 0, m, _, _ => m
  | n + 1, m, p, value => construct_loop n (m.write p (value.read m)) (p + 1) value

/-- The growth step of the multi-element inserts,
`if (size() + n > capacity()) reserve(std::max(capacity() * 2, size() + n))`. -/
def grow_by (fuel : Nat) (m : VMem T) (v : vector) (n : Nat) : Option (VMem T × vector) :=
  if (v.size + n) % SIZE_MOD > v.capacity then
    reserve fuel m v (max ((v.capacity * 2) % SIZE_MOD) ((v.size + n) % SIZE_MOD))
  else some (m, v)

/-- `insert(const_iterator pos, size_type count, const T& value)`. -/
def insert_n (fuel : Nat) (m : VMem T) (v : vector) (pos : Int) (count : Nat) (value : Arg T) :
    Option (VMem T × vector × Int) :=
  let idx := to_size (pos - v._start)
  match grow_by fuel m v count with
  | none => none
  | some (m, v) =>
    let m := move_backward m (v._start + idx) v._end (v._end + count)
    let m := construct_loop count m (v._start + idx) value
    some (m, { v with _end := v._end + count }, v._start + idx)

/-- `insert(const_iterator pos, InputIt first, InputIt last)` for a range of
slots `[first, last)`. -/
def insert_range (fuel : Nat) (m : VMem T) (v : vector) (pos first last : Int) :
    Option (VMem T × vector × Int) :=
  let n := to_size (last - first)
  if n = 0 then some (m, v, v._start + (pos - v._start))
  else
    let idx := to_size (pos - v._start)
    match grow_by fuel m v n with
    | none => none
    | some (m, v) =>
      let insert_ptr := v._start + idx
      let m := move_backward m insert_ptr v._end (v._end + n)
      let m := copy m first last insert_ptr
      some (m, { v with _end := v._end + n }, insert_ptr)

/-- `insert(const_iterator pos, std::initializer_list<T> ilist)`, the list
being the slots `[first, last)`. -/
def insert_ilist (fuel : Nat) (m : VMem T) (v : vector) (pos first last : Int) :
    Option (VMem T × vector × Int) :=
  insert_range fuel m v pos first last

/-- `erase(const_iterator pos)`. -/
def erase (m : VMem T) (v : vector) (pos : Int) : VMem T × vector × Int :=
  let n := pos - v._start
  let m := move m (v._start + n + 1) v._end (v._start + n)
  let v := { v with _end := v._end - 1 }
  let m := m.write v._end none
  (m, v, v._start + n)

/-- The loop of the range `erase`,
`for (p = new_end; p != _end; ++p) destroy(p)`. -/
def destroy_loop (_end : Int) : Nat → VMem T → Int → Option (VMem T)
  | 0, _, _ => none
  | fuel + 1, m, p =>
    if p ≠ _end then destroy_loop _end fuel (m.write p none) (p + 1)
    else some m

/-- `erase(const_iterator first, const_iterator last)`. -/
def erase_range (fuel : Nat) (m : VMem T) (v : vector) (first last : Int) :
    Option (VMem T × vector × Int) :=
  if first = last then some (m, v, v._start + (first - v._start))
  else
    let start := first - v._start
    let count := last - first
    let m := move m (v._start + start + count) v._end (v._start + start)
    let new_end := v._end - count
    match destroy_loop v._end fuel m new_end with
    | none => none
    | some m => some (m, { v with _end := new_end }, v._start + start)

/-- The vector `v` holds the elements `xs`: its pointers are ordered within a
block handed out by the allocator, and the slots `[_start, _end)` hold `xs`. -/
def Holds (m : VMem T) (v : vector) (xs : List T) : Prop :=
  v._start ≤ v._end ∧ v._end ≤ v._cap ∧ v._cap ≤ m.brk ∧
    v._cap - v._start < (SIZE_MOD : Int) ∧ v._end - v._start = (xs.length : Int) ∧
    ∀ i : Nat, i < xs.length → m.cell (v._start + i) = xs.get? i

instance [DecidableEq T] (m : VMem T) (v : vector) (xs : List T) : Decidable (Holds m v xs) :=
  inferInstanceAs (Decidable (v._start ≤ v._end ∧ v._end ≤ v._cap ∧ v._cap ≤ m.brk ∧
    v._cap - v._start < (SIZE_MOD : Int) ∧ v._end - v._start = (xs.length : Int) ∧
    ∀ i : Nat, i < xs.length → m.cell (v._start + i) = xs.get? i))

/-- The slots an operation may not touch: those handed out before it that lie
outside the block of `v`; they are also outside the block of `v1`. -/
def Frame (m : VMem T) (v : vector) (m1 : VMem T) (v1 : vector) : Prop :=
  ∀ x, x < m.brk → (x < v._start ∨ v._cap ≤ x) →
    m1.cell x = m.cell x ∧ (x < v1._start ∨ v1._cap ≤ x)

/-- The elements read off the slots `[_start, _start + size())`. -/
def toList (m : VMem T) (v : vector) : List (Option T) :=
  (List.range v.size).map (fun i => m.cell (v._start + (i : Int)))

end vector

/-- The vector `{1, 2, 3}` built by three `push_back(T&&)`. -/
def demoVec : Option (VMem Nat × vector) :=
  ((vector.push_back 4 VMem.init vector.null 1).bind
    (fun r => vector.push_back 4 r.1 r.2 2)).bind (fun r => vector.push_back 4 r.1 r.2 3)


/-- The store of `demoVec`. -/
def demoMem : VMem Nat := (demoVec.getD (VMem.init, vector.null)).1

/-- The vector object of `demoVec`. -/
def demoV : vector := (demoVec.getD (VMem.init, vector.null)).2

/-- A second vector `{7, 8}` built next to `demoVec` in the same store. -/
def demoPair : Option (VMem Nat × vector) :=
  (vector.push_back 4 demoMem vector.null 7).bind (fun r => vector.push_back 4 r.1 r.2 8)

/-- The store holding both `demoV` and `demoW`. -/
def demoMem2 : VMem Nat := (demoPair.getD (VMem.init, vector.null)).1

/-- The second vector object, `{7, 8}`. -/
def demoW : vector := (demoPair.getD (VMem.init, vector.null)).2

/-! ## Contiguous sequence: further member functions -/

namespace vector

/-- `pop_back()`. -/
def pop_back (m : VMem T) (v : vector) : VMem T × vector :=
  if !v.empty then
    let v := { v with _end := v._end - 1 }
    (m.write v._end none, v)
  else (m, v)

/-- `clear()`: the loop `while (_start != _end) { --_end; destroy(_end); }`. -/
def clear : Nat → VMem T → vector → Option (VMem T × vector)
  | 0, _, _ => none
  | fuel + 1, m, v =>
    if v._start ≠ v._end then
      let v := { v with _end := v._end - 1 }
      clear fuel (m.write v._end none) v
    else some (m, v)

/-- `operator[](index)`: the slot `_start[index]`, unchecked. -/
def index (m : VMem T) (v : vector) (i : Nat) : Option T := m.cell (v._start + i)

/-- `at(index)`: the exception `std::out_of_range("vector")` or the slot
`_start[index]`; the call is returned with the store and the object, which it
does not write. -/
def at_ (m : VMem T) (v : vector) (i : Nat) : Except String (Option T) × VMem T × vector :=
  (if i ≥ v.size then .error "vector" else .ok (m.cell (v._start + i)), m, v)

/-- The loop of `operator==`,
`for (i = 0; i < size(); ++i) if (_start[i] != other._start[i]) return false;`
followed by `return true`. -/
def eq_loop [DecidableEq T] (m : VMem T) (a b : vector) : Nat → Nat → Option Bool
  | 0, _ => none
  | fuel + 1, i =>
    if i < a.size then
      if m.cell (a._start + i) ≠ m.cell (b._start + i) then some false
      else eq_loop m a b fuel (i + 1)
    else some true

/-- `operator==(other)`. -/
def eq [DecidableEq T] (fuel : Nat) (m : VMem T) (a b : vector) : Option Bool :=
  if a.size ≠ b.size then some false else eq_loop m a b fuel 0

/-- `operator!=(other)`: `!(*this == other)`. -/
def ne [DecidableEq T] (fuel : Nat) (m : VMem T) (a b : vector) : Option Bool :=
  (eq fuel m a b).map (fun r => !r)

/-- The loop `for (auto& val : init) { construct(_end, val); ++_end; }`. -/
def construct_list : List T → VMem T → vector → VMem T × vector
  | [], m, v => (m, v)
  | val :: rest, m, v =>
    construct_list rest (m.write v._end (some val)) { v with _end := v._end + 1 }

/-- `vector(std::initializer_list<T> init)`. -/
def ctor_ilist (fuel : Nat) (m : VMem T) (init : List T) : Option (VMem T × vector) :=
  match reserve fuel m null init.length with
  | none => none
  | some (m, v) => some (construct_list init m v)

/-- The loop of the copy constructor and of the copy assignment,
`for (p = other._start; p != other._end; ++p) { construct(_end, *p); ++_end; }`. -/
def copy_from_loop (other_end : Int) : Nat → VMem T → vector → Int → Option (VMem T × vector)
  | 0, _, _, _ => none
  | fuel + 1, m, v, p =>
    if p ≠ other_end then
      copy_from_loop other_end fuel (m.write v._end (m.cell p)) { v with _end := v._end + 1 }
        (p + 1)
    else some (m, v)

/-- The array behind a `std::initializer_list`: the slots from `p` on are
filled with the elements. -/
def fill : VMem T → Int → List T → VMem T
  | m, _, [] => m
  | m, p, x :: xs => fill (m.write p (some x)) (p + 1) xs

/-- A store with the vector objects in it, addressed by identity (so that
`this != &other` can be tested), and the number of objects constructed. -/
structure World (T : Type) where
  mem : VMem T
  obj : Nat → vector
  count : Nat

/-- The store becomes `m` and the object `l` becomes `v`. -/
def World.set (w : World T) (l : Nat) (m : VMem T) (v : vector) : World T :=
  { w with mem := m, obj := fun x => if x = l then v else w.obj x }

/-- `vector(const vector& other)`, constructing the object `this`. -/
def copy_ctor (fuel : Nat) (w : World T) (this other : Nat) : Option (World T) :=
  match reserve fuel w.mem null (w.obj other).size with
  | none => none
  | some (m, v) =>
    match copy_from_loop (w.obj other)._end fuel m v (w.obj other)._start with
    | none => none
    | some (m, v) => some (w.set this m v)

/-- `vector(vector&& other)`, constructing the object `this`. -/
def move_ctor (w : World T) (this other : Nat) : World T :=
  let w := w.set this w.mem (w.obj other)
  w.set other w.mem null

/-- `operator=(const vector& other)`. -/
def copy_assign (fuel : Nat) (w : World T) (this other : Nat) : Option (World T) :=
  if this ≠ other then
    match clear fuel w.mem (w.obj this) with
    | none => none
    | some (m, v) =>
      match reserve fuel m v (w.obj other).size with
      | none => none
      | some (m, v) =>
        match copy_from_loop (w.obj other)._end fuel m v (w.obj other)._start with
        | none => none
        | some (m, v) => some (w.set this m v)
  else some w

/-- `operator=(vector&& other)`; the `deallocate` of the cleared block has no
effect on the store. -/
def move_assign (fuel : Nat) (w : World T) (this other : Nat) : Option (World T) :=
  if this ≠ other then
    match clear fuel w.mem (w.obj this) with
    | none => none
    | some (m, _) =>
      let w := w.set this m (w.obj other)
      some (w.set other w.mem null)
  else some w

end vector

/-! ## Growable buffer: data model -/

/-- The data members of a `basic_string` object: the pointer `_data` and the
counters `_size` and `_cap`. -/
structure basic_string where
  _data : Int
  _size : Nat
  _cap : Nat
deriving DecidableEq, Repr

namespace basic_string

variable {C : Type}

/-- `size()`. -/
def size (s : basic_string) : Nat := s._size

/-- `capacity()`. -/
def capacity (s : basic_string) : Nat := s._cap

/-- `operator[](pos)`: the slot `_data[pos]`, unchecked. -/
def index (m : VMem C) (s : basic_string) (pos : Nat) : Option C := m.cell (s._data + pos)

/-- `at(pos)`, both overloads: the exception `std::out_of_range` or the slot
`_data[pos]`; the call is returned with the store and the object, which it
does not write. -/
def at_ (m : VMem C) (s : basic_string) (pos : Nat) :
    Except String (Option C) × VMem C × basic_string :=
  (if pos ≥ s._size then .error "basic_string::at: index out of range"
    else .ok (m.cell (s._data + pos)), m, s)

/-- The buffer `s` holds the characters `cs` in the slots `[_data, _data + _size)`. -/
def Chars (m : VMem C) (s : basic_string) (cs : List C) : Prop :=
  s._size = cs.length ∧ ∀ i : Nat, i < cs.length → m.cell (s._data + i) = cs.get? i

instance [DecidableEq C] (m : VMem C) (s : basic_string) (cs : List C) :
    Decidable (Chars m s cs) :=
  inferInstanceAs (Decidable (s._size = cs.length ∧
    ∀ i : Nat, i < cs.length → m.cell (s._data + i) = cs.get? i))

end basic_string

/-- The vector `{1, 2, 3}` emptied by `clear()`: size 0, capacity 4. -/
def demoCleared : VMem Nat × vector := (vector.clear 4 demoMem demoV).getD (demoMem, demoV)

/-- The vector `{1, 2, 3}` built from an initializer list next to `demoV`:
capacity 3. -/
def demoIlist : VMem Nat × vector :=
  (vector.ctor_ilist 1 demoMem [1, 2, 3]).getD (demoMem, vector.null)

/-- A store holding the characters `h`, `i` and the terminator from address 1. -/
def demoStrMem : VMem Nat :=
  (((VMem.init : VMem Nat).write 1 (some 104)).write 2 (some 105)).write 3 (some 0)

/-- The buffer `"hi"` in `demoStrMem`, with capacity 2. -/
def demoStr : basic_string := ⟨1, 2, 2⟩

/-! ## Contiguous sequence: sequences of operations -/

namespace vector

/-- The operations on vector objects: the objects are named by identity, the
positions by index (`begin() + idx`), the value inserted is an object outside
the slot store, the source of a range insert is the range
`[begin() + i, begin() + j)` of another vector, and an initializer list is given
by its elements. -/
inductive Op (T : Type) where
  | construct : Op T
  | construct_ilist (init : List T) : Op T
  | copy_construct (other : Nat) : Op T
  | move_construct (other : Nat) : Op T
  | push_back (l : Nat) (value : T) : Op T
  | push_back_const (l : Nat) (value : T) : Op T
  | pop_back (l : Nat) : Op T
  | reserve (l n : Nat) : Op T
  | clear (l : Nat) : Op T
  | insert (l idx : Nat) (value : T) : Op T
  | insert_move (l idx : Nat) (value : T) : Op T
  | insert_n (l idx count : Nat) (value : T) : Op T
  | insert_range (l idx src i j : Nat) : Op T
  | insert_ilist (l idx : Nat) (init : List T) : Op T
  | erase (l idx : Nat) : Op T
  | erase_range (l i j : Nat) : Op T
  | copy_assign (l other : Nat) : Op T
  | move_assign (l other : Nat) : Op T

/-- The operation names constructed vectors, its positions lie in the stated
vector (an index in `[0, size]` for an insert, in `[0, size)` for the
single-position erase, a range within `[0, size]`), the source of a range
insert is another vector, and the capacity requested is representable in
`size_type`. -/
def Op.valid (w : World T) : Op T → Bool
  | .construct => true
  | .construct_ilist init => decide (init.length < SIZE_MOD)
  | .copy_construct other => decide (other < w.count)
  | .move_construct other => decide (other < w.count)
  | .push_back l _ => decide (l < w.count ∧ 2 * (w.obj l).capacity < SIZE_MOD)
  | .push_back_const l _ => decide (l < w.count ∧ 2 * (w.obj l).capacity < SIZE_MOD)
  | .pop_back l => decide (l < w.count)
  | .reserve l n => decide (l < w.count ∧ n < SIZE_MOD)
  | .clear l => decide (l < w.count)
  | .insert l idx _ =>
    decide (l < w.count ∧ idx ≤ (w.obj l).size ∧ 2 * (w.obj l).capacity < SIZE_MOD)
  | .insert_move l idx _ =>
    decide (l < w.count ∧ idx ≤ (w.obj l).size ∧ 2 * (w.obj l).capacity < SIZE_MOD)
  | .insert_n l idx count _ =>
    decide (l < w.count ∧ idx ≤ (w.obj l).size ∧ (w.obj l).size + count < SIZE_MOD)
  | .insert_range l idx src i j =>
    decide (l < w.count ∧ src < w.count ∧ l ≠ src ∧ idx ≤ (w.obj l).size ∧ i ≤ j ∧
      j ≤ (w.obj src).size ∧ (w.obj l).size + (j - i) < SIZE_MOD)
  | .insert_ilist l idx init =>
    decide (l < w.count ∧ idx ≤ (w.obj l).size ∧ (w.obj l).size + init.length < SIZE_MOD)
  | .erase l idx => decide (l < w.count ∧ idx < (w.obj l).size)
  | .erase_range l i j => decide (l < w.count ∧ i ≤ j ∧ j ≤ (w.obj l).size)
  | .copy_assign l other => decide (l < w.count ∧ other < w.count)
  | .move_assign l other => decide (l < w.count ∧ other < w.count)

/-- One operation; a constructor makes the object `count`, and the loops are
given `2^64` passes, more than any `size_type` counts. -/
def exec (w : World T) (op : Op T) : Option (World T) :=
  if op.valid w then
    match op with
    | .construct => some { w.set w.count w.mem null with count := w.count + 1 }
    | .construct_ilist init =>
      (ctor_ilist SIZE_MOD w.mem init).map
        (fun r => { w.set w.count r.1 r.2 with count := w.count + 1 })
    | .copy_construct other =>
      (copy_ctor SIZE_MOD w w.count other).map (fun w' => { w' with count := w.count + 1 })
    | .move_construct other => some { move_ctor w w.count other with count := w.count + 1 }
    | .push_back l value =>
      (vector.push_back SIZE_MOD w.mem (w.obj l) value).map (fun r => w.set l r.1 r.2)
    | .push_back_const l value =>
      (push_back_const SIZE_MOD w.mem (w.obj l) value).map (fun r => w.set l r.1 r.2)
    | .pop_back l => some (w.set l (vector.pop_back w.mem (w.obj l)).1 (vector.pop_back w.mem (w.obj l)).2)
    | .reserve l n => (reserve SIZE_MOD w.mem (w.obj l) n).map (fun r => w.set l r.1 r.2)
    | .clear l => (vector.clear SIZE_MOD w.mem (w.obj l)).map (fun r => w.set l r.1 r.2)
    | .insert l idx value =>
      (vector.insert SIZE_MOD w.mem (w.obj l) ((w.obj l)._start + idx) (.obj value)).map
        (fun r => w.set l r.1 r.2.1)
    | .insert_move l idx value =>
      (insert_move SIZE_MOD w.mem (w.obj l) ((w.obj l)._start + idx) (.obj value)).map
        (fun r => w.set l r.1 r.2.1)
    | .insert_n l idx count value =>
      (insert_n SIZE_MOD w.mem (w.obj l) ((w.obj l)._start + idx) count (.obj value)).map
        (fun r => w.set l r.1 r.2.1)
    | .insert_range l idx src i j =>
      (insert_range SIZE_MOD w.mem (w.obj l) ((w.obj l)._start + idx)
        ((w.obj src)._start + i) ((w.obj src)._start + j)).map (fun r => w.set l r.1 r.2.1)
    | .insert_ilist l idx init =>
      let r := w.mem.allocate init.length
      (insert_ilist SIZE_MOD (fill r.1 r.2 init) (w.obj l) ((w.obj l)._start + idx)
        r.2 (r.2 + init.length)).map (fun r => w.set l r.1 r.2.1)
    | .erase l idx =>
      some (w.set l (erase w.mem (w.obj l) ((w.obj l)._start + idx)).1
        (erase w.mem (w.obj l) ((w.obj l)._start + idx)).2.1)
    | .erase_range l i j =>
      (erase_range SIZE_MOD w.mem (w.obj l) ((w.obj l)._start + i)
        ((w.obj l)._start + j)).map (fun r => w.set l r.1 r.2.1)
    | .copy_assign l other => copy_assign SIZE_MOD w l other
    | .move_assign l other => move_assign SIZE_MOD w l other
  else none

/-- A sequence of operations, from left to right. -/
def run : World T → List (Op T) → Option (World T)
  | w, [] => some w
  | w, op :: ops =>
    match exec w op with
    | none => none
    | some w' => run w' ops

/-- The vectors of the world hold the elements `X l`, in blocks that have no
slot in common. -/
def Inv (w : World T) (X : Nat → List T) : Prop :=
  0 ≤ w.mem.brk ∧ (∀ l, l < w.count → Holds w.mem (w.obj l) (X l)) ∧
  (∀ l₁ l₂, l₁ < w.count → l₂ < w.count → l₁ ≠ l₂ →
    ∀ x, (w.obj l₁)._start ≤ x → x < (w.obj l₁)._cap →
      (x < (w.obj l₂)._start ∨ (w.obj l₂)._cap ≤ x))

/-- The world in which no vector has been constructed. -/
def World.init : World T := ⟨VMem.init, fun _ => null, 0⟩

end vector

/-- A sequence that uses every operation of `vector.Op` on four vectors. -/
def demoVecOps : List (vector.Op Nat) :=
  [.construct, .push_back 0 1, .push_back 0 2, .push_back 0 3, .construct_ilist [7, 8],
    .copy_construct 0, .insert 2 1 4, .insert_move 2 0 5, .insert_n 2 2 2 6,
    .insert_range 2 1 1 0 2, .insert_ilist 2 0 [9], .erase 2 3, .erase_range 2 1 3,
    .pop_back 2, .reserve 1 10, .push_back_const 1 5, .move_construct 1, .copy_assign 1 2,
    .move_assign 0 3, .clear 1]

/-- The world reached by `demoVecOps`. -/
def demoVecWorld : vector.World Nat :=
  (vector.run vector.World.init demoVecOps).getD vector.World.init

/-- A world with the two vectors `{1, 2}` (object 0) and `{7}` (object 1). -/
def demoTwo : vector.World Nat :=
  (vector.run vector.World.init
    [.construct, .push_back 0 1, .push_back 0 2, .construct, .push_back 1 7]).getD
    vector.World.init

/-- The elements of the vectors of `demoTwo`. -/
def demoTwoX : Nat → List Nat := fun c => if c = 0 then [1, 2] else if c = 1 then [7] else []

/-! ## Linked sequence: copy, move, swap -/

/-- The range-`for` of the copy constructor, `for (auto& x : other) push_back(x)`:
`cur` is the iterator, `stop` the iterator `other.end()` taken before the loop. -/
def copy_nodes (this stop : Nat) : Nat → State T → Nat → Option (State T)
  | 0, _, _ => none
  | fuel + 1, st, cur =>
    if cur ≠ stop then
      let st := push_back st this (st.data cur)
      copy_nodes this stop fuel st (st.next cur)
    else some st

/-- `list(const list& other)`: `list()`, then `push_back` of each element of
`other`. -/
def list_copy_ctor (fuel : Nat) (st : State T) (this other : Nat) : Option (State T) :=
  let st := list_ctor st this
  copy_nodes this (list_end st other) fuel st (list_begin st other)

/-- `list(list&& other)`: takes the sentinel and the size of `other` and gives
`other` a new self-linked sentinel and size 0. -/
def list_move_ctor (st : State T) (this other : Nat) : State T :=
  let st := st.wnode this (st.sentinel other)
  let st := st.wsize this (st.msize other)
  let r := _M_create_node st
  let st := r.1.wnode other r.2
  let st := st.wnext (st.sentinel other) (st.sentinel other)
  let st := st.wprev (st.sentinel other) (st.sentinel other)
  let st := st.wsize other 0
  st

/-- `swap(lhs, rhs)`: exchanges the sentinel pointers and the sizes. -/
def swap (st : State T) (lhs rhs : Nat) : State T :=
  let tmp := st.sentinel lhs
  let st := st.wnode lhs (st.sentinel rhs)
  let st := st.wnode rhs tmp
  let tmp := st.msize lhs
  let st := st.wsize lhs (st.msize rhs)
  let st := st.wsize rhs tmp
  st

/-- `~list()`: `clear()`, then `_M_destroy_node(_M_node)`. -/
def list_dtor (fuel : Nat) (st : State T) (this : Nat) : Option (State T) :=
  match clear fuel st this with
  | none => none
  | some st => some (_M_destroy_node st this (st.sentinel this))

/-- `operator=(list other)` called with an lvalue `arg`: the parameter is the
object `tmp`, copy-constructed from `arg`; the body swaps it with `*this`, and
the parameter is destroyed on return. -/
def assign (fuel : Nat) (st : State T) (this arg tmp : Nat) : Option (State T) :=
  match list_copy_ctor fuel st tmp arg with
  | none => none
  | some st => list_dtor fuel (swap st this tmp) tmp

/-! ## Growable buffer (`string_lt.h`): memory and construction

The characters live in the slot store of the contiguous sequence, extended by
the allocator's record of the blocks it has handed out.  Values of type
`size_t` are natural numbers and every `size_t` operation that can wrap is
taken modulo `SIZE_MOD`; pointers are integer addresses counting characters
(`0` is `nullptr`) and pointer arithmetic is plain addition.  A parameter
`const CharT*` is the address of a run of characters in the store, read up to
its terminator; a parameter `const basic_string&` is the data members of
another buffer object.  `CharT()` and `'\0'` are the character `0`. -/

/-- The constant `npos`, that is `size_t(-1)`. -/
def npos : Nat := SIZE_MOD - 1

/-- The character store: the slots, the allocator's next free address, and for
each address the number of slots of the block allocated there (`0` if none). -/
structure SMem (C : Type) extends VMem C where
  blk : Int → Nat

namespace SMem

variable {C : Type}

/-- A store in which nothing is allocated. -/
def init : SMem C := { cell := fun _ => none, brk := 1, blk := fun _ => 0 }

/-- The slot `p` takes the content `oc` of another slot: `*p = *q`. -/
def set (m : SMem C) (p : Int) (oc : Option C) : SMem C :=
  { m with cell := fun x => if x = p then oc else m.cell x }

/-- The assignment `*p = c`. -/
def write (m : SMem C) (p : Int) (c : C) : SMem C := m.set p (some c)

/-- `allocator_traits::allocate(_alloc, n)`: a fresh block of `n` slots. -/
def allocate (m : SMem C) (n : Nat) : SMem C × Int :=
  ({ m with brk := m.brk + n, blk := fun x => if x = m.brk then n else m.blk x }, m.brk)

/-- `allocator_traits::deallocate(_alloc, p, n)`: the block at `p` is given
back; its slots keep their content. -/
def deallocate (m : SMem C) (p : Int) : SMem C :=
  { m with blk := fun x => if x = p then 0 else m.blk x }

/-- `Traits::move(dest, src, n)` (`std::memmove`) and `Traits::copy(dest, src, n)`
(`std::memcpy`): the `n` slots from `src` are read, then written from `dest`
(for ranges that overlap, where `std::memcpy` is not defined, this is what
`std::memmove` does). -/
def move (m : SMem C) (dest src : Int) (n : Nat) : SMem C :=
  { m with cell := fun x => if dest ≤ x ∧ x < dest + n then m.cell (src + (x - dest))
      else m.cell x }

/-- The loop `while (!eq(s[len], CharT())) ++len` of `char_traits::length`, at
most `fuel` passes of it (so that `len` stays below `fuel`). -/
def length_loop [DecidableEq C] [Zero C] (m : SMem C) (s : Int) : Nat → Nat → Option Nat
  | 0, _ => none
  | fuel + 1, len =>
    if m.cell (s + len) = some 0 then some len else length_loop m s fuel (len + 1)

/-- `char_traits::length(s)`. -/
def length [DecidableEq C] [Zero C] (fuel : Nat) (m : SMem C) (s : Int) : Option Nat :=
  length_loop m s fuel 0

/-- A loop `for (i = from; i < to; i++) data[i] = c`, `n` passes of it. -/
def fill (data : Int) (c : C) : Nat → SMem C → Nat → SMem C
  | 0, m, _ => m
  | n + 1, m, i => fill data c n (m.write (data + i) c) (i + 1)

/-- A string literal: the characters `cs` and a terminator in a block of their
own. -/
def lit [Zero C] (m : SMem C) (cs : List C) : SMem C × Int :=
  let r := m.allocate (cs.length + 1)
  ((cs ++ [0]).enum.foldl (fun (k : SMem C) (ic : Nat × C) => k.write (r.2 + ic.1) ic.2) r.1, r.2)

end SMem

namespace basic_string

variable {C : Type} [DecidableEq C] [Zero C]

/-- `grow_recommend(need)`. -/
def grow_recommend (s : basic_string) (need : Nat) : Nat :=
  let new_cap := if s._cap ≠ 0 then (s._cap * 2) % SIZE_MOD else 8
  if new_cap < need then need else new_cap

/-- `ensure_capacity(need)`. -/
def ensure_capacity (m : SMem C) (s : basic_string) (need : Nat) : SMem C × basic_string :=
  if need ≤ s._cap then (m, s)
  else
    let new_cap := grow_recommend s need
    let r := m.allocate ((new_cap + 1) % SIZE_MOD)
    let new_data := r.2
    let m := if s._data ≠ 0 then (r.1.move new_data s._data s._size).deallocate s._data else r.1
    let s := { s with _data := new_data, _cap := new_cap }
    (m.write (s._data + s._size) 0, s)

/-- `basic_string()`. -/
def ctor (m : SMem C) : SMem C × basic_string :=
  let r := m.allocate 1
  (r.1.write (r.2 + (0 : Nat)) 0, ⟨r.2, 0, 0⟩)

/-- `basic_string(const CharT* s)`. -/
def ctor_cstr (fuel : Nat) (m : SMem C) (s : Int) : Option (SMem C × basic_string) :=
  match SMem.length fuel m s with
  | none => none
  | some len =>
    let r := ensure_capacity m ⟨0, 0, 0⟩ ((len + 1) % SIZE_MOD)
    let m := r.1.move r.2._data s len
    let this : basic_string := { r.2 with _size := len }
    some (m.write (this._data + this._size) 0, this)

/-- `~basic_string()`. -/
def dtor (m : SMem C) (s : basic_string) : SMem C :=
  if s._data ≠ 0 then m.deallocate s._data else m

/-- `basic_string(const basic_string& other)`. -/
def ctor_copy (m : SMem C) (other : basic_string) : SMem C × basic_string :=
  let r := m.allocate ((other._size + 1) % SIZE_MOD)
  let this : basic_string := ⟨r.2, other._size, other._size⟩
  let m := r.1.move this._data other._data this._size
  (m.write (this._data + this._size) 0, this)

/-- `basic_string(basic_string&& other)`: the new object and what is left of
`other`. -/
def ctor_move (other : basic_string) : basic_string × basic_string :=
  (⟨other._data, other._size, other._cap⟩, ⟨0, 0, 0⟩)

/-- `empty()`. -/
def empty (s : basic_string) : Bool := s._size == 0

/-- `c_str()`: writes the terminator at `_data[_size]` and returns `_data`. -/
def c_str (m : SMem C) (s : basic_string) : SMem C × Int :=
  (m.write (s._data + s._size) 0, s._data)

/-- `back()`. -/
def back (m : SMem C) (s : basic_string) : Option C := m.cell (s._data + size_sub s._size 1)

/-- `push_back(ch)`. -/
def push_back (m : SMem C) (s : basic_string) (ch : C) : SMem C × basic_string :=
  let r := ensure_capacity m s ((s._size + 1) % SIZE_MOD)
  (r.1.write (r.2._data + r.2._size) ch, { r.2 with _size := (r.2._size + 1) % SIZE_MOD })

/-- `append(s)`. -/
def append (fuel : Nat) (m : SMem C) (this : basic_string) (s : Int) :
    Option (SMem C × basic_string) :=
  if s = 0 then some (m, this)
  else
    match SMem.length fuel m s with
    | none => none
    | some len =>
      let need := (this._size + len) % SIZE_MOD
      let r := ensure_capacity m this need
      let m := r.1.move (r.2._data + r.2._size) s len
      let this : basic_string := { r.2 with _size := (r.2._size + len) % SIZE_MOD }
      some (m.write (this._data + this._size) 0, this)

/-- `pop_back()`. -/
def pop_back (s : basic_string) : basic_string :=
  if s._size = 0 then s else { s with _size := s._size - 1 }

/-- `resize(n, c)`; `resize(n)` is the case `c = '\0'`. -/
def resize_c (m : SMem C) (s : basic_string) (n : Nat) (c : C) : SMem C × basic_string :=
  if n > s._size then
    let r := if n > s._cap then ensure_capacity m s ((n + 1) % SIZE_MOD) else (m, s)
    (SMem.fill r.2._data c (n - r.2._size) r.1 r.2._size, { r.2 with _size := n })
  else if n < s._size then (m, { s with _size := n })
  else (m, s)

/-- `resize(n)`. -/
def resize (m : SMem C) (s : basic_string) (n : Nat) : SMem C × basic_string :=
  resize_c m s n 0

/-- `operator=(const basic_string& other)`; `same` is the outcome of the test
`this == &other`. -/
def copy_assign (m : SMem C) (this other : basic_string) (same : Bool) :
    SMem C × basic_string :=
  if same then (m, this)
  else
    let r :=
      if this._cap < other._size then
        let a := m.allocate ((other._size + 1) % SIZE_MOD)
        let new_data := a.2
        let m := a.1.move new_data other._data other._size
        let m := m.deallocate this._data
        (m, ({ this with _data := new_data, _cap := other._size } : basic_string))
      else (m.move this._data other._data other._size, this)
    let this : basic_string := { r.2 with _size := other._size }
    (r.1.write (this._data + this._size) 0, this)

/-- `operator=(basic_string&& other)`: the store, `*this` and what is left of
`other`; `same` is the outcome of the test `this == &other`. -/
def move_assign (m : SMem C) (this other : basic_string) (same : Bool) :
    SMem C × basic_string × basic_string :=
  if same then (m, this, other)
  else (m.deallocate this._data, ⟨other._data, other._size, other._cap⟩, ⟨0, 0, 0⟩)

/-- `clear()`. -/
def clear (s : basic_string) : basic_string := { s with _size := 0 }

end basic_string

/-! ## Growable buffer: erase and search -/

namespace basic_string

variable {C : Type} [DecidableEq C] [Zero C]

/-- The loop `for (i = pos; i < _size; i++) _data[i] = _data[i + 1]` of the
single-character `erase`, `n` passes of it. -/
def erase_loop (data : Int) : Nat → SMem C → Nat → SMem C
  | 0, m, _ => m
  | n + 1, m, i => erase_loop data n (m.set (data + i) (m.cell (data + (i + 1)))) (i + 1)

/-- `erase(iterator it)`: the store, the object and the iterator returned. -/
def erase_it (m : SMem C) (s : basic_string) (it : Int) : SMem C × basic_string × Int :=
  let pos := to_size (it - s._data)
  if pos ≥ s._size then (m, s, s._data + s._size)
  else
    let m := erase_loop s._data (s._size - pos) m pos
    (m, { s with _size := s._size - 1 }, s._data + pos)

/-- `erase(size_t pos, size_t count)`: the store, the object and the iterator
returned. -/
def erase (m : SMem C) (s : basic_string) (pos count : Nat) : SMem C × basic_string × Int :=
  if pos ≥ s._size then (m, s, s._data + s._size)
  else
    let count := if (pos + count) % SIZE_MOD > s._size then s._size - pos else count
    if count = 0 then (m, s, s._data + pos)
    else
      let m := m.move (s._data + pos) (s._data + pos + count)
        (size_sub (size_sub s._size pos) count)
      let s : basic_string := { s with _size := size_sub s._size count }
      (m.write (s._data + s._size) 0, s, s._data + pos)

/-- `erase(iterator first, iterator last)`: the store, the object and the
iterator returned. -/
def erase_range (m : SMem C) (s : basic_string) (first last : Int) :
    SMem C × basic_string × Int :=
  let beg := to_size (first - s._data)
  let end_ := to_size (last - s._data)
  let del_cnt := size_sub end_ beg
  if del_cnt = 0 then (m, s, s._data + beg)
  else
    let m := m.move (s._data + beg) (s._data + end_) (size_sub s._size end_)
    let s : basic_string := { s with _size := size_sub s._size del_cnt }
    (m.write (s._data + s._size) 0, s, s._data + beg)

/-- `erase()`: `clear()`. -/
def erase_all (s : basic_string) : basic_string := clear s

/-- `front()`: the exception `std::out_of_range` or the slot `_data[0]`. -/
def front (m : SMem C) (s : basic_string) : Except String (Option C) :=
  if s._size = 0 then .error "basic_string::front() called on empty string"
  else .ok (m.cell (s._data + (0 : Nat)))

/-- The loop of `find(CharT ch, size_t pos)`, `n` passes of it. -/
def find_ch_loop (m : SMem C) (s : basic_string) (ch : C) : Nat → Nat → Nat
  | 0, _ => npos
  | n + 1, i => if m.cell (s._data + i) = some ch then i else find_ch_loop m s ch n (i + 1)

/-- `find(CharT ch, size_t pos)`. -/
def find_ch (m : SMem C) (s : basic_string) (ch : C) (pos : Nat) : Nat :=
  find_ch_loop m s ch (s._size - pos) pos

/-- The inner loop of the two substring searches,
`for (j = 0; j < s_len; ++j) if (!eq(_data[i + j], s[j])) { match = false; break; }`,
`n` passes of it from `j`; the value is `match`. -/
def match_loop (m : SMem C) (data : Int) (i : Nat) (s : Int) : Nat → Nat → Bool
  | 0, _ => true
  | n + 1, j =>
    if m.cell (data + ((i + j) % SIZE_MOD : Nat)) ≠ m.cell (s + j) then false
    else match_loop m data i s n (j + 1)

/-- The outer loop of the two substring searches,
`for (i = pos; i <= _size - s_len; ++i) { ...; if (match) return i; } return npos;`. -/
def find_loop (m : SMem C) (this : basic_string) (s : Int) (s_len : Nat) :
    Nat → Nat → Option Nat
  | 0, _ => none
  | fuel + 1, i =>
    if i ≤ size_sub this._size s_len then
      if match_loop m this._data i s s_len 0 then some i
      else find_loop m this s s_len fuel ((i + 1) % SIZE_MOD)
    else some npos

/-- `find(const CharT* s, size_t pos)`. -/
def find (fuel : Nat) (m : SMem C) (this : basic_string) (s : Int) (pos : Nat) : Option Nat :=
  if s = 0 ∨ this._size = 0 ∨ pos ≥ this._size then some npos
  else
    match SMem.length fuel m s with
    | none => none
    | some s_len =>
      if s_len = 0 then some pos
      else find_loop m this s s_len fuel pos

/-- `find(const basic_string& str, size_t pos)`. -/
def find_str (fuel : Nat) (m : SMem C) (this str : basic_string) (pos : Nat) : Option Nat :=
  if str.empty ∨ this._size = 0 ∨ pos ≥ this._size then some npos
  else
    let s_len := str.size
    if s_len = 0 then some pos
    else find_loop m this str._data s_len fuel pos

/-- The inner loop of the four set searches,
`for (j = 0; j < chars.size(); ++j) if (eq(_data[i], chars[j])) ...`, `n` passes
of it from `j`; the value tells whether the `if` was taken. -/
def member_loop (m : SMem C) (chars : basic_string) (c : Option C) : Nat → Nat → Bool
  | 0, _ => false
  | n + 1, j => if c = m.cell (chars._data + j) then true else member_loop m chars c n (j + 1)

/-- The outer loop of `find_first_of`, `n` passes of it from `i`. -/
def first_of_loop (m : SMem C) (this chars : basic_string) : Nat → Nat → Nat
  | 0, _ => npos
  | n + 1, i =>
    if member_loop m chars (m.cell (this._data + i)) chars.size 0 then i
    else first_of_loop m this chars n (i + 1)

/-- `find_first_of(chars, pos)`. -/
def find_first_of (m : SMem C) (this chars : basic_string) (pos : Nat) : Nat :=
  if chars.empty ∨ this._size = 0 ∨ pos ≥ this._size then npos
  else first_of_loop m this chars (this._size - pos) pos

/-- The outer loop of `find_first_not_of`, `n` passes of it from `i`. -/
def first_not_of_loop (m : SMem C) (this chars : basic_string) : Nat → Nat → Nat
  | 0, _ => npos
  | n + 1, i =>
    if !member_loop m chars (m.cell (this._data + i)) chars.size 0 then i
    else first_not_of_loop m this chars n (i + 1)

/-- `find_first_not_of(chars, pos)`. -/
def find_first_not_of (m : SMem C) (this chars : basic_string) (pos : Nat) : Nat :=
  if chars.empty ∨ this._size = 0 ∨ pos ≥ this._size then npos
  else first_not_of_loop m this chars (this._size - pos) pos

/-- The loop `for (size_t i = pos + 1; i-- > 0;)` of `find_last_of`, from `i`. -/
def last_of_loop (m : SMem C) (this chars : basic_string) : Nat → Nat
  | 0 => npos
  | i + 1 =>
    if member_loop m chars (m.cell (this._data + i)) chars.size 0 then i
    else last_of_loop m this chars i

/-- `find_last_of(chars, pos)`. -/
def find_last_of (m : SMem C) (this chars : basic_string) (pos : Nat) : Nat :=
  if this._size = 0 then npos
  else
    let pos := if pos = npos then this._size - 1 else pos
    last_of_loop m this chars ((pos + 1) % SIZE_MOD)

/-- The loop `for (size_t i = pos + 1; i-- > 0;)` of `find_last_not_of`, from
`i`. -/
def last_not_of_loop (m : SMem C) (this chars : basic_string) : Nat → Nat
  | 0 => npos
  | i + 1 =>
    if !member_loop m chars (m.cell (this._data + i)) chars.size 0 then i
    else last_not_of_loop m this chars i

/-- `find_last_not_of(chars, pos)`. -/
def find_last_not_of (m : SMem C) (this chars : basic_string) (pos : Nat) : Nat :=
  if this._size = 0 then npos
  else
    let pos := if pos = npos then this._size - 1 else pos
    last_not_of_loop m this chars ((pos + 1) % SIZE_MOD)

/-- `substr(pos, count)`: the exception `std::out_of_range`, or the store and
the new buffer. -/
def substr (m : SMem C) (s : basic_string) (pos count : Nat) :
    Except String (SMem C × basic_string) :=
  if pos > s._size then .error "basic_string::substr: pos out of range"
  else
    let len := min count (s._size - pos)
    let r := ctor m
    let r := ensure_capacity r.1 r.2 ((len + 1) % SIZE_MOD)
    let m := r.1.move r.2._data (s._data + pos) len
    .ok (m, { r.2 with _size := len })

end basic_string

/-! ## Growable buffer: insert -/

namespace basic_string

variable {C : Type} [DecidableEq C] [Zero C]

/-- The loop `for (size_t i = _size - 1; i >= pos; i--) _data[i + 1] = _data[i]`
of `insert(size_t pos, CharT ch)`, from `i`. -/
def insert_ch_loop (data : Int) (pos : Nat) : Nat → SMem C → Nat → Option (SMem C)
  | 0, _, _ => none
  | fuel + 1, m, i =>
    if i ≥ pos then
      insert_ch_loop data pos fuel
        (m.set (data + ((i + 1) % SIZE_MOD : Nat)) (m.cell (data + i))) (size_sub i 1)
    else some m

/-- `insert(size_t pos, CharT ch)`. -/
def insert_ch (fuel : Nat) (m : SMem C) (s : basic_string) (pos : Nat) (ch : C) :
    Option (SMem C × basic_string) :=
  if pos > s._size then some (m, s)
  else
    let r := if (s._size + 1) % SIZE_MOD > s._cap then
      ensure_capacity m s ((s._size + 1) % SIZE_MOD) else (m, s)
    match insert_ch_loop r.2._data pos fuel r.1 (size_sub r.2._size 1) with
    | none => none
    | some m =>
      some (m.write (r.2._data + pos) ch, { r.2 with _size := (r.2._size + 1) % SIZE_MOD })

/-- The loop `for (size_t i = _size; i > pos; --i) _data[i + n - 1] = _data[i - 1]`
of the other insertions, `k` passes of it from `i`. -/
def shift_loop (data : Int) (n : Nat) : Nat → SMem C → Nat → SMem C
  | 0, m, _ => m
  | k + 1, m, i =>
    shift_loop data n k
      (m.set (data + (size_sub ((i + n) % SIZE_MOD) 1 : Nat)) (m.cell (data + (i - 1 : Nat))))
      (i - 1)

/-- `insert(size_t pos, size_t n, CharT ch)`. -/
def insert_n (m : SMem C) (s : basic_string) (pos n : Nat) (ch : C) : SMem C × basic_string :=
  if pos > s._size then (m, s)
  else
    let r := ensure_capacity m s ((s._size + n) % SIZE_MOD)
    let m := shift_loop r.2._data n (r.2._size - pos) r.1 r.2._size
    let m := SMem.fill r.2._data ch ((pos + n) % SIZE_MOD - pos) m pos
    (m, { r.2 with _size := (r.2._size + n) % SIZE_MOD })

/-- `insert(size_t pos, const CharT* s)`. -/
def insert_cstr (fuel : Nat) (m : SMem C) (this : basic_string) (pos : Nat) (s : Int) :
    Option (SMem C × basic_string) :=
  if pos > this._size then some (m, this)
  else
    match SMem.length fuel m s with
    | none => none
    | some len_s =>
      let r := if (this._size + len_s) % SIZE_MOD > this._cap then
        ensure_capacity m this ((this._size + len_s) % SIZE_MOD) else (m, this)
      let m := shift_loop r.2._data len_s (r.2._size - pos) r.1 r.2._size
      let m := m.move (r.2._data + pos) s len_s
      some (m, { r.2 with _size := (r.2._size + len_s) % SIZE_MOD })

/-- `insert(size_t pos, const CharT* s, size_t n)`. -/
def insert_cstr_n (fuel : Nat) (m : SMem C) (this : basic_string) (pos : Nat) (s : Int)
    (n : Nat) : Option (SMem C × basic_string) :=
  if pos > this._size then some (m, this)
  else
    match SMem.length fuel m s with
    | none => none
    | some len_s =>
      let inst_len := min len_s n
      let r := if (this._size + inst_len) % SIZE_MOD > this._cap then
        ensure_capacity m this ((this._size + inst_len) % SIZE_MOD) else (m, this)
      let m := shift_loop r.2._data inst_len (r.2._size - pos) r.1 r.2._size
      let m := m.move (r.2._data + pos) s inst_len
      some (m, { r.2 with _size := (r.2._size + inst_len) % SIZE_MOD })

/-- `insert(size_t pos, const basic_string& str)`, `str` being another object. -/
def insert_str (m : SMem C) (this : basic_string) (pos : Nat) (str : basic_string) :
    SMem C × basic_string :=
  if pos > this._size then (m, this)
  else
    let r := if (this._size + str._size) % SIZE_MOD > this._cap then
      ensure_capacity m this ((this._size + str._size) % SIZE_MOD) else (m, this)
    let m := shift_loop r.2._data str._size (r.2._size - pos) r.1 r.2._size
    let m := m.move (r.2._data + pos) str._data str._size
    (m, { r.2 with _size := (r.2._size + str._size) % SIZE_MOD })

/-- `insert(size_t pos, const basic_string& str, size_t subpos, size_t sublen)`,
`str` being another object. -/
def insert_substr (m : SMem C) (this : basic_string) (pos : Nat) (str : basic_string)
    (subpos sublen : Nat) : SMem C × basic_string :=
  if pos > this._size then (m, this)
  else
    let r := if (this._size + sublen) % SIZE_MOD > this._cap then
      ensure_capacity m this ((this._size + sublen) % SIZE_MOD) else (m, this)
    let m := shift_loop r.2._data sublen (r.2._size - pos) r.1 r.2._size
    let m := m.move (r.2._data + pos) (str._data + subpos) sublen
    (m, { r.2 with _size := (r.2._size + sublen) % SIZE_MOD })

/-- The loop `for (auto it = first; it != last; ++it) _data[idx++] = *it` of the
range insertion, for character pointers, `k` passes of it. -/
def copy_in_loop (data : Int) : Nat → SMem C → Int → Nat → SMem C
  | 0, m, _, _ => m
  | k + 1, m, it, idx => copy_in_loop data k (m.set (data + idx) (m.cell it)) (it + 1) (idx + 1)

/-- `insert(iterator pos, InputIt first, InputIt last)` for character pointers
`first <= last`. -/
def insert_range (m : SMem C) (s : basic_string) (pos first last : Int) :
    SMem C × basic_string :=
  let n := to_size (last - first)
  if n = 0 then (m, s)
  else
    let pos_index := to_size (pos - s._data)
    let r := ensure_capacity m s ((s._size + n) % SIZE_MOD)
    let m := shift_loop r.2._data n (r.2._size - pos_index) r.1 r.2._size
    let m := copy_in_loop r.2._data (last - first).toNat m first pos_index
    (m, { r.2 with _size := (r.2._size + n) % SIZE_MOD })

/-- `insert(iterator pos, size_t n, CharT ch)`. -/
def insert_it_n (m : SMem C) (s : basic_string) (pos : Int) (n : Nat) (ch : C) :
    SMem C × basic_string :=
  let idx := to_size (pos - s._data)
  if idx > s._size then (m, s)
  else
    let r := if (s._size + n) % SIZE_MOD > s._cap then
      ensure_capacity m s ((s._size + n) % SIZE_MOD) else (m, s)
    let m := shift_loop r.2._data n (r.2._size - idx) r.1 r.2._size
    let m := SMem.fill r.2._data ch ((idx + n) % SIZE_MOD - idx) m idx
    (m, { r.2 with _size := (r.2._size + n) % SIZE_MOD })

/-- The terminator is in place: the slot `_data[size()]` holds `CharT()`. -/
def Term (m : SMem C) (s : basic_string) : Prop := m.cell (s._data + s._size) = some 0

instance (m : SMem C) (s : basic_string) : Decidable (Term m s) :=
  inferInstanceAs (Decidable (m.cell (s._data + s._size) = some 0))

/-- The terminator slot is accounted for: `size() <= capacity()` and the block
at `_data` has `capacity() + 1` slots. -/
def Slot (m : SMem C) (s : basic_string) : Prop :=
  s._size ≤ s._cap ∧ m.blk s._data = s._cap + 1

instance (m : SMem C) (s : basic_string) : Decidable (Slot m s) :=
  inferInstanceAs (Decidable (s._size ≤ s._cap ∧ m.blk s._data = s._cap + 1))

/-- A C string at address `p`: the characters `t`, none of them the terminator,
followed by the terminator. -/
def CStr (m : SMem C) (p : Int) (t : List C) : Prop :=
  (∀ i : Nat, i < t.length → m.cell (p + i) = t.get? i) ∧ m.cell (p + t.length) = some 0 ∧
    ∀ c ∈ t, c ≠ 0

instance (m : SMem C) (p : Int) (t : List C) : Decidable (CStr m p t) :=
  inferInstanceAs (Decidable ((∀ i : Nat, i < t.length → m.cell (p + i) = t.get? i) ∧
    m.cell (p + t.length) = some 0 ∧ ∀ c ∈ t, c ≠ 0))

/-- The buffer is well placed: its block of `capacity() + 1` slots is not at
`nullptr`, lies below the allocator's next free address, and `size()` is at most
`capacity()`. -/
def Placed (m : SMem C) (s : basic_string) : Prop :=
  0 < s._data ∧ s._data + s._cap < m.brk ∧ s._size ≤ s._cap

instance (m : SMem C) (s : basic_string) : Decidable (Placed m s) :=
  inferInstanceAs (Decidable (0 < s._data ∧ s._data + s._cap < m.brk ∧ s._size ≤ s._cap))

end basic_string

/-! ## Growable buffer: example stores -/

/-- The characters of `"hello world"`. -/
def txtHello : List Nat := [104, 101, 108, 108, 111, 32, 119, 111, 114, 108, 100]

/-- A store with the string literals `"hello world"` (address 1), `"world"`
(13), `"xyz"` (19), `"ab"` (23), `"abc"` (26), `"b"` (30) and `""` (32). -/
def demoLits : SMem Nat :=
  (((((((SMem.init.lit txtHello).1.lit [119, 111, 114, 108, 100]).1.lit [120, 121, 122]).1.lit
    [97, 98]).1.lit [97, 98, 99]).1.lit [98]).1.lit []).1

/-- The buffer `basic_string s("hello world")`. -/
def demoHello : SMem Nat × basic_string :=
  (basic_string.ctor_cstr 64 demoLits 1).getD (demoLits, ⟨0, 0, 0⟩)

/-- The buffer `basic_string t("world")`, built next to `demoHello`. -/
def demoHelloWorld : SMem Nat × basic_string :=
  (basic_string.ctor_cstr 64 demoHello.1 13).getD (demoHello.1, ⟨0, 0, 0⟩)

/-- The buffer `basic_string s("ab")`. -/
def demoAb : SMem Nat × basic_string :=
  (basic_string.ctor_cstr 64 demoLits 23).getD (demoLits, ⟨0, 0, 0⟩)

/-- The buffer `basic_string t("b")`, built next to `demoAb`. -/
def demoAbB : SMem Nat × basic_string :=
  (basic_string.ctor_cstr 64 demoAb.1 30).getD (demoAb.1, ⟨0, 0, 0⟩)

/-- The buffer `basic_string s("abc")`. -/
def demoAbc : SMem Nat × basic_string :=
  (basic_string.ctor_cstr 64 demoLits 26).getD (demoLits, ⟨0, 0, 0⟩)

/-- The copy `basic_string t(s)` of `demoAbc`, built next to it. -/
def demoAbcCopy : SMem Nat × basic_string := basic_string.ctor_copy demoAbc.1 demoAbc.2

/-- The empty buffer `basic_string e`, built next to `demoAbc`. -/
def demoAbcEmpty : SMem Nat × basic_string := basic_string.ctor demoAbc.1

/-! ## Fixed array (`array_lt.h`)

An `array<T, N>` is its member `T _elems[N > 0 ? N : 1]`.  The operators `==`
and `<` of the element type are the parameters `eq` and `lt`. -/

/-- The data member of an `array<T, N>`: `N` slots, one slot when `N` is 0. -/
structure array (T : Type) (N : Nat) where
  _elems : Fin (if N > 0 then N else 1) → T

namespace array

variable {N : Nat}

/-- `operator[](i)` for `i < N`. -/
def index (a : array T N) (i : Nat) (h : i < N) : T :=
  a._elems ⟨i, by split <;> omega⟩

/-- The loop `for (i = 0; i < N; ++i) if (!(lhs[i] == rhs[i])) return false;`
followed by `return true`, from index `i` with at most `k` passes left (after
`N` passes the test `i < N` fails). -/
def eq_loop (eq : T → T → Bool) (lhs rhs : array T N) : Nat → Nat → Bool
  | 0, _ => true
  | k + 1, i =>
    if h : i < N then
      if !(eq (lhs.index i h) (rhs.index i h)) then false
      else eq_loop eq lhs rhs k (i + 1)
    else true

/-- `operator==(lhs, rhs)`. -/
def eq (eq : T → T → Bool) (lhs rhs : array T N) : Bool := eq_loop eq lhs rhs N 0

/-- `operator!=(lhs, rhs)`. -/
def ne (eq : T → T → Bool) (lhs rhs : array T N) : Bool := !(array.eq eq lhs rhs)

/-- The loop `for (i = 0; i < N; ++i) { if (lhs[i] < rhs[i]) return true;
if (rhs[i] < lhs[i]) return false; }` followed by `return false`, from index
`i` with at most `k` passes left. -/
def lt_loop (lt : T → T → Bool) (lhs rhs : array T N) : Nat → Nat → Bool
  | 0, _ => false
  | k + 1, i =>
    if h : i < N then
      if lt (lhs.index i h) (rhs.index i h) then true
      else if lt (rhs.index i h) (lhs.index i h) then false
      else lt_loop lt lhs rhs k (i + 1)
    else false

/-- `operator<(lhs, rhs)`. -/
def lt (lt : T → T → Bool) (lhs rhs : array T N) : Bool := lt_loop lt lhs rhs N 0

/-- `operator>(lhs, rhs)`. -/
def gt (lt : T → T → Bool) (lhs rhs : array T N) : Bool := array.lt lt rhs lhs

/-- `operator<=(lhs, rhs)`. -/
def le (lt : T → T → Bool) (lhs rhs : array T N) : Bool := !(array.lt lt rhs lhs)

/-- `operator>=(lhs, rhs)`. -/
def ge (lt : T → T → Bool) (lhs rhs : array T N) : Bool := !(array.lt lt lhs rhs)

/-- The `N` elements of the array, in index order. -/
def toList (a : array T N) : List T := List.ofFn (fun i : Fin N => a.index i.1 i.2)

end array

/-- The array `array<int, 3>{x, y, z}`. -/
def demoArr (x y z : Nat) : array Nat 3 := ⟨fun i => [x, y, z].getD i.1 0⟩

/-! ## Linked sequence: counted and range insertion -/

/-- The loop `for (i = 0; i < count; ++i) { it = _M_insert_node(curPos, value);
if (i == 0) firstInserted = it; }` of the counted `insert`, `k` passes of it
from `i`. -/
def insert_n_loop (this curPos : Nat) (value : T) : Nat → Nat → State T → Nat → State T × Nat
  | 0, _, st, firstInserted => (st, firstInserted)
  | k + 1, i, st, firstInserted =>
    let r := _M_insert_node st this curPos value
    insert_n_loop this curPos value k (i + 1) r.1 (if i = 0 then r.2 else firstInserted)

/-- `insert(pos, count, value)`: the state and the iterator returned;
`firstInserted` starts as the default-constructed iterator, whose node is
`nullptr` (address 0). -/
def insert_n (st : State T) (this pos count : Nat) (value : T) : State T × Nat :=
  insert_n_loop this pos value count 0 st 0

/-- The loop of the range `insert`, over the values read from `[first, last)`. -/
def insert_range_loop (this curPos : Nat) : List T → State T → Nat → Bool → State T × Nat
  | [], st, firstInserted, _ => (st, firstInserted)
  | x :: xs, st, firstInserted, firstFlag =>
    let r := _M_insert_node st this curPos x
    if firstFlag then insert_range_loop this curPos xs r.1 r.2 false
    else insert_range_loop this curPos xs r.1 firstInserted firstFlag

/-- `insert(pos, first, last)`, `range` being the values of `[first, last)`. -/
def insert_range (st : State T) (this pos : Nat) (range : List T) : State T × Nat :=
  insert_range_loop this pos range st 0 true

/-- `insert(pos, ilist)`. -/
def insert_ilist (st : State T) (this pos : Nat) (ilist : List T) : State T × Nat :=
  insert_range st this pos ilist

/-! ## Contiguous sequence: repeated `push_back` -/

namespace vector

/-- The calls `v.push_back(std::move(x))` for the values `x` of a list, one
after the other. -/
def push_back_all (fuel : Nat) : VMem T → vector → List T → Option (VMem T × vector)
  | m, v, [] => some (m, v)
  | m, v, x :: xs =>
    match push_back fuel m v x with
    | none => none
    | some r => push_back_all fuel r.1 r.2 xs

end vector

/-! ## Growable buffer: concatenation -/

namespace basic_string

variable {C : Type} [DecidableEq C] [Zero C]

/-- `operator+(const basic_string& other)`: the store and the new object. -/
def operator_plus (fuel : Nat) (m : SMem C) (this other : basic_string) :
    Option (SMem C × basic_string) :=
  let result := ctor_copy m this
  append fuel result.1 result.2 other._data

/-- `operator+(const CharT* other)`. -/
def operator_plus_cstr (fuel : Nat) (m : SMem C) (this : basic_string) (other : Int) :
    Option (SMem C × basic_string) :=
  let result := ctor_copy m this
  append fuel result.1 result.2 other

/-- `operator+=(const CharT* s)`. -/
def operator_plus_assign_cstr (fuel : Nat) (m : SMem C) (this : basic_string) (s : Int) :
    Option (SMem C × basic_string) :=
  append fuel m this s

/-- `operator+=(const basic_string& other)`, `other` being another object. -/
def operator_plus_assign (fuel : Nat) (m : SMem C) (this other : basic_string) :
    Option (SMem C × basic_string) :=
  append fuel m this other._data

/-- The characters in the slots `[_data, _data + size())`. -/
def toList (m : SMem C) (s : basic_string) : List (Option C) :=
  (List.range s._size).map (fun i => m.cell (s._data + (i : Int)))

end basic_string

/-- The buffer `basic_string t("abc")` built next to `demoAbc`, after
`t.pop_back()`. -/
def demoAbcPopped : SMem Nat × basic_string :=
  (demoAbcCopy.1, basic_string.pop_back demoAbcCopy.2)

/-- The list `{1, 2, 3}` as object 0. -/
def demoThree : State Nat := list_ctor_ilist (State.init 0) 0 [1, 2, 3]

/-- A store with the two unsorted lists `{3, 1, 2}` (object 0) and `{2, 0}`
(object 1). -/
def demoUnsorted : State Nat :=
  list_ctor_ilist (list_ctor_ilist (State.init 0) 0 [3, 1, 2]) 1 [2, 0]

/-! ## Contiguous sequence: reference arguments -/

/-- The reference designates an object that is not an element slot of the
vector `v`: an object outside the slot store, or a slot handed out by the
allocator that lies outside the block of `v`. -/
def Arg.Outside (m : VMem T) (v : vector) : Arg T → Prop
  | .obj _ => True
  | .slot p => p < m.brk ∧ (p < v._start ∨ v._cap ≤ p)

/-- The vector `{1, 2, 3}` of `demoVec` after `reserve(8)`. -/
def demoReserved : VMem Nat × vector :=
  (vector.reserve 4 demoMem demoV 8).getD (demoMem, demoV)
/-! ## Reading through a write -/

section ReadWrite

variable (st : State T) (a v x l n : Nat) (d : T)

@[simp] theorem next_wnext : (st.wnext a v).next x = if x = a then v else st.next x := by
  unfold State.wnext State.next; dsimp only; split <;> rfl

@[simp] theorem prev_wnext : (st.wnext a v).prev x = st.prev x := by
  unfold State.wnext State.prev; dsimp only; split <;> rfl

@[simp] theorem data_wnext : (st.wnext a v).data x = st.data x := by
  unfold State.wnext State.data; dsimp only; split <;> rfl

@[simp] theorem sentinel_wnext : (st.wnext a v).sentinel l = st.sentinel l := rfl

@[simp] theorem msize_wnext : (st.wnext a v).msize l = st.msize l := rfl

@[simp] theorem brk_wnext : (st.wnext a v).brk = st.brk := rfl

@[simp] theorem alive_wnext : (st.wnext a v).alive = st.alive := rfl

@[simp] theorem next_wprev : (st.wprev a v).next x = st.next x := by
  unfold State.wprev State.next; dsimp only; split <;> rfl

@[simp] theorem prev_wprev : (st.wprev a v).prev x = if x = a then v else st.prev x := by
  unfold State.wprev State.prev; dsimp only; split <;> rfl

@[simp] theorem data_wprev : (st.wprev a v).data x = st.data x := by
  unfold State.wprev State.data; dsimp only; split <;> rfl

@[simp] theorem sentinel_wprev : (st.wprev a v).sentinel l = st.sentinel l := rfl

@[simp] theorem msize_wprev : (st.wprev a v).msize l = st.msize l := rfl

@[simp] theorem brk_wprev : (st.wprev a v).brk = st.brk := rfl

@[simp] theorem alive_wprev : (st.wprev a v).alive = st.alive := rfl

@[simp] theorem next_wdata : (st.wdata a d).next x = st.next x := by
  unfold State.wdata State.next; dsimp only; split <;> rfl

@[simp] theorem prev_wdata : (st.wdata a d).prev x = st.prev x := by
  unfold State.wdata State.prev; dsimp only; split <;> rfl

@[simp] theorem data_wdata : (st.wdata a d).data x = if x = a then d else st.data x := by
  unfold State.wdata State.data; dsimp only; split <;> rfl

@[simp] theorem sentinel_wdata : (st.wdata a d).sentinel l = st.sentinel l := rfl

@[simp] theorem msize_wdata : (st.wdata a d).msize l = st.msize l := rfl

@[simp] theorem brk_wdata : (st.wdata a d).brk = st.brk := rfl

@[simp] theorem alive_wdata : (st.wdata a d).alive = st.alive := rfl

@[simp] theorem next_wsize : (st.wsize l n).next x = st.next x := rfl

@[simp] theorem prev_wsize : (st.wsize l n).prev x = st.prev x := rfl

@[simp] theorem data_wsize : (st.wsize l n).data x = st.data x := rfl

@[simp] theorem sentinel_wsize : (st.wsize l n).sentinel x = st.sentinel x := by
  unfold State.wsize State.sentinel; dsimp only; split <;> rfl

@[simp] theorem msize_wsize : (st.wsize l n).msize x = if x = l then n else st.msize x := by
  unfold State.wsize State.msize; dsimp only; split <;> rfl

@[simp] theorem brk_wsize : (st.wsize l n).brk = st.brk := rfl

@[simp] theorem alive_wsize : (st.wsize l n).alive = st.alive := rfl

@[simp] theorem next_wnode : (st.wnode l n).next x = st.next x := rfl

@[simp] theorem prev_wnode : (st.wnode l n).prev x = st.prev x := rfl

@[simp] theorem data_wnode : (st.wnode l n).data x = st.data x := rfl

@[simp] theorem sentinel_wnode : (st.wnode l n).sentinel x = if x = l then n else st.sentinel x := by
  unfold State.wnode State.sentinel; dsimp only; split <;> rfl

@[simp] theorem msize_wnode : (st.wnode l n).msize x = st.msize x := by
  unfold State.wnode State.msize; dsimp only; split <;> rfl

@[simp] theorem brk_wnode : (st.wnode l n).brk = st.brk := rfl

@[simp] theorem alive_wnode : (st.wnode l n).alive = st.alive := rfl

@[simp] theorem next_allocate : (allocate st).1.next x = st.next x := rfl

@[simp] theorem prev_allocate : (allocate st).1.prev x = st.prev x := rfl

@[simp] theorem data_allocate : (allocate st).1.data x = st.data x := rfl

@[simp] theorem sentinel_allocate : (allocate st).1.sentinel l = st.sentinel l := rfl

@[simp] theorem msize_allocate : (allocate st).1.msize l = st.msize l := rfl

@[simp] theorem brk_allocate : (allocate st).1.brk = st.brk + 1 := rfl

@[simp] theorem addr_allocate : (allocate st).2 = st.brk := rfl

@[simp] theorem next_destroy : (_M_destroy_node st l a).next x = st.next x := by
  unfold _M_destroy_node; split <;> rfl

@[simp] theorem prev_destroy : (_M_destroy_node st l a).prev x = st.prev x := by
  unfold _M_destroy_node; split <;> rfl

@[simp] theorem data_destroy : (_M_destroy_node st l a).data x = st.data x := by
  unfold _M_destroy_node; split <;> rfl

@[simp] theorem sentinel_destroy : (_M_destroy_node st l a).sentinel x = st.sentinel x := by
  unfold _M_destroy_node; split <;> rfl

@[simp] theorem msize_destroy : (_M_destroy_node st l a).msize x = st.msize x := by
  unfold _M_destroy_node; split <;> rfl

@[simp] theorem brk_destroy : (_M_destroy_node st l a).brk = st.brk := by
  unfold _M_destroy_node; split <;> rfl

end ReadWrite

/-! ## Chains of adjacent nodes -/

@[simp] theorem lastOf_nil (a : Nat) : lastOf a [] = a := rfl

@[simp] theorem lastOf_cons (a b : Nat) (l : List Nat) : lastOf a (b :: l) = lastOf b l := rfl

@[simp] theorem lastOf_append_cons (a b : Nat) (l₁ l₂ : List Nat) :
    lastOf a (l₁ ++ b :: l₂) = lastOf b l₂ := by
  induction l₁ generalizing a with
  | nil => rfl
  | cons c l ih => simpa using ih c

theorem lastOf_mem_cons (l : List Nat) (a : Nat) : lastOf a l ∈ a :: l := by
  induction l generalizing a with
  | nil => simp
  | cons b l ih => exact List.mem_cons_of_mem _ (ih b)

theorem lastOf_not_mem_of_nodup (l : List Nat) (a b : Nat) (h : (a :: b :: l).Nodup) :
    a ≠ lastOf b l := by
  intro e
  have := lastOf_mem_cons l b
  rw [← e] at this
  exact (List.nodup_cons.1 h).1 this

theorem linked_append (st : State T) (l₁ l₂ : List Nat) (a : Nat) :
    Linked st a (l₁ ++ l₂) ↔ Linked st a l₁ ∧ Linked st (lastOf a l₁) l₂ := by
  induction l₁ generalizing a with
  | nil => simp [Linked]
  | cons b l ih => simp [Linked, ih, and_assoc]

/-- A chain only reads `next` off its non-final nodes and `prev` off its
non-initial nodes. -/
theorem linked_frame (st st' : State T) (l : List Nat) (a : Nat)
    (h : Linked st a l) (hnd : (a :: l).Nodup)
    (hn : ∀ x ∈ a :: l, x ≠ lastOf a l → st'.next x = st.next x)
    (hp : ∀ x ∈ l, st'.prev x = st.prev x) : Linked st' a l := by
  induction l generalizing a with
  | nil => trivial
  | cons b l ih =>
    obtain ⟨⟨h1, h2⟩, h3⟩ := h
    have hab : a ≠ lastOf b l := lastOf_not_mem_of_nodup l a b hnd
    refine ⟨⟨?_, ?_⟩, ih b h3 (List.nodup_cons.1 hnd).2 ?_ ?_⟩
    · rw [hn a (by simp) (by simpa using hab)]; exact h1
    · rw [hp b (by simp)]; exact h2
    · intro x hx hne
      exact hn x (List.mem_cons_of_mem _ hx) (by simpa using hne)
    · intro x hx
      exact hp x (List.mem_cons_of_mem _ hx)

/-- A cycle may be read starting from any of its nodes. -/
theorem cyc_rotate (st : State T) (X Y : List Nat) : Cyc st (X ++ Y) ↔ Cyc st (Y ++ X) := by
  cases X with
  | nil => simp
  | cons x xs =>
    cases Y with
    | nil => simp
    | cons y ys =>
      simp only [Cyc, List.cons_append, List.append_assoc, linked_append, Linked,
        lastOf_cons, and_true]
      constructor
      · rintro ⟨h1, h2, h3, h4⟩; exact ⟨h3, h4, h1, h2⟩
      · rintro ⟨h1, h2, h3, h4⟩; exact ⟨h3, h4, h1, h2⟩

/-- In a cycle read from `f`, the node before `f` is the last one. -/
theorem cyc_prev_head (st : State T) (f : Nat) (fs : List Nat) (h : Cyc st (f :: fs)) :
    st.prev f = lastOf f fs := by
  have := ((linked_append st fs [f] f).1 h).2
  exact this.1.2

/-- In a cycle read from `f`, the node after the last one is `f`. -/
theorem cyc_next_last (st : State T) (f : Nat) (fs : List Nat) (h : Cyc st (f :: fs)) :
    st.next (lastOf f fs) = f := by
  have := ((linked_append st fs [f] f).1 h).2
  exact this.1.1

/-- Unlinking the run `r :: rs` from the cycle `r :: rs ++ d :: ds` by joining
its two neighbours leaves the cycle `d :: ds`. -/
theorem cyc_removeRun (st st' : State T) (r d : Nat) (rs ds : List Nat)
    (h : Cyc st (r :: rs ++ d :: ds)) (hnd : (d :: ds).Nodup)
    (hnext : st'.next (lastOf d ds) = d) (hprev : st'.prev d = lastOf d ds)
    (hn : ∀ x ∈ d :: ds, x ≠ lastOf d ds → st'.next x = st.next x)
    (hp : ∀ x ∈ ds, st'.prev x = st.prev x) : Cyc st' (d :: ds) := by
  have h' : Linked st d ds := by
    have := (cyc_rotate st (r :: rs) (d :: ds)).1 h
    simp only [Cyc, List.cons_append, List.append_assoc, linked_append] at this
    exact this.1
  simp only [Cyc, linked_append, Linked, and_true]
  exact ⟨linked_frame st st' ds d h' hnd hn hp, hnext, hprev⟩

/-- Linking the chain `r :: rs` in front of the head `f` of the cycle `f :: fs`
(that is, after its last node) gives the cycle `f :: fs ++ r :: rs`. -/
theorem cyc_insertRun (st st' : State T) (f r : Nat) (fs rs : List Nat)
    (h : Cyc st (f :: fs)) (hr : Linked st r rs) (hnd : (f :: fs ++ r :: rs).Nodup)
    (h1 : st'.next (lastOf f fs) = r) (h2 : st'.prev r = lastOf f fs)
    (h3 : st'.next (lastOf r rs) = f) (h4 : st'.prev f = lastOf r rs)
    (hn : ∀ x ∈ f :: fs ++ r :: rs, x ≠ lastOf f fs → x ≠ lastOf r rs → st'.next x = st.next x)
    (hp : ∀ x ∈ fs ++ rs, st'.prev x = st.prev x) : Cyc st' (f :: fs ++ r :: rs) := by
  have hf : Linked st f fs := by
    simp only [Cyc, linked_append] at h
    exact h.1
  have hndf : (f :: fs).Nodup := (List.nodup_append.1 hnd).1
  have hndr : (r :: rs).Nodup := (List.nodup_append.1 hnd).2.1
  have hdis := (List.nodup_append.1 hnd).2.2
  simp only [Cyc, List.cons_append, List.append_assoc, linked_append, Linked, lastOf_cons,
    and_true]
  refine ⟨linked_frame st st' fs f hf hndf ?_ ?_, ⟨h1, h2⟩,
    linked_frame st st' rs r hr hndr ?_ ?_, ?_, ?_⟩
  · intro x hx hne
    refine hn x (List.mem_append_left _ hx) hne ?_
    intro e
    exact hdis hx (e ▸ lastOf_mem_cons rs r)
  · intro x hx
    exact hp x (List.mem_append_left _ hx)
  · intro x hx hne
    refine hn x (List.mem_append_right _ hx) ?_ hne
    intro e
    exact hdis (e ▸ lastOf_mem_cons fs f) hx
  · intro x hx
    exact hp x (List.mem_append_right _ hx)
  · simpa using h3
  · simpa using h4

/-- A cycle is kept by a state change that leaves the links of its nodes alone. -/
theorem cyc_frame (st st' : State T) (c : List Nat) (h : Cyc st c)
    (hn : ∀ x ∈ c, st'.next x = st.next x) (hp : ∀ x ∈ c, st'.prev x = st.prev x) :
    Cyc st' c := by
  cases c with
  | nil => trivial
  | cons a l =>
    have key : ∀ (m : List Nat) (b : Nat), (∀ x ∈ b :: m, x ∈ a :: l) →
        Linked st b m → Linked st' b m := by
      intro m
      induction m with
      | nil => intro _ _ _; trivial
      | cons e m ih =>
        intro b hsub hl
        obtain ⟨⟨h1, h2⟩, h3⟩ := hl
        refine ⟨⟨?_, ?_⟩, ih e (fun x hx => hsub x (List.mem_cons_of_mem _ hx)) h3⟩
        · rw [hn b (hsub b (by simp))]; exact h1
        · rw [hp e (hsub e (by simp))]; exact h2
    exact key (l ++ [a]) a (by intro x hx; simp at hx ⊢; tauto) h

/-- Moving the run `r :: rs` of a cycle so that it comes just before the head
`f`, the run being followed by the non-empty stretch `d :: ds`. -/
theorem cyc_moveRun (st st' : State T) (f r d : Nat) (fs rs ds : List Nat)
    (h : Cyc st (f :: fs ++ r :: rs ++ d :: ds)) (hnd : (f :: fs ++ r :: rs ++ d :: ds).Nodup)
    (h1 : st'.next (lastOf f fs) = d) (h2 : st'.prev d = lastOf f fs)
    (h3 : st'.next (lastOf d ds) = r) (h4 : st'.prev r = lastOf d ds)
    (h5 : st'.next (lastOf r rs) = f) (h6 : st'.prev f = lastOf r rs)
    (hn : ∀ x ∈ f :: fs ++ r :: rs ++ d :: ds, x ≠ lastOf f fs → x ≠ lastOf r rs →
      x ≠ lastOf d ds → st'.next x = st.next x)
    (hp : ∀ x ∈ fs ++ rs ++ ds, st'.prev x = st.prev x) :
    Cyc st' (f :: fs ++ d :: ds ++ r :: rs) := by
  simp only [Cyc, List.cons_append, List.append_assoc, linked_append, Linked, lastOf_cons,
    and_true] at h
  obtain ⟨hf, _, hr, _, hd, _⟩ := h
  have hnd' := hnd
  simp only [List.cons_append, List.append_assoc] at hnd'
  rw [← List.cons_append, List.nodup_append] at hnd'
  obtain ⟨hndf, hrest, hdis1⟩ := hnd'
  rw [← List.cons_append, List.nodup_append] at hrest
  obtain ⟨hndr, hndd, hdis2⟩ := hrest
  have mf := lastOf_mem_cons fs f
  have mr := lastOf_mem_cons rs r
  have md := lastOf_mem_cons ds d
  simp only [Cyc, List.cons_append, List.append_assoc, linked_append, Linked, lastOf_cons,
    and_true]
  refine ⟨linked_frame st st' fs f hf hndf ?_ ?_, ⟨h1, h2⟩,
    linked_frame st st' ds d hd hndd ?_ ?_, ⟨h3, h4⟩,
    linked_frame st st' rs r hr hndr ?_ ?_, ?_, ?_⟩
  · intro x hx hne
    refine hn x (by simp at hx ⊢; tauto) hne ?_ ?_
    · intro e; exact hdis1 hx (by rw [e]; simp at mr ⊢; tauto)
    · intro e; exact hdis1 hx (by rw [e]; simp at md ⊢; tauto)
  · intro x hx; exact hp x (by simp; tauto)
  · intro x hx hne
    refine hn x (by simp at hx ⊢; tauto) ?_ ?_ hne
    · intro e; exact hdis1 (e ▸ mf) (by simp at hx ⊢; tauto)
    · intro e; exact hdis2 (e ▸ mr) hx
  · intro x hx; exact hp x (by simp; tauto)
  · intro x hx hne
    refine hn x (by simp at hx ⊢; tauto) ?_ hne ?_
    · intro e; exact hdis1 (e ▸ mf) (by simp at hx ⊢; tauto)
    · intro e; exact hdis2 hx (e ▸ md)
  · intro x hx; exact hp x (by simp; tauto)
  · simpa using h5
  · simpa using h6

/-! ## Rings read from the sentinel -/

@[simp] theorem nodeAt_nil (s : Nat) : nodeAt s [] 0 = s := rfl

@[simp] theorem nodeAt_cons (s c : Nat) (C : List Nat) : nodeAt s (c :: C) 0 = c := rfl

/-- The successor of a node of the ring. -/
theorem ring_next (st : State T) (s x : Nat) (A C : List Nat)
    (h : Cyc st (s :: A ++ x :: C)) : st.next x = nodeAt s C 0 := by
  cases C with
  | nil =>
    simp only [Cyc, List.cons_append, List.append_assoc, linked_append, Linked, lastOf_cons,
      lastOf_nil, and_true] at h
    exact h.2.2.1
  | cons c C =>
    simp only [Cyc, List.cons_append, List.append_assoc, linked_append, Linked, lastOf_cons] at h
    exact h.2.2.1.1

/-- The predecessor of a node of the ring. -/
theorem ring_prev (st : State T) (s x : Nat) (A C : List Nat)
    (h : Cyc st (s :: A ++ x :: C)) : st.prev x = lastOf s A := by
  simp only [Cyc, List.cons_append, List.append_assoc, linked_append, Linked, lastOf_cons] at h
  exact h.2.1.2

/-- The node after the sentinel: `begin()`. -/
theorem ring_next_sentinel (st : State T) (s : Nat) (ns : List Nat) (h : Cyc st (s :: ns)) :
    st.next s = nodeAt s ns 0 := by
  cases ns with
  | nil => simpa [Cyc, Linked] using h.1.1
  | cons c C => simpa [Cyc, Linked] using h.1.1

/-- The node before the position that follows the stretch `A`. -/
theorem ring_prev_pos (st : State T) (s : Nat) (A C : List Nat)
    (h : Cyc st (s :: A ++ C)) : st.prev (nodeAt s C 0) = lastOf s A := by
  cases C with
  | nil => simpa using cyc_prev_head st s A (by simpa using h)
  | cons c C => simpa using ring_prev st s c A C h

theorem nodeAt_zero_mem (s : Nat) (A C : List Nat) : nodeAt s C 0 ∈ s :: A ++ C := by
  cases C <;> simp

/-- The ring read from a position `pos`. -/
theorem ring_from_pos (s : Nat) (A C : List Nat) :
    ∃ fs, C ++ s :: A = nodeAt s C 0 :: fs := by
  cases C with
  | nil => exact ⟨A, rfl⟩
  | cons c C => exact ⟨C ++ s :: A, rfl⟩

/-- Linking the chain `r :: rs` before the position `pos` of a ring. -/
theorem ring_insertRun (st st' : State T) (s pos r : Nat) (A C rs : List Nat)
    (h : Cyc st (s :: A ++ C)) (hpos : pos = nodeAt s C 0)
    (hr : Linked st r rs) (hnd : (s :: A ++ C ++ r :: rs).Nodup)
    (h1 : st'.next (st.prev pos) = r) (h2 : st'.prev r = st.prev pos)
    (h3 : st'.next (lastOf r rs) = pos) (h4 : st'.prev pos = lastOf r rs)
    (hn : ∀ x ∈ s :: A ++ C ++ r :: rs, x ≠ st.prev pos → x ≠ lastOf r rs →
      st'.next x = st.next x)
    (hp : ∀ x ∈ s :: A ++ C ++ r :: rs, x ≠ pos → x ≠ r → st'.prev x = st.prev x) :
    Cyc st' (s :: A ++ r :: rs ++ C) := by
  obtain ⟨fs, hfs⟩ := ring_from_pos s A C
  rw [← hpos] at hfs
  have hc : Cyc st (pos :: fs) := by
    rw [← hfs]; exact (cyc_rotate st (s :: A) C).1 h
  have hperm : (pos :: fs ++ r :: rs).Perm (s :: A ++ C ++ r :: rs) := by
    rw [← hfs]
    exact List.Perm.append_right _ List.perm_append_comm
  have hnd2 : (pos :: fs ++ r :: rs).Nodup := hperm.nodup_iff.2 hnd
  have hpl := cyc_prev_head st pos fs hc
  rw [hpl] at h1 h2 hn
  have hnd3 := hnd2
  rw [List.nodup_append] at hnd3
  have key := cyc_insertRun st st' pos r fs rs hc hr hnd2 h1 h2 h3 h4
    (fun x hx => hn x (hperm.subset hx))
    (by
      intro x hx
      refine hp x (hperm.subset ?_) ?_ ?_
      · simp at hx ⊢; tauto
      · intro e
        subst e
        rcases List.mem_append.1 hx with hx | hx
        · exact (List.nodup_cons.1 hnd3.1).1 hx
        · exact hnd3.2.2 (List.mem_cons_self _ _) (List.mem_cons_of_mem _ hx)
      · intro e
        subst e
        rcases List.mem_append.1 hx with hx | hx
        · exact hnd3.2.2 (List.mem_cons_of_mem _ hx) (List.mem_cons_self _ _)
        · exact (List.nodup_cons.1 hnd3.2.1).1 hx)
  rw [← hfs] at key
  have := (cyc_rotate st' (C ++ s :: A) (r :: rs)).1 (by simpa using key)
  have := (cyc_rotate st' (r :: rs ++ C) (s :: A)).1 (by simpa using this)
  simpa using this

/-- Unlinking the run `r :: rs` from a ring by joining its two neighbours. -/
theorem ring_removeRun (st st' : State T) (s r : Nat) (A C rs : List Nat)
    (h : Cyc st (s :: A ++ r :: rs ++ C)) (hnd : (s :: A ++ C).Nodup)
    (h1 : st'.next (st.prev r) = st.next (lastOf r rs))
    (h2 : st'.prev (st.next (lastOf r rs)) = st.prev r)
    (hn : ∀ x ∈ s :: A ++ C, x ≠ st.prev r → st'.next x = st.next x)
    (hp : ∀ x ∈ s :: A ++ C, x ≠ st.next (lastOf r rs) → st'.prev x = st.prev x) :
    Cyc st' (s :: A ++ C) := by
  obtain ⟨ds, hds⟩ := ring_from_pos s A C
  have hc : Cyc st (r :: rs ++ nodeAt s C 0 :: ds) := by
    rw [← hds]
    have := (cyc_rotate st (s :: A) (r :: rs ++ C)).1 (by simpa using h)
    simpa using this
  have hperm : (nodeAt s C 0 :: ds).Perm (s :: A ++ C) := by
    rw [← hds]; exact List.perm_append_comm
  have hpl : st.prev r = lastOf (nodeAt s C 0) ds := by
    simpa using cyc_prev_head st r (rs ++ nodeAt s C 0 :: ds) hc
  have hnl : st.next (lastOf r rs) = nodeAt s C 0 := by
    simp only [Cyc, List.cons_append, List.append_assoc, linked_append, Linked] at hc
    exact hc.2.1.1
  have hnd2 : (nodeAt s C 0 :: ds).Nodup := hperm.nodup_iff.2 hnd
  rw [hpl, hnl] at h1 h2
  rw [hpl] at hn
  rw [hnl] at hp
  have key := cyc_removeRun st st' r (nodeAt s C 0) rs ds hc hnd2 h1 h2
    (fun x hx => hn x (hperm.subset hx))
    (by
      intro x hx
      refine hp x (hperm.subset (List.mem_cons_of_mem _ hx)) ?_
      intro e
      subst e
      exact (List.nodup_cons.1 hnd2).1 hx)
  rw [← hds] at key
  exact (cyc_rotate st' C (s :: A)).1 key

/-! ## The member functions on rings -/

/-- A ring is kept by a state change that leaves its nodes and its object alone. -/
theorem isList_frame (st st' : State T) (c : Nat) (nc : List Nat) (h : IsList st c nc)
    (hn : ∀ x ∈ st.sentinel c :: nc, st'.next x = st.next x)
    (hp : ∀ x ∈ st.sentinel c :: nc, st'.prev x = st.prev x)
    (hs : st'.sentinel c = st.sentinel c) (hz : st'.msize c = st.msize c)
    (hb : st.brk ≤ st'.brk) : IsList st' c nc := by
  obtain ⟨hc, hnd, hlt, hsz⟩ := h
  refine ⟨?_, ?_, ?_, ?_⟩
  · rw [hs]; exact cyc_frame st st' _ hc hn hp
  · rw [hs]; exact hnd
  · rw [hs]; intro n hn'; exact lt_of_lt_of_le (hlt n hn') hb
  · rw [hz]; exact hsz

/-- `list()` makes an empty ring out of a fresh sentinel. -/
theorem list_ctor_isList (st : State T) (l : Nat) : IsList (list_ctor st l) l [] := by
  refine ⟨?_, ?_, ?_, ?_⟩ <;>
    simp [list_ctor, _M_create_node, Cyc, Linked, Adj]

/-- `list()` leaves every other ring alone. -/
theorem list_ctor_other (st : State T) (l c : Nat) (nc : List Nat) (hne : c ≠ l)
    (h : IsList st c nc) : IsList (list_ctor st l) c nc := by
  have hlt := h.2.2.1
  refine isList_frame st _ c nc h ?_ ?_ ?_ ?_ ?_
  · intro x hx
    have := hlt x hx
    simp [list_ctor, _M_create_node]
    omega
  · intro x hx
    have := hlt x hx
    simp [list_ctor, _M_create_node]
    omega
  · simp [list_ctor, _M_create_node, hne]
  · simp [list_ctor, _M_create_node, hne]
  · simp [list_ctor, _M_create_node]

/-- `_M_insert_node(pos, value)` links the fresh node before `pos`. -/
theorem insert_node_isList (st : State T) (l pos : Nat) (v : T) (A C : List Nat)
    (h : IsList st l (A ++ C)) (hpos : pos = nodeAt (st.sentinel l) C 0) :
    IsList (_M_insert_node st l pos v).1 l (A ++ st.brk :: C) := by
  obtain ⟨hc, hnd, hb, hs⟩ := h
  have hp : st.prev pos = lastOf (st.sentinel l) A := by
    rw [hpos]; exact ring_prev_pos st _ A C hc
  have hposm : pos ∈ st.sentinel l :: A ++ C := hpos ▸ nodeAt_zero_mem _ A C
  have hlm : lastOf (st.sentinel l) A ∈ st.sentinel l :: A ++ C :=
    List.mem_append_left _ (lastOf_mem_cons A _)
  have hposlt := hb pos (by simpa using hposm)
  have hllt := hb _ (by simpa using hlm)
  have hnd2 : (st.sentinel l :: A ++ C ++ [st.brk]).Nodup := by
    rw [List.nodup_append]
    refine ⟨by simpa using hnd, by simp, ?_⟩
    intro x hx hx2
    simp only [List.mem_singleton] at hx2
    subst hx2
    exact absurd (hb _ (by simpa using hx)) (lt_irrefl _)
  refine ⟨?_, ?_, ?_, ?_⟩
  · have := ring_insertRun st (_M_insert_node st l pos v).1 (st.sentinel l) pos st.brk A C []
      (by simpa using hc) hpos trivial hnd2
      (by simp [_M_insert_node, _M_create_node_val, hp])
      (by simp [_M_insert_node, _M_create_node_val, hp]; omega)
      (by simp [_M_insert_node, _M_create_node_val, hp]; omega)
      (by simp [_M_insert_node, _M_create_node_val, hp])
      (by
        intro x _ h1 h2
        simp [_M_insert_node, _M_create_node_val, hp] at h1 h2 ⊢
        simp [h1, h2])
      (by
        intro x _ h1 h2
        simp [_M_insert_node, _M_create_node_val, hp] at h1 h2 ⊢
        simp [h1, h2])
    simpa [_M_insert_node, _M_create_node_val] using this
  · have : (st.sentinel l :: (A ++ st.brk :: C)).Perm (st.sentinel l :: A ++ C ++ [st.brk]) := by
      simp only [List.cons_append, List.append_assoc, List.perm_cons]
      refine List.Perm.append_left _ ?_
      simpa using (List.perm_append_singleton st.brk C).symm
    simpa [_M_insert_node, _M_create_node_val] using this.nodup_iff.2 hnd2
  · intro n hn
    have : n ∈ st.sentinel l :: (A ++ C) ∨ n = st.brk := by
      simp [_M_insert_node, _M_create_node_val] at hn ⊢; tauto
    have hb' : (_M_insert_node st l pos v).1.brk = st.brk + 1 := by
      simp [_M_insert_node, _M_create_node_val]
    rcases this with h | h
    · have := hb n h; omega
    · omega
  · simp [_M_insert_node, _M_create_node_val, hs]; omega

/-- `_M_insert_node` constructs the payload of the new node only. -/
theorem insert_node_data (st : State T) (l pos : Nat) (v : T) (x : Nat) :
    (_M_insert_node st l pos v).1.data x = if x = st.brk then v else st.data x := by
  simp [_M_insert_node, _M_create_node_val]

/-- `_M_insert_node` returns the new node. -/
theorem insert_node_ret (st : State T) (l pos : Nat) (v : T) :
    (_M_insert_node st l pos v).2 = st.brk := rfl

/-- `_M_insert_node` on one list leaves every ring disjoint from it alone. -/
theorem insert_node_other (st : State T) (l pos : Nat) (v : T) (c : Nat) (nc : List Nat)
    (hne : c ≠ l) (h : IsList st c nc) (hpos : pos ∉ st.sentinel c :: nc)
    (hprev : st.prev pos ∉ st.sentinel c :: nc) :
    IsList (_M_insert_node st l pos v).1 c nc := by
  have hlt := h.2.2.1
  refine isList_frame st _ c nc h ?_ ?_ ?_ ?_ ?_
  · intro x hx
    have h1 := hlt x hx
    have h2 : x ≠ st.prev pos := fun e => hprev (e ▸ hx)
    have h3 : x ≠ st.brk := by omega
    simp [_M_insert_node, _M_create_node_val, h2, h3]
  · intro x hx
    have h1 := hlt x hx
    have h2 : x ≠ pos := fun e => hpos (e ▸ hx)
    have h3 : x ≠ st.brk := by omega
    simp [_M_insert_node, _M_create_node_val, h2, h3]
  · simp [_M_insert_node, _M_create_node_val]
  · simp [_M_insert_node, _M_create_node_val, hne]
  · simp [_M_insert_node, _M_create_node_val]

/-- `emplace(pos, args...)` links the fresh node before `pos`. -/
theorem emplace_isList (st : State T) (l pos : Nat) (v : T) (A C : List Nat)
    (h : IsList st l (A ++ C)) (hpos : pos = nodeAt (st.sentinel l) C 0) :
    IsList (emplace st l pos v).1 l (A ++ st.brk :: C) := by
  obtain ⟨hc, hnd, hb, hs⟩ := h
  have hp : st.prev pos = lastOf (st.sentinel l) A := by
    rw [hpos]; exact ring_prev_pos st _ A C hc
  have hposm : pos ∈ st.sentinel l :: A ++ C := hpos ▸ nodeAt_zero_mem _ A C
  have hlm : lastOf (st.sentinel l) A ∈ st.sentinel l :: A ++ C :=
    List.mem_append_left _ (lastOf_mem_cons A _)
  have hposlt := hb pos (by simpa using hposm)
  have hllt := hb _ (by simpa using hlm)
  have hnd2 : (st.sentinel l :: A ++ C ++ [st.brk]).Nodup := by
    rw [List.nodup_append]
    refine ⟨by simpa using hnd, by simp, ?_⟩
    intro x hx hx2
    simp only [List.mem_singleton] at hx2
    subst hx2
    exact absurd (hb _ (by simpa using hx)) (lt_irrefl _)
  refine ⟨?_, ?_, ?_, ?_⟩
  · have := ring_insertRun st (emplace st l pos v).1 (st.sentinel l) pos st.brk A C []
      (by simpa using hc) hpos trivial hnd2
      (by simp [emplace, hp])
      (by simp [emplace, hp]; omega)
      (by simp [emplace, hp]; omega)
      (by simp [emplace, hp])
      (by
        intro x _ h1 h2
        simp [emplace, hp] at h1 h2 ⊢
        simp [h1, h2])
      (by
        intro x _ h1 h2
        simp [emplace, hp] at h1 h2 ⊢
        simp [h1, h2])
    simpa [emplace] using this
  · have : (st.sentinel l :: (A ++ st.brk :: C)).Perm (st.sentinel l :: A ++ C ++ [st.brk]) := by
      simp only [List.cons_append, List.append_assoc, List.perm_cons]
      refine List.Perm.append_left _ ?_
      simpa using (List.perm_append_singleton st.brk C).symm
    simpa [emplace] using this.nodup_iff.2 hnd2
  · intro n hn
    have : n ∈ st.sentinel l :: (A ++ C) ∨ n = st.brk := by
      simp [emplace] at hn ⊢; tauto
    have hb' : (emplace st l pos v).1.brk = st.brk + 1 := by
      simp [emplace]
    rcases this with h | h
    · have := hb n h; omega
    · omega
  · simp [emplace, hs]; omega

/-- `emplace` constructs the payload of the new node only. -/
theorem emplace_data (st : State T) (l pos : Nat) (v : T) (x : Nat) :
    (emplace st l pos v).1.data x = if x = st.brk then v else st.data x := by
  simp [emplace]

/-- `emplace` returns the new node. -/
theorem emplace_ret (st : State T) (l pos : Nat) (v : T) :
    (emplace st l pos v).2 = st.brk := rfl

/-- `emplace` on one list leaves every ring disjoint from it alone. -/
theorem emplace_other (st : State T) (l pos : Nat) (v : T) (c : Nat) (nc : List Nat)
    (hne : c ≠ l) (h : IsList st c nc) (hpos : pos ∉ st.sentinel c :: nc)
    (hprev : st.prev pos ∉ st.sentinel c :: nc) :
    IsList (emplace st l pos v).1 c nc := by
  have hlt := h.2.2.1
  refine isList_frame st _ c nc h ?_ ?_ ?_ ?_ ?_
  · intro x hx
    have h1 := hlt x hx
    have h2 : x ≠ st.prev pos := fun e => hprev (e ▸ hx)
    have h3 : x ≠ st.brk := by omega
    simp [emplace, h2, h3]
  · intro x hx
    have h1 := hlt x hx
    have h2 : x ≠ pos := fun e => hpos (e ▸ hx)
    have h3 : x ≠ st.brk := by omega
    simp [emplace, h2, h3]
  · simp [emplace]
  · simp [emplace, hne]
  · simp [emplace]

/-- `pop_back()` and `pop_front()` return at once on an empty list. -/
theorem pop_empty (st : State T) (l : Nat) (h : st.msize l = 0) :
    pop_back st l = st ∧ pop_front st l = st := by
  simp [pop_back, pop_front, empty, h]

/-- `pop_back()` unlinks the last data node. -/
theorem pop_back_isList (st : State T) (l t : Nat) (ns : List Nat)
    (h : IsList st l (ns ++ [t])) : IsList (pop_back st l) l ns := by
  obtain ⟨hc, hnd, hb, hs⟩ := h
  have hne : empty st l = false := by simp [empty, hs]
  have hps : st.prev (st.sentinel l) = t := by
    simpa using cyc_prev_head st _ _ hc
  have hnt : st.next t = st.sentinel l := by
    simpa using ring_next st (st.sentinel l) t ns [] hc
  have hnd0 : (st.sentinel l :: ns).Nodup := by
    have : (st.sentinel l :: ns ++ [t]).Nodup := by simpa using hnd
    exact (List.nodup_append.1 this).1
  refine ⟨?_, ?_, ?_, ?_⟩
  · have := ring_removeRun st (pop_back st l) (st.sentinel l) t ns [] []
      (by simpa using hc) (by simpa using hnd0)
      (by simp [pop_back, hne, hps, hnt])
      (by simp [pop_back, hne, hps, hnt])
      (by
        intro x _ h1
        simp [pop_back, hne, hps, h1])
      (by
        intro x _ h1
        simp only [lastOf_nil, hnt] at h1
        simp [pop_back, hne, hps, h1])
    simpa [pop_back, hne] using this
  · simpa [pop_back, hne] using hnd0
  · intro n hn
    have h1 : n ∈ st.sentinel l :: (ns ++ [t]) := by
      simp [pop_back, hne] at hn ⊢; tauto
    simpa [pop_back, hne] using hb n h1
  · simp [pop_back, hne, hs, size_sub]

/-- `pop_front()` unlinks the first data node. -/
theorem pop_front_isList (st : State T) (l t : Nat) (ns : List Nat)
    (h : IsList st l (t :: ns)) : IsList (pop_front st l) l ns := by
  obtain ⟨hc, hnd, hb, hs⟩ := h
  have hne : empty st l = false := by simp [empty, hs]
  have hns : st.next (st.sentinel l) = t := by
    simpa using ring_next_sentinel st _ _ hc
  have hpt : st.prev t = st.sentinel l := by
    simpa using ring_prev st (st.sentinel l) t [] ns hc
  have hnd0 : (st.sentinel l :: ns).Nodup := by
    have := List.nodup_cons.1 hnd
    have h2 := List.nodup_cons.1 this.2
    refine List.nodup_cons.2 ⟨fun hm => this.1 (List.mem_cons_of_mem _ hm), h2.2⟩
  refine ⟨?_, ?_, ?_, ?_⟩
  · have := ring_removeRun st (pop_front st l) (st.sentinel l) t [] ns []
      (by simpa using hc) (by simpa using hnd0)
      (by simp [pop_front, hne, hns, hpt])
      (by simp [pop_front, hne, hns, hpt])
      (by
        intro x _ h1
        simp only [hpt] at h1
        simp [pop_front, hne, hns, h1])
      (by
        intro x _ h1
        simp only [lastOf_nil] at h1
        simp [pop_front, hne, hns, h1])
    simpa [pop_front, hne] using this
  · simpa [pop_front, hne] using hnd0
  · intro n hn
    have h1 : n ∈ st.sentinel l :: t :: ns := by
      simp [pop_front, hne] at hn ⊢; tauto
    simpa [pop_front, hne] using hb n h1
  · simp [pop_front, hne, hs, size_sub]

/-- The pops leave every payload alone. -/
theorem pop_data (st : State T) (l x : Nat) :
    (pop_back st l).data x = st.data x ∧ (pop_front st l).data x = st.data x := by
  constructor
  · unfold pop_back; split <;> simp
  · unfold pop_front; split <;> simp

/-- `pop_back()` on one list leaves every ring disjoint from it alone. -/
theorem pop_back_other (st : State T) (l t c : Nat) (ns nc : List Nat)
    (hl : IsList st l (ns ++ [t])) (hne : c ≠ l) (h : IsList st c nc)
    (hdis : List.Disjoint (st.sentinel c :: nc) (st.sentinel l :: (ns ++ [t]))) :
    IsList (pop_back st l) c nc := by
  have hc := hl.1
  have hps : st.prev (st.sentinel l) = t := by
    simpa using cyc_prev_head st _ _ hc
  have hpt : st.prev t = lastOf (st.sentinel l) ns := by
    simpa using ring_prev st (st.sentinel l) t ns [] hc
  have hm := lastOf_mem_cons ns (st.sentinel l)
  unfold pop_back
  split
  · exact h
  · refine isList_frame st _ c nc h ?_ ?_ ?_ ?_ ?_
    · intro x hx
      have : x ≠ lastOf (st.sentinel l) ns := by
        intro e; subst e
        exact hdis hx (by simp at hm ⊢; tauto)
      simp [hps, hpt, this]
    · intro x hx
      have : x ≠ st.sentinel l := by
        intro e; subst e
        exact hdis hx (by simp)
      simp [this]
    · simp
    · simp [hne]
    · simp

/-- `pop_front()` on one list leaves every ring disjoint from it alone. -/
theorem pop_front_other (st : State T) (l t c : Nat) (ns nc : List Nat)
    (hl : IsList st l (t :: ns)) (hne : c ≠ l) (h : IsList st c nc)
    (hdis : List.Disjoint (st.sentinel c :: nc) (st.sentinel l :: t :: ns)) :
    IsList (pop_front st l) c nc := by
  have hc := hl.1
  have hns : st.next (st.sentinel l) = t := by
    simpa using ring_next_sentinel st _ _ hc
  have hnt : st.next t = nodeAt (st.sentinel l) ns 0 := by
    simpa using ring_next st (st.sentinel l) t [] ns hc
  have hm := nodeAt_zero_mem (st.sentinel l) [] ns
  unfold pop_front
  split
  · exact h
  · refine isList_frame st _ c nc h ?_ ?_ ?_ ?_ ?_
    · intro x hx
      have : x ≠ st.sentinel l := by
        intro e; subst e
        exact hdis hx (by simp)
      simp [this]
    · intro x hx
      have : x ≠ nodeAt (st.sentinel l) ns 0 := by
        intro e; subst e
        exact hdis hx (by simp at hm ⊢; tauto)
      simp [hns, hnt, this]
    · simp
    · simp [hne]
    · simp

/-! ## Moving a run of nodes -/

theorem size_sub_of_le (a b : Nat) (h : b ≤ a) : size_sub a b = a - b := by
  simp [size_sub, h]

theorem ne_of_zones {X Y : List Nat} (h : ∀ x ∈ X, x ∉ Y) {x y : Nat} (hx : x ∈ X)
    (hy : y ∈ Y) : x ≠ y := fun e => h x hx (e ▸ hy)

/-- The successor of the last node of a run of the ring. -/
theorem ring_next_run (st : State T) (s r : Nat) (A rs C : List Nat)
    (h : Cyc st (s :: A ++ r :: rs ++ C)) : st.next (lastOf r rs) = nodeAt s C 0 := by
  cases C with
  | nil =>
    simp only [Cyc, List.cons_append, List.append_assoc, linked_append, Linked, lastOf_cons,
      lastOf_nil, and_true, List.append_nil, List.nil_append] at h
    exact h.2.2.2.1
  | cons c C =>
    simp only [Cyc, List.cons_append, List.append_assoc, linked_append, Linked, lastOf_cons] at h
    exact h.2.2.2.1.1

/-- The inner links of a run of the ring. -/
theorem ring_run_linked (st : State T) (s r : Nat) (A rs C : List Nat)
    (h : Cyc st (s :: A ++ r :: rs ++ C)) : Linked st r rs := by
  simp only [Cyc, List.cons_append, List.append_assoc, linked_append, Linked, lastOf_cons] at h
  exact h.2.2.1

/-- A run moved between two different lists: the destination gains the run
before `pos`, the source closes up. -/
theorem transfer_distinct (st st' : State T) (a b pos r : Nat) (A C B₁ rs B₂ : List Nat)
    (hab : a ≠ b) (ha : IsList st a (A ++ C)) (hb : IsList st b (B₁ ++ r :: rs ++ B₂))
    (hdis : ∀ x ∈ st.sentinel a :: (A ++ C), x ∉ st.sentinel b :: (B₁ ++ r :: rs ++ B₂))
    (hpos : pos = nodeAt (st.sentinel a) C 0)
    (ht : Transfer st st' a b pos r (lastOf r rs) (rs.length + 1)) :
    IsList st' a (A ++ r :: rs ++ C) ∧ IsList st' b (B₁ ++ B₂) := by
  obtain ⟨hca, hnda, hlta, hsa⟩ := ha
  obtain ⟨hcb, hndb, hltb, hsb⟩ := hb
  obtain ⟨tn, tp, _, ts, tz, tb⟩ := ht
  have hcb' : Cyc st (st.sentinel b :: B₁ ++ r :: rs ++ B₂) := by simpa using hcb
  -- pointers of the original state
  have ppos : st.prev pos = lastOf (st.sentinel a) A := by
    rw [hpos]; exact ring_prev_pos st _ A C hca
  have pr : st.prev r = lastOf (st.sentinel b) B₁ :=
    ring_prev st _ r B₁ (rs ++ B₂) (by simpa using hcb)
  have ne : st.next (lastOf r rs) = nodeAt (st.sentinel b) B₂ 0 :=
    ring_next_run st _ r B₁ rs B₂ hcb'
  -- the three zones
  have zpos : pos ∈ st.sentinel a :: (A ++ C) := by
    have := nodeAt_zero_mem (st.sentinel a) A C
    rw [hpos]; simpa using this
  have zpp : lastOf (st.sentinel a) A ∈ st.sentinel a :: (A ++ C) := by
    have := lastOf_mem_cons A (st.sentinel a)
    simp at this ⊢; tauto
  have zr : r ∈ r :: rs := by simp
  have ze : lastOf r rs ∈ r :: rs := lastOf_mem_cons rs r
  have zpr : lastOf (st.sentinel b) B₁ ∈ st.sentinel b :: B₁ ++ B₂ :=
    List.mem_append_left _ (lastOf_mem_cons B₁ _)
  have zne : nodeAt (st.sentinel b) B₂ 0 ∈ st.sentinel b :: B₁ ++ B₂ :=
    nodeAt_zero_mem _ B₁ B₂
  have hperm : (st.sentinel b :: (B₁ ++ r :: rs ++ B₂)).Perm
      ((r :: rs) ++ (st.sentinel b :: B₁ ++ B₂)) := by
    have : (st.sentinel b :: (B₁ ++ r :: rs ++ B₂)) = (st.sentinel b :: B₁) ++ ((r :: rs) ++ B₂) := by
      simp
    rw [this]
    have h2 : (r :: rs) ++ (st.sentinel b :: B₁ ++ B₂) = ((r :: rs) ++ (st.sentinel b :: B₁)) ++ B₂ := by
      simp
    rw [h2, ← List.append_assoc]
    exact List.Perm.append_right _ List.perm_append_comm
  have hndb' := hperm.nodup_iff.1 hndb
  obtain ⟨hndR, hndrest, dRb⟩ := List.nodup_append.1 hndb'
  have dRb' : ∀ x ∈ r :: rs, x ∉ st.sentinel b :: B₁ ++ B₂ := fun x hx hy => dRb hx hy
  have daR : ∀ x ∈ st.sentinel a :: (A ++ C), x ∉ r :: rs := by
    intro x hx hy
    exact hdis x hx (hperm.symm.subset (List.mem_append_left _ hy))
  have dab : ∀ x ∈ st.sentinel a :: (A ++ C), x ∉ st.sentinel b :: B₁ ++ B₂ := by
    intro x hx hy
    exact hdis x hx (hperm.symm.subset (List.mem_append_right _ hy))
  have hndaR : (st.sentinel a :: A ++ C ++ r :: rs).Nodup := by
    rw [List.nodup_append]
    exact ⟨by simpa using hnda, hndR, fun x hx hy => daR x (by simpa using hx) hy⟩
  refine ⟨⟨?_, ?_, ?_, ?_⟩, ⟨?_, ?_, ?_, ?_⟩⟩
  · rw [ts]
    refine ring_insertRun st st' _ pos r A C rs (by simpa using hca) hpos
      (ring_run_linked st _ r B₁ rs B₂ hcb') hndaR ?_ ?_ ?_ ?_ ?_ ?_
    · rw [tn, if_neg, if_pos rfl]
      rw [ppos]; exact ne_of_zones daR zpp ze
    · rw [tp, if_neg (ne_of_zones daR zpos zr).symm, if_pos rfl]
    · rw [tn, if_pos rfl]
    · rw [tp, if_pos rfl]
    · intro x hx h1 h2
      rw [tn, if_neg h2, if_neg h1, if_neg]
      rw [pr]
      rcases List.mem_append.1 hx with hx | hx
      · exact ne_of_zones dab (by simpa using hx) zpr
      · exact ne_of_zones dRb' hx zpr
    · intro x hx h1 h2
      rw [tp, if_neg h1, if_neg h2, if_neg]
      rw [ne]
      rcases List.mem_append.1 hx with hx | hx
      · exact ne_of_zones dab (by simpa using hx) zne
      · exact ne_of_zones dRb' hx zne
  · rw [ts]
    have : (st.sentinel a :: (A ++ r :: rs ++ C)).Perm (st.sentinel a :: A ++ C ++ r :: rs) := by
      simp only [List.cons_append, List.append_assoc, List.perm_cons]
      refine List.Perm.append_left _ ?_
      simpa using (List.perm_append_comm : ((r :: rs) ++ C).Perm (C ++ (r :: rs)))
    exact this.nodup_iff.2 hndaR
  · rw [ts, tb]
    intro n hn
    have : n ∈ st.sentinel a :: (A ++ C) ∨ n ∈ r :: rs := by
      simp at hn ⊢; tauto
    rcases this with h | h
    · exact hlta n h
    · exact hltb n (hperm.symm.subset (List.mem_append_left _ h))
  · rw [tz, if_pos rfl, if_neg hab, hsa]
    simp
    omega
  · rw [ts]
    refine ring_removeRun st st' _ r B₁ B₂ rs hcb' hndrest ?_ ?_ ?_ ?_
    · rw [tn, if_neg, if_neg, if_pos rfl]
      · rw [pr, ppos]; exact (ne_of_zones dab zpp zpr).symm
      · rw [pr]; exact (ne_of_zones dRb' ze zpr).symm
    · rw [tp, if_neg, if_neg, if_pos rfl]
      · rw [ne]; exact (ne_of_zones dRb' zr zne).symm
      · rw [ne]; exact (ne_of_zones dab zpos zne).symm
    · intro x hx h1
      rw [tn, if_neg, if_neg, if_neg h1]
      · rw [ppos]; exact (ne_of_zones dab zpp hx).symm
      · exact (ne_of_zones dRb' ze hx).symm
    · intro x hx h1
      rw [tp, if_neg, if_neg, if_neg h1]
      · exact (ne_of_zones dRb' zr hx).symm
      · exact (ne_of_zones dab zpos hx).symm
  · rw [ts]; simpa using hndrest
  · rw [ts, tb]
    intro n hn
    exact hltb n (hperm.symm.subset (List.mem_append_right _ (by simpa using hn)))
  · rw [tz, if_neg (Ne.symm hab), if_pos rfl, hsb, size_sub_of_le _ _ (by simp; omega)]
    simp
    omega

/-- A moved run leaves every ring disjoint from the two lists alone. -/
theorem transfer_other (st st' : State T) (a b pos r : Nat) (A C B₁ rs B₂ : List Nat)
    (ha : IsList st a (A ++ C)) (hb : IsList st b (B₁ ++ r :: rs ++ B₂))
    (hpos : pos = nodeAt (st.sentinel a) C 0)
    (ht : Transfer st st' a b pos r (lastOf r rs) (rs.length + 1))
    (c : Nat) (nc : List Nat) (hca : c ≠ a) (hcb : c ≠ b) (hc : IsList st c nc)
    (hd1 : ∀ x ∈ st.sentinel c :: nc, x ∉ st.sentinel a :: (A ++ C))
    (hd2 : ∀ x ∈ st.sentinel c :: nc, x ∉ st.sentinel b :: (B₁ ++ r :: rs ++ B₂)) :
    IsList st' c nc := by
  obtain ⟨tn, tp, _, ts, tz, tb⟩ := ht
  have hcb' : Cyc st (st.sentinel b :: B₁ ++ r :: rs ++ B₂) := by simpa using hb.1
  have ppos : st.prev pos = lastOf (st.sentinel a) A := by
    rw [hpos]; exact ring_prev_pos st _ A C ha.1
  have pr : st.prev r = lastOf (st.sentinel b) B₁ :=
    ring_prev st _ r B₁ (rs ++ B₂) (by simpa using hb.1)
  have ne : st.next (lastOf r rs) = nodeAt (st.sentinel b) B₂ 0 :=
    ring_next_run st _ r B₁ rs B₂ hcb'
  have zpos : pos ∈ st.sentinel a :: (A ++ C) := by
    have := nodeAt_zero_mem (st.sentinel a) A C
    rw [hpos]; simpa using this
  have zpp : lastOf (st.sentinel a) A ∈ st.sentinel a :: (A ++ C) := by
    have := lastOf_mem_cons A (st.sentinel a)
    simp at this ⊢; tauto
  have zr : r ∈ st.sentinel b :: (B₁ ++ r :: rs ++ B₂) := by simp
  have ze : lastOf r rs ∈ st.sentinel b :: (B₁ ++ r :: rs ++ B₂) := by
    have := lastOf_mem_cons rs r
    simp at this ⊢; tauto
  have zpr : lastOf (st.sentinel b) B₁ ∈ st.sentinel b :: (B₁ ++ r :: rs ++ B₂) := by
    have := lastOf_mem_cons B₁ (st.sentinel b)
    simp at this ⊢; tauto
  have zne : nodeAt (st.sentinel b) B₂ 0 ∈ st.sentinel b :: (B₁ ++ r :: rs ++ B₂) := by
    have := nodeAt_zero_mem (st.sentinel b) [] B₂
    simp at this ⊢; tauto
  refine isList_frame st st' c nc hc ?_ ?_ (ts c) ?_ (le_of_eq tb.symm)
  · intro x hx
    rw [tn, if_neg (ne_of_zones hd2 hx ze), if_neg, if_neg]
    · rw [pr]; exact ne_of_zones hd2 hx zpr
    · rw [ppos]; exact ne_of_zones hd1 hx zpp
  · intro x hx
    rw [tp, if_neg (ne_of_zones hd1 hx zpos), if_neg (ne_of_zones hd2 hx zr), if_neg]
    rw [ne]; exact ne_of_zones hd2 hx zne
  · rw [tz, if_neg hca, if_neg hcb]

/-- A run moved within one cycle, read from the position it is moved to. -/
theorem cyc_transfer_same (st st' : State T) (f r d : Nat) (fs rs ds : List Nat)
    (h : Cyc st (f :: fs ++ r :: rs ++ d :: ds)) (hnd : (f :: fs ++ r :: rs ++ d :: ds).Nodup)
    (tn : ∀ x, st'.next x = if x = lastOf r rs then f else if x = st.prev f then r
      else if x = st.prev r then st.next (lastOf r rs) else st.next x)
    (tp : ∀ x, st'.prev x = if x = f then lastOf r rs else if x = r then st.prev f
      else if x = st.next (lastOf r rs) then st.prev r else st.prev x) :
    Cyc st' (f :: fs ++ d :: ds ++ r :: rs) := by
  have pf : st.prev f = lastOf d ds := by
    simpa using cyc_prev_head st f (fs ++ r :: rs ++ d :: ds) (by simpa using h)
  have h' := h
  simp only [Cyc, List.cons_append, List.append_assoc, linked_append, Linked, lastOf_cons,
    and_true] at h'
  obtain ⟨_, ⟨_, pr⟩, _, ⟨ne, _⟩, _, _⟩ := h'
  have hnd' := hnd
  rw [List.append_assoc, List.nodup_append] at hnd'
  obtain ⟨hndf, hrest, hdis1⟩ := hnd'
  rw [List.nodup_append] at hrest
  obtain ⟨hndr, hndd, hdis2⟩ := hrest
  have mf := lastOf_mem_cons fs f
  have mr := lastOf_mem_cons rs r
  have md := lastOf_mem_cons ds d
  have dfr : ∀ x ∈ f :: fs, x ∉ r :: rs := fun x hx hy => hdis1 hx (List.mem_append_left _ hy)
  have dfd : ∀ x ∈ f :: fs, x ∉ d :: ds := fun x hx hy => hdis1 hx (List.mem_append_right _ hy)
  have drd : ∀ x ∈ r :: rs, x ∉ d :: ds := fun x hx hy => hdis2 hx hy
  have zf : f ∈ f :: fs := by simp
  have zr : r ∈ r :: rs := by simp
  have zd : d ∈ d :: ds := by simp
  refine cyc_moveRun st st' f r d fs rs ds h hnd ?_ ?_ ?_ ?_ ?_ ?_ ?_ ?_
  · rw [tn, if_neg (ne_of_zones dfr mf mr), if_neg, pr, if_pos rfl, ne]
    rw [pf]; exact ne_of_zones dfd mf md
  · rw [tp, if_neg (ne_of_zones dfd zf zd).symm, if_neg (ne_of_zones drd zr zd).symm, ne,
      if_pos rfl, pr]
  · rw [tn, if_neg (ne_of_zones drd mr md).symm, pf, if_pos rfl]
  · rw [tp, if_neg (ne_of_zones dfr zf zr).symm, if_pos rfl, pf]
  · rw [tn, if_pos rfl]
  · rw [tp, if_pos rfl]
  · intro x _ h1 h2 h3
    rw [tn, if_neg h2, pf, if_neg h3, pr, if_neg h1]
  · intro x hx
    have h1 : x ≠ f := by
      intro e; subst e
      rcases List.mem_append.1 hx with hx | hx
      · rcases List.mem_append.1 hx with hx | hx
        · exact (List.nodup_cons.1 hndf).1 hx
        · exact dfr x zf (List.mem_cons_of_mem _ hx)
      · exact dfd x zf (List.mem_cons_of_mem _ hx)
    have h2 : x ≠ r := by
      intro e; subst e
      rcases List.mem_append.1 hx with hx | hx
      · rcases List.mem_append.1 hx with hx | hx
        · exact dfr x (List.mem_cons_of_mem _ hx) zr
        · exact (List.nodup_cons.1 hndr).1 hx
      · exact drd x zr (List.mem_cons_of_mem _ hx)
    have h3 : x ≠ d := by
      intro e; subst e
      rcases List.mem_append.1 hx with hx | hx
      · rcases List.mem_append.1 hx with hx | hx
        · exact dfd x (List.mem_cons_of_mem _ hx) zd
        · exact drd x (List.mem_cons_of_mem _ hx) zd
      · exact (List.nodup_cons.1 hndd).1 hx
    rw [tp, if_neg h1, if_neg h2, ne, if_neg h3]

/-- A run moved forward within one list: the position follows the run, with
the non-empty stretch `d :: ds` between them. -/
theorem transfer_same_after (st st' : State T) (l pos r d : Nat) (B₁ rs ds C : List Nat)
    (h : IsList st l (B₁ ++ r :: rs ++ d :: ds ++ C))
    (hpos : pos = nodeAt (st.sentinel l) C 0)
    (ht : Transfer st st' l l pos r (lastOf r rs) (rs.length + 1)) :
    IsList st' l (B₁ ++ d :: ds ++ r :: rs ++ C) := by
  obtain ⟨hc, hnd, hlt, hs⟩ := h
  obtain ⟨tn, tp, _, ts, tz, tb⟩ := ht
  obtain ⟨fs, hfs⟩ := ring_from_pos (st.sentinel l) B₁ C
  rw [← hpos] at hfs
  have e2 : (pos :: fs ++ r :: rs ++ d :: ds) = (C ++ st.sentinel l :: B₁) ++ (r :: rs ++ d :: ds) := by
    rw [hfs]; simp
  have hperm : (pos :: fs ++ r :: rs ++ d :: ds).Perm
      (st.sentinel l :: (B₁ ++ r :: rs ++ d :: ds ++ C)) := by
    rw [List.perm_iff_count]; intro x
    have := congrArg (List.count x) hfs
    simp only [List.count_append, List.count_cons, List.count_nil] at this ⊢
    omega
  have hcyc : Cyc st (pos :: fs ++ r :: rs ++ d :: ds) := by
    rw [e2]
    have := (cyc_rotate st (st.sentinel l :: B₁ ++ (r :: rs ++ d :: ds)) C).1 (by simpa using hc)
    simpa using this
  have key := cyc_transfer_same st st' pos r d fs rs ds hcyc (hperm.nodup_iff.2 hnd) tn tp
  have e3 : (pos :: fs ++ d :: ds ++ r :: rs) = (C ++ st.sentinel l :: B₁) ++ (d :: ds ++ r :: rs) := by
    rw [hfs]; simp
  have e4 : st.sentinel l :: (B₁ ++ d :: ds ++ r :: rs ++ C) =
      (st.sentinel l :: B₁ ++ (d :: ds ++ r :: rs)) ++ C := by simp
  have hperm2 : (st.sentinel l :: (B₁ ++ d :: ds ++ r :: rs ++ C)).Perm
      (st.sentinel l :: (B₁ ++ r :: rs ++ d :: ds ++ C)) := by
    simp only [List.append_assoc, List.perm_cons]
    refine List.Perm.append_left _ ?_
    rw [← List.append_assoc, ← List.append_assoc]
    exact List.Perm.append_right _ List.perm_append_comm
  refine ⟨?_, ?_, ?_, ?_⟩
  · rw [ts, e4]
    refine (cyc_rotate st' C _).1 ?_
    rw [e3] at key
    simpa using key
  · rw [ts]; exact hperm2.nodup_iff.2 hnd
  · rw [ts, tb]
    intro n hn
    exact hlt n (hperm2.subset hn)
  · rw [tz, if_pos rfl, if_pos rfl, hs, size_sub_of_le _ _ (by simp; omega)]
    simp
    omega

/-- A run moved backward within one list: the position `p` comes before the
run. -/
theorem transfer_same_before (st st' : State T) (l p r : Nat) (A M rs B₂ : List Nat)
    (h : IsList st l (A ++ p :: M ++ r :: rs ++ B₂))
    (ht : Transfer st st' l l p r (lastOf r rs) (rs.length + 1)) :
    IsList st' l (A ++ r :: rs ++ p :: M ++ B₂) := by
  obtain ⟨hc, hnd, hlt, hs⟩ := h
  obtain ⟨tn, tp, _, ts, tz, tb⟩ := ht
  obtain ⟨ds, hds⟩ := ring_from_pos (st.sentinel l) A B₂
  have e2 : (p :: M ++ r :: rs ++ nodeAt (st.sentinel l) B₂ 0 :: ds) =
      (p :: M ++ r :: rs) ++ (B₂ ++ st.sentinel l :: A) := by
    rw [hds]
  have hperm : (p :: M ++ r :: rs ++ nodeAt (st.sentinel l) B₂ 0 :: ds).Perm
      (st.sentinel l :: (A ++ p :: M ++ r :: rs ++ B₂)) := by
    rw [List.perm_iff_count]; intro x
    have := congrArg (List.count x) hds
    simp only [List.count_append, List.count_cons, List.count_nil] at this ⊢
    omega
  have hcyc : Cyc st (p :: M ++ r :: rs ++ nodeAt (st.sentinel l) B₂ 0 :: ds) := by
    rw [e2]
    have h1 := (cyc_rotate st (st.sentinel l :: A) ((p :: M ++ r :: rs) ++ B₂)).1
      (by simpa using hc)
    simpa using h1
  have key := cyc_transfer_same st st' p r (nodeAt (st.sentinel l) B₂ 0) M rs ds hcyc
    (hperm.nodup_iff.2 hnd) tn tp
  have e3 : (p :: M ++ nodeAt (st.sentinel l) B₂ 0 :: ds ++ r :: rs) =
      ((p :: M) ++ B₂) ++ (st.sentinel l :: A ++ r :: rs) := by
    rw [List.append_assoc (p :: M), ← hds]; simp
  have hperm2 : (st.sentinel l :: (A ++ r :: rs ++ p :: M ++ B₂)).Perm
      (st.sentinel l :: (A ++ p :: M ++ r :: rs ++ B₂)) := by
    simp only [List.append_assoc, List.perm_cons]
    refine List.Perm.append_left _ ?_
    rw [← List.append_assoc, ← List.append_assoc]
    exact List.Perm.append_right _ List.perm_append_comm
  refine ⟨?_, ?_, ?_, ?_⟩
  · rw [ts]
    rw [e3] at key
    have := (cyc_rotate st' ((p :: M) ++ B₂) _).1 key
    simpa using this
  · rw [ts]; exact hperm2.nodup_iff.2 hnd
  · rw [ts, tb]
    intro n hn
    exact hlt n (hperm2.subset hn)
  · rw [tz, if_pos rfl, if_pos rfl, hs, size_sub_of_le _ _ (by simp; omega)]
    simp
    omega

/-! ## The splice family -/

/-- `splice(pos, other)` with a non-empty `other` moves the whole of it. -/
theorem splice_transfer (st : State T) (a b pos r : Nat) (rs : List Nat) (hab : a ≠ b)
    (hb : IsList st b (r :: rs)) :
    Transfer st (splice st a pos b) a b pos r (lastOf r rs) (rs.length + 1) := by
  obtain ⟨hc, hnd, _, hs⟩ := hb
  have hne : empty st b = false := by simp [empty, hs]
  have h1 : st.next (st.sentinel b) = r := by
    simpa using ring_next_sentinel st _ _ hc
  have h2 : st.prev (st.sentinel b) = lastOf r rs := by
    simpa using cyc_prev_head st _ _ hc
  have h3 : st.prev r = st.sentinel b := by
    simpa using ring_prev st (st.sentinel b) r [] rs hc
  have h4 : st.next (lastOf r rs) = st.sentinel b := by
    simpa using ring_next_run st (st.sentinel b) r [] rs [] (by simpa using hc)
  refine ⟨?_, ?_, ?_, ?_, ?_, ?_⟩
  · intro x
    simp [splice, hne, hab, h1, h2, h3, h4]
  · intro x
    simp [splice, hne, hab, h1, h2, h3, h4]
  · intro x
    simp [splice, hne, hab]
  · intro c
    simp [splice, hne, hab]
  · intro c
    simp only [splice, hne, hab, Bool.false_eq_true, if_false, msize_wsize, msize_wnext,
      msize_wprev, hs, size_sub_of_le _ _ (le_refl _)]
    by_cases hca : c = a
    · subst hca; simp [hab]
    · by_cases hcb : c = b
      · subst hcb; simp [hca, size_sub]
      · simp [hca, hcb]
  · simp [splice, hne, hab]

/-- `splice(pos, other)` with an empty `other`, or with `other` the list itself,
does nothing. -/
theorem splice_noop (st : State T) (a b pos : Nat) (h : st.msize b = 0 ∨ a = b) :
    splice st a pos b = st := by
  unfold splice
  rcases h with h | h
  · simp [empty, h]
  · simp [h]

/-- `splice(pos, other, it)` moves the node `it`, unless `pos` is `it` or its
successor. -/
theorem splice_one_transfer (st : State T) (a b pos n : Nat) (h1 : pos ≠ n)
    (h2 : pos ≠ st.next n) : Transfer st (splice_one st a pos b n) a b pos n n 1 := by
  refine ⟨?_, ?_, ?_, ?_, ?_, ?_⟩
  · intro x
    simp [splice_one, h1, h2]
  · intro x
    simp [splice_one, h1, h2]
  · intro x
    simp [splice_one, h1, h2]
  · intro c
    simp [splice_one, h1, h2]
  · intro c
    simp only [splice_one, h1, h2, or_self, if_false, msize_wsize, msize_wnext, msize_wprev]
    by_cases hca : c = a
    · subst hca
      by_cases hab : c = b
      · subst hab; simp
      · simp [hab]
    · by_cases hcb : c = b
      · subst hcb; simp [hca]
      · simp [hca, hcb]
  · simp [splice_one, h1, h2]

/-- `splice(pos, other, it)` with `pos` equal to `it` or to its successor does
nothing. -/
theorem splice_one_noop (st : State T) (a b pos n : Nat) (h : pos = n ∨ pos = st.next n) :
    splice_one st a pos b n = st := by
  simp [splice_one, h]

/-- The counting loop walks a chain that ends at `last` and counts its nodes. -/
theorem count_loop_run (st : State T) (last : Nat) (rs : List Nat) :
    ∀ (r fuel c : Nat), Linked st r rs → st.next (lastOf r rs) = last → last ∉ r :: rs →
      rs.length + 1 < fuel → count_loop st last fuel r c = some (c + (rs.length + 1)) := by
  induction rs with
  | nil =>
    intro r fuel c _ hn hnot hf
    have hr : r ≠ last := fun e => hnot (by simp [e])
    obtain ⟨f1, rfl⟩ : ∃ f1, fuel = f1 + 2 := ⟨fuel - 2, by simp at hf; omega⟩
    simp only [lastOf_nil] at hn
    simp [count_loop, hr, hn]
  | cons r2 rs ih =>
    intro r fuel c hl hn hnot hf
    have hr : r ≠ last := fun e => hnot (by simp [e])
    obtain ⟨f1, rfl⟩ : ∃ f1, fuel = f1 + 1 := ⟨fuel - 1, by omega⟩
    obtain ⟨⟨h1, _⟩, h2⟩ := hl
    have := ih r2 f1 (c + 1) h2 (by simpa using hn)
      (fun hm => hnot (List.mem_cons_of_mem _ hm)) (by simp at hf ⊢; omega)
    simp only [count_loop, hr, if_false, h1, this, List.length_cons]
    congr 1
    omega

/-- `splice(pos, other, first, last)` on an empty range does nothing. -/
theorem splice_range_empty (fuel : Nat) (st : State T) (a b pos first : Nat) :
    splice_range fuel st a pos b first first = some st := by
  simp [splice_range]

/-- `splice(pos, other, first, last)` moves the run `[first, last)`, when `pos`
is not `last`. -/
theorem splice_range_transfer (fuel : Nat) (st : State T) (a b pos r : Nat)
    (B₁ rs B₂ : List Nat) (hb : IsList st b (B₁ ++ r :: rs ++ B₂))
    (hpos : pos ≠ nodeAt (st.sentinel b) B₂ 0) (hf : rs.length + 1 < fuel) :
    ∃ st', splice_range fuel st a pos b r (nodeAt (st.sentinel b) B₂ 0) = some st' ∧
      Transfer st st' a b pos r (lastOf r rs) (rs.length + 1) := by
  obtain ⟨hc, hnd, _, hs⟩ := hb
  have hc' : Cyc st (st.sentinel b :: B₁ ++ r :: rs ++ B₂) := by simpa using hc
  have pr : st.prev r = lastOf (st.sentinel b) B₁ :=
    ring_prev st _ r B₁ (rs ++ B₂) (by simpa using hc)
  have ne : st.next (lastOf r rs) = nodeAt (st.sentinel b) B₂ 0 :=
    ring_next_run st _ r B₁ rs B₂ hc'
  have pl : st.prev (nodeAt (st.sentinel b) B₂ 0) = lastOf r rs := by
    have := ring_prev_pos st (st.sentinel b) (B₁ ++ r :: rs) B₂ (by simpa using hc)
    simpa using this
  have hperm : (st.sentinel b :: (B₁ ++ r :: rs ++ B₂)).Perm
      ((r :: rs) ++ (st.sentinel b :: B₁ ++ B₂)) := by
    rw [List.perm_iff_count]; intro x
    simp only [List.count_append, List.count_cons, List.count_nil]
    omega
  obtain ⟨hndR, _, dRb⟩ := List.nodup_append.1 (hperm.nodup_iff.1 hnd)
  have zne : nodeAt (st.sentinel b) B₂ 0 ∈ st.sentinel b :: B₁ ++ B₂ := nodeAt_zero_mem _ B₁ B₂
  have zpr : lastOf (st.sentinel b) B₁ ∈ st.sentinel b :: B₁ ++ B₂ :=
    List.mem_append_left _ (lastOf_mem_cons B₁ _)
  have hlast : nodeAt (st.sentinel b) B₂ 0 ∉ r :: rs := fun hm => dRb hm zne
  have hfl : r ≠ nodeAt (st.sentinel b) B₂ 0 := fun e => hlast (by simp [← e])
  -- the counting loop runs on the state with the run unlinked
  have hlinked := ring_run_linked st _ r B₁ rs B₂ hc'
  have hcount : count_loop
      ((st.wnext (st.prev r) (nodeAt (st.sentinel b) B₂ 0)).wprev (nodeAt (st.sentinel b) B₂ 0)
        (st.prev r)) (nodeAt (st.sentinel b) B₂ 0) fuel r 0 = some (0 + (rs.length + 1)) := by
    refine count_loop_run _ _ rs r fuel 0 ?_ ?_ hlast hf
    · refine linked_frame st _ rs r hlinked hndR ?_ ?_
      · intro x hx _
        have : x ≠ st.prev r := by
          rw [pr]; exact fun e => dRb hx (e ▸ zpr)
        simp [this]
      · intro x hx
        have : x ≠ nodeAt (st.sentinel b) B₂ 0 :=
          fun e => hlast (e ▸ List.mem_cons_of_mem _ hx)
        simp [this]
    · have : lastOf r rs ≠ st.prev r := by
        rw [pr]; exact fun e => dRb (lastOf_mem_cons rs r) (e ▸ zpr)
      simp [this, ne]
  simp only [zero_add] at hcount
  refine ⟨_, by simp only [splice_range, hfl, if_false, hcount]; rfl, ?_, ?_, ?_, ?_, ?_, ?_⟩
  · intro x
    simp [pl, hpos, ne]
  · intro x
    simp [pl, hpos, ne]
  · intro x
    simp
  · intro c
    simp
  · intro c
    simp only [msize_wsize, msize_wnext, msize_wprev]
    by_cases hca : c = a
    · subst hca
      by_cases hab : c = b
      · subst hab; simp
      · simp [hab]
    · by_cases hcb : c = b
      · subst hcb; simp [hca]
      · simp [hca, hcb]
  · simp

/-- `splice(pos, other, first, last)` within one list with `pos == last` puts
every link back: the run already stands before `pos`. -/
theorem splice_range_same_last (fuel : Nat) (st : State T) (l r : Nat)
    (B₁ rs B₂ : List Nat) (hb : IsList st l (B₁ ++ r :: rs ++ B₂)) (hf : rs.length + 1 < fuel) :
    ∃ st', splice_range fuel st l (nodeAt (st.sentinel l) B₂ 0) l r
        (nodeAt (st.sentinel l) B₂ 0) = some st' ∧
      (∀ x, st'.next x = st.next x) ∧ (∀ x, st'.prev x = st.prev x) ∧
      (∀ x, st'.data x = st.data x) ∧ (∀ c, st'.sentinel c = st.sentinel c) ∧
      (∀ c, st'.msize c = st.msize c) ∧ st'.brk = st.brk := by
  obtain ⟨hc, hnd, _, hs⟩ := hb
  have hc' : Cyc st (st.sentinel l :: B₁ ++ r :: rs ++ B₂) := by simpa using hc
  have pr : st.prev r = lastOf (st.sentinel l) B₁ :=
    ring_prev st _ r B₁ (rs ++ B₂) (by simpa using hc)
  have ne : st.next (lastOf r rs) = nodeAt (st.sentinel l) B₂ 0 :=
    ring_next_run st _ r B₁ rs B₂ hc'
  have pl : st.prev (nodeAt (st.sentinel l) B₂ 0) = lastOf r rs := by
    have := ring_prev_pos st (st.sentinel l) (B₁ ++ r :: rs) B₂ (by simpa using hc)
    simpa using this
  have nf : st.next (lastOf (st.sentinel l) B₁) = r := by
    have := ring_next_run st (st.sentinel l) (st.sentinel l) [] B₁ (r :: rs ++ B₂)
    cases B₁ with
    | nil => simpa using ring_next_sentinel st _ _ hc
    | cons b B =>
      have := ring_next_run st (st.sentinel l) b [] B (r :: rs ++ B₂) (by simpa using hc)
      simpa using this
  have hperm : (st.sentinel l :: (B₁ ++ r :: rs ++ B₂)).Perm
      ((r :: rs) ++ (st.sentinel l :: B₁ ++ B₂)) := by
    rw [List.perm_iff_count]; intro x
    simp only [List.count_append, List.count_cons, List.count_nil]
    omega
  obtain ⟨hndR, _, dRb⟩ := List.nodup_append.1 (hperm.nodup_iff.1 hnd)
  have zne : nodeAt (st.sentinel l) B₂ 0 ∈ st.sentinel l :: B₁ ++ B₂ := nodeAt_zero_mem _ B₁ B₂
  have zpr : lastOf (st.sentinel l) B₁ ∈ st.sentinel l :: B₁ ++ B₂ :=
    List.mem_append_left _ (lastOf_mem_cons B₁ _)
  have hlast : nodeAt (st.sentinel l) B₂ 0 ∉ r :: rs := fun hm => dRb hm zne
  have hfl : r ≠ nodeAt (st.sentinel l) B₂ 0 := fun e => hlast (by simp [← e])
  have hlinked := ring_run_linked st _ r B₁ rs B₂ hc'
  have hcount : count_loop
      ((st.wnext (st.prev r) (nodeAt (st.sentinel l) B₂ 0)).wprev (nodeAt (st.sentinel l) B₂ 0)
        (st.prev r)) (nodeAt (st.sentinel l) B₂ 0) fuel r 0 = some (0 + (rs.length + 1)) := by
    refine count_loop_run _ _ rs r fuel 0 ?_ ?_ hlast hf
    · refine linked_frame st _ rs r hlinked hndR ?_ ?_
      · intro x hx _
        have : x ≠ st.prev r := by
          rw [pr]; exact fun e => dRb hx (e ▸ zpr)
        simp [this]
      · intro x hx
        have : x ≠ nodeAt (st.sentinel l) B₂ 0 :=
          fun e => hlast (e ▸ List.mem_cons_of_mem _ hx)
        simp [this]
    · have : lastOf r rs ≠ st.prev r := by
        rw [pr]; exact fun e => dRb (lastOf_mem_cons rs r) (e ▸ zpr)
      simp [this, ne]
  simp only [zero_add] at hcount
  refine ⟨_, by simp only [splice_range, hfl, if_false, hcount]; rfl, ?_, ?_, ?_, ?_, ?_, ?_⟩
  · intro x
    simp only [next_wsize, next_wprev, next_wnext, prev_wsize, prev_wprev, prev_wnext, pl,
      if_true]
    by_cases h1 : x = lastOf r rs
    · rw [if_pos h1, h1, ne]
    · rw [if_neg h1]
      by_cases h2 : x = st.prev r
      · rw [if_pos h2, h2, pr, nf]
      · rw [if_neg h2, if_neg h2]
  · intro x
    simp only [next_wsize, next_wprev, next_wnext, prev_wsize, prev_wprev, prev_wnext, pl,
      if_true]
    by_cases h1 : x = nodeAt (st.sentinel l) B₂ 0
    · rw [if_pos h1, h1, pl]
    · rw [if_neg h1]
      by_cases h2 : x = r
      · rw [if_pos h2, h2]
      · rw [if_neg h2, if_neg h1]
  · intro x
    simp
  · intro c
    simp
  · intro c
    simp only [msize_wsize, msize_wnext, msize_wprev]
    by_cases hcl : c = l
    · subst hcl
      simp only [if_true, hs, size_sub_of_le _ _ (show rs.length + 1 ≤
        (B₁ ++ r :: rs ++ B₂).length by simp; omega)]
      simp
      omega
    · simp [hcl]
  · simp

/-! ## `clear` -/

theorem destroy_same (st : State T) (l a : Nat) :
    (_M_destroy_node st l a).mem = st.mem ∧ (_M_destroy_node st l a).obj = st.obj ∧
      (_M_destroy_node st l a).brk = st.brk := by
  unfold _M_destroy_node
  split <;> exact ⟨rfl, rfl, rfl⟩

/-- The loop of `clear` reaches the sentinel and changes no link. -/
theorem clear_loop_run (l : Nat) (C : List Nat) :
    ∀ (A : List Nat) (st : State T) (fuel : Nat), Cyc st (st.sentinel l :: A ++ C) →
      (st.sentinel l :: A ++ C).Nodup → C.length < fuel →
      ∃ st', clear_loop l fuel st (nodeAt (st.sentinel l) C 0) = some st' ∧
        st'.mem = st.mem ∧ st'.obj = st.obj ∧ st'.brk = st.brk := by
  induction C with
  | nil =>
    intro A st fuel _ _ hf
    obtain ⟨f1, rfl⟩ : ∃ f1, fuel = f1 + 1 := ⟨fuel - 1, by simp at hf; omega⟩
    exact ⟨st, by simp [clear_loop], rfl, rfl, rfl⟩
  | cons c C ih =>
    intro A st fuel hc hnd hf
    obtain ⟨f1, rfl⟩ : ∃ f1, fuel = f1 + 1 := ⟨fuel - 1, by omega⟩
    have hcs : c ≠ st.sentinel l := by
      intro e
      have : (st.sentinel l :: A ++ c :: C).Nodup := hnd
      rw [List.nodup_append] at this
      exact this.2.2 (List.mem_cons_self _ _) (e ▸ List.mem_cons_self _ _)
    have hn : st.next c = nodeAt (st.sentinel l) C 0 := ring_next st _ c A C hc
    obtain ⟨hm, ho, hb⟩ := destroy_same st l c
    have hsen : (_M_destroy_node st l c).sentinel l = st.sentinel l := by simp
    have hc2 : Cyc (_M_destroy_node st l c) ((_M_destroy_node st l c).sentinel l :: (A ++ [c]) ++ C) := by
      rw [hsen]
      refine cyc_frame st _ _ (by simpa using hc) ?_ ?_ <;> intro x _ <;> simp
    obtain ⟨st', h1, h2, h3, h4⟩ := ih (A ++ [c]) (_M_destroy_node st l c) f1 hc2
      (by rw [hsen]; simpa using hnd) (by simp at hf ⊢; omega)
    refine ⟨st', ?_, h2.trans hm, h3.trans ho, h4.trans hb⟩
    rw [hsen] at h1
    simp only [clear_loop, nodeAt_cons, ne_eq, hcs, not_false_eq_true, if_true, hn]
    exact h1

/-- `clear()` leaves an empty ring; only the links of the sentinel are written. -/
theorem clear_isList (fuel : Nat) (st : State T) (l : Nat) (ns : List Nat)
    (h : IsList st l ns) (hf : ns.length < fuel) :
    ∃ st', clear fuel st l = some st' ∧ IsList st' l [] ∧
      (∀ x, x ≠ st.sentinel l → st'.next x = st.next x ∧ st'.prev x = st.prev x) ∧
      (∀ x, st'.data x = st.data x) ∧ (∀ c, st'.sentinel c = st.sentinel c) ∧
      (∀ c, c ≠ l → st'.msize c = st.msize c) ∧ st'.brk = st.brk := by
  obtain ⟨hc, hnd, hlt, hs⟩ := h
  obtain ⟨st1, h1, hm, ho, hb⟩ := clear_loop_run l ns [] st fuel (by simpa using hc)
    (by simpa using hnd) hf
  have hnx : st.next (st.sentinel l) = nodeAt (st.sentinel l) ns 0 :=
    ring_next_sentinel st _ _ hc
  have e1 : ∀ x, st1.next x = st.next x := fun x => by simp [State.next, hm]
  have e2 : ∀ x, st1.prev x = st.prev x := fun x => by simp [State.prev, hm]
  have e3 : ∀ x, st1.data x = st.data x := fun x => by simp [State.data, hm]
  have e4 : ∀ c, st1.sentinel c = st.sentinel c := fun x => by simp [State.sentinel, ho]
  have e5 : ∀ c, st1.msize c = st.msize c := fun x => by simp [State.msize, ho]
  refine ⟨_, by simp only [clear, hnx, h1]; rfl, ⟨?_, ?_, ?_, ?_⟩, ?_, ?_, ?_, ?_, ?_⟩
  · simp [Cyc, Linked, Adj]
  · simp
  · intro n hn
    simp only [sentinel_wsize, sentinel_wprev, sentinel_wnext, e4, List.mem_singleton] at hn
    simp only [brk_wsize, brk_wprev, brk_wnext, hb]
    exact hlt n (by simp [hn])
  · simp
  · intro x hx
    simp [e1, e2, e4, hx]
  · intro x
    simp [e3]
  · intro c
    simp [e4]
  · intro c hc
    simp [e5, hc]
  · simp [hb]


/-! ## `merge` -/

theorem merge_loop_zero (lt : T → T → Bool) (a b : Nat) (st : State T) (tc oc : Nat) :
    merge_loop lt a b 0 st tc oc = none := rfl

theorem merge_loop_succ (lt : T → T → Bool) (a b fuel : Nat) (st : State T) (tc oc : Nat) :
    merge_loop lt a b (fuel + 1) st tc oc =
      if tc ≠ st.sentinel a ∧ oc ≠ st.sentinel b then
        if lt (st.data oc) (st.data tc) then
          merge_loop lt a b fuel (merge_move st a b tc oc) tc (st.next oc)
        else merge_loop lt a b fuel st (st.next tc) oc
      else some (st, tc, oc) := rfl

theorem merge_eq (lt : T → T → Bool) (fuel : Nat) (st : State T) (a b : Nat) :
    merge lt fuel st a b =
      if a = b ∨ empty st b then some st
      else
        match merge_loop lt a b fuel st (st.next (st.sentinel a)) (st.next (st.sentinel b)) with
        | none => none
        | some (st, _, otherCur) =>
          if otherCur ≠ st.sentinel b then some (merge_tail st a b otherCur) else some st := rfl

@[simp] theorem mergeNodes_nil_left (lt : T → T → Bool) (data : Nat → T) (os : List Nat) :
    mergeNodes lt data [] os = os := by
  rw [mergeNodes]

@[simp] theorem mergeNodes_nil_right (lt : T → T → Bool) (data : Nat → T) (ts : List Nat) :
    mergeNodes lt data ts [] = ts := by
  cases ts <;> rw [mergeNodes]

theorem mergeNodes_cons_cons (lt : T → T → Bool) (data : Nat → T) (t o : Nat)
    (ts os : List Nat) :
    mergeNodes lt data (t :: ts) (o :: os) =
      if lt (data o) (data t) then o :: mergeNodes lt data (t :: ts) os
      else t :: mergeNodes lt data ts (o :: os) := by
  rw [mergeNodes]

/-- The nodes whose links a moved run can change lie on the two rings. -/
theorem transfer_footprint (st st' : State T) (a b pos r : Nat) (A C B₁ rs B₂ : List Nat)
    (ha : IsList st a (A ++ C)) (hb : IsList st b (B₁ ++ r :: rs ++ B₂))
    (hpos : pos = nodeAt (st.sentinel a) C 0)
    (ht : Transfer st st' a b pos r (lastOf r rs) (rs.length + 1)) (x : Nat)
    (hd1 : x ∉ st.sentinel a :: (A ++ C))
    (hd2 : x ∉ st.sentinel b :: (B₁ ++ r :: rs ++ B₂)) :
    st'.next x = st.next x ∧ st'.prev x = st.prev x := by
  obtain ⟨tn, tp, _, ts, tz, tb⟩ := ht
  have hcb' : Cyc st (st.sentinel b :: B₁ ++ r :: rs ++ B₂) := by simpa using hb.1
  have ppos : st.prev pos = lastOf (st.sentinel a) A := by
    rw [hpos]; exact ring_prev_pos st _ A C ha.1
  have pr : st.prev r = lastOf (st.sentinel b) B₁ :=
    ring_prev st _ r B₁ (rs ++ B₂) (by simpa using hb.1)
  have ne : st.next (lastOf r rs) = nodeAt (st.sentinel b) B₂ 0 :=
    ring_next_run st _ r B₁ rs B₂ hcb'
  have zpos : pos ∈ st.sentinel a :: (A ++ C) := by
    have := nodeAt_zero_mem (st.sentinel a) A C
    rw [hpos]; simpa using this
  have zpp : lastOf (st.sentinel a) A ∈ st.sentinel a :: (A ++ C) := by
    have := lastOf_mem_cons A (st.sentinel a)
    simp at this ⊢; tauto
  have zr : r ∈ st.sentinel b :: (B₁ ++ r :: rs ++ B₂) := by simp
  have ze : lastOf r rs ∈ st.sentinel b :: (B₁ ++ r :: rs ++ B₂) := by
    have := lastOf_mem_cons rs r
    simp at this ⊢; tauto
  have zpr : lastOf (st.sentinel b) B₁ ∈ st.sentinel b :: (B₁ ++ r :: rs ++ B₂) := by
    have := lastOf_mem_cons B₁ (st.sentinel b)
    simp at this ⊢; tauto
  have zne : nodeAt (st.sentinel b) B₂ 0 ∈ st.sentinel b :: (B₁ ++ r :: rs ++ B₂) := by
    have := nodeAt_zero_mem (st.sentinel b) [] B₂
    simp at this ⊢; tauto
  have q1 : x ≠ lastOf r rs := fun e => hd2 (e ▸ ze)
  have q2 : x ≠ lastOf (st.sentinel b) B₁ := fun e => hd2 (e ▸ zpr)
  have q3 : x ≠ lastOf (st.sentinel a) A := fun e => hd1 (e ▸ zpp)
  have q4 : x ≠ pos := fun e => hd1 (e ▸ zpos)
  have q5 : x ≠ r := fun e => hd2 (e ▸ zr)
  have q6 : x ≠ nodeAt (st.sentinel b) B₂ 0 := fun e => hd2 (e ▸ zne)
  constructor
  · rw [tn, if_neg q1, ppos, if_neg q3, pr, if_neg q2]
  · rw [tp, if_neg q4, if_neg q5, ne, if_neg q6]

/-- One pass through the `if` branch of the loop of `merge` moves `otherCur`
before `thisCur`. -/
theorem merge_move_transfer (st : State T) (a b tc oc : Nat) (hab : a ≠ b)
    (h2 : tc ≠ st.next oc) : Transfer st (merge_move st a b tc oc) a b tc oc oc 1 := by
  refine ⟨?_, ?_, ?_, ?_, ?_, ?_⟩
  · intro x
    simp [merge_move, h2]
  · intro x
    simp [merge_move, h2]
  · intro x
    simp [merge_move]
  · intro c
    simp [merge_move]
  · intro c
    simp only [merge_move, msize_wsize, msize_wnext, msize_wprev]
    by_cases hca : c = a
    · subst hca; simp [hab]
    · by_cases hcb : c = b
      · subst hcb; simp [hca, Ne.symm hab]
      · simp [hca, hcb]
  · simp [merge_move]

/-- The final `if` of `merge` moves the whole of what is left of `other` to the
end of the list. -/
theorem merge_tail_transfer (st : State T) (a b r : Nat) (X rs : List Nat) (hab : a ≠ b)
    (ha : IsList st a X) (hb : IsList st b (r :: rs))
    (hdis : ∀ x ∈ st.sentinel a :: X, x ∉ st.sentinel b :: r :: rs) :
    Transfer st (merge_tail st a b r) a b (st.sentinel a) r (lastOf r rs) (rs.length + 1) := by
  obtain ⟨hc, hnd, _, hs⟩ := hb
  have h2 : st.prev (st.sentinel b) = lastOf r rs := by
    simpa using cyc_prev_head st _ _ hc
  have h3 : st.prev r = st.sentinel b := by
    simpa using ring_prev st (st.sentinel b) r [] rs hc
  have h4 : st.next (lastOf r rs) = st.sentinel b := by
    simpa using ring_next_run st (st.sentinel b) r [] rs [] (by simpa using hc)
  have h5 : st.prev (st.sentinel a) = lastOf (st.sentinel a) X := cyc_prev_head st _ _ ha.1
  have zsb : st.sentinel b ∈ st.sentinel b :: r :: rs := by simp
  have n1 : st.sentinel b ≠ lastOf r rs :=
    lastOf_not_mem_of_nodup rs _ r hnd
  have n2 : st.sentinel b ≠ lastOf (st.sentinel a) X :=
    (ne_of_zones hdis (lastOf_mem_cons X _) zsb).symm
  have n3 : st.sentinel b ≠ st.sentinel a := (ne_of_zones hdis (by simp) zsb).symm
  have n4 : st.sentinel b ≠ r := fun e => (List.nodup_cons.1 hnd).1 (by simp [← e])
  refine ⟨?_, ?_, ?_, ?_, ?_, ?_⟩
  · intro x
    simp only [merge_tail, next_wprev, next_wnext, next_wsize, prev_wprev, prev_wnext,
      prev_wsize, sentinel_wprev, sentinel_wnext, sentinel_wsize, h2, h3, h4, h5, n3, n4,
      if_false]
    by_cases e1 : x = st.sentinel b
    · subst e1; simp [n1, n2]
    · simp [e1]
  · intro x
    simp only [merge_tail, next_wprev, next_wnext, next_wsize, prev_wprev, prev_wnext,
      prev_wsize, sentinel_wprev, sentinel_wnext, sentinel_wsize, h2, h3, h4, h5, n3, n4,
      if_false]
    by_cases e1 : x = st.sentinel b
    · subst e1; simp [n3, n4]
    · simp [e1]
  · intro x
    simp [merge_tail]
  · intro c
    simp [merge_tail]
  · intro c
    simp only [merge_tail, msize_wsize, msize_wnext, msize_wprev, hs]
    by_cases hca : c = a
    · subst hca; simp [hab]
    · by_cases hcb : c = b
      · subst hcb; simp [hca, size_sub]
      · simp [hca, hcb]
  · simp [merge_tail]

/-- The loop of `merge`: with enough fuel it stops, having moved a front part
of the source into the destination in the order of `mergeNodes`; the rest of
that order is what is left in the source. -/
theorem merge_loop_spec (lt : T → T → Bool) (a b : Nat) (hab : a ≠ b) :
    ∀ (n : Nat) (Ts Os A : List Nat) (st : State T) (fuel : Nat),
      Ts.length + Os.length = n → n < fuel →
      IsList st a (A ++ Ts) → IsList st b Os →
      (∀ x ∈ st.sentinel a :: (A ++ Ts), x ∉ st.sentinel b :: Os) →
      ∃ st' tc M Os',
        merge_loop lt a b fuel st (nodeAt (st.sentinel a) Ts 0) (nodeAt (st.sentinel b) Os 0) =
          some (st', tc, nodeAt (st.sentinel b) Os' 0) ∧
        IsList st' a (A ++ M) ∧ IsList st' b Os' ∧
        M ++ Os' = mergeNodes lt st.data Ts Os ∧
        (∀ x ∈ st.sentinel a :: (A ++ M), x ∉ st.sentinel b :: Os') ∧
        (∀ x, x ∉ st.sentinel a :: (A ++ Ts) → x ∉ st.sentinel b :: Os →
          st'.next x = st.next x ∧ st'.prev x = st.prev x) ∧
        (∀ x, st'.data x = st.data x) ∧ (∀ c, st'.sentinel c = st.sentinel c) ∧
        (∀ c, c ≠ a → c ≠ b → st'.msize c = st.msize c) ∧ st'.brk = st.brk := by
  intro n
  induction n with
  | zero =>
    intro Ts Os A st fuel hn hf ha hb hdis
    obtain ⟨f1, rfl⟩ : ∃ f1, fuel = f1 + 1 := ⟨fuel - 1, by omega⟩
    have hT : Ts = [] := List.length_eq_zero.1 (by omega)
    have hO : Os = [] := List.length_eq_zero.1 (by omega)
    subst hT hO
    refine ⟨st, st.sentinel a, [], [], ?_, ha, hb, by simp, by simpa using hdis, ?_, ?_, ?_, ?_, rfl⟩
    · simp [merge_loop_succ]
    all_goals intros; first | rfl | exact ⟨rfl, rfl⟩
  | succ n ih =>
    intro Ts Os A st fuel hn hf ha hb hdis
    obtain ⟨f1, rfl⟩ : ∃ f1, fuel = f1 + 1 := ⟨fuel - 1, by omega⟩
    cases Ts with
    | nil =>
      refine ⟨st, st.sentinel a, [], Os, ?_, ha, hb, by simp, by simpa using hdis, ?_, ?_, ?_, ?_, rfl⟩
      · simp [merge_loop_succ]
      all_goals intros; first | rfl | exact ⟨rfl, rfl⟩
    | cons t Ts =>
      cases Os with
      | nil =>
        refine ⟨st, t, t :: Ts, [], ?_, ha, hb, by simp, hdis, ?_, ?_, ?_, ?_, rfl⟩
        · simp [merge_loop_succ]
        all_goals intros; first | rfl | exact ⟨rfl, rfl⟩
      | cons o Os =>
        have hta : t ≠ st.sentinel a := by
          intro e
          have h1 : (st.sentinel a :: (A ++ t :: Ts)).Nodup := ha.2.1
          exact (List.nodup_cons.1 h1).1 (by simp [← e])
        have hob : o ≠ st.sentinel b := by
          intro e
          have h1 : (st.sentinel b :: o :: Os).Nodup := hb.2.1
          exact (List.nodup_cons.1 h1).1 (by simp [← e])
        have hno : st.next o = nodeAt (st.sentinel b) Os 0 :=
          ring_next st _ o [] Os hb.1
        have hnt : st.next t = nodeAt (st.sentinel a) Ts 0 :=
          ring_next st _ t A Ts (by simpa using ha.1)
        rw [merge_loop_succ, nodeAt_cons, nodeAt_cons, if_pos ⟨hta, hob⟩, mergeNodes_cons_cons]
        by_cases hlt : lt (st.data o) (st.data t) = true
        · rw [if_pos hlt, if_pos hlt]
          have htn : t ≠ st.next o := by
            rw [hno]
            have := nodeAt_zero_mem (st.sentinel b) [] Os
            exact ne_of_zones hdis (by simp) (by simp at this ⊢; tauto)
          have ht := merge_move_transfer st a b t o hab htn
          have hb' : IsList st b ([] ++ o :: [] ++ Os) := by simpa using hb
          obtain ⟨ha1, hb1⟩ := transfer_distinct st _ a b t o A (t :: Ts) [] [] Os hab ha hb'
            (by simpa using hdis) rfl ht
          have hfp := transfer_footprint st _ a b t o A (t :: Ts) [] [] Os ha hb' rfl ht
          obtain ⟨_, _, td, ts, tz, tb⟩ := ht
          have hdata : (merge_move st a b t o).data = st.data := funext td
          have hndb : (st.sentinel b :: o :: Os).Nodup := hb.2.1
          have ho1 : o ∉ Os := (List.nodup_cons.1 (List.nodup_cons.1 hndb).2).1
          have ho2 : o ≠ st.sentinel b := hob
          have hdis1 : ∀ x ∈ (merge_move st a b t o).sentinel a :: ((A ++ [o]) ++ t :: Ts),
              x ∉ (merge_move st a b t o).sentinel b :: Os := by
            intro x hx hy
            rw [ts] at hx hy
            by_cases hxo : x = o
            · subst hxo
              simp at hy
              tauto
            · exact hdis x (by simp at hx ⊢; tauto) (by simp at hy ⊢; tauto)
          obtain ⟨st', tc, M, Os', h1, h2, h3, h4, h10, h5, h6, h7, h8, h9⟩ :=
            ih (t :: Ts) Os (A ++ [o]) (merge_move st a b t o) f1 (by simp at hn ⊢; omega)
              (by omega) (by simpa using ha1) (by simpa using hb1) hdis1
          simp only [ts, nodeAt_cons] at h1
          refine ⟨st', tc, o :: M, Os', ?_, by simpa using h2, h3, ?_, ?_, ?_, ?_, ?_, ?_, ?_⟩
          · rw [hno]; exact h1
          · rw [hdata] at h4; simp [h4]
          · simpa [ts] using h10
          · intro x hx hy
            have := hfp x hx (by simpa using hy)
            constructor
            · rw [(h5 x (by rw [ts]; simp at hx hy ⊢; tauto)
                (by rw [ts]; simp at hx hy ⊢; tauto)).1, this.1]
            · rw [(h5 x (by rw [ts]; simp at hx hy ⊢; tauto)
                (by rw [ts]; simp at hx hy ⊢; tauto)).2, this.2]
          · intro x; rw [h6, td]
          · intro c; rw [h7, ts]
          · intro c hca hcb; rw [h8 c hca hcb, tz, if_neg hca, if_neg hcb]
          · rw [h9, tb]
        · rw [if_neg hlt, if_neg hlt]
          obtain ⟨st', tc, M, Os', h1, h2, h3, h4, h10, h5, h6, h7, h8, h9⟩ :=
            ih Ts (o :: Os) (A ++ [t]) st f1 (by simp at hn ⊢; omega) (by omega)
              (by simpa using ha) hb (by simpa using hdis)
          refine ⟨st', tc, t :: M, Os', ?_, by simpa using h2, h3, ?_, ?_, ?_, h6, h7, h8, h9⟩
          · rw [hnt]; simpa using h1
          · simp [h4]
          · simpa using h10
          · intro x hx hy
            exact h5 x (by simpa using hx) hy

/-! ### The order of the merged nodes -/

/-- The merged order holds exactly the nodes of the two lists. -/
theorem mergeNodes_perm (lt : T → T → Bool) (data : Nat → T) :
    ∀ (ts os : List Nat), (mergeNodes lt data ts os).Perm (ts ++ os) := by
  intro ts
  induction ts with
  | nil => intro os; simp
  | cons t ts iht =>
    intro os
    induction os with
    | nil => simp
    | cons o os iho =>
      rw [mergeNodes_cons_cons]
      split
      · refine List.Perm.trans (List.Perm.cons o iho) ?_
        rw [List.perm_iff_count]; intro x
        simp only [List.count_append, List.count_cons, List.count_nil]
        omega
      · exact List.Perm.cons t (iht (o :: os))

/-- The nodes of the destination keep their relative order. -/
theorem mergeNodes_sublist_left (lt : T → T → Bool) (data : Nat → T) :
    ∀ (ts os : List Nat), ts.Sublist (mergeNodes lt data ts os) := by
  intro ts
  induction ts with
  | nil => intro os; simp
  | cons t ts iht =>
    intro os
    induction os with
    | nil => simp
    | cons o os iho =>
      rw [mergeNodes_cons_cons]
      split
      · exact List.Sublist.cons o iho
      · exact List.Sublist.cons₂ t (iht (o :: os))

/-- The nodes of the source keep their relative order. -/
theorem mergeNodes_sublist_right (lt : T → T → Bool) (data : Nat → T) :
    ∀ (ts os : List Nat), os.Sublist (mergeNodes lt data ts os) := by
  intro ts
  induction ts with
  | nil => intro os; simp
  | cons t ts iht =>
    intro os
    induction os with
    | nil => simp
    | cons o os iho =>
      rw [mergeNodes_cons_cons]
      split
      · exact List.Sublist.cons₂ o iho
      · exact List.Sublist.cons t (iht (o :: os))

/-- Merging two ascending sequences gives an ascending sequence. -/
theorem mergeNodes_sorted (lt : T → T → Bool) (data : Nat → T)
    (hasym : ∀ x y, lt x y = true → lt y x = false)
    (htrans : ∀ x y z, lt y x = false → lt z y = false → lt z x = false) :
    ∀ (ts os : List Nat), ts.Pairwise (fun x y => lt (data y) (data x) = false) →
      os.Pairwise (fun x y => lt (data y) (data x) = false) →
      (mergeNodes lt data ts os).Pairwise (fun x y => lt (data y) (data x) = false) := by
  intro ts
  induction ts with
  | nil => intro os _ h; simpa using h
  | cons t ts iht =>
    intro os
    induction os with
    | nil => intro h _; simpa using h
    | cons o os iho =>
      intro hts hos
      rw [mergeNodes_cons_cons]
      obtain ⟨ht1, ht2⟩ := List.pairwise_cons.1 hts
      obtain ⟨ho1, ho2⟩ := List.pairwise_cons.1 hos
      by_cases hlt : lt (data o) (data t) = true
      · rw [if_pos hlt]
        refine List.pairwise_cons.2 ⟨?_, iho hts ho2⟩
        intro y hy
        rcases List.mem_append.1 ((mergeNodes_perm lt data (t :: ts) os).subset hy) with h | h
        · rcases List.mem_cons.1 h with h | h
          · subst h; exact hasym _ _ hlt
          · exact htrans _ _ _ (hasym _ _ hlt) (ht1 y h)
        · exact ho1 y h
      · rw [if_neg hlt]
        have hlt' : lt (data o) (data t) = false := by simpa using hlt
        refine List.pairwise_cons.2 ⟨?_, iht (o :: os) ht2 hos⟩
        intro y hy
        rcases List.mem_append.1 ((mergeNodes_perm lt data ts (o :: os)).subset hy) with h | h
        · exact ht1 y h
        · rcases List.mem_cons.1 h with h | h
          · subst h; exact hlt'
          · exact htrans _ _ _ hlt' (ho1 y h)

/-- In the merged order a node of the source comes before a node of the
destination only when its payload is less. -/
theorem mergeNodes_cross (lt : T → T → Bool) (data : Nat → T)
    (htrans : ∀ x y z, lt y x = false → lt z y = false → lt z x = false) :
    ∀ (ts os : List Nat), ts.Pairwise (fun x y => lt (data y) (data x) = false) →
      (∀ x ∈ ts, x ∉ os) →
      (mergeNodes lt data ts os).Pairwise
        (fun x y => x ∈ os → y ∈ ts → lt (data x) (data y) = true) := by
  intro ts
  induction ts with
  | nil =>
    intro os _ _
    rw [mergeNodes_nil_left]
    exact List.pairwise_of_forall (fun x y _ hy => absurd hy (List.not_mem_nil _))
  | cons t ts iht =>
    intro os
    induction os with
    | nil =>
      intro _ _
      rw [mergeNodes_nil_right]
      exact List.pairwise_of_forall (fun x y hx _ => absurd hx (List.not_mem_nil _))
    | cons o os iho =>
      intro hts hdis
      rw [mergeNodes_cons_cons]
      obtain ⟨ht1, ht2⟩ := List.pairwise_cons.1 hts
      by_cases hlt : lt (data o) (data t) = true
      · rw [if_pos hlt]
        have hall : ∀ y ∈ t :: ts, lt (data o) (data y) = true := by
          intro y hy
          rcases List.mem_cons.1 hy with h | h
          · subst h; exact hlt
          · by_contra hc
            have hc' : lt (data o) (data y) = false := by simpa using hc
            have := htrans _ _ _ (ht1 y h) hc'
            rw [hlt] at this
            exact absurd this (by simp)
        refine List.pairwise_cons.2 ⟨fun y _ _ hy => hall y hy, ?_⟩
        refine (iho hts (fun x hx hy => hdis x hx (List.mem_cons_of_mem _ hy))).imp ?_
        intro x y hR hx hy
        rcases List.mem_cons.1 hx with h | h
        · subst h; exact hall y hy
        · exact hR h hy
      · rw [if_neg hlt]
        refine List.pairwise_cons.2 ⟨fun y _ ht _ => absurd ht (hdis t (by simp)), ?_⟩
        refine List.Pairwise.imp_of_mem ?_
          (iht (o :: os) ht2 (fun x hx => hdis x (List.mem_cons_of_mem _ hx)))
        intro x y _ hym hR hx hy
        rcases List.mem_cons.1 hy with h | h
        · subst h
          rcases List.mem_append.1 ((mergeNodes_perm lt data ts (o :: os)).subset hym) with h' | h'
          · exact hR hx h'
          · exact absurd h' (hdis y (by simp))
        · exact hR hx h

/-- `merge(other)` on two different lists: with enough fuel it returns, the
destination holds the nodes of both in the order of `mergeNodes`, the source is
left empty, and nothing off the two rings is written. -/
theorem merge_spec (lt : T → T → Bool) (fuel : Nat) (st : State T) (a b : Nat)
    (Ts Os : List Nat) (hab : a ≠ b) (ha : IsList st a Ts) (hb : IsList st b Os)
    (hdis : ∀ x ∈ st.sentinel a :: Ts, x ∉ st.sentinel b :: Os)
    (hf : Ts.length + Os.length < fuel) :
    ∃ st', merge lt fuel st a b = some st' ∧
      IsList st' a (mergeNodes lt st.data Ts Os) ∧ IsList st' b [] ∧
      (∀ x, x ∉ st.sentinel a :: Ts → x ∉ st.sentinel b :: Os →
        st'.next x = st.next x ∧ st'.prev x = st.prev x) ∧
      (∀ x, st'.data x = st.data x) ∧ (∀ c, st'.sentinel c = st.sentinel c) ∧
      (∀ c, c ≠ a → c ≠ b → st'.msize c = st.msize c) ∧ st'.brk = st.brk := by
  rw [merge_eq]
  cases Os with
  | nil =>
    have he : empty st b = true := by simp [empty, hb.2.2.2]
    refine ⟨st, by simp [he], by simpa using ha, hb, ?_, ?_, ?_, ?_, rfl⟩
    all_goals intros; first | rfl | exact ⟨rfl, rfl⟩
  | cons o Os =>
    have he : empty st b = false := by simp [empty, hb.2.2.2]
    have hna : st.next (st.sentinel a) = nodeAt (st.sentinel a) Ts 0 :=
      ring_next_sentinel st _ _ ha.1
    have hnb : st.next (st.sentinel b) = nodeAt (st.sentinel b) (o :: Os) 0 :=
      ring_next_sentinel st _ _ hb.1
    obtain ⟨st1, tc, M, Os', h1, h2, h3, h4, h10, h5, h6, h7, h8, h9⟩ :=
      merge_loop_spec lt a b hab _ Ts (o :: Os) [] st fuel rfl hf (by simpa using ha) hb
        (by simpa using hdis)
    simp only [hab, he, Bool.false_eq_true, or_self, if_false, hna, hnb, h1]
    cases Os' with
    | nil =>
      have : ¬ (nodeAt (st.sentinel b) [] 0 ≠ st1.sentinel b) := by simp [h7]
      rw [if_neg this]
      simp only [List.append_nil] at h4
      refine ⟨st1, rfl, ?_, h3, ?_, h6, h7, h8, h9⟩
      · rw [← h4]; simpa using h2
      · intro x hx hy; exact h5 x (by simpa using hx) hy
    | cons r rs =>
      have hr : r ≠ st1.sentinel b := by
        intro e
        have h11 : (st1.sentinel b :: r :: rs).Nodup := h3.2.1
        exact (List.nodup_cons.1 h11).1 (by simp [← e])
      rw [nodeAt_cons, if_pos hr]
      have h10' : ∀ x ∈ st1.sentinel a :: M, x ∉ st1.sentinel b :: r :: rs := by
        simpa [h7] using h10
      have h2' : IsList st1 a M := by simpa using h2
      have ht := merge_tail_transfer st1 a b r M rs hab h2' h3 h10'
      obtain ⟨ha2, hb2⟩ := transfer_distinct st1 _ a b (st1.sentinel a) r M [] [] rs [] hab
        (by simpa using h2') (by simpa using h3) (by simpa using h10') rfl ht
      have hfp := transfer_footprint st1 _ a b (st1.sentinel a) r M [] [] rs []
        (by simpa using h2') (by simpa using h3) rfl ht
      obtain ⟨_, _, td, ts, tz, tb⟩ := ht
      have hmem : ∀ x, x ∈ M ++ r :: rs ↔ x ∈ Ts ++ o :: Os := by
        intro x
        rw [h4]
        exact (mergeNodes_perm lt st.data Ts (o :: Os)).mem_iff
      refine ⟨_, rfl, ?_, by simpa using hb2, ?_, ?_, ?_, ?_, ?_⟩
      · rw [← h4]; simpa using ha2
      · intro x hx hy
        have hx1 : x ∉ st1.sentinel a :: (M ++ []) ∧ x ∉ st1.sentinel b :: ([] ++ r :: rs ++ []) := by
          have := hmem x
          simp only [h7, List.mem_cons, List.mem_append, List.append_nil, List.nil_append,
            not_or] at this hx hy ⊢
          tauto
        have e1 := hfp x hx1.1 hx1.2
        have e2 := h5 x (by simpa using hx) hy
        exact ⟨e1.1.trans e2.1, e1.2.trans e2.2⟩
      · intro x; rw [td, h6]
      · intro c; rw [ts, h7]
      · intro c hca hcb; rw [tz, if_neg hca, if_neg hcb, h8 c hca hcb]
      · rw [tb, h9]

/-! ## Positions by index -/

theorem nodeAt_drop (s : Nat) (ns : List Nat) (p : Nat) (hp : p ≤ ns.length) :
    nodeAt s ns p = nodeAt s (ns.drop p) 0 := by
  unfold nodeAt
  rw [← List.drop_append_of_le_length hp]
  simp [List.getD_eq_getElem?_getD]

theorem elems_append (st : State T) (l₁ l₂ : List Nat) :
    elems st (l₁ ++ l₂) = elems st l₁ ++ elems st l₂ := by
  simp [elems]

theorem elems_congr (st st' : State T) (ns : List Nat) (h : ∀ x, st'.data x = st.data x) :
    elems st' ns = elems st ns := by
  simp [elems, h]

theorem elems_take (st : State T) (ns : List Nat) (p : Nat) :
    elems st (ns.take p) = (elems st ns).take p := by
  simp [elems, List.map_take]

theorem elems_drop (st : State T) (ns : List Nat) (p : Nat) :
    elems st (ns.drop p) = (elems st ns).drop p := by
  simp [elems, List.map_drop]

theorem split_range (ns : List Nat) (i j : Nat) (hij : i ≤ j) :
    ns = ns.take i ++ (ns.drop i).take (j - i) ++ ns.drop j := by
  have : ns.drop j = (ns.drop i).drop (j - i) := by
    rw [List.drop_drop]; congr 1; omega
  rw [this, List.append_assoc, List.take_append_drop, List.take_append_drop]

/-! ## Single-node splice by index -/

theorem nodeAt_lt (s : Nat) (ns : List Nat) (k : Nat) (hk : k < ns.length) :
    ns.drop k = nodeAt s ns k :: ns.drop (k + 1) := by
  rw [List.drop_eq_getElem_cons hk]
  congr 1
  unfold nodeAt
  rw [List.getD_eq_getElem?_getD, List.getElem?_append_left hk, List.getElem?_eq_getElem hk]
  rfl

theorem nodeAt_mem (s : Nat) (ns : List Nat) (k : Nat) (hk : k < ns.length) :
    nodeAt s ns k ∈ ns := by
  have := nodeAt_lt s ns k hk
  exact List.mem_of_mem_drop (this ▸ List.mem_cons_self _ _)

theorem nodeAt_mem_ring (s : Nat) (ns : List Nat) (p : Nat) (hp : p ≤ ns.length) :
    nodeAt s ns p ∈ s :: ns := by
  rw [nodeAt_drop s ns p hp]
  have := nodeAt_zero_mem s (ns.take p) (ns.drop p)
  simpa using this

/-- `splice(pos, *this, it)` with `pos` before `it`. -/
theorem splice_one_same_before (st : State T) (l pp n : Nat) (A M B₂ : List Nat)
    (h : IsList st l (A ++ pp :: M ++ n :: B₂)) :
    IsList (splice_one st l pp l n) l (A ++ n :: pp :: M ++ B₂) ∧
      Transfer st (splice_one st l pp l n) l l pp n n 1 := by
  have hnd : (st.sentinel l :: (A ++ pp :: M ++ n :: B₂)).Nodup := h.2.1
  have hnn : st.next n = nodeAt (st.sentinel l) B₂ 0 :=
    ring_next st _ n (A ++ pp :: M) B₂ (by simpa using h.1)
  have h1 : pp ≠ n := by
    intro e; subst e
    have := (List.nodup_cons.1 hnd).2
    rw [List.append_assoc, List.nodup_append] at this
    have h2 := this.2.1
    simp at h2
  have h2 : pp ≠ st.next n := by
    rw [hnn]
    intro e
    have hm := nodeAt_zero_mem (st.sentinel l) [] B₂
    rw [← e] at hm
    have hc : List.count pp (st.sentinel l :: (A ++ pp :: M ++ n :: B₂)) ≤ 1 :=
      List.nodup_iff_count_le_one.1 hnd pp
    have hc2 : 1 ≤ List.count pp (st.sentinel l :: B₂) := by
      exact List.count_pos_iff.2 (by simpa using hm)
    simp only [List.count_append, List.count_cons, List.count_nil, beq_self_eq_true,
      if_true] at hc hc2
    omega
  have ht := splice_one_transfer st l l pp n h1 h2
  have := transfer_same_before st _ l pp n A M [] B₂ (by simpa using h) (by simpa using ht)
  exact ⟨by simpa using this, ht⟩

/-- `splice(pos, *this, it)` with `pos` after the successor of `it`. -/
theorem splice_one_same_after (st : State T) (l pos n d : Nat) (B₁ ds C : List Nat)
    (h : IsList st l (B₁ ++ n :: d :: ds ++ C)) (hpos : pos = nodeAt (st.sentinel l) C 0) :
    IsList (splice_one st l pos l n) l (B₁ ++ d :: ds ++ n :: C) ∧
      Transfer st (splice_one st l pos l n) l l pos n n 1 := by
  have hnd : (st.sentinel l :: (B₁ ++ n :: d :: ds ++ C)).Nodup := h.2.1
  have hnn : st.next n = d := by
    have := ring_next st (st.sentinel l) n B₁ (d :: ds ++ C) (by simpa using h.1)
    simpa using this
  have hm := nodeAt_zero_mem (st.sentinel l) [] C
  rw [← hpos] at hm
  have hcnt : ∀ x, List.count x (st.sentinel l :: (B₁ ++ n :: d :: ds ++ C)) ≤ 1 :=
    fun x => List.nodup_iff_count_le_one.1 hnd x
  have hc2 : 1 ≤ List.count pos (st.sentinel l :: C) :=
    List.count_pos_iff.2 (by simpa using hm)
  have h1 : pos ≠ n := by
    intro e
    have hc := hcnt pos
    rw [e] at hc hc2
    simp only [List.count_append, List.count_cons, List.count_nil, beq_self_eq_true,
      if_true] at hc hc2
    omega
  have h2 : pos ≠ st.next n := by
    rw [hnn]
    intro e
    have hc := hcnt pos
    rw [e] at hc hc2
    simp only [List.count_append, List.count_cons, List.count_nil, beq_self_eq_true,
      if_true] at hc hc2
    omega
  have ht := splice_one_transfer st l l pos n h1 h2
  have := transfer_same_after st _ l pos n d B₁ [] ds C (by simpa using h) hpos
    (by simpa using ht)
  exact ⟨by simpa using this, ht⟩

theorem keeps_refl (st : State T) (S : List Nat) (a b : Nat) : Keeps st st S a b :=
  ⟨fun _ _ => ⟨rfl, rfl⟩, fun _ => rfl, fun _ => rfl, fun _ _ _ => rfl, rfl⟩

/-- A moved run changes nothing off the two rings. -/
theorem transfer_keeps (st st' : State T) (a b pos r : Nat) (A C B₁ rs B₂ : List Nat)
    (ha : IsList st a (A ++ C)) (hb : IsList st b (B₁ ++ r :: rs ++ B₂))
    (hpos : pos = nodeAt (st.sentinel a) C 0)
    (ht : Transfer st st' a b pos r (lastOf r rs) (rs.length + 1)) :
    Keeps st st' ((st.sentinel a :: (A ++ C)) ++ (st.sentinel b :: (B₁ ++ r :: rs ++ B₂))) a b := by
  refine ⟨?_, ht.2.2.1, ht.2.2.2.1, ?_, ht.2.2.2.2.2⟩
  · intro x hx
    exact transfer_footprint st st' a b pos r A C B₁ rs B₂ ha hb hpos ht x
      (fun h => hx (List.mem_append_left _ h)) (fun h => hx (List.mem_append_right _ h))
  · intro c hca hcb
    rw [ht.2.2.2.2.1, if_neg hca, if_neg hcb]

theorem not_mem_of_split {ns X Y : List Nat} {n : Nat} (hnd : ns.Nodup)
    (h : ns = X ++ n :: Y) : n ∉ X ∧ n ∉ Y := by
  subst h
  have hc := List.nodup_iff_count_le_one.1 hnd n
  simp only [List.count_append, List.count_cons, List.count_nil, beq_self_eq_true,
    if_true] at hc
  constructor
  · exact List.count_eq_zero.1 (by omega)
  · exact List.count_eq_zero.1 (by omega)

/-- `splice(pos, *this, it)` by index: the node at index `k` is taken out and
put back before the node that stood at index `p`. -/
theorem splice_one_same (st : State T) (l p k : Nat) (ns : List Nat) (h : IsList st l ns)
    (hp : p ≤ ns.length) (hk : k < ns.length) :
    IsList (splice_one st l (nodeAt (st.sentinel l) ns p) l (nodeAt (st.sentinel l) ns k)) l
        ((ns.take p).erase (nodeAt (st.sentinel l) ns k) ++
          nodeAt (st.sentinel l) ns k :: (ns.drop p).erase (nodeAt (st.sentinel l) ns k)) ∧
      Keeps st (splice_one st l (nodeAt (st.sentinel l) ns p) l (nodeAt (st.sentinel l) ns k))
        (st.sentinel l :: ns) l l ∧
      (p = k ∨ p = k + 1 →
        splice_one st l (nodeAt (st.sentinel l) ns p) l (nodeAt (st.sentinel l) ns k) = st) := by
  have hnd : ns.Nodup := (List.nodup_cons.1 h.2.1).2
  have hn := nodeAt_lt (st.sentinel l) ns k hk
  generalize nodeAt (st.sentinel l) ns k = n at hn ⊢
  have hns : ns = ns.take k ++ n :: ns.drop (k + 1) := by
    rw [← hn, List.take_append_drop]
  have hkeep : ∀ (st' : State T) (pos : Nat) (A C B₁ B₂ : List Nat), ns = A ++ C →
      ns = B₁ ++ n :: B₂ → pos = nodeAt (st.sentinel l) C 0 → Transfer st st' l l pos n n 1 →
      Keeps st st' (st.sentinel l :: ns) l l := by
    intro st' pos A C B₁ B₂ e1 e2 hpos ht
    have := transfer_keeps st st' l l pos n A C B₁ [] B₂ (by rw [← e1]; exact h)
      (by simpa [← e2] using h) hpos (by simpa using ht)
    obtain ⟨k1, k2, k3, k4, k5⟩ := this
    refine ⟨?_, k2, k3, k4, k5⟩
    intro x hx
    refine k1 x ?_
    rw [← e1]
    have e3 : B₁ ++ n :: [] ++ B₂ = ns := by rw [e2]; simp
    rw [e3]
    have hx' : ¬x = st.sentinel l ∧ x ∉ ns := by simpa using hx
    simp only [List.mem_append, List.mem_cons, not_or]
    exact ⟨hx', hx'⟩
  rcases Nat.lt_or_ge k p with hkp | hpk
  · -- the position comes after the node
    have hsplit := split_range ns (k + 1) p hkp
    have htk : ns.take (k + 1) = ns.take k ++ [n] := by
      rw [List.take_succ, List.getElem?_eq_getElem hk]
      have := List.drop_eq_getElem_cons hk
      rw [hn] at this
      simp only [List.cons.injEq] at this
      simp [this.1]
    rw [htk] at hsplit
    have htp : ns.take p = ns.take k ++ n :: (ns.drop (k + 1)).take (p - (k + 1)) := by
      have h1 := congrArg (List.take p) hsplit
      rw [List.take_left' (by simp [List.length_take]; omega)] at h1
      rw [h1]; simp
    have hpos : nodeAt (st.sentinel l) ns p = nodeAt (st.sentinel l) (ns.drop p) 0 :=
      nodeAt_drop _ ns p hp
    have hsplit' : ns = ns.take k ++ n :: ((ns.drop (k + 1)).take (p - (k + 1)) ++ ns.drop p) := by
      conv_lhs => rw [hsplit]
      simp
    obtain ⟨hn1, hn2⟩ := not_mem_of_split hnd hsplit'
    have hn3 : n ∉ ns.drop p := fun hm => hn2 (List.mem_append_right _ hm)
    have hn4 : n ∉ (ns.drop (k + 1)).take (p - (k + 1)) :=
      fun hm => hn2 (List.mem_append_left _ hm)
    rw [htp, List.erase_append_right _ hn1, List.erase_cons_head, List.erase_of_not_mem hn3]
    cases hD : (ns.drop (k + 1)).take (p - (k + 1)) with
    | nil =>
      have hpk1 : p = k + 1 := by
        have := congrArg List.length hD
        simp [List.length_take, List.length_drop] at this
        omega
      rw [hD] at hsplit'
      have hnn : st.next n = nodeAt (st.sentinel l) (ns.drop p) 0 :=
        ring_next st _ n (ns.take k) (ns.drop p) (by
          have := h.1
          rw [hsplit'] at this
          simpa using this)
      have hst := splice_one_noop st l l (nodeAt (st.sentinel l) ns p) n
        (Or.inr (by rw [hnn, hpos]))
      rw [hst]
      refine ⟨?_, keeps_refl _ _ _ _, fun _ => rfl⟩
      simp only [List.append_nil]
      rw [show ns.take k ++ n :: ns.drop p = ns from by
        conv_rhs => rw [hsplit']
        simp]
      exact h
    | cons d ds =>
      rw [hD] at hsplit'
      have hh : IsList st l (ns.take k ++ n :: d :: ds ++ ns.drop p) := by
        have := h
        rw [hsplit'] at this
        simpa using this
      obtain ⟨r1, r2⟩ := splice_one_same_after st l _ n d (ns.take k) ds (ns.drop p) hh hpos
      refine ⟨by simpa using r1, ?_, ?_⟩
      · exact hkeep _ _ (ns.take p) (ns.drop p) (ns.take k) (d :: ds ++ ns.drop p)
          (List.take_append_drop p ns).symm (by simpa using hsplit') hpos r2
      · intro hc
        have := congrArg List.length hD
        simp [List.length_take, List.length_drop] at this
        omega
  · -- the position comes before the node, or is the node
    have hsplit := split_range ns p k hpk
    rw [hn] at hsplit
    have hdp : ns.drop p = (ns.drop p).take (k - p) ++ n :: ns.drop (k + 1) := by
      have h1 := congrArg (List.drop p) hsplit
      rw [List.append_assoc, List.drop_left' (by simp [List.length_take]; omega)] at h1
      exact h1
    have hsplit' : ns = (ns.take p ++ (ns.drop p).take (k - p)) ++ n :: ns.drop (k + 1) := by
      conv_lhs => rw [hsplit]
    obtain ⟨hn1, hn2⟩ := not_mem_of_split hnd hsplit'
    have hn3 : n ∉ ns.take p := fun hm => hn1 (List.mem_append_left _ hm)
    have hn4 : n ∉ (ns.drop p).take (k - p) := fun hm => hn1 (List.mem_append_right _ hm)
    have hpos : nodeAt (st.sentinel l) ns p = nodeAt (st.sentinel l) (ns.drop p) 0 :=
      nodeAt_drop _ ns p hp
    rw [List.erase_of_not_mem hn3, hdp, List.erase_append_right _ hn4, List.erase_cons_head,
      hpos]
    cases hM : (ns.drop p).take (k - p) with
    | nil =>
      rw [hM] at hdp hsplit'
      have hpos' : nodeAt (st.sentinel l) (ns.drop p) 0 = n := by
        rw [hdp]; rfl
      rw [hpos']
      rw [splice_one_noop st l l n n (Or.inl rfl)]
      refine ⟨?_, keeps_refl _ _ _ _, fun _ => rfl⟩
      simp only [List.nil_append]
      rw [show ns.take p ++ n :: ns.drop (k + 1) = ns from by
        conv_rhs => rw [hsplit']
        simp]
      exact h
    | cons pp M =>
      rw [hM] at hdp hsplit'
      have hpos' : nodeAt (st.sentinel l) (ns.drop p) 0 = pp := by
        rw [hdp]; rfl
      rw [hpos']
      have hh : IsList st l (ns.take p ++ pp :: M ++ n :: ns.drop (k + 1)) := by
        have := h
        rw [hsplit'] at this
        simpa using this
      obtain ⟨r1, r2⟩ := splice_one_same_before st l pp n (ns.take p) M (ns.drop (k + 1)) hh
      refine ⟨by simpa using r1, ?_, ?_⟩
      · refine hkeep _ pp (ns.take p) (ns.drop p) (ns.take p ++ pp :: M) (ns.drop (k + 1))
          (List.take_append_drop p ns).symm (by simpa using hsplit') ?_ r2
        rw [hpos']
      · intro hc
        have := congrArg List.length hM
        simp [List.length_take, List.length_drop] at this
        omega

/-- `splice(pos, other, it)` between two different lists, by index. -/
theorem splice_one_distinct (st : State T) (a b p k : Nat) (na nb : List Nat) (hab : a ≠ b)
    (ha : IsList st a na) (hb : IsList st b nb)
    (hdis : ∀ x ∈ st.sentinel a :: na, x ∉ st.sentinel b :: nb)
    (hp : p ≤ na.length) (hk : k < nb.length) :
    IsList (splice_one st a (nodeAt (st.sentinel a) na p) b (nodeAt (st.sentinel b) nb k)) a
        (na.take p ++ nodeAt (st.sentinel b) nb k :: na.drop p) ∧
      IsList (splice_one st a (nodeAt (st.sentinel a) na p) b (nodeAt (st.sentinel b) nb k)) b
        (nb.eraseIdx k) ∧
      Keeps st (splice_one st a (nodeAt (st.sentinel a) na p) b (nodeAt (st.sentinel b) nb k))
        ((st.sentinel a :: na) ++ (st.sentinel b :: nb)) a b ∧
      size (splice_one st a (nodeAt (st.sentinel a) na p) b (nodeAt (st.sentinel b) nb k)) a =
        size st a + 1 ∧
      size (splice_one st a (nodeAt (st.sentinel a) na p) b (nodeAt (st.sentinel b) nb k)) b =
        size st b - 1 := by
  have hn := nodeAt_lt (st.sentinel b) nb k hk
  have hnm := nodeAt_mem (st.sentinel b) nb k hk
  generalize nodeAt (st.sentinel b) nb k = n at hn hnm ⊢
  have hns : nb = nb.take k ++ n :: [] ++ nb.drop (k + 1) := by
    conv_lhs => rw [← List.take_append_drop k nb, hn]
    simp
  have hposm := nodeAt_mem_ring (st.sentinel a) na p hp
  have hnn : st.next n = nodeAt (st.sentinel b) (nb.drop (k + 1)) 0 :=
    ring_next st _ n (nb.take k) (nb.drop (k + 1)) (by
      have := hb.1
      rw [hns] at this
      simpa using this)
  have hnnm : st.next n ∈ st.sentinel b :: nb := by
    rw [hnn]
    have := nodeAt_zero_mem (st.sentinel b) (nb.take (k + 1)) (nb.drop (k + 1))
    simpa using this
  have h1 : nodeAt (st.sentinel a) na p ≠ n :=
    ne_of_zones hdis hposm (List.mem_cons_of_mem _ hnm)
  have h2 : nodeAt (st.sentinel a) na p ≠ st.next n := ne_of_zones hdis hposm hnnm
  have ht := splice_one_transfer st a b _ n h1 h2
  have ha' : IsList st a (na.take p ++ na.drop p) := by simpa using ha
  have hb' : IsList st b (nb.take k ++ n :: [] ++ nb.drop (k + 1)) := by rw [← hns]; exact hb
  have hdis' : ∀ x ∈ st.sentinel a :: (na.take p ++ na.drop p),
      x ∉ st.sentinel b :: (nb.take k ++ n :: [] ++ nb.drop (k + 1)) := by
    rw [← hns]; simpa using hdis
  obtain ⟨r1, r2⟩ := transfer_distinct st _ a b _ n (na.take p) (na.drop p) (nb.take k) []
    (nb.drop (k + 1)) hab ha' hb' hdis' (nodeAt_drop _ na p hp) (by simpa using ht)
  have hk' := transfer_keeps st _ a b _ n (na.take p) (na.drop p) (nb.take k) []
    (nb.drop (k + 1)) ha' hb' (nodeAt_drop _ na p hp) (by simpa using ht)
  rw [← hns, List.take_append_drop] at hk'
  obtain ⟨_, _, _, _, tz, _⟩ := ht
  refine ⟨by simpa using r1, ?_, hk', ?_, ?_⟩
  · rw [List.eraseIdx_eq_take_drop_succ]; exact r2
  · simp only [size, tz, if_true, if_neg hab]
  · simp only [size, tz, if_neg (Ne.symm hab), if_true]
    rw [size_sub_of_le]
    rw [hb.2.2.2]; omega

theorem length_move (ns : List Nat) (n p : Nat) (hnd : ns.Nodup) (hnm : n ∈ ns) :
    ((ns.take p).erase n ++ n :: (ns.drop p).erase n).length = ns.length := by
  have hsp : n ∈ ns.take p ++ ns.drop p := by
    rw [List.take_append_drop]; exact hnm
  have hl : (ns.take p).length + (ns.drop p).length = ns.length := by
    rw [← List.length_append, List.take_append_drop]
  have hc := List.nodup_iff_count_le_one.1 hnd n
  rw [← List.take_append_drop p ns, List.count_append] at hc
  rcases List.mem_append.1 hsp with hm | hm
  · have hnd : n ∉ ns.drop p := by
      intro hm2
      have c1 := List.count_pos_iff.2 hm
      have c2 := List.count_pos_iff.2 hm2
      omega
    have hpos2 : 0 < (ns.take p).length := List.length_pos_of_mem hm
    rw [List.length_append, List.length_cons, List.length_erase_of_mem hm,
      List.erase_of_not_mem hnd]
    omega
  · have hnd : n ∉ ns.take p := by
      intro hm2
      have c1 := List.count_pos_iff.2 hm
      have c2 := List.count_pos_iff.2 hm2
      omega
    have hpos2 : 0 < (ns.drop p).length := List.length_pos_of_mem hm
    rw [List.length_append, List.length_cons, List.length_erase_of_mem hm,
      List.erase_of_not_mem hnd]
    omega

theorem pair_sublist (l : List Nat) (d s : Nat) (hd : d ∈ l) (hs : s ∈ l) (hne : d ≠ s) :
    [d, s].Sublist l ∨ [s, d].Sublist l := by
  induction l with
  | nil => simp at hd
  | cons x l ih =>
    by_cases hxd : x = d
    · subst hxd
      have : s ∈ l := by
        rcases List.mem_cons.1 hs with h | h
        · exact absurd h.symm hne
        · exact h
      exact Or.inl (List.Sublist.cons₂ _ (List.singleton_sublist.2 this))
    · by_cases hxs : x = s
      · subst hxs
        have : d ∈ l := by
          rcases List.mem_cons.1 hd with h | h
          · exact absurd h.symm hxd
          · exact h
        exact Or.inr (List.Sublist.cons₂ _ (List.singleton_sublist.2 this))
      · have h1 : d ∈ l := by
          rcases List.mem_cons.1 hd with h | h
          · exact absurd h.symm hxd
          · exact h
        have h2 : s ∈ l := by
          rcases List.mem_cons.1 hs with h | h
          · exact absurd h.symm hxs
          · exact h
        rcases ih h1 h2 with h | h
        · exact Or.inl (List.Sublist.cons _ h)
        · exact Or.inr (List.Sublist.cons _ h)

/-! ## Walking a ring -/

theorem linked_iterate (st : State T) (l : List Nat) :
    ∀ (a k : Nat) (hk : k < l.length), Linked st a l → (st.next)^[k + 1] a = l.get ⟨k, hk⟩ := by
  induction l with
  | nil => intro a k hk; simp at hk
  | cons b l ih =>
    intro a k hk hl
    obtain ⟨⟨h1, _⟩, h2⟩ := hl
    rw [Function.iterate_succ_apply, h1]
    cases k with
    | zero => rfl
    | succ k =>
      have := ih b k (by simpa using hk) h2
      simpa using this

/-- The walk of `k + 1` steps from the sentinel reaches the position of index `k`. -/
theorem iterate_next_sentinel (st : State T) (l : Nat) (ns : List Nat) (h : IsList st l ns)
    (k : Nat) (hk : k ≤ ns.length) :
    (st.next)^[k + 1] (st.sentinel l) = nodeAt (st.sentinel l) ns k := by
  have hc : Linked st (st.sentinel l) (ns ++ [st.sentinel l]) := h.1
  have hk' : k < (ns ++ [st.sentinel l]).length := by simp; omega
  rw [linked_iterate st _ _ k hk' hc]
  unfold nodeAt
  rw [List.getD_eq_getElem?_getD, List.getElem?_eq_getElem hk']
  rfl

/-- The iterator `std::next(begin(), p)` is the position of index `p`. -/
theorem iterAt_eq (st : State T) (l : Nat) (ns : List Nat) (h : IsList st l ns)
    (p : Nat) (hp : p ≤ ns.length) : iterAt st l p = nodeAt (st.sentinel l) ns p := by
  unfold iterAt list_begin
  rw [← Function.iterate_succ_apply]
  exact iterate_next_sentinel st l ns h p hp

/-- On a ring `prev` undoes `next` and `next` undoes `prev`, and both stay on
the ring. -/
theorem ring_closed (st : State T) (l : Nat) (ns : List Nat) (h : IsList st l ns) (x : Nat)
    (hx : x ∈ st.sentinel l :: ns) :
    st.next x ∈ st.sentinel l :: ns ∧ st.prev (st.next x) = x ∧
      st.prev x ∈ st.sentinel l :: ns ∧ st.next (st.prev x) = x := by
  obtain ⟨A, C, e⟩ := List.append_of_mem hx
  have hA : ∃ A', st.sentinel l :: ns = st.sentinel l :: A' ++ x :: C ∨
      (x = st.sentinel l ∧ ns = C) := by
    cases A with
    | nil =>
      simp only [List.nil_append, List.cons.injEq] at e
      exact ⟨[], Or.inr ⟨e.1.symm, e.2⟩⟩
    | cons a A' =>
      simp only [List.cons_append, List.cons.injEq] at e
      refine ⟨A', Or.inl ?_⟩
      rw [e.2]; simp
  obtain ⟨A', hA | ⟨hxs, hns⟩⟩ := hA
  · have hns : ns = A' ++ x :: C := by simpa using hA
    have hc : Cyc st (st.sentinel l :: A' ++ x :: C) := by
      have := h.1
      rw [hns] at this
      simpa using this
    have h1 := ring_next st _ x A' C hc
    have h2 := ring_prev st _ x A' C hc
    have m1 : nodeAt (st.sentinel l) C 0 ∈ st.sentinel l :: ns := by
      rw [hns]
      have := nodeAt_zero_mem (st.sentinel l) [] C
      simp at this ⊢; tauto
    have m2 : lastOf (st.sentinel l) A' ∈ st.sentinel l :: ns := by
      rw [hns]
      have := lastOf_mem_cons A' (st.sentinel l)
      simp at this ⊢; tauto
    have h3 : st.prev (nodeAt (st.sentinel l) C 0) = x := by
      have := ring_prev_pos st (st.sentinel l) (A' ++ [x]) C (by simpa using hc)
      simpa using this
    have h4 : st.next (lastOf (st.sentinel l) A') = x := by
      cases A' with
      | nil => simpa using ring_next_sentinel st _ _ hc
      | cons a A'' =>
        have := ring_next_run st (st.sentinel l) a [] A'' (x :: C) (by simpa using hc)
        simpa using this
    rw [h1, h2]
    exact ⟨m1, h3, m2, h4⟩
  · subst hxs
    have h1 := ring_next_sentinel st _ _ h.1
    have h2 := cyc_prev_head st _ _ h.1
    have m1 : nodeAt (st.sentinel l) ns 0 ∈ st.sentinel l :: ns := by
      have := nodeAt_zero_mem (st.sentinel l) [] ns
      simpa using this
    have m2 := lastOf_mem_cons ns (st.sentinel l)
    have h3 : st.prev (nodeAt (st.sentinel l) ns 0) = st.sentinel l := by
      have := ring_prev_pos st (st.sentinel l) [] ns (by simpa using h.1)
      simpa using this
    have h4 : st.next (lastOf (st.sentinel l) ns) = st.sentinel l := cyc_next_last st _ _ h.1
    rw [h1, h2]
    exact ⟨m1, h3, m2, h4⟩

theorem iterate_next_mem (st : State T) (l : Nat) (ns : List Nat) (h : IsList st l ns)
    (k : Nat) : (st.next)^[k] (st.sentinel l) ∈ st.sentinel l :: ns := by
  induction k with
  | zero => simp
  | succ k ih =>
    rw [Function.iterate_succ_apply']
    exact (ring_closed st l ns h _ ih).1

/-- Walking back undoes walking forward. -/
theorem iterate_prev_next (st : State T) (l : Nat) (ns : List Nat) (h : IsList st l ns)
    (k m : Nat) :
    (st.prev)^[k] ((st.next)^[k + m] (st.sentinel l)) = (st.next)^[m] (st.sentinel l) := by
  induction k with
  | zero => simp
  | succ k ih =>
    rw [Function.iterate_succ_apply, show k + 1 + m = (k + m) + 1 by omega,
      Function.iterate_succ_apply', (ring_closed st l ns h _ (iterate_next_mem st l ns h _)).2.1]
    exact ih

/-- A ring is consistent. -/
theorem ringOK_of_isList (st : State T) (l : Nat) (ns : List Nat) (h : IsList st l ns) :
    RingOK st l := by
  have hsz : size st l = ns.length := h.2.2.2
  have hnd : (st.sentinel l :: ns).Nodup := h.2.1
  have hfull : (st.next)^[ns.length + 1] (st.sentinel l) = st.sentinel l := by
    rw [iterate_next_sentinel st l ns h _ (le_refl _)]
    unfold nodeAt
    simp [List.getD_eq_getElem?_getD]
  have hne : ∀ k, 0 < k → k ≤ ns.length → (st.next)^[k] (st.sentinel l) ≠ st.sentinel l := by
    intro k hk hk' e
    obtain ⟨j, rfl⟩ : ∃ j, k = j + 1 := ⟨k - 1, by omega⟩
    rw [iterate_next_sentinel st l ns h j (by omega)] at e
    have := nodeAt_mem (st.sentinel l) ns j (by omega)
    rw [e] at this
    exact (List.nodup_cons.1 hnd).1 this
  refine ⟨?_, ?_, ?_, ?_, ?_⟩
  · intro k
    have := ring_closed st l ns h _ (iterate_next_mem st l ns h k)
    exact ⟨this.2.1, this.2.2.2⟩
  · rw [hsz]; exact hfull
  · rw [hsz]; exact hne
  · rw [hsz]
    have := iterate_prev_next st l ns h (ns.length + 1) 0
    simpa [hfull] using this
  · rw [hsz]
    intro k hk hk' e
    have h1 := iterate_prev_next st l ns h k (ns.length + 1 - k)
    rw [show k + (ns.length + 1 - k) = ns.length + 1 by omega, hfull, e] at h1
    exact hne (ns.length + 1 - k) (by omega) (by omega) h1.symm

/-- Distinct addresses below `n` are at most `n`. -/
theorem length_le_of_nodup_lt (l : List Nat) (n : Nat) (hnd : l.Nodup) (hlt : ∀ x ∈ l, x < n) :
    l.length ≤ n := by
  have h1 : l.toFinset ⊆ Finset.range n := by
    intro x hx
    exact Finset.mem_range.2 (hlt x (List.mem_toFinset.1 hx))
  have h2 := Finset.card_le_card h1
  rw [List.toFinset_card_of_nodup hnd, Finset.card_range] at h2
  exact h2

/-! ## The invariant of a world of lists -/

/-- A change that leaves the links of a ring's nodes alone keeps the ring. -/
theorem keeps_other (st st' : State T) (S : List Nat) (a b c : Nat) (nc : List Nat)
    (hk : Keeps st st' S a b) (hc : IsList st c nc) (hca : c ≠ a) (hcb : c ≠ b)
    (hd : ∀ x ∈ st.sentinel c :: nc, x ∉ S) : IsList st' c nc := by
  obtain ⟨k1, _, k3, k4, k5⟩ := hk
  exact isList_frame st st' c nc hc (fun x hx => (k1 x (hd x hx)).1)
    (fun x hx => (k1 x (hd x hx)).2) (k3 c) (k4 c hca hcb) (le_of_eq k5.symm)

/-- After an operation on the lists `a` and `b` (possibly the same) that keeps
the other rings, the world is again made of disjoint rings. -/
theorem inv_update (w : World T) (st' : State T) (R : Nat → List Nat) (a b : Nat)
    (Na Nb : List Nat) (hinv : Inv w R) (ha : a < w.count) (hb : b < w.count)
    (hA : IsList st' a Na) (hB : a ≠ b → IsList st' b Nb)
    (hsen : ∀ c, st'.sentinel c = w.st.sentinel c)
    (hsubA : ∀ x ∈ Na, x ∈ w.st.sentinel a :: R a ∨ x ∈ w.st.sentinel b :: R b ∨ w.st.brk ≤ x)
    (hsubB : a ≠ b → ∀ x ∈ Nb,
      x ∈ w.st.sentinel a :: R a ∨ x ∈ w.st.sentinel b :: R b ∨ w.st.brk ≤ x)
    (hdisj : a ≠ b → ∀ x ∈ w.st.sentinel a :: Na, x ∉ w.st.sentinel b :: Nb)
    (hoth : ∀ c, c < w.count → c ≠ a → c ≠ b → IsList st' c (R c)) :
    Inv ⟨st', w.count⟩ (fun l => if l = a then Na else if l = b then Nb else R l) := by
  obtain ⟨hl, hd⟩ := hinv
  have hlt : ∀ c, c < w.count → ∀ x ∈ w.st.sentinel c :: R c, x < w.st.brk :=
    fun c hc => (hl c hc).2.2.1
  -- the nodes of the new ring of `a`, of `b`, against an untouched ring `c`
  have key : ∀ (N : List Nat) (s : Nat), s ∈ w.st.sentinel a :: R a ∨ s ∈ w.st.sentinel b :: R b →
      (∀ x ∈ N, x ∈ w.st.sentinel a :: R a ∨ x ∈ w.st.sentinel b :: R b ∨ w.st.brk ≤ x) →
      ∀ c, c < w.count → c ≠ a → c ≠ b →
      (∀ x ∈ s :: N, x ∉ w.st.sentinel c :: R c) ∧ (∀ x ∈ w.st.sentinel c :: R c, x ∉ s :: N) := by
    intro N s hs hN c hc hca hcb
    have h1 : ∀ x ∈ s :: N, x ∉ w.st.sentinel c :: R c := by
      intro x hx hxc
      have hx' : x ∈ w.st.sentinel a :: R a ∨ x ∈ w.st.sentinel b :: R b ∨ w.st.brk ≤ x := by
        rcases List.mem_cons.1 hx with e | e
        · subst e; tauto
        · exact hN x e
      rcases hx' with e | e | e
      · exact hd a c ha hc (Ne.symm hca) x e hxc
      · exact hd b c hb hc (Ne.symm hcb) x e hxc
      · exact absurd (hlt c hc x hxc) (by omega)
    exact ⟨h1, fun x hx hx2 => h1 x hx2 hx⟩
  constructor
  · intro l hlc
    show IsList st' l _
    by_cases e1 : l = a
    · subst e1; simpa using hA
    · by_cases e2 : l = b
      · subst e2
        simp only [e1, if_false, if_true]
        exact hB (Ne.symm e1)
      · simp only [e1, e2, if_false]
        exact hoth l hlc e1 e2
  · intro l₁ l₂ h1 h2 hne
    show ∀ x ∈ st'.sentinel l₁ :: _, x ∉ st'.sentinel l₂ :: _
    rw [hsen, hsen]
    by_cases e1 : l₁ = a
    · subst e1
      simp only [if_true]
      by_cases e2 : l₂ = b
      · subst e2
        simp only [Ne.symm hne, if_false, if_true]
        exact hdisj hne
      · simp only [Ne.symm hne, e2, if_false]
        exact (key Na _ (Or.inl (by simp)) hsubA l₂ h2 (Ne.symm hne) e2).1
    · by_cases e2 : l₁ = b
      · subst e2
        simp only [e1, if_false, if_true]
        by_cases e3 : l₂ = a
        · subst e3
          simp only [if_true]
          intro x hx hx2
          exact hdisj (Ne.symm hne) x hx2 hx
        · simp only [e3, Ne.symm hne, if_false]
          exact (key Nb _ (Or.inr (by simp)) (hsubB (Ne.symm e1)) l₂ h2 e3 (Ne.symm hne)).1
      · simp only [e1, e2, if_false]
        by_cases e3 : l₂ = a
        · subst e3
          simp only [if_true]
          exact (key Na _ (Or.inl (by simp)) hsubA l₁ h1 e1 e2).2
        · by_cases e4 : l₂ = b
          · subst e4
            simp only [e3, if_false, if_true]
            exact (key Nb _ (Or.inr (by simp)) (hsubB (Ne.symm e3)) l₁ h1 e1 e2).2
          · simp only [e3, e4, if_false]
            exact hd l₁ l₂ h1 h2 hne

/-! ## Slices of a node sequence -/

theorem drop_split (ns : List Nat) (i j : Nat) (hij : i ≤ j) :
    ns.drop i = (ns.drop i).take (j - i) ++ ns.drop j := by
  have : ns.drop j = (ns.drop i).drop (j - i) := by
    rw [List.drop_drop]; congr 1; omega
  rw [this, List.take_append_drop]

theorem slice_cons (s : Nat) (ns : List Nat) (i j : Nat) (hij : i < j) (hj : j ≤ ns.length) :
    ∃ rs, (ns.drop i).take (j - i) = nodeAt s ns i :: rs ∧ rs.length + 1 = j - i := by
  have hi : i < ns.length := by omega
  rw [nodeAt_lt s ns i hi]
  obtain ⟨m, hm⟩ : ∃ m, j - i = m + 1 := ⟨j - i - 1, by omega⟩
  rw [hm, List.take_succ_cons]
  refine ⟨_, rfl, ?_⟩
  simp [List.length_take, List.length_drop]
  omega

/-! ## The splice family by index, with what it leaves alone -/

/-- `splice(pos, other)` between two different lists, by index. -/
theorem splice_all_spec (st : State T) (a b p : Nat) (na nb : List Nat) (hab : a ≠ b)
    (ha : IsList st a na) (hb : IsList st b nb)
    (hdis : ∀ x ∈ st.sentinel a :: na, x ∉ st.sentinel b :: nb) (hp : p ≤ na.length) :
    IsList (splice st a (nodeAt (st.sentinel a) na p) b) a (na.take p ++ nb ++ na.drop p) ∧
      IsList (splice st a (nodeAt (st.sentinel a) na p) b) b [] ∧
      Keeps st (splice st a (nodeAt (st.sentinel a) na p) b)
        ((st.sentinel a :: na) ++ (st.sentinel b :: nb)) a b := by
  cases nb with
  | nil =>
    rw [splice_noop st a b _ (Or.inl hb.2.2.2)]
    exact ⟨by simpa using ha, hb, keeps_refl _ _ _ _⟩
  | cons r rs =>
    have ht := splice_transfer st a b (nodeAt (st.sentinel a) na p) r rs hab hb
    have ha' : IsList st a (na.take p ++ na.drop p) := by simpa using ha
    obtain ⟨h1, h2⟩ := transfer_distinct st _ a b _ r (na.take p) (na.drop p) [] rs [] hab ha'
      (by simpa using hb) (by simpa using hdis) (nodeAt_drop _ na p hp) ht
    have hk := transfer_keeps st _ a b _ r (na.take p) (na.drop p) [] rs [] ha'
      (by simpa using hb) (nodeAt_drop _ na p hp) ht
    refine ⟨by simpa using h1, by simpa using h2, ?_⟩
    simpa using hk

/-- `splice(pos, other, first, last)` between two different lists, by index. -/
theorem splice_range_distinct (fuel : Nat) (st : State T) (a b p i j : Nat) (na nb : List Nat)
    (hab : a ≠ b) (ha : IsList st a na) (hb : IsList st b nb)
    (hdis : ∀ x ∈ st.sentinel a :: na, x ∉ st.sentinel b :: nb) (hp : p ≤ na.length)
    (hij : i ≤ j) (hj : j ≤ nb.length) (hf : j - i < fuel) :
    ∃ st', splice_range fuel st a (nodeAt (st.sentinel a) na p) b
        (nodeAt (st.sentinel b) nb i) (nodeAt (st.sentinel b) nb j) = some st' ∧
      IsList st' a (na.take p ++ (nb.drop i).take (j - i) ++ na.drop p) ∧
      IsList st' b (nb.take i ++ nb.drop j) ∧
      Keeps st st' ((st.sentinel a :: na) ++ (st.sentinel b :: nb)) a b ∧
      (i = j → st' = st) := by
  have hsplit := split_range nb i j hij
  rcases Nat.eq_or_lt_of_le hij with e | hlt
  · subst e
    refine ⟨st, splice_range_empty fuel st a b _ _, ?_, ?_, keeps_refl _ _ _ _, fun _ => rfl⟩
    · simpa using ha
    · simpa using hb
  · obtain ⟨rs, hR, hrs⟩ := slice_cons (st.sentinel b) nb i j hlt hj
    rw [hR] at hsplit ⊢
    generalize nodeAt (st.sentinel b) nb i = r at hsplit ⊢
    have hlast : nodeAt (st.sentinel b) nb j = nodeAt (st.sentinel b) (nb.drop j) 0 :=
      nodeAt_drop _ nb j hj
    have hb' : IsList st b (nb.take i ++ r :: rs ++ nb.drop j) := by rw [← hsplit]; exact hb
    have ha' : IsList st a (na.take p ++ na.drop p) := by simpa using ha
    have hdis' : ∀ x ∈ st.sentinel a :: (na.take p ++ na.drop p),
        x ∉ st.sentinel b :: (nb.take i ++ r :: rs ++ nb.drop j) := by
      rw [← hsplit]; simpa using hdis
    have hposm := nodeAt_mem_ring (st.sentinel a) na p hp
    have hlastm : nodeAt (st.sentinel b) (nb.drop j) 0 ∈ st.sentinel b :: nb := by
      rw [← hlast]; exact nodeAt_mem_ring _ nb j hj
    have hpne : nodeAt (st.sentinel a) na p ≠ nodeAt (st.sentinel b) (nb.drop j) 0 :=
      ne_of_zones hdis hposm hlastm
    obtain ⟨st', h1, ht⟩ := splice_range_transfer fuel st a b (nodeAt (st.sentinel a) na p) r
      (nb.take i) rs (nb.drop j) hb' hpne (by omega)
    obtain ⟨h2, h3⟩ := transfer_distinct st st' a b _ r (na.take p) (na.drop p) (nb.take i) rs
      (nb.drop j) hab ha' hb' hdis' (nodeAt_drop _ na p hp) ht
    have hk := transfer_keeps st st' a b _ r (na.take p) (na.drop p) (nb.take i) rs
      (nb.drop j) ha' hb' (nodeAt_drop _ na p hp) ht
    rw [← hsplit, List.take_append_drop] at hk
    exact ⟨st', by rw [hlast]; exact h1, h2, h3, hk, fun e => by omega⟩

/-- `splice(pos, *this, first, last)` by index, with `pos` outside
`[first, last)`: the nodes of the ring are rearranged, nothing else changes. -/
theorem splice_range_same (fuel : Nat) (st : State T) (l p i j : Nat) (ns : List Nat)
    (h : IsList st l ns) (hp : p ≤ ns.length) (hij : i ≤ j) (hj : j ≤ ns.length)
    (hout : p < i ∨ j ≤ p) (hf : j - i < fuel) :
    ∃ st' ns', splice_range fuel st l (nodeAt (st.sentinel l) ns p) l
        (nodeAt (st.sentinel l) ns i) (nodeAt (st.sentinel l) ns j) = some st' ∧
      IsList st' l ns' ∧ ns'.Perm ns ∧ Keeps st st' (st.sentinel l :: ns) l l := by
  have hnd : ns.Nodup := (List.nodup_cons.1 h.2.1).2
  rcases Nat.eq_or_lt_of_le hij with e | hlt
  · subst e
    exact ⟨st, ns, splice_range_empty fuel st l l _ _, h, List.Perm.refl _, keeps_refl _ _ _ _⟩
  · obtain ⟨rs, hR, hrs⟩ := slice_cons (st.sentinel l) ns i j hlt hj
    have hsplit := split_range ns i j hij
    rw [hR] at hsplit
    have hkeep : ∀ (st' : State T) (pos : Nat) (A C B₁ B₂ : List Nat), ns = A ++ C →
        ns = B₁ ++ nodeAt (st.sentinel l) ns i :: rs ++ B₂ →
        pos = nodeAt (st.sentinel l) C 0 →
        Transfer st st' l l pos (nodeAt (st.sentinel l) ns i) (lastOf (nodeAt (st.sentinel l) ns i) rs)
          (rs.length + 1) →
        Keeps st st' (st.sentinel l :: ns) l l := by
      intro st' pos A C B₁ B₂ e1 e2 hpos ht
      have := transfer_keeps st st' l l pos _ A C B₁ rs B₂ (by rw [← e1]; exact h)
        (by rw [← e2]; exact h) hpos ht
      obtain ⟨k1, k2, k3, k4, k5⟩ := this
      refine ⟨?_, k2, k3, k4, k5⟩
      intro x hx
      refine k1 x ?_
      rw [← e1, ← e2]
      have hx' : ¬x = st.sentinel l ∧ x ∉ ns := by simpa using hx
      simp only [List.mem_append, List.mem_cons, not_or]
      exact ⟨hx', hx'⟩
    rcases hout with hpi | hjp
    · -- the position comes before the range
      obtain ⟨M, hM, _⟩ := slice_cons (st.sentinel l) ns p i hpi (by omega)
      have hs2 := split_range ns p i (le_of_lt hpi)
      rw [hM] at hs2
      have hdi : ns.drop i = nodeAt (st.sentinel l) ns i :: rs ++ ns.drop j := by
        rw [← hR]; exact drop_split ns i j hij
      have hfull : ns = ns.take p ++ nodeAt (st.sentinel l) ns p :: M ++
          nodeAt (st.sentinel l) ns i :: rs ++ ns.drop j := by
        conv_lhs => rw [hs2, hdi]
        simp
      have hlast : nodeAt (st.sentinel l) ns j = nodeAt (st.sentinel l) (ns.drop j) 0 :=
        nodeAt_drop _ ns j hj
      have hposdrop : nodeAt (st.sentinel l) ns p = nodeAt (st.sentinel l) (ns.drop p) 0 :=
        nodeAt_drop _ ns p hp
      generalize nodeAt (st.sentinel l) ns i = r at *
      generalize hpp : nodeAt (st.sentinel l) ns p = pp at *
      have hh : IsList st l (ns.take p ++ pp :: M ++ r :: rs ++ ns.drop j) := by
        rw [← hfull]; exact h
      have hpne : pp ≠ nodeAt (st.sentinel l) (ns.drop j) 0 := by
        intro e
        have hm := nodeAt_zero_mem (st.sentinel l) [] (ns.drop j)
        rw [← e] at hm
        have hc := List.nodup_iff_count_le_one.1 hh.2.1 pp
        have hc2 : 1 ≤ List.count pp (st.sentinel l :: ns.drop j) :=
          List.count_pos_iff.2 (by simpa using hm)
        simp only [List.count_append, List.count_cons, List.count_nil, beq_self_eq_true,
          if_true] at hc hc2
        omega
      obtain ⟨st', h1, ht⟩ := splice_range_transfer fuel st l l pp r
        (ns.take p ++ pp :: M) rs (ns.drop j) (by simpa using hh) hpne (by omega)
      have h2 := transfer_same_before st st' l pp r (ns.take p) M rs (ns.drop j) hh ht
      refine ⟨st', _, by rw [hlast]; exact h1, h2, ?_, ?_⟩
      · conv_rhs => rw [hfull]
        rw [List.perm_iff_count]; intro x
        simp only [List.count_append, List.count_cons, List.count_nil]
        omega
      · refine hkeep st' pp (ns.take p) (ns.drop p) (ns.take p ++ pp :: M) (ns.drop j)
          (List.take_append_drop p ns).symm (by simpa using hfull) hposdrop ht
    · rcases Nat.eq_or_lt_of_le hjp with e | hjp'
      · -- the position is `last`
        subst e
        have hh : IsList st l (ns.take i ++ nodeAt (st.sentinel l) ns i :: rs ++ ns.drop j) := by
          rw [← hsplit]; exact h
        have hlast : nodeAt (st.sentinel l) ns j = nodeAt (st.sentinel l) (ns.drop j) 0 :=
          nodeAt_drop _ ns j hj
        obtain ⟨st', h1, e1, e2, e3, e4, e5, e6⟩ := splice_range_same_last fuel st l
          (nodeAt (st.sentinel l) ns i) (ns.take i) rs (ns.drop j) hh (by omega)
        refine ⟨st', ns, by rw [hlast]; exact h1, ?_, List.Perm.refl _, ?_⟩
        · exact isList_frame st st' l ns h (fun x _ => e1 x) (fun x _ => e2 x) (e4 l) (e5 l)
            (le_of_eq e6.symm)
        · exact ⟨fun x _ => ⟨e1 x, e2 x⟩, e3, e4, fun c _ _ => e5 c, e6⟩
      · -- the position comes after the range
        obtain ⟨ds, hD, _⟩ := slice_cons (st.sentinel l) ns j p hjp' hp
        have hs2 := drop_split ns j p hjp
        rw [hD] at hs2
        have hfull : ns = ns.take i ++ nodeAt (st.sentinel l) ns i :: rs ++
            nodeAt (st.sentinel l) ns j :: ds ++ ns.drop p := by
          conv_lhs => rw [hsplit, hs2]
          simp
        have hposdrop : nodeAt (st.sentinel l) ns p = nodeAt (st.sentinel l) (ns.drop p) 0 :=
          nodeAt_drop _ ns p hp
        generalize nodeAt (st.sentinel l) ns i = r at *
        generalize nodeAt (st.sentinel l) ns j = d at *
        generalize hpp : nodeAt (st.sentinel l) ns p = pos at *
        have hh : IsList st l (ns.take i ++ r :: rs ++ d :: ds ++ ns.drop p) := by
          rw [← hfull]; exact h
        have hpne : pos ≠ nodeAt (st.sentinel l) (d :: ds ++ ns.drop p) 0 := by
          intro e
          simp only [List.cons_append, nodeAt_cons] at e
          have hm := nodeAt_zero_mem (st.sentinel l) [] (ns.drop p)
          rw [← hposdrop, e] at hm
          have hc := List.nodup_iff_count_le_one.1 hh.2.1 d
          have hc2 : 1 ≤ List.count d (st.sentinel l :: ns.drop p) :=
            List.count_pos_iff.2 (by simpa using hm)
          simp only [List.count_append, List.count_cons, List.count_nil, beq_self_eq_true,
            if_true] at hc hc2
          omega
        obtain ⟨st', h1, ht⟩ := splice_range_transfer fuel st l l pos r
          (ns.take i) rs (d :: ds ++ ns.drop p) (by simpa using hh) hpne (by omega)
        have h2 := transfer_same_after st st' l pos r d (ns.take i) rs ds (ns.drop p) hh
          hposdrop ht
        refine ⟨st', _, by simpa using h1, h2, ?_, ?_⟩
        · conv_rhs => rw [hfull]
          rw [List.perm_iff_count]; intro x
          simp only [List.count_append, List.count_cons, List.count_nil]
          omega
        · refine hkeep st' pos (ns.take p) (ns.drop p) (ns.take i) (d :: ds ++ ns.drop p)
            (List.take_append_drop p ns).symm (by simpa using hfull) hposdrop ht

/-! ## Every operation keeps the world a set of disjoint rings -/

theorem nodeAt_length (s : Nat) (ns : List Nat) : nodeAt s ns ns.length = s := by
  unfold nodeAt
  simp [List.getD_eq_getElem?_getD]

theorem inv_size (w : World T) (R : Nat → List Nat) (hinv : Inv w R) (l : Nat)
    (hl : l < w.count) : size w.st l = (R l).length := (hinv.1 l hl).2.2.2

/-- The variant of `inv_update` for two different lists whose nodes are only
redistributed. -/
theorem inv_update_perm (w : World T) (st' : State T) (R : Nat → List Nat) (a b : Nat)
    (Na Nb : List Nat) (hinv : Inv w R) (ha : a < w.count) (hb : b < w.count) (hab : a ≠ b)
    (hA : IsList st' a Na) (hB : IsList st' b Nb)
    (hsen : ∀ c, st'.sentinel c = w.st.sentinel c)
    (hperm : (Na ++ Nb).Perm (R a ++ R b))
    (hoth : ∀ c, c < w.count → c ≠ a → c ≠ b → IsList st' c (R c)) :
    Inv ⟨st', w.count⟩ (fun l => if l = a then Na else if l = b then Nb else R l) := by
  have hnd : ((w.st.sentinel a :: R a) ++ (w.st.sentinel b :: R b)).Nodup := by
    rw [List.nodup_append]
    exact ⟨(hinv.1 a ha).2.1, (hinv.1 b hb).2.1, fun x hx hy => hinv.2 a b ha hb hab x hx hy⟩
  have hp2 : ((w.st.sentinel a :: Na) ++ (w.st.sentinel b :: Nb)).Perm
      ((w.st.sentinel a :: R a) ++ (w.st.sentinel b :: R b)) := by
    rw [List.perm_iff_count] at hperm ⊢
    intro x
    have := hperm x
    simp only [List.count_append, List.count_cons, List.count_nil] at this ⊢
    omega
  have hnd2 := hp2.nodup_iff.2 hnd
  refine inv_update w st' R a b Na Nb hinv ha hb hA (fun _ => hB) hsen ?_ ?_ ?_ hoth
  · intro x hx
    have := hp2.subset (List.mem_append_left _ (List.mem_cons_of_mem _ hx))
    rcases List.mem_append.1 this with h | h
    · exact Or.inl h
    · exact Or.inr (Or.inl h)
  · intro _ x hx
    have := hp2.subset (List.mem_append_right _ (List.mem_cons_of_mem _ hx))
    rcases List.mem_append.1 this with h | h
    · exact Or.inl h
    · exact Or.inr (Or.inl h)
  · intro _ x hx hy
    exact (List.nodup_append.1 hnd2).2.2 hx hy

theorem step_construct (w : World T) (R : Nat → List Nat) (hinv : Inv w R) :
    Inv ⟨list_ctor w.st w.count, w.count + 1⟩ (fun l => if l = w.count then [] else R l) := by
  obtain ⟨hl, hd⟩ := hinv
  have hs : ∀ c, (list_ctor w.st w.count).sentinel c =
      if c = w.count then w.st.brk else w.st.sentinel c := by
    intro c
    simp [list_ctor, _M_create_node]
  constructor
  · intro l hlc
    have hlc' : l < w.count + 1 := hlc
    show IsList (list_ctor w.st w.count) l _
    by_cases e : l = w.count
    · subst e; simpa using list_ctor_isList w.st w.count
    · simp only [e, if_false]
      exact list_ctor_other w.st w.count l (R l) e (hl l (by omega))
  · intro l₁ l₂ h1 h2 hne
    have h1' : l₁ < w.count + 1 := h1
    have h2' : l₂ < w.count + 1 := h2
    show ∀ x ∈ (list_ctor w.st w.count).sentinel l₁ :: _, x ∉ (list_ctor w.st w.count).sentinel l₂ :: _
    rw [hs, hs]
    by_cases e1 : l₁ = w.count
    · have e2 : l₂ ≠ w.count := fun e => hne (e1.trans e.symm)
      simp only [e1, e2, if_true, if_false]
      intro x hx hy
      simp only [List.mem_singleton] at hx
      subst hx
      exact absurd ((hl l₂ (by omega)).2.2.1 _ hy) (lt_irrefl _)
    · by_cases e2 : l₂ = w.count
      · simp only [e1, e2, if_true, if_false]
        intro x hx hy
        simp only [List.mem_singleton] at hy
        subst hy
        exact absurd ((hl l₁ (by omega)).2.2.1 _ hx) (lt_irrefl _)
      · simp only [e1, e2, if_false]
        exact hd l₁ l₂ (by omega) (by omega) hne

theorem step_insert_node (w : World T) (R : Nat → List Nat) (hinv : Inv w R) (l p : Nat)
    (v : T) (hl : l < w.count) (hp : p ≤ (R l).length) :
    ∃ R', Inv ⟨(_M_insert_node w.st l (nodeAt (w.st.sentinel l) (R l) p) v).1, w.count⟩ R' := by
  have hL := hinv.1 l hl
  have hA := insert_node_isList w.st l _ v ((R l).take p) ((R l).drop p) (by simpa using hL)
    (nodeAt_drop _ (R l) p hp)
  have hposm := nodeAt_mem_ring (w.st.sentinel l) (R l) p hp
  have hprevm := (ring_closed w.st l (R l) hL _ hposm).2.2.1
  refine ⟨_, inv_update w _ R l l _ [] hinv hl hl hA (fun h => absurd rfl h) ?_ ?_
    (fun h => absurd rfl h) (fun h => absurd rfl h) ?_⟩
  · intro c; simp [_M_insert_node, _M_create_node_val]
  · intro x hx
    rcases List.mem_append.1 hx with h | h
    · exact Or.inl (List.mem_cons_of_mem _ (List.mem_of_mem_take h))
    · rcases List.mem_cons.1 h with h | h
      · exact Or.inr (Or.inr (le_of_eq h.symm))
      · exact Or.inl (List.mem_cons_of_mem _ (List.mem_of_mem_drop h))
  · intro c hc hcl _
    exact insert_node_other w.st l _ v c (R c) hcl (hinv.1 c hc)
      (fun h => hinv.2 c l hc hl hcl _ h hposm) (fun h => hinv.2 c l hc hl hcl _ h hprevm)

theorem step_emplace (w : World T) (R : Nat → List Nat) (hinv : Inv w R) (l p : Nat)
    (v : T) (hl : l < w.count) (hp : p ≤ (R l).length) :
    ∃ R', Inv ⟨(emplace w.st l (nodeAt (w.st.sentinel l) (R l) p) v).1, w.count⟩ R' := by
  have hL := hinv.1 l hl
  have hA := emplace_isList w.st l _ v ((R l).take p) ((R l).drop p) (by simpa using hL)
    (nodeAt_drop _ (R l) p hp)
  have hposm := nodeAt_mem_ring (w.st.sentinel l) (R l) p hp
  have hprevm := (ring_closed w.st l (R l) hL _ hposm).2.2.1
  refine ⟨_, inv_update w _ R l l _ [] hinv hl hl hA (fun h => absurd rfl h) ?_ ?_
    (fun h => absurd rfl h) (fun h => absurd rfl h) ?_⟩
  · intro c; simp [emplace]
  · intro x hx
    rcases List.mem_append.1 hx with h | h
    · exact Or.inl (List.mem_cons_of_mem _ (List.mem_of_mem_take h))
    · rcases List.mem_cons.1 h with h | h
      · exact Or.inr (Or.inr (le_of_eq h.symm))
      · exact Or.inl (List.mem_cons_of_mem _ (List.mem_of_mem_drop h))
  · intro c hc hcl _
    exact emplace_other w.st l _ v c (R c) hcl (hinv.1 c hc)
      (fun h => hinv.2 c l hc hl hcl _ h hposm) (fun h => hinv.2 c l hc hl hcl _ h hprevm)

theorem step_pop_back (w : World T) (R : Nat → List Nat) (hinv : Inv w R) (l : Nat)
    (hl : l < w.count) : ∃ R', Inv ⟨pop_back w.st l, w.count⟩ R' := by
  have hL := hinv.1 l hl
  rcases List.eq_nil_or_concat (R l) with e | ⟨ns, t, e⟩
  · rw [(pop_empty w.st l (by rw [hL.2.2.2, e]; rfl)).1]
    exact ⟨R, hinv⟩
  · rw [e] at hL
    have hL' : IsList w.st l (ns ++ [t]) := by simpa using hL
    refine ⟨_, inv_update w _ R l l ns [] hinv hl hl (pop_back_isList w.st l t ns hL')
      (fun h => absurd rfl h) ?_ ?_ (fun h => absurd rfl h) (fun h => absurd rfl h) ?_⟩
    · intro c; unfold pop_back; split <;> simp
    · intro x hx
      exact Or.inl (List.mem_cons_of_mem _ (by rw [e]; simp [hx]))
    · intro c hc hcl _
      refine pop_back_other w.st l t c ns (R c) hL' hcl (hinv.1 c hc) ?_
      have := hinv.2 c l hc hl hcl
      rw [e] at this
      intro x hx hy
      exact this x hx (by simpa using hy)

theorem step_pop_front (w : World T) (R : Nat → List Nat) (hinv : Inv w R) (l : Nat)
    (hl : l < w.count) : ∃ R', Inv ⟨pop_front w.st l, w.count⟩ R' := by
  have hL := hinv.1 l hl
  cases e : R l with
  | nil =>
    rw [(pop_empty w.st l (by rw [hL.2.2.2, e]; rfl)).2]
    exact ⟨R, hinv⟩
  | cons t ns =>
    rw [e] at hL
    refine ⟨_, inv_update w _ R l l ns [] hinv hl hl (pop_front_isList w.st l t ns hL)
      (fun h => absurd rfl h) ?_ ?_ (fun h => absurd rfl h) (fun h => absurd rfl h) ?_⟩
    · intro c; unfold pop_front; split <;> simp
    · intro x hx
      exact Or.inl (List.mem_cons_of_mem _ (by rw [e]; simp [hx]))
    · intro c hc hcl _
      refine pop_front_other w.st l t c ns (R c) hL hcl (hinv.1 c hc) ?_
      have := hinv.2 c l hc hl hcl
      rw [e] at this
      intro x hx hy
      exact this x hx hy

theorem step_clear (w : World T) (R : Nat → List Nat) (hinv : Inv w R) (l : Nat)
    (hl : l < w.count) :
    ∃ st' R', clear w.st.brk w.st l = some st' ∧ Inv ⟨st', w.count⟩ R' := by
  have hL := hinv.1 l hl
  have hlen : (R l).length < w.st.brk := by
    have := length_le_of_nodup_lt _ _ hL.2.1 hL.2.2.1
    simp at this
    omega
  obtain ⟨st', h1, h2, h3, _, h5, h6, h7⟩ := clear_isList w.st.brk w.st l (R l) hL hlen
  refine ⟨st', _, h1, inv_update w st' R l l [] [] hinv hl hl h2 (fun h => absurd rfl h) h5
    (fun x hx => by simp at hx) (fun h => absurd rfl h) (fun h => absurd rfl h) ?_⟩
  intro c hc hcl _
  have hne : ∀ x ∈ w.st.sentinel c :: R c, x ≠ w.st.sentinel l :=
    fun x hx e => hinv.2 c l hc hl hcl x hx (by simp [e])
  exact isList_frame w.st st' c (R c) (hinv.1 c hc) (fun x hx => (h3 x (hne x hx)).1)
    (fun x hx => (h3 x (hne x hx)).2) (h5 c) (h6 c hcl) (le_of_eq h7.symm)

theorem inv_dis (w : World T) (R : Nat → List Nat) (hinv : Inv w R) (a b : Nat)
    (ha : a < w.count) (hb : b < w.count) (hab : a ≠ b) :
    ∀ x ∈ w.st.sentinel a :: R a, x ∉ w.st.sentinel b :: R b := hinv.2 a b ha hb hab

/-- What a change that keeps everything off the rings of `a` and `b` does to
the other lists of the world. -/
theorem inv_keeps_other (w : World T) (st' : State T) (R : Nat → List Nat) (hinv : Inv w R)
    (a b : Nat) (ha : a < w.count) (hb : b < w.count)
    (hk : Keeps w.st st' ((w.st.sentinel a :: R a) ++ (w.st.sentinel b :: R b)) a b) :
    ∀ c, c < w.count → c ≠ a → c ≠ b → IsList st' c (R c) := by
  intro c hc hca hcb
  refine keeps_other w.st st' _ a b c (R c) hk (hinv.1 c hc) hca hcb ?_
  intro x hx hy
  rcases List.mem_append.1 hy with h | h
  · exact hinv.2 c a hc ha hca x hx h
  · exact hinv.2 c b hc hb hcb x hx h

theorem step_splice (w : World T) (R : Nat → List Nat) (hinv : Inv w R) (a p b : Nat)
    (ha : a < w.count) (hb : b < w.count) (hp : p ≤ (R a).length) :
    ∃ R', Inv ⟨splice w.st a (nodeAt (w.st.sentinel a) (R a) p) b, w.count⟩ R' := by
  by_cases hab : a = b
  · rw [splice_noop w.st a b _ (Or.inr hab)]
    exact ⟨R, hinv⟩
  · obtain ⟨h1, h2, hk⟩ := splice_all_spec w.st a b p (R a) (R b) hab (hinv.1 a ha)
      (hinv.1 b hb) (inv_dis w R hinv a b ha hb hab) hp
    refine ⟨_, inv_update_perm w _ R a b _ [] hinv ha hb hab h1 h2 hk.2.2.1 ?_
      (inv_keeps_other w _ R hinv a b ha hb hk)⟩
    rw [List.perm_iff_count]; intro x
    have := congrArg (List.count x) (List.take_append_drop p (R a))
    simp only [List.count_append, List.count_nil] at this ⊢
    omega

theorem step_splice_one (w : World T) (R : Nat → List Nat) (hinv : Inv w R) (a p b k : Nat)
    (ha : a < w.count) (hb : b < w.count) (hp : p ≤ (R a).length) (hk : k < (R b).length) :
    ∃ R', Inv ⟨splice_one w.st a (nodeAt (w.st.sentinel a) (R a) p) b
      (nodeAt (w.st.sentinel b) (R b) k), w.count⟩ R' := by
  by_cases hab : a = b
  · subst hab
    obtain ⟨h1, hkp, _⟩ := splice_one_same w.st a p k (R a) (hinv.1 a ha) hp hk
    have hnd : (R a).Nodup := (List.nodup_cons.1 (hinv.1 a ha).2.1).2
    have hnm := nodeAt_mem (w.st.sentinel a) (R a) k hk
    refine ⟨_, inv_update w _ R a a _ [] hinv ha ha h1 (fun h => absurd rfl h) hkp.2.2.1 ?_
      (fun h => absurd rfl h) (fun h => absurd rfl h) ?_⟩
    · intro x hx
      refine Or.inl (List.mem_cons_of_mem _ ?_)
      rcases List.mem_append.1 hx with h | h
      · exact List.mem_of_mem_take (List.mem_of_mem_erase h)
      · rcases List.mem_cons.1 h with h | h
        · rw [h]; exact hnm
        · exact List.mem_of_mem_drop (List.mem_of_mem_erase h)
    · intro c hc hca _
      refine keeps_other w.st _ _ a a c (R c) hkp (hinv.1 c hc) hca hca ?_
      exact hinv.2 c a hc ha hca
  · obtain ⟨h1, h2, hkp, _, _⟩ := splice_one_distinct w.st a b p k (R a) (R b) hab
      (hinv.1 a ha) (hinv.1 b hb) (inv_dis w R hinv a b ha hb hab) hp hk
    refine ⟨_, inv_update_perm w _ R a b _ _ hinv ha hb hab h1 h2 hkp.2.2.1 ?_
      (inv_keeps_other w _ R hinv a b ha hb hkp)⟩
    rw [List.eraseIdx_eq_take_drop_succ]
    have e1 := nodeAt_lt (w.st.sentinel b) (R b) k hk
    rw [List.perm_iff_count]; intro x
    have c1 := congrArg (List.count x) (List.take_append_drop p (R a))
    have c2 := congrArg (List.count x) (List.take_append_drop k (R b))
    rw [e1] at c2
    simp only [List.count_append, List.count_cons, List.count_nil] at c1 c2 ⊢
    omega

theorem step_splice_range (w : World T) (R : Nat → List Nat) (hinv : Inv w R)
    (a p b i j : Nat) (ha : a < w.count) (hb : b < w.count) (hp : p ≤ (R a).length)
    (hij : i ≤ j) (hj : j ≤ (R b).length) (hout : a = b → p < i ∨ j ≤ p) :
    ∃ st' R', splice_range w.st.brk w.st a (nodeAt (w.st.sentinel a) (R a) p) b
        (nodeAt (w.st.sentinel b) (R b) i) (nodeAt (w.st.sentinel b) (R b) j) = some st' ∧
      Inv ⟨st', w.count⟩ R' := by
  have hlen : (R b).length < w.st.brk := by
    have := length_le_of_nodup_lt _ _ (hinv.1 b hb).2.1 (hinv.1 b hb).2.2.1
    simp at this
    omega
  have hf : j - i < w.st.brk := by omega
  by_cases hab : a = b
  · subst hab
    obtain ⟨st', ns', h1, h2, h3, hk⟩ := splice_range_same w.st.brk w.st a p i j (R a)
      (hinv.1 a ha) hp hij hj (hout rfl) hf
    refine ⟨st', _, h1, inv_update w st' R a a ns' [] hinv ha ha h2 (fun h => absurd rfl h)
      hk.2.2.1 ?_ (fun h => absurd rfl h) (fun h => absurd rfl h) ?_⟩
    · intro x hx
      exact Or.inl (List.mem_cons_of_mem _ (h3.subset hx))
    · intro c hc hca _
      exact keeps_other w.st st' _ a a c (R c) hk (hinv.1 c hc) hca hca (hinv.2 c a hc ha hca)
  · obtain ⟨st', h1, h2, h3, hk, _⟩ := splice_range_distinct w.st.brk w.st a b p i j (R a) (R b)
      hab (hinv.1 a ha) (hinv.1 b hb) (inv_dis w R hinv a b ha hb hab) hp hij hj hf
    refine ⟨st', _, h1, inv_update_perm w st' R a b _ _ hinv ha hb hab h2 h3 hk.2.2.1 ?_
      (inv_keeps_other w st' R hinv a b ha hb hk)⟩
    have e1 := split_range (R b) i j hij
    rw [List.perm_iff_count]; intro x
    have c1 := congrArg (List.count x) (List.take_append_drop p (R a))
    have c2 := congrArg (List.count x) e1
    simp only [List.count_append, List.count_cons, List.count_nil] at c1 c2 ⊢
    omega

theorem step_merge (lt : T → T → Bool) (w : World T) (R : Nat → List Nat) (hinv : Inv w R)
    (a b : Nat) (ha : a < w.count) (hb : b < w.count) :
    ∃ st' R', merge lt w.st.brk w.st a b = some st' ∧ Inv ⟨st', w.count⟩ R' := by
  by_cases hab : a = b
  · refine ⟨w.st, R, ?_, hinv⟩
    rw [merge_eq]; simp [hab]
  · have hdis := inv_dis w R hinv a b ha hb hab
    have hlen : (R a).length + (R b).length < w.st.brk := by
      have hnd : ((w.st.sentinel a :: R a) ++ (w.st.sentinel b :: R b)).Nodup := by
        rw [List.nodup_append]
        exact ⟨(hinv.1 a ha).2.1, (hinv.1 b hb).2.1, fun x hx hy => hdis x hx hy⟩
      have := length_le_of_nodup_lt _ _ hnd (by
        intro x hx
        rcases List.mem_append.1 hx with h | h
        · exact (hinv.1 a ha).2.2.1 x h
        · exact (hinv.1 b hb).2.2.1 x h)
      simp at this
      omega
    obtain ⟨st', h1, h2, h3, h4, h5, h6, h7, h8⟩ := merge_spec lt w.st.brk w.st a b (R a) (R b)
      hab (hinv.1 a ha) (hinv.1 b hb) hdis hlen
    refine ⟨st', _, h1, inv_update_perm w st' R a b _ [] hinv ha hb hab h2 h3 h6 ?_ ?_⟩
    · simpa using mergeNodes_perm lt w.st.data (R a) (R b)
    · intro c hc hca hcb
      refine isList_frame w.st st' c (R c) (hinv.1 c hc) ?_ ?_ (h6 c) (h7 c hca hcb)
        (le_of_eq h8.symm)
      · intro x hx
        exact (h4 x (hinv.2 c a hc ha hca x hx) (hinv.2 c b hc hb hcb x hx)).1
      · intro x hx
        exact (h4 x (hinv.2 c a hc ha hca x hx) (hinv.2 c b hc hb hcb x hx)).2

/-- Every valid operation returns, and keeps the world a set of disjoint rings. -/
theorem exec_inv (lt : T → T → Bool) (w : World T) (R : Nat → List Nat) (hinv : Inv w R)
    (op : Op T) (hv : op.valid w = true) :
    ∃ w' R', exec lt w op = some w' ∧ Inv w' R' := by
  unfold exec
  rw [if_pos hv]
  cases op with
  | construct => exact ⟨_, _, rfl, step_construct w R hinv⟩
  | push_back l v =>
    have hl : l < w.count := by simpa [Op.valid] using hv
    obtain ⟨R', h⟩ := step_insert_node w R hinv l (R l).length v hl (le_refl _)
    rw [nodeAt_length] at h
    exact ⟨_, R', rfl, h⟩
  | push_front l v =>
    have hl : l < w.count := by simpa [Op.valid] using hv
    obtain ⟨R', h⟩ := step_insert_node w R hinv l 0 v hl (Nat.zero_le _)
    rw [← ring_next_sentinel w.st _ _ (hinv.1 l hl).1] at h
    exact ⟨_, R', rfl, h⟩
  | pop_back l =>
    have hl : l < w.count := by simpa [Op.valid] using hv
    obtain ⟨R', h⟩ := step_pop_back w R hinv l hl
    exact ⟨_, R', rfl, h⟩
  | pop_front l =>
    have hl : l < w.count := by simpa [Op.valid] using hv
    obtain ⟨R', h⟩ := step_pop_front w R hinv l hl
    exact ⟨_, R', rfl, h⟩
  | insert l p v =>
    have hv' : l < w.count ∧ p ≤ size w.st l := by simpa [Op.valid] using hv
    have hp : p ≤ (R l).length := by rw [← inv_size w R hinv l hv'.1]; exact hv'.2
    obtain ⟨R', h⟩ := step_insert_node w R hinv l p v hv'.1 hp
    rw [← iterAt_eq w.st l (R l) (hinv.1 l hv'.1) p hp] at h
    exact ⟨_, R', rfl, h⟩
  | emplace l p v =>
    have hv' : l < w.count ∧ p ≤ size w.st l := by simpa [Op.valid] using hv
    have hp : p ≤ (R l).length := by rw [← inv_size w R hinv l hv'.1]; exact hv'.2
    obtain ⟨R', h⟩ := step_emplace w R hinv l p v hv'.1 hp
    rw [← iterAt_eq w.st l (R l) (hinv.1 l hv'.1) p hp] at h
    exact ⟨_, R', rfl, h⟩
  | clear l =>
    have hl : l < w.count := by simpa [Op.valid] using hv
    obtain ⟨st', R', h1, h2⟩ := step_clear w R hinv l hl
    exact ⟨_, R', by simp only [h1, Option.map_some'], h2⟩
  | splice a p b =>
    have hv' : a < w.count ∧ b < w.count ∧ p ≤ size w.st a := by simpa [Op.valid] using hv
    have hp : p ≤ (R a).length := by rw [← inv_size w R hinv a hv'.1]; exact hv'.2.2
    obtain ⟨R', h⟩ := step_splice w R hinv a p b hv'.1 hv'.2.1 hp
    rw [← iterAt_eq w.st a (R a) (hinv.1 a hv'.1) p hp] at h
    exact ⟨_, R', rfl, h⟩
  | splice_one a p b k =>
    have hv' : a < w.count ∧ b < w.count ∧ p ≤ size w.st a ∧ k < size w.st b := by
      simpa [Op.valid] using hv
    have hp : p ≤ (R a).length := by rw [← inv_size w R hinv a hv'.1]; exact hv'.2.2.1
    have hk : k < (R b).length := by rw [← inv_size w R hinv b hv'.2.1]; exact hv'.2.2.2
    obtain ⟨R', h⟩ := step_splice_one w R hinv a p b k hv'.1 hv'.2.1 hp hk
    rw [← iterAt_eq w.st a (R a) (hinv.1 a hv'.1) p hp,
      ← iterAt_eq w.st b (R b) (hinv.1 b hv'.2.1) k (le_of_lt hk)] at h
    exact ⟨_, R', rfl, h⟩
  | splice_range a p b i j =>
    have hv' : a < w.count ∧ b < w.count ∧ p ≤ size w.st a ∧ i ≤ j ∧ j ≤ size w.st b ∧
        (a = b → p < i ∨ j ≤ p) := by
      simp only [Op.valid, decide_eq_true_eq] at hv
      exact hv
    obtain ⟨ha, hb, hp0, hij, hj0, hout⟩ := hv'
    have hp : p ≤ (R a).length := by rw [← inv_size w R hinv a ha]; exact hp0
    have hj : j ≤ (R b).length := by rw [← inv_size w R hinv b hb]; exact hj0
    obtain ⟨st', R', h1, h2⟩ := step_splice_range w R hinv a p b i j ha hb hp hij hj hout
    rw [← iterAt_eq w.st a (R a) (hinv.1 a ha) p hp,
      ← iterAt_eq w.st b (R b) (hinv.1 b hb) i (le_trans hij hj),
      ← iterAt_eq w.st b (R b) (hinv.1 b hb) j hj] at h1
    exact ⟨_, R', by simp only [h1, Option.map_some'], h2⟩
  | merge a b =>
    have hv' : a < w.count ∧ b < w.count := by simpa [Op.valid] using hv
    obtain ⟨st', R', h1, h2⟩ := step_merge lt w R hinv a b hv'.1 hv'.2
    exact ⟨_, R', by simp only [h1, Option.map_some'], h2⟩

theorem exec_valid (lt : T → T → Bool) (w w' : World T) (op : Op T)
    (h : exec lt w op = some w') : op.valid w = true := by
  unfold exec at h
  by_contra hv
  rw [if_neg hv] at h
  exact absurd h (by simp)

/-- Every world reached from the empty world is a set of disjoint rings. -/
theorem run_inv (lt : T → T → Bool) (ops : List (Op T)) :
    ∀ (w w' : World T) (R : Nat → List Nat), Inv w R → run lt w ops = some w' →
      ∃ R', Inv w' R' := by
  induction ops with
  | nil =>
    intro w w' R hinv h
    simp only [run, Option.some.injEq] at h
    subst h
    exact ⟨R, hinv⟩
  | cons op ops ih =>
    intro w w' R hinv h
    simp only [run] at h
    cases he : exec lt w op with
    | none => rw [he] at h; exact absurd h (by simp)
    | some w1 =>
      rw [he] at h
      obtain ⟨w2, R2, h1, h2⟩ := exec_inv lt w R hinv op (exec_valid lt w w1 op he)
      rw [he] at h1
      simp only [Option.some.injEq] at h1
      subst h1
      exact ih w1 w' R2 h2 h

theorem init_inv (d : T) : Inv (World.init d) (fun _ => []) := by
  constructor
  · intro l hl; exact absurd hl (Nat.not_lt_zero _)
  · intro l₁ _ hl; exact absurd hl (Nat.not_lt_zero _)

/-! ## The sequence read off a ring -/

/-- Walking from the position that follows the stretch `A` reads the payloads
of the rest of the ring. -/
theorem walk_run (st : State T) (s : Nat) (C : List Nat) :
    ∀ (A : List Nat) (fuel : Nat), Cyc st (s :: A ++ C) → (s :: A ++ C).Nodup →
      C.length < fuel → walk st s fuel (nodeAt s C 0) = elems st C := by
  induction C with
  | nil =>
    intro A fuel _ _ hf
    obtain ⟨f1, rfl⟩ : ∃ f1, fuel = f1 + 1 := ⟨fuel - 1, by simp at hf; omega⟩
    simp [walk, elems]
  | cons c C ih =>
    intro A fuel hc hnd hf
    obtain ⟨f1, rfl⟩ : ∃ f1, fuel = f1 + 1 := ⟨fuel - 1, by omega⟩
    have hcs : c ≠ s := by
      intro e
      have : (s :: A ++ c :: C).Nodup := hnd
      rw [List.nodup_append] at this
      exact this.2.2 (List.mem_cons_self _ _) (e ▸ List.mem_cons_self _ _)
    have hn : st.next c = nodeAt s C 0 := ring_next st _ c A C hc
    have h1 := ih (A ++ [c]) f1 (by simpa using hc) (by simpa using hnd)
      (by simp at hf ⊢; omega)
    simp only [walk, nodeAt_cons, hcs, if_false, hn, h1, elems, List.map_cons]

/-- The abstraction of a well-formed list is the payloads of its data nodes. -/
theorem toSeq_eq (st : State T) (l : Nat) (ns : List Nat) (h : IsList st l ns) :
    toSeq st l = elems st ns := by
  obtain ⟨hc, hnd, hlt, _⟩ := h
  have hlen : (st.sentinel l :: ns).length ≤ st.brk :=
    length_le_of_nodup_lt _ _ hnd hlt
  unfold toSeq list_begin list_end
  rw [ring_next_sentinel st _ _ hc]
  exact walk_run st _ ns [] st.brk (by simpa using hc) (by simpa using hnd)
    (by simp at hlen; omega)

theorem elems_length (st : State T) (ns : List Nat) : (elems st ns).length = ns.length := by
  simp [elems]

/-- `push_back` on a well-formed list. -/
theorem push_back_isList (st : State T) (l : Nat) (v : T) (ns : List Nat)
    (h : IsList st l ns) :
    IsList (push_back st l v) l (ns ++ [st.brk]) ∧
      elems (push_back st l v) (ns ++ [st.brk]) = elems st ns ++ [v] := by
  have h1 := insert_node_isList st l (st.sentinel l) v ns [] (by simpa using h) (by simp)
  have hd := insert_node_data st l (st.sentinel l) v
  refine ⟨h1, ?_⟩
  have hlt := h.2.2.1
  simp only [push_back, elems, List.map_append, List.map_cons, List.map_nil, hd, if_true]
  congr 1
  apply List.map_congr_left
  intro x hx
  have := hlt x (List.mem_cons_of_mem _ hx)
  rw [hd, if_neg (by omega)]

/-- `push_front` on a well-formed list. -/
theorem push_front_isList (st : State T) (l : Nat) (v : T) (ns : List Nat)
    (h : IsList st l ns) :
    IsList (push_front st l v) l (st.brk :: ns) ∧
      elems (push_front st l v) (st.brk :: ns) = v :: elems st ns := by
  have h1 := insert_node_isList st l (st.next (st.sentinel l)) v [] ns (by simpa using h)
    (ring_next_sentinel st _ _ h.1)
  have hd := insert_node_data st l (st.next (st.sentinel l)) v
  refine ⟨by simpa using h1, ?_⟩
  have hlt := h.2.2.1
  simp only [push_front, elems, List.map_cons, hd, if_true]
  congr 1
  apply List.map_congr_left
  intro x hx
  have := hlt x (List.mem_cons_of_mem _ hx)
  rw [hd, if_neg (by omega)]

/-- `front()` and `back()` of a non-empty well-formed list. -/
theorem front_back_eq (st : State T) (l : Nat) (ns : List Nat) (h : IsList st l ns)
    (hne : ns ≠ []) :
    some (front st l) = (elems st ns).head? ∧ some (back st l) = (elems st ns).getLast? := by
  obtain ⟨hc, _, _, _⟩ := h
  constructor
  · cases ns with
    | nil => exact absurd rfl hne
    | cons a ns =>
      have := ring_next_sentinel st _ _ hc
      simp only [nodeAt_cons] at this
      simp [front, this, elems]
  · obtain ⟨ms, b, rfl⟩ : ∃ ms b, ns = ms ++ [b] :=
      ⟨ns.dropLast, ns.getLast hne, (List.dropLast_append_getLast hne).symm⟩
    have : st.prev (st.sentinel l) = b := by
      simpa using cyc_prev_head st _ _ hc
    simp [back, this, elems]

/-- The shape of a sequence of at least two nodes. -/
theorem two_ends (ns : List Nat) (h : 2 ≤ ns.length) :
    ∃ a mid b, ns = a :: (mid ++ [b]) ∧ ns.tail.dropLast = mid := by
  cases ns with
  | nil => simp at h
  | cons a rest =>
    have hne : rest ≠ [] := by
      intro e; subst e; simp at h
    refine ⟨a, rest.dropLast, rest.getLast hne, ?_, rfl⟩
    rw [List.dropLast_append_getLast hne]

/-! ## Contiguous sequence: the loops -/

namespace vector

@[simp] theorem cell_write (m : VMem T) (p x : Int) (ov : Option T) :
    (m.write p ov).cell x = if x = p then ov else m.cell x := rfl

@[simp] theorem brk_write (m : VMem T) (p : Int) (ov : Option T) : (m.write p ov).brk = m.brk :=
  rfl

theorem to_size_of_bounds (d : Int) (h0 : 0 ≤ d) (h1 : d < (SIZE_MOD : Int)) :
    (to_size d : Int) = d := by
  unfold to_size
  rw [Int.emod_eq_of_lt h0 h1]
  exact Int.toNat_of_nonneg h0

theorem to_size_natCast (n : Nat) (h : n < SIZE_MOD) : to_size (n : Int) = n := by
  have := to_size_of_bounds (n : Int) (Int.natCast_nonneg n) (by exact_mod_cast h)
  exact_mod_cast this

/-- `std::move_backward` towards higher addresses shifts the range. -/
theorem move_backward_loop_spec (n : Nat) :
    ∀ (m : VMem T) (last d_last : Int), last ≤ d_last →
      (∀ x, (move_backward_loop n m last d_last).cell x =
        if d_last - n ≤ x ∧ x < d_last then m.cell (x - (d_last - last)) else m.cell x) ∧
      (move_backward_loop n m last d_last).brk = m.brk := by
  induction n with
  | zero =>
    intro m last d_last _
    refine ⟨fun x => ?_, rfl⟩
    have : ¬ (d_last - (0 : Nat) ≤ x ∧ x < d_last) := by
      simp only [Nat.cast_zero, sub_zero]; omega
    rw [if_neg this]; rfl
  | succ n ih =>
    intro m last d_last hle
    obtain ⟨h1, h2⟩ := ih (m.write (d_last - 1) (m.cell (last - 1))) (last - 1) (d_last - 1)
      (by omega)
    refine ⟨fun x => ?_, by rw [move_backward_loop, h2]; rfl⟩
    rw [move_backward_loop, h1]
    simp only [cell_write, Nat.cast_succ]
    by_cases hx : x = d_last - 1
    · subst hx
      rw [if_neg (by omega), if_pos rfl, if_pos (by omega)]
      congr 1; omega
    · by_cases hr : d_last - 1 - (n : Int) ≤ x ∧ x < d_last - 1
      · rw [if_pos hr, if_neg (by omega), if_pos (by omega)]
        congr 1; omega
      · rw [if_neg hr, if_neg hx, if_neg (by omega)]

/-- The forward copy, when the destination starts before the source or the
two ranges do not meet. -/
theorem copy_loop_spec (n : Nat) :
    ∀ (m : VMem T) (first d : Int), (d ≤ first ∨ first + n ≤ d) →
      (∀ x, (copy_loop n m first d).cell x =
        if d ≤ x ∧ x < d + n then m.cell (x + (first - d)) else m.cell x) ∧
      (copy_loop n m first d).brk = m.brk := by
  induction n with
  | zero =>
    intro m first d _
    refine ⟨fun x => ?_, rfl⟩
    have : ¬ (d ≤ x ∧ x < d + ((0 : Nat) : Int)) := by
      simp only [Nat.cast_zero, add_zero]; omega
    rw [if_neg this]; rfl
  | succ n ih =>
    intro m first d hc
    obtain ⟨h1, h2⟩ := ih (m.write d (m.cell first)) (first + 1) (d + 1) (by
      rw [Nat.cast_succ] at hc; omega)
    refine ⟨fun x => ?_, by rw [copy_loop, h2]; rfl⟩
    rw [copy_loop, h1]
    simp only [cell_write, Nat.cast_succ] at hc ⊢
    by_cases hx : x = d
    · subst hx
      rw [if_neg (by omega), if_pos rfl, if_pos (by omega)]
      congr 1; omega
    · by_cases hr : d + 1 ≤ x ∧ x < d + 1 + (n : Int)
      · rw [if_pos hr, if_neg (by omega), if_pos (by omega)]
        congr 1; omega
      · rw [if_neg hr, if_neg hx, if_neg (by omega)]

/-- The loop of `reserve` moves the slots `[p, _end)` to `[new_end, ...)`. -/
theorem reserve_loop_spec (_end : Int) (n : Nat) :
    ∀ (fuel : Nat) (m : VMem T) (p new_end : Int), p + n = _end → _end ≤ new_end → n < fuel →
      ∃ m', reserve_loop _end fuel m p new_end = some (m', new_end + n) ∧
        (∀ x, m'.cell x = if new_end ≤ x ∧ x < new_end + n then m.cell (p + (x - new_end))
          else if p ≤ x ∧ x < _end then none else m.cell x) ∧
        m'.brk = m.brk := by
  induction n with
  | zero =>
    intro fuel m p new_end hp _ hf
    obtain ⟨f1, rfl⟩ : ∃ f1, fuel = f1 + 1 := ⟨fuel - 1, by omega⟩
    simp only [Nat.cast_zero, add_zero] at hp ⊢
    refine ⟨m, by simp [reserve_loop, hp], fun x => ?_, rfl⟩
    rw [if_neg (by omega), if_neg (by omega)]
  | succ n ih =>
    intro fuel m p new_end hp hle hf
    obtain ⟨f1, rfl⟩ : ∃ f1, fuel = f1 + 1 := ⟨fuel - 1, by omega⟩
    rw [Nat.cast_succ] at hp ⊢
    have hne : p ≠ _end := by omega
    obtain ⟨m', h1, h2, h3⟩ := ih f1 ((m.write new_end (m.cell p)).write p none) (p + 1)
      (new_end + 1) (by omega) (by omega) (by omega)
    refine ⟨m', ?_, fun x => ?_, by rw [h3]; rfl⟩
    · simp only [reserve_loop, ne_eq, hne, not_false_eq_true, if_true]
      rw [h1]; congr 2; omega
    · rw [h2]
      simp only [cell_write]
      split_ifs <;> first | rfl | (exfalso; omega) | (congr 1; omega)

/-- The construction loop fills `count` slots from `p` on. -/
theorem construct_loop_spec (n : Nat) :
    ∀ (m : VMem T) (p : Int) (value : T),
      (∀ x, (construct_loop n m p (.obj value)).cell x =
        if p ≤ x ∧ x < p + n then some value else m.cell x) ∧
      (construct_loop n m p (.obj value)).brk = m.brk := by
  induction n with
  | zero =>
    intro m p value
    refine ⟨fun x => ?_, rfl⟩
    have : ¬ (p ≤ x ∧ x < p + ((0 : Nat) : Int)) := by
      simp only [Nat.cast_zero, add_zero]; omega
    rw [if_neg this]; rfl
  | succ n ih =>
    intro m p value
    obtain ⟨h1, h2⟩ := ih (m.write p (some value)) (p + 1) value
    refine ⟨fun x => ?_, by rw [construct_loop]; simp only [Arg.read]; rw [h2]; rfl⟩
    rw [construct_loop]
    simp only [Arg.read]
    rw [h1]
    simp only [cell_write, Nat.cast_succ]
    by_cases hx : x = p
    · subst hx
      rw [if_neg (by omega), if_pos rfl, if_pos (by omega)]
    · by_cases hr : p + 1 ≤ x ∧ x < p + 1 + (n : Int)
      · rw [if_pos hr, if_pos (by omega)]
      · rw [if_neg hr, if_neg hx, if_neg (by omega)]

/-- The destruction loop empties the slots `[p, _end)`. -/
theorem destroy_loop_spec (_end : Int) (n : Nat) :
    ∀ (fuel : Nat) (m : VMem T) (p : Int), p + n = _end → n < fuel →
      ∃ m', destroy_loop _end fuel m p = some m' ∧
        (∀ x, m'.cell x = if p ≤ x ∧ x < _end then none else m.cell x) ∧ m'.brk = m.brk := by
  induction n with
  | zero =>
    intro fuel m p hp hf
    obtain ⟨f1, rfl⟩ : ∃ f1, fuel = f1 + 1 := ⟨fuel - 1, by omega⟩
    simp only [Nat.cast_zero, add_zero] at hp
    refine ⟨m, by simp [destroy_loop, hp], fun x => ?_, rfl⟩
    rw [if_neg (by omega)]
  | succ n ih =>
    intro fuel m p hp hf
    obtain ⟨f1, rfl⟩ : ∃ f1, fuel = f1 + 1 := ⟨fuel - 1, by omega⟩
    rw [Nat.cast_succ] at hp
    have hne : p ≠ _end := by omega
    obtain ⟨m', h1, h2, h3⟩ := ih f1 (m.write p none) (p + 1) (by omega) (by omega)
    refine ⟨m', ?_, fun x => ?_, by rw [h3]; rfl⟩
    · simp only [destroy_loop, ne_eq, hne, not_false_eq_true, if_true]
      exact h1
    · rw [h2]
      simp only [cell_write]
      by_cases hq : p + 1 ≤ x ∧ x < _end
      · rw [if_pos hq, if_pos (by omega)]
      · rw [if_neg hq]
        by_cases hxp : x = p
        · rw [if_pos hxp, if_pos (by omega)]
        · rw [if_neg hxp, if_neg (by omega)]

end vector

/-! ## Contiguous sequence: growth -/

namespace vector

theorem get?_splice (xs ys : List T) (i j k : Nat) (hi : i ≤ xs.length) :
    (xs.take i ++ ys ++ xs.drop j).get? k =
      if k < i then xs.get? k
      else if k < i + ys.length then ys.get? (k - i) else xs.get? (j + (k - i - ys.length)) := by
  simp only [List.get?_eq_getElem?]
  have hl : (xs.take i).length = i := by simp [hi]
  by_cases h1 : k < i
  · rw [if_pos h1, List.append_assoc, List.getElem?_append_left (by omega),
      List.getElem?_take_of_lt h1]
  · rw [if_neg h1, List.append_assoc, List.getElem?_append_right (by omega), hl]
    by_cases h2 : k < i + ys.length
    · rw [if_pos h2, List.getElem?_append_left (by omega)]
    · rw [if_neg h2, List.getElem?_append_right (by omega), List.getElem?_drop]

theorem holds_capacity {m : VMem T} {v : vector} {xs : List T} (h : Holds m v xs) :
    (v.capacity : Int) = v._cap - v._start := by
  obtain ⟨h1, h2, _, h4, _, _⟩ := h
  exact to_size_of_bounds _ (by omega) h4

theorem holds_size {m : VMem T} {v : vector} {xs : List T} (h : Holds m v xs) :
    v.size = xs.length := by
  obtain ⟨h1, h2, _, h4, h5, _⟩ := h
  have := to_size_of_bounds (v._end - v._start) (by omega) (by omega)
  unfold size
  omega

theorem holds_size_le {m : VMem T} {v : vector} {xs : List T} (h : Holds m v xs) :
    v.size ≤ v.capacity := by
  have h1 := holds_capacity h
  have h2 := holds_size h
  obtain ⟨_, _, _, _, h5, _⟩ := h
  omega

/-- A `reserve` that has to reallocate moves the elements to a fresh block
of exactly `new_cap` slots and leaves every other slot alone. -/
theorem reserve_spec (fuel : Nat) (m : VMem T) (v : vector) (xs : List T) (new_cap : Nat)
    (h : Holds m v xs) (hc : v.capacity < new_cap) (hn : new_cap < SIZE_MOD)
    (hf : xs.length < fuel) :
    ∃ m', reserve fuel m v new_cap
        = some (m', ⟨m.brk, m.brk + xs.length, m.brk + new_cap⟩) ∧
      Holds m' ⟨m.brk, m.brk + xs.length, m.brk + new_cap⟩ xs ∧
      (∀ x, x < m.brk → (x < v._start ∨ v._end ≤ x) → m'.cell x = m.cell x) ∧
      m'.brk = m.brk + new_cap := by
  have hcap := holds_capacity h
  obtain ⟨h1, h2, h3, h4, h5, h6⟩ := h
  obtain ⟨m', e1, e2, e3⟩ := reserve_loop_spec v._end xs.length fuel (m.allocate new_cap).1
    v._start m.brk (by omega) (by omega) hf
  refine ⟨m', ?_, ⟨by simp, by simp; omega, ?_, ?_, by simp, ?_⟩, ?_, e3⟩
  · unfold reserve
    rw [if_neg (by omega)]
    simp only [VMem.allocate] at e1 ⊢
    rw [e1]
  · rw [e3]; simp [VMem.allocate]
  · simp only [add_sub_cancel_left]; exact_mod_cast hn
  · intro i hi
    show m'.cell (m.brk + i) = _
    rw [e2, if_pos (by constructor <;> omega)]
    simp only [VMem.allocate, add_sub_cancel_left]
    exact h6 i hi
  · intro x hx hout
    rw [e2, if_neg (by omega), if_neg (by omega)]
    rfl

/-- The growth step of `push_back` and the single-element `insert` leaves room
for one more element. -/
theorem grow_spec (fuel : Nat) (m : VMem T) (v : vector) (xs : List T)
    (h : Holds m v xs) (h2 : 2 * v.capacity < SIZE_MOD) (hf : xs.length < fuel) :
    ∃ m1 v1, grow fuel m v = some (m1, v1) ∧ Holds m1 v1 xs ∧ v1._end < v1._cap ∧
      Frame m v m1 v1 := by
  have hcap := holds_capacity h
  by_cases he : v._end = v._cap
  · have hlt : v.capacity < (if v.capacity = 0 then 1 else (v.capacity * 2) % SIZE_MOD) := by
      by_cases h0 : v.capacity = 0
      · rw [if_pos h0]; omega
      · rw [if_neg h0, Nat.mod_eq_of_lt (by omega)]; omega
    have hlt2 : (if v.capacity = 0 then 1 else (v.capacity * 2) % SIZE_MOD) < SIZE_MOD := by
      by_cases h0 : v.capacity = 0
      · rw [if_pos h0]; decide
      · rw [if_neg h0]; exact Nat.mod_lt _ (by decide)
    obtain ⟨m', e1, e2, e3, e4⟩ := reserve_spec fuel m v xs _ h hlt hlt2 hf
    refine ⟨m', _, ?_, e2, ?_, ?_⟩
    · unfold grow; rw [if_pos he]; exact e1
    · obtain ⟨h1, _, _, _, h5, _⟩ := h
      show m.brk + (xs.length : Int) < m.brk + _
      have : (xs.length : Int) = v.capacity := by omega
      omega
    · intro x hx hout
      obtain ⟨h1, hh2, h3, _, _, _⟩ := h
      exact ⟨e3 x hx (by omega), Or.inl hx⟩
  · refine ⟨m, v, ?_, h, ?_, fun x _ hout => ⟨rfl, hout⟩⟩
    · unfold grow; rw [if_neg he]
    · obtain ⟨_, hh2, _⟩ := h
      omega

/-- The growth step of the multi-element inserts leaves room for `n` more
elements, and does nothing when there is room already. -/
theorem grow_by_spec (fuel : Nat) (m : VMem T) (v : vector) (xs : List T) (n : Nat)
    (h : Holds m v xs) (hk : xs.length + n < SIZE_MOD) (hf : xs.length < fuel) :
    ∃ m1 v1, grow_by fuel m v n = some (m1, v1) ∧ Holds m1 v1 xs ∧ v1._end + n ≤ v1._cap ∧
      Frame m v m1 v1 ∧ (xs.length + n ≤ v.capacity → m1 = m ∧ v1 = v) := by
  have hcap := holds_capacity h
  have hsz := holds_size h
  by_cases he : (v.size + n) % SIZE_MOD > v.capacity
  · rw [hsz, Nat.mod_eq_of_lt hk] at he
    have hlt : v.capacity < max ((v.capacity * 2) % SIZE_MOD) ((v.size + n) % SIZE_MOD) := by
      rw [hsz, Nat.mod_eq_of_lt hk]; exact lt_max_of_lt_right he
    have hlt2 : max ((v.capacity * 2) % SIZE_MOD) ((v.size + n) % SIZE_MOD) < SIZE_MOD :=
      max_lt (Nat.mod_lt _ (by decide)) (Nat.mod_lt _ (by decide))
    have hge : xs.length + n ≤ max ((v.capacity * 2) % SIZE_MOD) ((v.size + n) % SIZE_MOD) := by
      rw [hsz, Nat.mod_eq_of_lt hk]; exact le_max_right _ _
    obtain ⟨m', e1, e2, e3, e4⟩ := reserve_spec fuel m v xs _ h hlt hlt2 hf
    refine ⟨m', _, ?_, e2, ?_, ?_, fun hle => absurd hle (by omega)⟩
    · unfold grow_by; rw [if_pos (by rw [hsz, Nat.mod_eq_of_lt hk]; exact he)]; exact e1
    · show m.brk + (xs.length : Int) + n ≤ m.brk + _
      have : ((xs.length + n : Nat) : Int) ≤ _ := Int.ofNat_le.mpr hge
      push_cast at this
      omega
    · intro x hx hout
      obtain ⟨h1, hh2, h3, _, _, _⟩ := h
      exact ⟨e3 x hx (by omega), Or.inl hx⟩
  · refine ⟨m, v, ?_, h, ?_, fun x _ hout => ⟨rfl, hout⟩, fun _ => ⟨rfl, rfl⟩⟩
    · unfold grow_by; rw [if_neg he]
    · rw [hsz, Nat.mod_eq_of_lt hk] at he
      obtain ⟨_, _, _, _, h5, _⟩ := h
      omega

end vector

/-! ## Contiguous sequence: insertion -/

namespace vector

theorem to_size_pos (v : vector) (idx : Nat) (h : idx < SIZE_MOD) :
    to_size (v._start + idx - v._start) = idx := by
  rw [add_sub_cancel_left]; exact to_size_natCast idx h

/-- `std::move_backward(_start + idx, _end, _end + k)` opens a gap of `k`
slots at index `idx`. -/
theorem open_gap (m1 : VMem T) (v1 : vector) (xs : List T) (idx k : Nat)
    (h : Holds m1 v1 xs) (hidx : idx ≤ xs.length) :
    (∀ x, (move_backward m1 (v1._start + idx) v1._end (v1._end + k)).cell x =
      if v1._start + idx + k ≤ x ∧ x < v1._end + k then m1.cell (x - k) else m1.cell x) ∧
    (move_backward m1 (v1._start + idx) v1._end (v1._end + k)).brk = m1.brk := by
  obtain ⟨h1, h2, h3, h4, h5, h6⟩ := h
  have hn : (v1._end - (v1._start + idx)).toNat = xs.length - idx := by omega
  obtain ⟨e1, e2⟩ := move_backward_loop_spec (xs.length - idx) m1 v1._end (v1._end + k)
    (by omega)
  unfold move_backward
  rw [hn]
  refine ⟨fun x => ?_, e2⟩
  rw [e1]
  have hc : (((xs.length - idx : Nat) : Int)) = (xs.length : Int) - idx := by omega
  by_cases hx : v1._start + idx + k ≤ x ∧ x < v1._end + k
  · rw [if_pos hx, if_pos (by omega)]
    congr 1; omega
  · rw [if_neg hx, if_neg (by omega)]

/-- A store that agrees with `m1` below the gap, holds `ys` in the gap and the
shifted tail above it, holds the elements with `ys` inserted at `idx`. -/
theorem holds_insert (m1 m3 : VMem T) (v1 : vector) (xs ys : List T) (idx : Nat)
    (h : Holds m1 v1 xs) (hidx : idx ≤ xs.length) (hroom : v1._end + ys.length ≤ v1._cap)
    (hbrk : m3.brk = m1.brk)
    (ha : ∀ i : Nat, i < idx → m3.cell (v1._start + i) = m1.cell (v1._start + i))
    (hb : ∀ i : Nat, i < ys.length → m3.cell (v1._start + idx + i) = ys.get? i)
    (hc : ∀ i : Nat, idx ≤ i → i < xs.length →
      m3.cell (v1._start + i + ys.length) = m1.cell (v1._start + i)) :
    Holds m3 { v1 with _end := v1._end + ys.length } (xs.take idx ++ ys ++ xs.drop idx) := by
  obtain ⟨h1, h2, h3, h4, h5, h6⟩ := h
  have hlen : (xs.take idx ++ ys ++ xs.drop idx).length = xs.length + ys.length := by
    simp only [List.length_append, List.length_take, List.length_drop]; omega
  refine ⟨?_, hroom, ?_, h4, ?_, ?_⟩
  · show v1._start ≤ v1._end + ys.length; omega
  · rw [hbrk]; exact h3
  · show v1._end + ys.length - v1._start = _
    rw [hlen]; push_cast; omega
  · intro j hj
    rw [hlen] at hj
    show m3.cell (v1._start + j) = _
    rw [get?_splice xs ys idx idx j hidx]
    by_cases c1 : j < idx
    · rw [if_pos c1, ha j c1]; exact h6 j (by omega)
    · rw [if_neg c1]
      by_cases c2 : j < idx + ys.length
      · rw [if_pos c2, ← hb (j - idx) (by omega)]
        congr 1; omega
      · rw [if_neg c2]
        have e : idx + (j - idx - ys.length) = j - ys.length := by omega
        rw [e, ← h6 (j - ys.length) (by omega), ← hc (j - ys.length) (by omega) (by omega)]
        congr 1; omega

theorem size_grown (m : VMem T) (v : vector) (xs : List T) (m' : VMem T) (v' : vector)
    (ys : List T) (k : Nat) (h : Holds m v xs) (h' : Holds m' v' ys)
    (hl : ys.length = xs.length + k) : v'.size = v.size + k := by
  rw [holds_size h, holds_size h', hl]

/-- The two single-element `insert` overloads. -/
theorem insert_spec (fuel : Nat) (m : VMem T) (v : vector) (xs : List T) (idx : Nat)
    (value : T) (h : Holds m v xs) (hidx : idx ≤ xs.length) (h2 : 2 * v.capacity < SIZE_MOD)
    (hf : xs.length < fuel) :
    ∃ (m' : VMem T) (v' : vector),
      vector.insert fuel m v (v._start + idx) (.obj value) = some (m', v', v'._start + idx) ∧
      insert_move fuel m v (v._start + idx) (.obj value) = some (m', v', v'._start + idx) ∧
      Holds m' v' (xs.take idx ++ [value] ++ xs.drop idx) := by
  have hcap := holds_capacity h
  have hi : idx < SIZE_MOD := by
    obtain ⟨h1, hh2, h3, h4, h5, h6⟩ := h
    have : (idx : Int) < SIZE_MOD := by omega
    exact_mod_cast this
  obtain ⟨m1, v1, e1, e2, e3, _⟩ := grow_spec fuel m v xs h h2 hf
  obtain ⟨g1, g2⟩ := open_gap m1 v1 xs idx 1 e2 hidx
  simp only [Nat.cast_one] at g1 g2
  have H := holds_insert m1 ((move_backward m1 (v1._start + idx) v1._end (v1._end + 1)).write
    (v1._start + idx) (some value)) v1 xs [value] idx e2 hidx (by simp; omega)
    (by simp only [brk_write]; exact g2)
    (by
      intro i hi'
      simp only [cell_write]
      rw [if_neg (by omega), g1, if_neg (by omega)])
    (by
      intro i hi'
      simp only [List.length_singleton, Nat.lt_one_iff] at hi'
      subst hi'
      simp [cell_write])
    (by
      intro i hi1 hi2
      obtain ⟨h1, hh2, h3, h4, h5, h6⟩ := e2
      simp only [cell_write, List.length_singleton]
      simp only [Nat.cast_one]
      rw [if_neg (by omega), g1, if_pos (by omega)]
      congr 1; omega)
  simp only [List.length_singleton, Nat.cast_one] at H
  refine ⟨_, { v1 with _end := v1._end + 1 }, ?_, ?_, H⟩
  · unfold vector.insert
    rw [to_size_pos v idx hi]
    simp only [e1, Arg.read]
  · unfold insert_move
    rw [to_size_pos v idx hi]
    simp only [e1, Arg.read]

/-- The moving `push_back` appends its argument. -/
theorem push_back_spec (fuel : Nat) (m : VMem T) (v : vector) (xs : List T) (value : T)
    (h : Holds m v xs) (h2 : 2 * v.capacity < SIZE_MOD) (hf : xs.length < fuel) :
    ∃ (m' : VMem T) (v' : vector),
      vector.push_back fuel m v value = some (m', v') ∧ Holds m' v' (xs ++ [value]) := by
  obtain ⟨m1, v1, e1, e2, e3, _⟩ := grow_spec fuel m v xs h h2 hf
  have H := holds_insert m1 (m1.write v1._end (some value)) v1 xs [value] xs.length e2
    (le_refl _) (by simp; omega) rfl
    (by
      intro i hi'
      obtain ⟨h1, hh2, h3, h4, h5, h6⟩ := e2
      simp only [cell_write]
      rw [if_neg (by omega)])
    (by
      intro i hi'
      obtain ⟨h1, hh2, h3, h4, h5, h6⟩ := e2
      simp only [List.length_singleton, Nat.lt_one_iff] at hi'
      subst hi'
      simp only [cell_write]
      rw [if_pos (by simp only [Nat.cast_zero, add_zero]; omega)]
      rfl)
    (by intro i hi1 hi2; omega)
  simp only [List.length_singleton, Nat.cast_one, List.take_length, List.drop_length,
    List.append_nil] at H
  refine ⟨_, { v1 with _end := v1._end + 1 }, ?_, H⟩
  unfold vector.push_back
  simp only [e1]

/-- The copying `push_back` constructs its argument in the slot at `_end` and
leaves the elements of the vector, and so its size, as they were. -/
theorem push_back_const_spec (fuel : Nat) (m : VMem T) (v : vector) (xs : List T) (value : T)
    (h : Holds m v xs) (h2 : 2 * v.capacity < SIZE_MOD) (hf : xs.length < fuel) :
    ∃ (m' : VMem T) (v' : vector),
      push_back_const fuel m v value = some (m', v') ∧ Holds m' v' xs ∧
      m'.cell v'._end = some value := by
  obtain ⟨m1, v1, e1, e2, e3, _⟩ := grow_spec fuel m v xs h h2 hf
  obtain ⟨h1, hh2, h3, h4, h5, h6⟩ := e2
  refine ⟨m1.write v1._end (some value), v1, ?_, ⟨h1, hh2, h3, h4, h5, ?_⟩, ?_⟩
  · unfold push_back_const
    simp only [e1]
  · intro i hi
    simp only [cell_write]
    rw [if_neg (by omega)]
    exact h6 i hi
  · simp only [cell_write, if_true]

end vector

/-! ## Contiguous sequence: multi-element insertion and erasure -/

namespace vector

theorem write_self (m : VMem T) (p : Int) : m.write p (m.cell p) = m := by
  cases m with
  | mk cell brk =>
    simp only [VMem.write, VMem.mk.injEq, and_true]
    funext x
    by_cases hx : x = p
    · rw [if_pos hx, hx]
    · rw [if_neg hx]

theorem move_backward_loop_self (n : Nat) :
    ∀ (m : VMem T) (last : Int), move_backward_loop n m last last = m := by
  induction n with
  | zero => intro m last; rfl
  | succ n ih => intro m last; rw [move_backward_loop, write_self, ih]

theorem get?_replicate_lt (k i : Nat) (value : T) (h : i < k) :
    (List.replicate k value).get? i = some value := by
  rw [List.get?_eq_getElem?, List.getElem?_replicate, if_pos h]

/-- `insert(pos, count, value)`. -/
theorem insert_n_spec (fuel : Nat) (m : VMem T) (v : vector) (xs : List T) (idx k : Nat)
    (value : T) (h : Holds m v xs) (hidx : idx ≤ xs.length) (hk : xs.length + k < SIZE_MOD)
    (hf : xs.length < fuel) :
    ∃ (m' : VMem T) (v' : vector),
      insert_n fuel m v (v._start + idx) k (.obj value) = some (m', v', v'._start + idx) ∧
      Holds m' v' (xs.take idx ++ List.replicate k value ++ xs.drop idx) ∧
      (k = 0 → m' = m ∧ v' = v) := by
  have hcap := holds_capacity h
  have hle := holds_size_le h
  have hsz := holds_size h
  have hi : idx < SIZE_MOD := by omega
  obtain ⟨m1, v1, e1, e2, e3, _, e5⟩ := grow_by_spec fuel m v xs k h hk hf
  obtain ⟨g1, g2⟩ := open_gap m1 v1 xs idx k e2 hidx
  obtain ⟨c1, c2⟩ := construct_loop_spec k
    (move_backward m1 (v1._start + idx) v1._end (v1._end + k)) (v1._start + idx) value
  have H := holds_insert m1 (construct_loop k
    (move_backward m1 (v1._start + idx) v1._end (v1._end + k)) (v1._start + idx) (.obj value))
    v1 xs (List.replicate k value) idx e2 hidx (by simp; omega)
    (by rw [c2]; exact g2)
    (by
      intro i hi'
      rw [c1, if_neg (by omega), g1, if_neg (by omega)])
    (by
      intro i hi'
      simp only [List.length_replicate] at hi'
      rw [c1, if_pos (by omega), get?_replicate_lt k i value hi'])
    (by
      intro i hi1 hi2
      obtain ⟨h1, hh2, h3, h4, h5, h6⟩ := e2
      simp only [List.length_replicate]
      rw [c1, if_neg (by omega), g1, if_pos (by omega)]
      congr 1; omega)
  simp only [List.length_replicate] at H
  refine ⟨_, { v1 with _end := v1._end + k }, ?_, H, ?_⟩
  · unfold insert_n
    rw [to_size_pos v idx hi]
    simp only [e1]
  · intro hk0
    subst hk0
    obtain ⟨rfl, rfl⟩ := e5 (by omega)
    refine ⟨?_, ?_⟩
    · simp only [Nat.cast_zero, add_zero, construct_loop, move_backward,
        move_backward_loop_self]
    · simp only [Nat.cast_zero, add_zero]

/-- `insert(pos, first, last)` and `insert(pos, ilist)` for a source range
that lies outside the block of the vector. -/
theorem insert_range_spec (fuel : Nat) (m : VMem T) (v : vector) (xs : List T) (idx : Nat)
    (first : Int) (ys : List T) (h : Holds m v xs) (hidx : idx ≤ xs.length)
    (hk : xs.length + ys.length < SIZE_MOD) (hf : xs.length < fuel)
    (hsrc : ∀ i : Nat, i < ys.length → m.cell (first + i) = ys.get? i)
    (hdis : first + ys.length ≤ v._start ∨ (v._cap ≤ first ∧ first + ys.length ≤ m.brk)) :
    ∃ (m' : VMem T) (v' : vector),
      insert_range fuel m v (v._start + idx) first (first + ys.length)
        = some (m', v', v'._start + idx) ∧
      insert_ilist fuel m v (v._start + idx) first (first + ys.length)
        = some (m', v', v'._start + idx) ∧
      Holds m' v' (xs.take idx ++ ys ++ xs.drop idx) ∧
      (ys = [] → m' = m ∧ v' = v) := by
  have hcap := holds_capacity h
  have hle := holds_size_le h
  have hsz := holds_size h
  have hi : idx < SIZE_MOD := by omega
  have hn : to_size (first + ys.length - first) = ys.length := by
    rw [add_sub_cancel_left]; exact to_size_natCast _ (by omega)
  by_cases h0 : ys.length = 0
  · have hnil : ys = [] := List.eq_nil_of_length_eq_zero h0
    subst hnil
    refine ⟨m, v, ?_, ?_, ?_, fun _ => ⟨rfl, rfl⟩⟩
    · unfold insert_range
      rw [hn, add_sub_cancel_left]; rfl
    · unfold insert_ilist insert_range
      rw [hn, add_sub_cancel_left]; rfl
    · simpa using h
  · obtain ⟨m1, v1, e1, e2, e3, e4, _⟩ := grow_by_spec fuel m v xs ys.length h hk hf
    obtain ⟨g1, g2⟩ := open_gap m1 v1 xs idx ys.length e2 hidx
    have hbrk : v._cap ≤ m.brk := h.2.2.1
    have hvs : v._start ≤ v._cap := le_trans h.1 h.2.1
    -- the source range lies outside the block of `v1` and still holds `ys`
    have hsrc1 : ∀ i : Nat, i < ys.length → m1.cell (first + i) = ys.get? i ∧
        (first + i < v1._start ∨ v1._cap ≤ first + i) := by
      intro i hi'
      obtain ⟨q1, q2⟩ := e4 (first + i) (by omega) (by omega)
      exact ⟨by rw [q1]; exact hsrc i hi', q2⟩
    have hdis1 : first + ys.length ≤ v1._start ∨ v1._cap ≤ first := by
      obtain ⟨h1, hh2, h3, h4, h5, h6⟩ := e2
      rcases (hsrc1 0 (by omega)).2 with q | q
      · left
        by_contra hc
        have hlt : (v1._start - first).toNat < ys.length := by omega
        have := (hsrc1 (v1._start - first).toNat hlt).2
        omega
      · right; simpa using q
    have hcnt : (first + ys.length - first).toNat = ys.length := by omega
    obtain ⟨c1, c2⟩ := copy_loop_spec ys.length
      (move_backward m1 (v1._start + idx) v1._end (v1._end + ys.length)) first (v1._start + idx)
      (by obtain ⟨h1, hh2, h3, h4, h5, h6⟩ := e2; omega)
    have H := holds_insert m1 (copy_loop ys.length
      (move_backward m1 (v1._start + idx) v1._end (v1._end + ys.length)) first (v1._start + idx))
      v1 xs ys idx e2 hidx e3
      (by rw [c2]; exact g2)
      (by
        intro i hi'
        rw [c1, if_neg (by omega), g1, if_neg (by omega)])
      (by
        intro i hi'
        obtain ⟨h1, hh2, h3, h4, h5, h6⟩ := e2
        rw [c1, if_pos (by omega), g1, if_neg (by omega), ← (hsrc1 i hi').1]
        congr 1; omega)
      (by
        intro i hi1 hi2
        obtain ⟨h1, hh2, h3, h4, h5, h6⟩ := e2
        rw [c1, if_neg (by omega), g1, if_pos (by omega)]
        congr 1; omega)
    refine ⟨_, { v1 with _end := v1._end + ys.length }, ?_, ?_, H, fun hnil => ?_⟩
    · unfold insert_range
      rw [hn, if_neg h0, to_size_pos v idx hi]
      simp only [e1, copy, hcnt]
    · unfold insert_ilist insert_range
      rw [hn, if_neg h0, to_size_pos v idx hi]
      simp only [e1, copy, hcnt]
    · exact absurd (by rw [hnil]; rfl) h0

/-- The single-position `erase` is the range `erase` of one element. -/
theorem erase_eq (fuel : Nat) (m : VMem T) (v : vector) (p : Int) :
    erase_range (fuel + 2) m v p (p + 1) = some (erase m v p) := by
  unfold erase_range erase
  rw [if_neg (by omega)]
  have e1 : p + 1 - p = 1 := by omega
  have e2 : v._end - 1 + 1 = v._end := by omega
  simp only [e1, destroy_loop, ne_eq, e2, not_true_eq_false, if_false]
  rw [if_pos (by omega)]

/-- `erase(first, last)`. -/
theorem erase_range_spec (fuel : Nat) (m : VMem T) (v : vector) (xs : List T) (i j : Nat)
    (h : Holds m v xs) (hij : i ≤ j) (hj : j ≤ xs.length) (hf : j - i < fuel) :
    ∃ (m' : VMem T) (v' : vector),
      erase_range fuel m v (v._start + i) (v._start + j) = some (m', v', v'._start + i) ∧
      Holds m' v' (xs.take i ++ xs.drop j) ∧ v'._start = v._start ∧ v'._cap = v._cap := by
  obtain ⟨h1, h2, h3, h4, h5, h6⟩ := h
  by_cases hij' : i = j
  · subst hij'
    refine ⟨m, v, ?_, ?_, rfl, rfl⟩
    · unfold erase_range
      rw [if_pos rfl, add_sub_cancel_left]
    · rw [List.take_append_drop]; exact ⟨h1, h2, h3, h4, h5, h6⟩
  · have hcnt : (v._end - (v._start + (v._start + i - v._start)
        + (v._start + j - (v._start + i)))).toNat = xs.length - j := by omega
    obtain ⟨c1, c2⟩ := copy_loop_spec (xs.length - j) m (v._start + j) (v._start + i)
      (by omega)
    obtain ⟨m', d1, d2, d3⟩ := destroy_loop_spec v._end (j - i) fuel
      (copy_loop (xs.length - j) m (v._start + j) (v._start + i)) (v._end - ((j : Int) - i))
      (by omega) hf
    refine ⟨m', { v with _end := v._end - ((j : Int) - i) }, ?_, ⟨?_, ?_, ?_, h4, ?_, ?_⟩,
      rfl, rfl⟩
    · unfold erase_range
      rw [if_neg (by omega)]
      simp only [move, hcnt]
      have a2 : v._start + (v._start + (i : Int) - v._start) = v._start + i := by omega
      have a3 : v._start + (j : Int) - (v._start + i) = (j : Int) - i := by omega
      have a4 : v._start + (i : Int) + ((j : Int) - i) = v._start + j := by omega
      simp only [a2, a3, a4, d1]
    · show v._start ≤ v._end - ((j : Int) - i); omega
    · show v._end - ((j : Int) - i) ≤ v._cap; omega
    · rw [d3, c2]; exact h3
    · show v._end - ((j : Int) - i) - v._start = _
      simp only [List.length_append, List.length_take, List.length_drop]
      omega
    · intro k hk
      simp only [List.length_append, List.length_take, List.length_drop] at hk
      show m'.cell (v._start + k) = _
      have hs := get?_splice xs [] i j k (by omega)
      simp only [List.append_nil, List.length_nil, add_zero, Nat.sub_zero] at hs
      have hk' : k < xs.length - (j - i) := by omega
      by_cases hk1 : k < i
      · rw [hs, if_pos hk1, d2, if_neg (by omega), c1, if_neg (by omega)]
        exact h6 k (by omega)
      · rw [hs, if_neg hk1, if_neg hk1, d2, if_neg (by omega), c1, if_pos (by omega),
          ← h6 (j + (k - i)) (by omega)]
        congr 1; omega

end vector

/-! ## Contiguous sequence: access, comparison, `pop_back` and `clear` -/

namespace vector

/-- The single-position `erase` on an empty vector moves `_end` below `_start`. -/
theorem erase_empty_size (m : VMem T) (v : vector) (h : v._start = v._end) :
    (erase m v v._start).2.1.size = SIZE_MOD - 1 := by
  unfold erase size to_size
  simp only [h]
  have : v._end - 1 - v._end = -1 := by omega
  rw [this]
  decide

/-- The range `erase` on an empty range changes nothing. -/
theorem erase_range_empty (fuel : Nat) (m : VMem T) (v : vector) (p : Int) :
    erase_range fuel m v p p = some (m, v, v._start + (p - v._start)) := by
  unfold erase_range
  rw [if_pos rfl]

/-- The loop of `operator==` returns, and with `true` exactly when the slots
from index `i` on agree. -/
theorem eq_loop_spec [DecidableEq T] (m : VMem T) (a b : vector) (k : Nat) :
    ∀ (fuel i : Nat), i + k = a.size → k < fuel →
      ∃ r, eq_loop m a b fuel i = some r ∧
        (r = true ↔ ∀ j, i ≤ j → j < a.size → m.cell (a._start + j) = m.cell (b._start + j)) := by
  induction k with
  | zero =>
    intro fuel i hi hf
    obtain ⟨f1, rfl⟩ : ∃ f1, fuel = f1 + 1 := ⟨fuel - 1, by omega⟩
    refine ⟨true, ?_, ?_⟩
    · simp only [eq_loop]; rw [if_neg (by omega)]
    · simp only [true_iff]; intro j h1 h2; omega
  | succ k ih =>
    intro fuel i hi hf
    obtain ⟨f1, rfl⟩ : ∃ f1, fuel = f1 + 1 := ⟨fuel - 1, by omega⟩
    by_cases hc : m.cell (a._start + i) = m.cell (b._start + i)
    · obtain ⟨r, e1, e2⟩ := ih f1 (i + 1) (by omega) (by omega)
      refine ⟨r, ?_, ?_⟩
      · simp only [eq_loop]
        rw [if_pos (by omega), if_neg (by simpa using hc)]
        exact_mod_cast e1
      · rw [e2]
        constructor
        · intro h j h1 h2
          by_cases hj : j = i
          · subst hj; exact hc
          · exact h j (by omega) h2
        · intro h j h1 h2
          exact h j (by omega) h2
    · refine ⟨false, ?_, ?_⟩
      · simp only [eq_loop]
        rw [if_pos (by omega), if_pos (by simpa using hc)]
      · simp only [Bool.false_eq_true, false_iff]
        intro h
        exact hc (h i (le_refl _) (by omega))

/-- Two lists of the same length agree when their entries agree. -/
theorem list_ext_get? (xs ys : List T) (hl : xs.length = ys.length)
    (h : ∀ i, i < xs.length → xs.get? i = ys.get? i) : xs = ys := by
  apply List.ext_get? 
  intro i
  by_cases hi : i < xs.length
  · exact h i hi
  · rw [List.get?_eq_none.2 (by omega), List.get?_eq_none.2 (by omega)]

/-- `operator==` on two well-formed vectors. -/
theorem eq_spec [DecidableEq T] (fuel : Nat) (m : VMem T) (a b : vector) (xs ys : List T)
    (ha : Holds m a xs) (hb : Holds m b ys) (hf : xs.length < fuel) :
    ∃ r, vector.eq fuel m a b = some r ∧
      (r = true ↔ (a.size = b.size ∧ ∀ i, i < a.size → index m a i = index m b i)) ∧
      (r = true ↔ xs = ys) := by
  have hsa := holds_size ha
  have hsb := holds_size hb
  by_cases hs : a.size = b.size
  · obtain ⟨r, e1, e2⟩ := eq_loop_spec m a b a.size fuel 0 (by omega) (by omega)
    have e3 : r = true ↔ ∀ i, i < a.size → index m a i = index m b i := by
      rw [e2]
      constructor
      · intro h i hi; exact h i (Nat.zero_le _) hi
      · intro h j _ hj; exact h j hj
    refine ⟨r, ?_, ?_, ?_⟩
    · unfold vector.eq; rw [if_neg (by simpa using hs)]; exact e1
    · rw [e3]; exact ⟨fun h => ⟨hs, h⟩, fun h => h.2⟩
    · rw [e3]
      constructor
      · intro h
        apply list_ext_get? xs ys (by omega)
        intro i hi
        have := h i (by omega)
        unfold index at this
        rw [← ha.2.2.2.2.2 i hi, ← hb.2.2.2.2.2 i (by omega)]
        exact this
      · intro h i hi
        subst h
        unfold index
        rw [ha.2.2.2.2.2 i (by omega), hb.2.2.2.2.2 i (by omega)]
  · refine ⟨false, ?_, ?_, ?_⟩
    · unfold vector.eq; rw [if_pos (by simpa using hs)]
    · simp only [Bool.false_eq_true, false_iff]; exact fun h => hs h.1
    · simp only [Bool.false_eq_true, false_iff]
      intro h; subst h; exact hs (by omega)

end vector

/-! ## Contiguous sequence: what an operation leaves alone -/

namespace vector

theorem holds_null (m : VMem T) (h : 0 ≤ m.brk) : Holds m null [] := by
  refine ⟨le_refl _, le_refl _, h, by decide, rfl, ?_⟩
  intro i hi
  simp at hi

theorem frame_refl (m : VMem T) (v : vector) : Frame m v m v :=
  fun _ _ hout => ⟨rfl, hout⟩

/-- A frame followed by writes inside the block reached is a frame. -/
theorem frame_body (m m1 m' : VMem T) (v v1 v' : vector) (h : Frame m v m1 v1)
    (hb : ∀ x, (x < v1._start ∨ v1._cap ≤ x) → m'.cell x = m1.cell x)
    (hs : v'._start = v1._start) (hc : v'._cap = v1._cap) : Frame m v m' v' := by
  intro x hx hout
  obtain ⟨q1, q2⟩ := h x hx hout
  exact ⟨by rw [hb x q2, q1], by rw [hs, hc]; exact q2⟩

/-- A vector whose slots are not written still holds its elements. -/
theorem holds_keep (m m' : VMem T) (w : vector) (ys : List T) (h : Holds m w ys)
    (hc : ∀ x, w._start ≤ x → x < w._end → m'.cell x = m.cell x) (hb : m.brk ≤ m'.brk) :
    Holds m' w ys := by
  obtain ⟨h1, h2, h3, h4, h5, h6⟩ := h
  refine ⟨h1, h2, le_trans h3 hb, h4, h5, ?_⟩
  intro i hi
  rw [hc _ (by omega) (by omega)]
  exact h6 i hi

/-- The store after `reserve` is at least as large as before. -/
theorem reserve_full (fuel : Nat) (m : VMem T) (v : vector) (xs : List T) (n : Nat)
    (h : Holds m v xs) (hn : n < SIZE_MOD) (hf : xs.length < fuel) :
    ∃ (m' : VMem T) (v' : vector), reserve fuel m v n = some (m', v') ∧ Holds m' v' xs ∧
      Frame m v m' v' ∧ m.brk ≤ m'.brk ∧ n ≤ v'.capacity ∧
      (n ≤ v.capacity → m' = m ∧ v' = v) ∧
      (v.capacity < n → v' = ⟨m.brk, m.brk + xs.length, m.brk + n⟩) := by
  by_cases hc : n ≤ v.capacity
  · refine ⟨m, v, ?_, h, frame_refl m v, le_refl _, hc, fun _ => ⟨rfl, rfl⟩,
      fun h' => absurd hc (by omega)⟩
    unfold reserve; rw [if_pos hc]
  · obtain ⟨m', e1, e2, e3, e4⟩ := reserve_spec fuel m v xs n h (by omega) hn hf
    have hcap := holds_capacity e2
    simp only [add_sub_cancel_left] at hcap
    refine ⟨m', _, e1, e2, ?_, by rw [e4]; omega, by omega, fun h' => absurd h' hc,
      fun _ => rfl⟩
    intro x hx hout
    obtain ⟨h1, h2, h3, _, _, _⟩ := h
    exact ⟨e3 x hx (by omega), Or.inl hx⟩

/-- The growth step of `push_back` and `insert`, with the store bound. -/
theorem grow_full (fuel : Nat) (m : VMem T) (v : vector) (xs : List T)
    (h : Holds m v xs) (h2 : 2 * v.capacity < SIZE_MOD) (hf : xs.length < fuel) :
    ∃ (m1 : VMem T) (v1 : vector), grow fuel m v = some (m1, v1) ∧ Holds m1 v1 xs ∧
      v1._end < v1._cap ∧ Frame m v m1 v1 ∧ m.brk ≤ m1.brk := by
  obtain ⟨m1, v1, e1, e2, e3, e4⟩ := grow_spec fuel m v xs h h2 hf
  refine ⟨m1, v1, e1, e2, e3, e4, ?_⟩
  by_cases he : v._end = v._cap
  · have hlt2 : (if v.capacity = 0 then 1 else (v.capacity * 2) % SIZE_MOD) < SIZE_MOD := by
      by_cases h0 : v.capacity = 0
      · rw [if_pos h0]; decide
      · rw [if_neg h0]; exact Nat.mod_lt _ (by decide)
    obtain ⟨m', v', r1, _, _, r4, _⟩ := reserve_full fuel m v xs _ h hlt2 hf
    unfold grow at e1
    rw [if_pos he, r1] at e1
    have := (Prod.mk.inj (Option.some.inj e1)).1
    rw [← this]; exact r4
  · unfold grow at e1
    rw [if_neg he] at e1
    have := (Prod.mk.inj (Option.some.inj e1)).1
    rw [← this]

/-- The growth step of the multi-element inserts, with the store bound. -/
theorem grow_by_full (fuel : Nat) (m : VMem T) (v : vector) (xs : List T) (n : Nat)
    (h : Holds m v xs) (hk : xs.length + n < SIZE_MOD) (hf : xs.length < fuel) :
    ∃ (m1 : VMem T) (v1 : vector), grow_by fuel m v n = some (m1, v1) ∧ Holds m1 v1 xs ∧
      v1._end + n ≤ v1._cap ∧ Frame m v m1 v1 ∧ m.brk ≤ m1.brk := by
  obtain ⟨m1, v1, e1, e2, e3, e4, _⟩ := grow_by_spec fuel m v xs n h hk hf
  refine ⟨m1, v1, e1, e2, e3, e4, ?_⟩
  by_cases he : (v.size + n) % SIZE_MOD > v.capacity
  · have hlt2 : max ((v.capacity * 2) % SIZE_MOD) ((v.size + n) % SIZE_MOD) < SIZE_MOD :=
      max_lt (Nat.mod_lt _ (by decide)) (Nat.mod_lt _ (by decide))
    obtain ⟨m', v', r1, _, _, r4, _⟩ := reserve_full fuel m v xs _ h hlt2 hf
    unfold grow_by at e1
    rw [if_pos he, r1] at e1
    have := (Prod.mk.inj (Option.some.inj e1)).1
    rw [← this]; exact r4
  · unfold grow_by at e1
    rw [if_neg he] at e1
    have := (Prod.mk.inj (Option.some.inj e1)).1
    rw [← this]

end vector

/-! ## Contiguous sequence: the operations with their frames -/

namespace vector

theorem move_backward_loop_outside (n : Nat) :
    ∀ (m : VMem T) (last d_last x : Int), (x < d_last - n ∨ d_last ≤ x) →
      (move_backward_loop n m last d_last).cell x = m.cell x := by
  induction n with
  | zero => intro m last d_last x _; rfl
  | succ n ih =>
    intro m last d_last x hx
    rw [Nat.cast_succ] at hx
    rw [move_backward_loop, ih _ _ _ x (by omega), cell_write, if_neg (by omega)]

theorem copy_loop_outside (n : Nat) :
    ∀ (m : VMem T) (first d x : Int), (x < d ∨ d + n ≤ x) →
      (copy_loop n m first d).cell x = m.cell x ∧ (copy_loop n m first d).brk = m.brk := by
  induction n with
  | zero => intro m first d x _; exact ⟨rfl, rfl⟩
  | succ n ih =>
    intro m first d x hx
    rw [Nat.cast_succ] at hx
    obtain ⟨q1, q2⟩ := ih (m.write d (m.cell first)) (first + 1) (d + 1) x (by omega)
    rw [copy_loop, q1, q2, cell_write, if_neg (by omega)]
    exact ⟨rfl, rfl⟩

theorem move_backward_outside (m1 : VMem T) (v1 : vector) (xs : List T) (idx k : Nat)
    (h : Holds m1 v1 xs) (hroom : v1._end + k ≤ v1._cap) (x : Int)
    (hout : x < v1._start ∨ v1._cap ≤ x) :
    (move_backward m1 (v1._start + idx) v1._end (v1._end + k)).cell x = m1.cell x := by
  obtain ⟨h1, h2, h3, h4, h5, h6⟩ := h
  unfold move_backward
  apply move_backward_loop_outside
  have : ((v1._end - (v1._start + idx)).toNat : Int) ≤ v1._end - v1._start := by omega
  omega

/-- The moving `push_back`, with its frame. -/
theorem push_back_full (fuel : Nat) (m : VMem T) (v : vector) (xs : List T) (value : T)
    (h : Holds m v xs) (h2 : 2 * v.capacity < SIZE_MOD) (hf : xs.length < fuel) :
    ∃ (m' : VMem T) (v' : vector), vector.push_back fuel m v value = some (m', v') ∧
      Holds m' v' (xs ++ [value]) ∧ Frame m v m' v' ∧ m.brk ≤ m'.brk := by
  obtain ⟨m', v', p1, p2⟩ := push_back_spec fuel m v xs value h h2 hf
  obtain ⟨m1, v1, e1, e2, e3, e4, e5⟩ := grow_full fuel m v xs h h2 hf
  have hm : (m1.write v1._end (some value), ({ v1 with _end := v1._end + 1 } : vector))
      = (m', v') := by
    have q := p1
    unfold vector.push_back at q
    simp only [e1] at q
    exact Option.some.inj q
  obtain ⟨rfl, rfl⟩ := Prod.mk.inj hm
  refine ⟨_, _, p1, p2, frame_body m m1 _ v v1 _ e4 ?_ rfl rfl, e5⟩
  intro x hout
  obtain ⟨h1, hh2, _, _, _, _⟩ := e2
  rw [cell_write, if_neg (by omega)]

/-- The copying `push_back`, with its frame. -/
theorem push_back_const_full (fuel : Nat) (m : VMem T) (v : vector) (xs : List T) (value : T)
    (h : Holds m v xs) (h2 : 2 * v.capacity < SIZE_MOD) (hf : xs.length < fuel) :
    ∃ (m' : VMem T) (v' : vector), push_back_const fuel m v value = some (m', v') ∧
      Holds m' v' xs ∧ Frame m v m' v' ∧ m.brk ≤ m'.brk := by
  obtain ⟨m', v', p1, p2, _⟩ := push_back_const_spec fuel m v xs value h h2 hf
  obtain ⟨m1, v1, e1, e2, e3, e4, e5⟩ := grow_full fuel m v xs h h2 hf
  have hm : (m1.write v1._end (some value), v1) = (m', v') := by
    have q := p1
    unfold push_back_const at q
    simp only [e1] at q
    exact Option.some.inj q
  obtain ⟨rfl, rfl⟩ := Prod.mk.inj hm
  refine ⟨_, _, p1, p2, frame_body m m1 _ v v1 _ e4 ?_ rfl rfl, e5⟩
  intro x hout
  obtain ⟨h1, hh2, _, _, _, _⟩ := e2
  rw [cell_write, if_neg (by omega)]

/-- The single-element `insert` overloads, with their frame. -/
theorem insert_full (fuel : Nat) (m : VMem T) (v : vector) (xs : List T) (idx : Nat)
    (value : T) (h : Holds m v xs) (hidx : idx ≤ xs.length) (h2 : 2 * v.capacity < SIZE_MOD)
    (hf : xs.length < fuel) :
    ∃ (m' : VMem T) (v' : vector),
      vector.insert fuel m v (v._start + idx) (.obj value) = some (m', v', v'._start + idx) ∧
      insert_move fuel m v (v._start + idx) (.obj value) = some (m', v', v'._start + idx) ∧
      Holds m' v' (xs.take idx ++ [value] ++ xs.drop idx) ∧ Frame m v m' v' ∧
      m.brk ≤ m'.brk := by
  obtain ⟨m', v', p1, p2, p3⟩ := insert_spec fuel m v xs idx value h hidx h2 hf
  obtain ⟨m1, v1, e1, e2, e3, e4, e5⟩ := grow_full fuel m v xs h h2 hf
  have hi : idx < SIZE_MOD := by
    have hcap := holds_capacity h
    obtain ⟨h1, hh2, h3, h4, h5, h6⟩ := h
    have : (idx : Int) < SIZE_MOD := by omega
    exact_mod_cast this
  have hm : ((move_backward m1 (v1._start + idx) v1._end (v1._end + 1)).write
      (v1._start + idx) (some value), ({ v1 with _end := v1._end + 1 } : vector))
      = (m', v') := by
    have q := p1
    unfold vector.insert at q
    rw [to_size_pos v idx hi] at q
    simp only [e1, Arg.read] at q
    have q2 := Prod.mk.inj (Option.some.inj q)
    exact Prod.ext q2.1 (Prod.mk.inj q2.2).1
  obtain ⟨rfl, rfl⟩ := Prod.mk.inj hm
  refine ⟨_, _, p1, p2, p3, frame_body m m1 _ v v1 _ e4 ?_ rfl rfl, ?_⟩
  · intro x hout
    have hb := move_backward_outside m1 v1 xs idx 1 e2 (by simp only [Nat.cast_one]; omega) x hout
    simp only [Nat.cast_one] at hb
    obtain ⟨h1, hh2, _, _, h5, _⟩ := e2
    rw [cell_write, if_neg (by omega), hb]
  · have := (open_gap m1 v1 xs idx 1 e2 hidx).2
    simp only [Nat.cast_one] at this
    rw [brk_write, this]
    exact e5

/-- `insert(pos, count, value)`, with its frame. -/
theorem insert_n_full (fuel : Nat) (m : VMem T) (v : vector) (xs : List T) (idx k : Nat)
    (value : T) (h : Holds m v xs) (hidx : idx ≤ xs.length) (hk : xs.length + k < SIZE_MOD)
    (hf : xs.length < fuel) :
    ∃ (m' : VMem T) (v' : vector),
      insert_n fuel m v (v._start + idx) k (.obj value) = some (m', v', v'._start + idx) ∧
      Holds m' v' (xs.take idx ++ List.replicate k value ++ xs.drop idx) ∧ Frame m v m' v' ∧
      m.brk ≤ m'.brk := by
  obtain ⟨m', v', p1, p2, _⟩ := insert_n_spec fuel m v xs idx k value h hidx hk hf
  obtain ⟨m1, v1, e1, e2, e3, e4, e5⟩ := grow_by_full fuel m v xs k h hk hf
  have hi : idx < SIZE_MOD := by omega
  have hm : (construct_loop k (move_backward m1 (v1._start + idx) v1._end (v1._end + k))
      (v1._start + idx) (.obj value), ({ v1 with _end := v1._end + k } : vector))
      = (m', v') := by
    have q := p1
    unfold insert_n at q
    rw [to_size_pos v idx hi] at q
    simp only [e1] at q
    have q2 := Prod.mk.inj (Option.some.inj q)
    exact Prod.ext q2.1 (Prod.mk.inj q2.2).1
  obtain ⟨rfl, rfl⟩ := Prod.mk.inj hm
  refine ⟨_, _, p1, p2, frame_body m m1 _ v v1 _ e4 ?_ rfl rfl, ?_⟩
  · intro x hout
    have hb := move_backward_outside m1 v1 xs idx k e2 e3 x hout
    obtain ⟨h1, hh2, _, _, h5, _⟩ := e2
    rw [(construct_loop_spec k _ _ value).1, if_neg (by omega), hb]
  · rw [(construct_loop_spec k _ _ value).2, (open_gap m1 v1 xs idx k e2 hidx).2]
    exact e5

end vector

namespace vector

/-- `insert(pos, first, last)` and `insert(pos, ilist)`, with their frame. -/
theorem insert_range_full (fuel : Nat) (m : VMem T) (v : vector) (xs : List T) (idx : Nat)
    (first : Int) (ys : List T) (h : Holds m v xs) (hidx : idx ≤ xs.length)
    (hk : xs.length + ys.length < SIZE_MOD) (hf : xs.length < fuel)
    (hsrc : ∀ i : Nat, i < ys.length → m.cell (first + i) = ys.get? i)
    (hdis : first + ys.length ≤ v._start ∨ (v._cap ≤ first ∧ first + ys.length ≤ m.brk)) :
    ∃ (m' : VMem T) (v' : vector),
      insert_range fuel m v (v._start + idx) first (first + ys.length)
        = some (m', v', v'._start + idx) ∧
      insert_ilist fuel m v (v._start + idx) first (first + ys.length)
        = some (m', v', v'._start + idx) ∧
      Holds m' v' (xs.take idx ++ ys ++ xs.drop idx) ∧ Frame m v m' v' ∧ m.brk ≤ m'.brk := by
  obtain ⟨m', v', p1, p2, p3, p4⟩ :=
    insert_range_spec fuel m v xs idx first ys h hidx hk hf hsrc hdis
  by_cases h0 : ys = []
  · obtain ⟨rfl, rfl⟩ := p4 h0
    exact ⟨_, _, p1, p2, p3, frame_refl _ _, le_refl _⟩
  · have hlen : ys.length ≠ 0 := fun e => h0 (List.eq_nil_of_length_eq_zero e)
    obtain ⟨m1, v1, e1, e2, e3, e4, e5⟩ := grow_by_full fuel m v xs ys.length h hk hf
    have hi : idx < SIZE_MOD := by omega
    have hn : to_size (first + ys.length - first) = ys.length := by
      rw [add_sub_cancel_left]; exact to_size_natCast _ (by omega)
    have hcnt : (first + ys.length - first).toNat = ys.length := by omega
    have hm : (copy_loop ys.length
        (move_backward m1 (v1._start + idx) v1._end (v1._end + ys.length)) first
        (v1._start + idx), ({ v1 with _end := v1._end + ys.length } : vector)) = (m', v') := by
      have q := p1
      unfold insert_range at q
      rw [hn, if_neg hlen, to_size_pos v idx hi] at q
      simp only [e1, copy, hcnt] at q
      have q2 := Prod.mk.inj (Option.some.inj q)
      exact Prod.ext q2.1 (Prod.mk.inj q2.2).1
    obtain ⟨rfl, rfl⟩ := Prod.mk.inj hm
    refine ⟨_, _, p1, p2, p3, frame_body m m1 _ v v1 _ e4 ?_ rfl rfl, ?_⟩
    · intro x hout
      have hb := move_backward_outside m1 v1 xs idx ys.length e2 e3 x hout
      obtain ⟨h1, hh2, _, _, h5, _⟩ := e2
      rw [(copy_loop_outside ys.length _ first (v1._start + idx) x (by omega)).1, hb]
    · rw [(copy_loop_outside ys.length _ first (v1._start + idx) (v1._start + idx - 1)
        (by omega)).2, (open_gap m1 v1 xs idx ys.length e2 hidx).2]
      exact e5

/-- `erase(first, last)`, with its frame. -/
theorem erase_range_full (fuel : Nat) (m : VMem T) (v : vector) (xs : List T) (i j : Nat)
    (h : Holds m v xs) (hij : i ≤ j) (hj : j ≤ xs.length) (hf : j - i < fuel) :
    ∃ (m' : VMem T) (v' : vector),
      erase_range fuel m v (v._start + i) (v._start + j) = some (m', v', v'._start + i) ∧
      Holds m' v' (xs.take i ++ xs.drop j) ∧ Frame m v m' v' ∧ m.brk ≤ m'.brk := by
  obtain ⟨m', v', p1, p2, p3, p4⟩ := erase_range_spec fuel m v xs i j h hij hj hf
  refine ⟨m', v', p1, p2, ?_⟩
  by_cases hij' : i = j
  · subst hij'
    rw [erase_range_empty] at p1
    obtain ⟨rfl, q⟩ := Prod.mk.inj (Option.some.inj p1)
    obtain ⟨rfl, _⟩ := Prod.mk.inj q
    exact ⟨frame_refl _ _, le_refl _⟩
  · obtain ⟨h1, h2, h3, h4, h5, h6⟩ := h
    have hcnt : (v._end - (v._start + (v._start + i - v._start)
        + (v._start + j - (v._start + i)))).toNat = xs.length - j := by omega
    obtain ⟨m'', d1, d2, d3⟩ := destroy_loop_spec v._end (j - i) fuel
      (copy_loop (xs.length - j) m (v._start + j) (v._start + i)) (v._end - ((j : Int) - i))
      (by omega) hf
    have hm : m'' = m' := by
      have q := p1
      unfold erase_range at q
      rw [if_neg (by omega)] at q
      simp only [move, hcnt] at q
      have a2 : v._start + (v._start + (i : Int) - v._start) = v._start + i := by omega
      have a3 : v._start + (j : Int) - (v._start + i) = (j : Int) - i := by omega
      have a4 : v._start + (i : Int) + ((j : Int) - i) = v._start + j := by omega
      simp only [a2, a3, a4, d1] at q
      exact (Prod.mk.inj (Option.some.inj q)).1
    subst hm
    constructor
    · intro x hx hout
      refine ⟨?_, by rw [p3, p4]; exact hout⟩
      rw [d2, if_neg (by omega),
        (copy_loop_outside (xs.length - j) m (v._start + j) (v._start + i) x (by omega)).1]
    · rw [d3, (copy_loop_outside (xs.length - j) m (v._start + j) (v._start + i)
        (v._start + i - 1) (by omega)).2]

/-- `erase(pos)`, with its frame. -/
theorem erase_full (m : VMem T) (v : vector) (xs : List T) (i : Nat)
    (h : Holds m v xs) (hi : i < xs.length) :
    Holds (erase m v (v._start + i)).1 (erase m v (v._start + i)).2.1 (xs.eraseIdx i) ∧
      Frame m v (erase m v (v._start + i)).1 (erase m v (v._start + i)).2.1 ∧
      m.brk ≤ (erase m v (v._start + i)).1.brk := by
  obtain ⟨m', v', p1, p2, p3, p4⟩ :=
    erase_range_full 2 m v xs i (i + 1) h (by omega) (by omega) (by omega)
  have e5 : v._start + ((i + 1 : Nat) : Int) = v._start + i + 1 := by push_cast; omega
  rw [e5, erase_eq 0 m v (v._start + i)] at p1
  have e6 := Option.some.inj p1
  rw [e6]
  refine ⟨?_, p3, p4⟩
  rw [List.eraseIdx_eq_take_drop_succ]
  exact p2

/-- `pop_back()`. -/
theorem pop_back_full (m : VMem T) (v : vector) (xs : List T) (h : Holds m v xs) :
    Holds (vector.pop_back m v).1 (vector.pop_back m v).2 xs.dropLast ∧
      Frame m v (vector.pop_back m v).1 (vector.pop_back m v).2 ∧
      m.brk ≤ (vector.pop_back m v).1.brk := by
  obtain ⟨h1, h2, h3, h4, h5, h6⟩ := h
  by_cases he : v._start = v._end
  · have hnil : xs = [] := List.eq_nil_of_length_eq_zero (by omega)
    subst hnil
    have : vector.pop_back m v = (m, v) := by
      unfold vector.pop_back empty
      simp [he]
    rw [this]
    exact ⟨⟨h1, h2, h3, h4, h5, h6⟩, frame_refl _ _, le_refl _⟩
  · have : vector.pop_back m v = (m.write (v._end - 1) none, { v with _end := v._end - 1 }) := by
      unfold vector.pop_back empty
      simp [he]
    rw [this]
    refine ⟨⟨?_, ?_, h3, h4, ?_, ?_⟩, ?_, le_refl _⟩
    · show v._start ≤ v._end - 1; omega
    · show v._end - 1 ≤ v._cap; omega
    · show v._end - 1 - v._start = _
      rw [List.length_dropLast]; omega
    · intro i hi
      rw [List.length_dropLast] at hi
      show (m.write (v._end - 1) none).cell (v._start + i) = _
      rw [cell_write, if_neg (by omega), h6 i (by omega)]
      simp only [List.get?_eq_getElem?]
      rw [List.getElem?_dropLast, if_pos (by omega)]
    · intro x hx hout
      exact ⟨by rw [cell_write, if_neg (by omega)], hout⟩

/-- The loop of `clear()` destroys the elements from the back. -/
theorem clear_loop_spec (n : Nat) :
    ∀ (fuel : Nat) (m : VMem T) (v : vector), v._end = v._start + n → n < fuel →
      ∃ m', clear fuel m v = some (m', { v with _end := v._start }) ∧
        (∀ x, m'.cell x = if v._start ≤ x ∧ x < v._end then none else m.cell x) ∧
        m'.brk = m.brk := by
  induction n with
  | zero =>
    intro fuel m v hv hf
    obtain ⟨f1, rfl⟩ : ∃ f1, fuel = f1 + 1 := ⟨fuel - 1, by omega⟩
    simp only [Nat.cast_zero, add_zero] at hv
    refine ⟨m, ?_, fun x => ?_, rfl⟩
    · unfold clear
      rw [if_neg (by simp [hv])]
      congr 2
      cases v; simp_all
    · rw [if_neg (by omega)]
  | succ n ih =>
    intro fuel m v hv hf
    obtain ⟨f1, rfl⟩ : ∃ f1, fuel = f1 + 1 := ⟨fuel - 1, by omega⟩
    rw [Nat.cast_succ] at hv
    obtain ⟨m', e1, e2, e3⟩ := ih f1 (m.write (v._end - 1) none) { v with _end := v._end - 1 }
      (by show v._end - 1 = v._start + n; omega) (by omega)
    refine ⟨m', ?_, fun x => ?_, by rw [e3]; rfl⟩
    · unfold clear
      rw [if_pos (by omega)]
      exact e1
    · rw [e2]
      simp only [cell_write]
      split_ifs <;> first | rfl | (exfalso; omega)

/-- `clear()`, with its frame. -/
theorem clear_full (fuel : Nat) (m : VMem T) (v : vector) (xs : List T) (h : Holds m v xs)
    (hf : xs.length < fuel) :
    ∃ m', clear fuel m v = some (m', { v with _end := v._start }) ∧
      Holds m' { v with _end := v._start } [] ∧ Frame m v m' { v with _end := v._start } ∧
      m'.brk = m.brk := by
  obtain ⟨h1, h2, h3, h4, h5, h6⟩ := h
  obtain ⟨m', e1, e2, e3⟩ := clear_loop_spec xs.length fuel m v (by omega) hf
  refine ⟨m', e1, ⟨le_refl _, ?_, ?_, h4, ?_, ?_⟩, ?_, e3⟩
  · show v._start ≤ v._cap; omega
  · rw [e3]; exact h3
  · show v._start - v._start = _; simp
  · intro i hi; simp at hi
  · intro x hx hout
    exact ⟨by rw [e2, if_neg (by omega)], hout⟩

end vector

/-! ## Contiguous sequence: construction, copy and move -/

namespace vector

/-- The construction loop of the initializer-list constructor. -/
theorem construct_list_spec (init : List T) :
    ∀ (m : VMem T) (v : vector),
      (construct_list init m v).2 = { v with _end := v._end + init.length } ∧
      (∀ x, (construct_list init m v).1.cell x =
        if v._end ≤ x ∧ x < v._end + init.length then init.get? (x - v._end).toNat
        else m.cell x) ∧
      (construct_list init m v).1.brk = m.brk := by
  induction init with
  | nil =>
    intro m v
    refine ⟨by simp [construct_list], fun x => ?_, rfl⟩
    simp only [construct_list, List.length_nil, Nat.cast_zero, add_zero]
    rw [if_neg (by omega)]
  | cons a rest ih =>
    intro m v
    obtain ⟨q1, q2, q3⟩ := ih (m.write v._end (some a)) { v with _end := v._end + 1 }
    refine ⟨?_, fun x => ?_, ?_⟩
    · simp only [construct_list, q1, List.length_cons, Nat.cast_succ]
      congr 1; omega
    · simp only [construct_list, q2, List.length_cons, Nat.cast_succ, cell_write]
      by_cases hx : x = v._end
      · subst hx
        rw [if_neg (by omega), if_pos rfl, if_pos (by omega)]
        simp
      · by_cases hr : v._end + 1 ≤ x ∧ x < v._end + 1 + rest.length
        · rw [if_pos hr, if_pos (by omega)]
          have : (x - v._end).toNat = (x - (v._end + 1)).toNat + 1 := by omega
          rw [this]
          simp
        · rw [if_neg hr, if_neg hx, if_neg (by omega)]
    · simp only [construct_list, q3, brk_write]

/-- The array behind an initializer list. -/
theorem fill_spec (init : List T) :
    ∀ (m : VMem T) (p : Int),
      (∀ x, (fill m p init).cell x =
        if p ≤ x ∧ x < p + init.length then init.get? (x - p).toNat else m.cell x) ∧
      (fill m p init).brk = m.brk := by
  induction init with
  | nil =>
    intro m p
    refine ⟨fun x => ?_, rfl⟩
    simp only [fill, List.length_nil, Nat.cast_zero, add_zero]
    rw [if_neg (by omega)]
  | cons a rest ih =>
    intro m p
    obtain ⟨q2, q3⟩ := ih (m.write p (some a)) (p + 1)
    refine ⟨fun x => ?_, ?_⟩
    · simp only [fill, q2, List.length_cons, Nat.cast_succ, cell_write]
      by_cases hx : x = p
      · subst hx
        rw [if_neg (by omega), if_pos rfl, if_pos (by omega)]
        simp
      · by_cases hr : p + 1 ≤ x ∧ x < p + 1 + rest.length
        · rw [if_pos hr, if_pos (by omega)]
          have : (x - p).toNat = (x - (p + 1)).toNat + 1 := by omega
          rw [this]
          simp
        · rw [if_neg hr, if_neg hx, if_neg (by omega)]
    · simp only [fill, q3, brk_write]

/-- `vector(std::initializer_list<T> init)`: the vector holds `init` in a fresh
block of exactly `init.size()` slots. -/
theorem ctor_ilist_full (fuel : Nat) (m : VMem T) (init : List T) (hb : 0 ≤ m.brk)
    (hn : init.length < SIZE_MOD) (hf : 0 < fuel) :
    ∃ (m' : VMem T) (v' : vector), ctor_ilist fuel m init = some (m', v') ∧
      Holds m' v' init ∧ v'.capacity = init.length ∧
      (∀ x, x < m.brk → m'.cell x = m.cell x) ∧ m.brk ≤ m'.brk ∧
      (∀ x, v'._start ≤ x → x < v'._cap → m.brk ≤ x) := by
  obtain ⟨m1, v1, e1, e2, e3, e4, e5, e6, e7⟩ :=
    reserve_full fuel m null [] init.length (holds_null m hb) hn hf
  obtain ⟨q1, q2, q3⟩ := construct_list_spec init m1 v1
  have hr : ctor_ilist fuel m init = some (construct_list init m1 v1) := by
    unfold ctor_ilist; rw [e1]
  have hcell : ∀ x, x < m.brk → (construct_list init m1 v1).1.cell x = m.cell x := by
    intro x hx
    by_cases h0 : init.length ≤ null.capacity
    · obtain ⟨rfl, rfl⟩ := e6 h0
      have : init.length = 0 := by
        have : null.capacity = 0 := by decide
        omega
      rw [q2, if_neg (by rw [this]; simp only [Nat.cast_zero, add_zero]; omega)]
    · have hv := e7 (by omega)
      subst hv
      rw [q2, if_neg (by simp only [List.length_nil, Nat.cast_zero, add_zero]; omega)]
      have := e3 x hx (by
        show x < (0 : Int) ∨ (0 : Int) ≤ x
        omega)
      exact this.1
  refine ⟨_, _, hr, ?_, ?_, hcell, by rw [q3]; exact e4, ?_⟩
  · have hcap := holds_capacity e2
    obtain ⟨h1, h2, h3, h4, h5, h6⟩ := e2
    simp only [List.length_nil, Nat.cast_zero] at h5
    have hroom : v1._end + (init.length : Int) ≤ v1._cap := by
      have : (init.length : Int) ≤ v1.capacity := by exact_mod_cast e5
      omega
    rw [q1]
    refine ⟨?_, hroom, by rw [q3]; exact h3, h4, ?_, ?_⟩
    · show v1._start ≤ v1._end + init.length; omega
    · show v1._end + init.length - v1._start = _; omega
    · intro i hi
      show (construct_list init m1 v1).1.cell (v1._start + i) = _
      rw [q2, if_pos (by omega)]
      congr 1; omega
  · rw [q1]
    by_cases h0 : init.length ≤ null.capacity
    · obtain ⟨_, rfl⟩ := e6 h0
      have : null.capacity = 0 := by decide
      show null.capacity = _
      omega
    · have hv := e7 (by omega)
      subst hv
      unfold capacity
      simp only [add_sub_cancel_left]
      exact to_size_natCast _ hn
  · rw [q1]
    intro x hx1 hx2
    by_cases h0 : init.length ≤ null.capacity
    · obtain ⟨_, rfl⟩ := e6 h0
      exact absurd hx2 (by
        show ¬ x < (0 : Int)
        have : (0 : Int) ≤ x := hx1
        omega)
    · have hv := e7 (by omega)
      subst hv
      exact hx1

/-- The loop of the copy constructor and of the copy assignment copies the
source range to the slots from `_end` on. -/
theorem copy_from_loop_spec (other_end : Int) (k : Nat) :
    ∀ (fuel : Nat) (m : VMem T) (v : vector) (p : Int), p + k = other_end → k < fuel →
      (v._end + k ≤ p ∨ other_end ≤ v._end) →
      ∃ m', copy_from_loop other_end fuel m v p = some (m', { v with _end := v._end + k }) ∧
        (∀ x, m'.cell x = if v._end ≤ x ∧ x < v._end + k then m.cell (p + (x - v._end))
          else m.cell x) ∧
        m'.brk = m.brk := by
  induction k with
  | zero =>
    intro fuel m v p hp hf _
    obtain ⟨f1, rfl⟩ : ∃ f1, fuel = f1 + 1 := ⟨fuel - 1, by omega⟩
    simp only [Nat.cast_zero, add_zero] at hp ⊢
    refine ⟨m, by simp [copy_from_loop, hp], fun x => ?_, rfl⟩
    rw [if_neg (by omega)]
  | succ k ih =>
    intro fuel m v p hp hf hd
    obtain ⟨f1, rfl⟩ : ∃ f1, fuel = f1 + 1 := ⟨fuel - 1, by omega⟩
    rw [Nat.cast_succ] at hp hd ⊢
    have hne : p ≠ other_end := by omega
    obtain ⟨m', h1, h2, h3⟩ := ih f1 (m.write v._end (m.cell p)) { v with _end := v._end + 1 }
      (p + 1) (by omega) (by omega) (by
        show v._end + 1 + (k : Int) ≤ p + 1 ∨ other_end ≤ v._end + 1
        omega)
    refine ⟨m', ?_, fun x => ?_, by rw [h3]; rfl⟩
    · simp only [copy_from_loop, ne_eq, hne, not_false_eq_true, if_true]
      rw [h1]
      congr 3
      show v._end + 1 + (k : Int) = v._end + ((k : Int) + 1)
      omega
    · rw [h2]
      simp only [cell_write]
      split_ifs <;> first | rfl | (exfalso; omega) | (congr 1; omega)

end vector

namespace vector

theorem frame_trans (m m1 m2 : VMem T) (v v1 v2 : vector) (h1 : Frame m v m1 v1)
    (hb : m.brk ≤ m1.brk) (h2 : Frame m1 v1 m2 v2) : Frame m v m2 v2 := by
  intro x hx hout
  obtain ⟨q1, q2⟩ := h1 x hx hout
  obtain ⟨r1, r2⟩ := h2 x (by omega) q2
  exact ⟨by rw [r1, q1], r2⟩

/-- A vector whose block lies outside the block an operation works on still
holds its elements afterwards. -/
theorem holds_frame (m m' : VMem T) (v v' w : vector) (ys : List T) (h : Holds m w ys)
    (hf : Frame m v m' v') (hb : m.brk ≤ m'.brk)
    (hd : ∀ x, w._start ≤ x → x < w._cap → (x < v._start ∨ v._cap ≤ x)) :
    Holds m' w ys := by
  refine holds_keep m m' w ys h ?_ hb
  intro x hx1 hx2
  obtain ⟨h1, h2, h3, _, _, _⟩ := h
  exact (hf x (by omega) (hd x hx1 (by omega))).1

/-- Reserving room for the elements of `o` in an empty vector and copying them
there: the common part of the copy constructor and the copy assignment. -/
theorem copy_into_spec (fuel : Nat) (m : VMem T) (v0 o : vector) (ys : List T)
    (h0 : Holds m v0 []) (ho : Holds m o ys) (hf : ys.length < fuel)
    (hd : ∀ x, o._start ≤ x → x < o._cap → (x < v0._start ∨ v0._cap ≤ x)) :
    ∃ (m1 : VMem T) (v1 : vector) (m' : VMem T) (v' : vector),
      reserve fuel m v0 o.size = some (m1, v1) ∧
      copy_from_loop o._end fuel m1 v1 o._start = some (m', v') ∧
      Holds m' v' ys ∧ Holds m' o ys ∧ Frame m v0 m' v' ∧ m.brk ≤ m'.brk ∧
      v'.capacity = max v0.capacity ys.length := by
  have hos := holds_size ho
  have hocap := holds_capacity ho
  have hn : o.size < SIZE_MOD := by
    obtain ⟨h1, h2, h3, h4, h5, h6⟩ := ho
    have : (o.size : Int) < SIZE_MOD := by rw [hos]; omega
    exact_mod_cast this
  obtain ⟨m1, v1, e1, e2, e3, e4, e5, e6, e7⟩ :=
    reserve_full fuel m v0 [] o.size h0 hn (by simp; omega)
  have hcapv : v1.capacity = max v0.capacity ys.length := by
    rw [← hos]
    by_cases hc : o.size ≤ v0.capacity
    · rw [(e6 hc).2, max_eq_left hc]
    · rw [e7 (by omega), max_eq_right (by omega)]
      unfold capacity
      simp only [add_sub_cancel_left]
      exact to_size_natCast _ hn
  have hcap1 := holds_capacity e2
  have hsrc : ∀ x, o._start ≤ x → x < o._end →
      m1.cell x = m.cell x ∧ (x < v1._start ∨ v1._cap ≤ x) := by
    intro x hx1 hx2
    obtain ⟨h1, h2, h3, _, _, _⟩ := ho
    exact e3 x (by omega) (hd x hx1 (by omega))
  obtain ⟨a1, a2, a3, a4, a5, a6⟩ := e2
  simp only [List.length_nil, Nat.cast_zero] at a5
  obtain ⟨b1, b2, b3, b4, b5, b6⟩ := ho
  have hk : (ys.length : Int) ≤ v1._cap - v1._start := by
    have : (o.size : Int) ≤ v1.capacity := by exact_mod_cast e5
    rw [hos] at this
    omega
  have hdis : v1._end + (ys.length : Int) ≤ o._start ∨ o._end ≤ v1._end := by
    by_cases hz : ys.length = 0
    · omega
    · rcases (hsrc o._start (le_refl _) (by omega)).2 with q | q
      · right
        by_contra hc
        have := (hsrc v1._start (by omega) (by omega)).2
        omega
      · left; omega
  obtain ⟨m', c1, c2, c3⟩ := copy_from_loop_spec o._end ys.length fuel m1 v1 o._start
    (by omega) hf hdis
  have hbody : ∀ x, (x < v1._start ∨ v1._cap ≤ x) → m'.cell x = m1.cell x := by
    intro x hout
    rw [c2, if_neg (by omega)]
  refine ⟨m1, v1, m', _, e1, c1, ⟨?_, ?_, by rw [c3]; exact a3, a4, ?_, ?_⟩, ?_,
    frame_body m m1 m' v0 v1 _ e3 hbody rfl rfl, by rw [c3]; exact e4, hcapv⟩
  · show v1._start ≤ v1._end + ys.length; omega
  · show v1._end + ys.length ≤ v1._cap; omega
  · show v1._end + ys.length - v1._start = _; omega
  · intro i hi
    show m'.cell (v1._start + i) = _
    rw [c2, if_pos (by omega), (hsrc _ (by omega) (by omega)).1, ← b6 i hi]
    congr 1; omega
  · refine holds_keep m m' o ys ⟨b1, b2, b3, b4, b5, b6⟩ ?_ (by rw [c3]; exact e4)
    intro x hx1 hx2
    obtain ⟨q1, q2⟩ := hsrc x hx1 hx2
    rw [hbody x q2, q1]

end vector

/-! ## Contiguous sequence: the invariant of a world of vectors -/

namespace vector

theorem holds_length_lt {m : VMem T} {v : vector} {xs : List T} (h : Holds m v xs) :
    xs.length < SIZE_MOD := by
  obtain ⟨h1, h2, h3, h4, h5, h6⟩ := h
  have : (xs.length : Int) < SIZE_MOD := by omega
  exact_mod_cast this

@[simp] theorem set_mem (w : World T) (l : Nat) (m : VMem T) (v : vector) :
    (w.set l m v).mem = m := rfl

@[simp] theorem set_count (w : World T) (l : Nat) (m : VMem T) (v : vector) :
    (w.set l m v).count = w.count := rfl

@[simp] theorem set_obj (w : World T) (l : Nat) (m : VMem T) (v : vector) (c : Nat) :
    (w.set l m v).obj c = if c = l then v else w.obj c := rfl

/-- After an operation on the vector `l` that respects its frame, the world is
again made of vectors in separate blocks. -/
theorem inv_set (w : World T) (X : Nat → List T) (l : Nat) (m' : VMem T) (v' : vector)
    (xs' : List T) (hinv : Inv w X) (hl : l < w.count) (hh : Holds m' v' xs')
    (hf : Frame w.mem (w.obj l) m' v') (hb : w.mem.brk ≤ m'.brk) :
    Inv (w.set l m' v') (fun c => if c = l then xs' else X c) := by
  obtain ⟨i0, i1, i2⟩ := hinv
  refine ⟨le_trans i0 hb, ?_, ?_⟩
  · intro c hc
    simp only [set_obj, set_mem]
    by_cases hcl : c = l
    · rw [if_pos hcl, if_pos hcl]; exact hh
    · rw [if_neg hcl, if_neg hcl]
      exact holds_frame w.mem m' (w.obj l) v' (w.obj c) (X c) (i1 c hc) hf hb
        (i2 c l hc hl hcl)
  · intro l₁ l₂ h1 h2 hne x hx1 hx2
    simp only [set_obj, set_count] at h1 h2 hx1 hx2 ⊢
    by_cases e1 : l₁ = l
    · have e2 : l₂ ≠ l := fun e => hne (e1.trans e.symm)
      rw [if_pos e1] at hx1 hx2
      rw [if_neg e2]
      by_contra hc
      have hin : (w.obj l₂)._start ≤ x ∧ x < (w.obj l₂)._cap := by omega
      have hlt := (i1 l₂ h2).2.2.1
      have := (hf x (by omega) (i2 l₂ l h2 hl e2 x hin.1 hin.2)).2
      omega
    · rw [if_neg e1] at hx1 hx2
      by_cases e2 : l₂ = l
      · rw [if_pos e2]
        have hlt := (i1 l₁ h1).2.2.1
        exact (hf x (by omega) (i2 l₁ l h1 hl e1 x hx1 hx2)).2
      · rw [if_neg e2]
        exact i2 l₁ l₂ h1 h2 hne x hx1 hx2

/-- After the construction of a vector in a fresh block, the world is again
made of vectors in separate blocks. -/
theorem inv_add (w : World T) (X : Nat → List T) (m' : VMem T) (v' : vector) (xs' : List T)
    (hinv : Inv w X) (hh : Holds m' v' xs') (hf : Frame w.mem null m' v')
    (hb : w.mem.brk ≤ m'.brk) :
    Inv { w.set w.count m' v' with count := w.count + 1 }
      (fun c => if c = w.count then xs' else X c) := by
  obtain ⟨i0, i1, i2⟩ := hinv
  have hnull : ∀ x : Int, x < null._start ∨ null._cap ≤ x := by
    intro x
    show x < (0 : Int) ∨ (0 : Int) ≤ x
    omega
  refine ⟨le_trans i0 hb, ?_, ?_⟩
  · intro c hc
    show Holds m' (if c = w.count then v' else w.obj c) (if c = w.count then xs' else X c)
    by_cases hcl : c = w.count
    · rw [if_pos hcl, if_pos hcl]; exact hh
    · rw [if_neg hcl, if_neg hcl]
      have hc' : c < w.count := by
        have : c < w.count + 1 := hc
        omega
      exact holds_frame w.mem m' null v' (w.obj c) (X c) (i1 c hc') hf hb (fun x _ _ => hnull x)
  · intro l₁ l₂ h1 h2 hne x hx1 hx2
    have h1' : l₁ < w.count + 1 := h1
    have h2' : l₂ < w.count + 1 := h2
    have hx1' : (if l₁ = w.count then v' else w.obj l₁)._start ≤ x := hx1
    have hx2' : x < (if l₁ = w.count then v' else w.obj l₁)._cap := hx2
    show x < (if l₂ = w.count then v' else w.obj l₂)._start ∨
      (if l₂ = w.count then v' else w.obj l₂)._cap ≤ x
    by_cases e1 : l₁ = w.count
    · have e2 : l₂ ≠ w.count := fun e => hne (e1.trans e.symm)
      rw [if_pos e1] at hx1' hx2'
      rw [if_neg e2]
      by_contra hc
      have hin : (w.obj l₂)._start ≤ x ∧ x < (w.obj l₂)._cap := by omega
      have hlt := (i1 l₂ (by omega)).2.2.1
      have := (hf x (by omega) (hnull x)).2
      omega
    · rw [if_neg e1] at hx1' hx2'
      by_cases e2 : l₂ = w.count
      · rw [if_pos e2]
        have hlt := (i1 l₁ (by omega)).2.2.1
        exact (hf x (by omega) (hnull x)).2
      · rw [if_neg e2]
        exact i2 l₁ l₂ (by omega) (by omega) hne x hx1' hx2'

/-- After the vector `a` has taken over the block of `b`, which is left null,
the world is again made of vectors in separate blocks. -/
theorem inv_steal (w w' : World T) (X : Nat → List T) (a b : Nat) (hinv : Inv w X)
    (hb : b < w.count) (hm : w'.mem = w.mem)
    (hc : w'.count = w.count)
    (ho : ∀ c, w'.obj c = if c = b then null else if c = a then w.obj b else w.obj c) :
    Inv w' (fun c => if c = b then [] else if c = a then X b else X c) := by
  obtain ⟨i0, i1, i2⟩ := hinv
  have hnull : ∀ x : Int, x < null._start ∨ null._cap ≤ x := by
    intro x
    show x < (0 : Int) ∨ (0 : Int) ≤ x
    omega
  have hnull2 : ∀ x : Int, null._start ≤ x → x < null._cap → False := by
    intro x h1 h2
    have h1' : (0 : Int) ≤ x := h1
    have h2' : x < (0 : Int) := h2
    omega
  refine ⟨by rw [hm]; exact i0, ?_, ?_⟩
  · intro c hcc
    rw [hc] at hcc
    beta_reduce
    rw [ho, hm]
    by_cases e1 : c = b
    · rw [if_pos e1, if_pos e1]; exact holds_null _ i0
    · rw [if_neg e1, if_neg e1]
      by_cases e2 : c = a
      · rw [if_pos e2, if_pos e2]; exact i1 b hb
      · rw [if_neg e2, if_neg e2]; exact i1 c hcc
  · intro l₁ l₂ h1 h2 hne x hx1 hx2
    rw [hc] at h1 h2
    rw [ho] at hx1 hx2 ⊢
    by_cases e1 : l₁ = b
    · rw [if_pos e1] at hx1 hx2
      exact absurd hx2 (fun h => hnull2 x hx1 h)
    · rw [if_neg e1] at hx1 hx2
      by_cases f1 : l₂ = b
      · rw [if_pos f1]; exact hnull x
      · rw [if_neg f1]
        by_cases e2 : l₁ = a
        · rw [if_pos e2] at hx1 hx2
          have f2 : l₂ ≠ a := fun e => hne (e2.trans e.symm)
          rw [if_neg f2]
          exact i2 b l₂ hb h2 (Ne.symm f1) x hx1 hx2
        · rw [if_neg e2] at hx1 hx2
          by_cases f2 : l₂ = a
          · rw [if_pos f2]
            exact i2 l₁ b h1 hb e1 x hx1 hx2
          · rw [if_neg f2]
            exact i2 l₁ l₂ h1 h2 hne x hx1 hx2

end vector

namespace vector

/-- The range insert for a source given slot by slot: each source slot lies
outside the block of the vector, among the slots handed out. -/
theorem insert_range_pw (fuel : Nat) (m : VMem T) (v : vector) (xs : List T) (idx : Nat)
    (first : Int) (ys : List T) (h : Holds m v xs) (hidx : idx ≤ xs.length)
    (hk : xs.length + ys.length < SIZE_MOD) (hf : xs.length < fuel)
    (hsrc : ∀ i : Nat, i < ys.length → m.cell (first + i) = ys.get? i)
    (hdis : ∀ i : Nat, i < ys.length →
      (first + i < v._start ∨ v._cap ≤ first + i) ∧ first + i < m.brk) :
    ∃ (m' : VMem T) (v' : vector),
      insert_range fuel m v (v._start + idx) first (first + ys.length)
        = some (m', v', v'._start + idx) ∧
      Holds m' v' (xs.take idx ++ ys ++ xs.drop idx) ∧ Frame m v m' v' ∧ m.brk ≤ m'.brk := by
  have hcap := holds_capacity h
  have hle := holds_size_le h
  have hsz := holds_size h
  have hi : idx < SIZE_MOD := by omega
  have hn : to_size (first + ys.length - first) = ys.length := by
    rw [add_sub_cancel_left]; exact to_size_natCast _ (by omega)
  by_cases h0 : ys.length = 0
  · have hnil : ys = [] := List.eq_nil_of_length_eq_zero h0
    subst hnil
    refine ⟨m, v, ?_, by simpa using h, frame_refl _ _, le_refl _⟩
    unfold insert_range
    rw [hn, add_sub_cancel_left]; rfl
  · obtain ⟨m1, v1, e1, e2, e3, e4, e5⟩ := grow_by_full fuel m v xs ys.length h hk hf
    obtain ⟨g1, g2⟩ := open_gap m1 v1 xs idx ys.length e2 hidx
    have hsrc1 : ∀ i : Nat, i < ys.length → m1.cell (first + i) = ys.get? i ∧
        (first + i < v1._start ∨ v1._cap ≤ first + i) := by
      intro i hi'
      obtain ⟨d1, d2⟩ := hdis i hi'
      obtain ⟨q1, q2⟩ := e4 (first + i) d2 d1
      exact ⟨by rw [q1]; exact hsrc i hi', q2⟩
    have hdis1 : first + ys.length ≤ v1._start ∨ v1._cap ≤ first := by
      obtain ⟨h1, hh2, h3, h4, h5, h6⟩ := e2
      rcases (hsrc1 0 (by omega)).2 with q | q
      · left
        by_contra hc
        have hlt : (v1._start - first).toNat < ys.length := by omega
        have := (hsrc1 (v1._start - first).toNat hlt).2
        omega
      · right; simpa using q
    have hcnt : (first + ys.length - first).toNat = ys.length := by omega
    obtain ⟨c1, c2⟩ := copy_loop_spec ys.length
      (move_backward m1 (v1._start + idx) v1._end (v1._end + ys.length)) first (v1._start + idx)
      (by obtain ⟨h1, hh2, h3, h4, h5, h6⟩ := e2; omega)
    have H := holds_insert m1 (copy_loop ys.length
      (move_backward m1 (v1._start + idx) v1._end (v1._end + ys.length)) first (v1._start + idx))
      v1 xs ys idx e2 hidx e3
      (by rw [c2]; exact g2)
      (by
        intro i hi'
        rw [c1, if_neg (by omega), g1, if_neg (by omega)])
      (by
        intro i hi'
        obtain ⟨h1, hh2, h3, h4, h5, h6⟩ := e2
        rw [c1, if_pos (by omega), g1, if_neg (by omega), ← (hsrc1 i hi').1]
        congr 1; omega)
      (by
        intro i hi1 hi2
        obtain ⟨h1, hh2, h3, h4, h5, h6⟩ := e2
        rw [c1, if_neg (by omega), g1, if_pos (by omega)]
        congr 1; omega)
    refine ⟨_, { v1 with _end := v1._end + ys.length }, ?_, H,
      frame_body m m1 _ v v1 _ e4 ?_ rfl rfl, ?_⟩
    · unfold insert_range
      rw [hn, if_neg h0, to_size_pos v idx hi]
      simp only [e1, copy, hcnt]
    · intro x hout
      have hb := move_backward_outside m1 v1 xs idx ys.length e2 e3 x hout
      obtain ⟨h1, hh2, _, _, h5, _⟩ := e2
      rw [(copy_loop_outside ys.length _ first (v1._start + idx) x (by omega)).1, hb]
    · rw [c2, g2]; exact e5

/-- The entries of a slice of a list. -/
theorem get?_slice (xs : List T) (i j t : Nat) (ht : t < j - i) :
    ((xs.drop i).take (j - i)).get? t = xs.get? (i + t) := by
  simp only [List.get?_eq_getElem?]
  rw [List.getElem?_take_of_lt ht, List.getElem?_drop]

end vector

/-! ## Contiguous sequence: each operation keeps the invariant -/

namespace vector

theorem null_out (x : Int) : x < null._start ∨ null._cap ≤ x := by
  show x < (0 : Int) ∨ (0 : Int) ≤ x
  omega

/-- The copy constructor. -/
theorem copy_ctor_step (fuel : Nat) (w : World T) (X : Nat → List T) (other : Nat)
    (hinv : Inv w X) (ho : other < w.count) (hf : (X other).length < fuel) :
    ∃ (m' : VMem T) (v' : vector),
      copy_ctor fuel w w.count other = some (w.set w.count m' v') ∧
      Holds m' v' (X other) ∧ Frame w.mem null m' v' ∧ w.mem.brk ≤ m'.brk ∧
      v'.capacity = (X other).length ∧
      Inv { w.set w.count m' v' with count := w.count + 1 }
        (fun c => if c = w.count then X other else X c) := by
  obtain ⟨m1, v1, m', v', e1, e2, e3, _, e5, e6, e7⟩ :=
    copy_into_spec fuel w.mem null (w.obj other) (X other) (holds_null _ hinv.1)
      (hinv.2.1 other ho) hf (fun x _ _ => null_out x)
  have hc0 : (null : vector).capacity = 0 := by decide
  rw [hc0, Nat.zero_max] at e7
  refine ⟨m', v', ?_, e3, e5, e6, e7, inv_add w X m' v' _ hinv e3 e5 e6⟩
  unfold copy_ctor
  simp only [e1, e2]

/-- The copy assignment between two different vectors. -/
theorem copy_assign_step (fuel : Nat) (w : World T) (X : Nat → List T) (l other : Nat)
    (hinv : Inv w X) (hl : l < w.count) (ho : other < w.count) (hne : l ≠ other)
    (hf1 : (X l).length < fuel) (hf2 : (X other).length < fuel) :
    ∃ (m' : VMem T) (v' : vector),
      copy_assign fuel w l other = some (w.set l m' v') ∧
      Holds m' v' (X other) ∧ Frame w.mem (w.obj l) m' v' ∧ w.mem.brk ≤ m'.brk ∧
      v'.capacity = max (w.obj l).capacity (X other).length ∧
      Inv (w.set l m' v') (fun c => if c = l then X other else X c) := by
  obtain ⟨m0, c1, c2, c3, c4⟩ := clear_full fuel w.mem (w.obj l) (X l) (hinv.2.1 l hl) hf1
  have hd := hinv.2.2 other l ho hl (Ne.symm hne)
  have ho0 : Holds m0 (w.obj other) (X other) :=
    holds_frame w.mem m0 (w.obj l) _ (w.obj other) _ (hinv.2.1 other ho) c3 (by omega) hd
  obtain ⟨m1, v1, m', v', e1, e2, e3, _, e5, e6, e7⟩ :=
    copy_into_spec fuel m0 { w.obj l with _end := (w.obj l)._start } (w.obj other) (X other)
      c2 ho0 hf2 hd
  have hfr := frame_trans w.mem m0 m' (w.obj l) _ v' c3 (by omega) e5
  refine ⟨m', v', ?_, e3, hfr, by omega, e7,
    inv_set w X l m' v' _ hinv hl e3 hfr (by omega)⟩
  unfold copy_assign
  rw [if_pos hne]
  simp only [c1, e1, e2]

/-- The move constructor. -/
theorem move_ctor_step (w : World T) (X : Nat → List T) (other : Nat)
    (hinv : Inv w X) (ho : other < w.count) :
    (move_ctor w w.count other).obj w.count = w.obj other ∧
    (move_ctor w w.count other).obj other = null ∧
    (move_ctor w w.count other).mem = w.mem ∧
    Inv { move_ctor w w.count other with count := w.count + 1 }
      (fun c => if c = other then [] else if c = w.count then X other else X c) := by
  have hne : w.count ≠ other := by omega
  refine ⟨?_, ?_, rfl, ?_⟩
  · simp [move_ctor, hne]
  · simp [move_ctor]
  · have h0 := inv_add w X w.mem null [] hinv (holds_null _ hinv.1) (frame_refl _ _) (le_refl _)
    have h1 := inv_steal _ { move_ctor w w.count other with count := w.count + 1 } _
      w.count other h0 (by show other < w.count + 1; omega) rfl rfl (by
        intro c
        show (if c = other then null else if c = w.count then w.obj other else w.obj c) =
          if c = other then null else if c = w.count then
            (if other = w.count then null else w.obj other)
          else (if c = w.count then null else w.obj c)
        by_cases e1 : c = other
        · rw [if_pos e1, if_pos e1]
        · rw [if_neg e1, if_neg e1]
          by_cases e2 : c = w.count
          · rw [if_pos e2, if_pos e2, if_neg (Ne.symm hne)]
          · rw [if_neg e2, if_neg e2, if_neg e2])
    have hX : (fun c => if c = other then ([] : List T) else if c = w.count then
        (fun c => if c = w.count then [] else X c) other
        else (fun c => if c = w.count then [] else X c) c) =
        (fun c => if c = other then [] else if c = w.count then X other else X c) := by
      funext c
      by_cases e1 : c = other
      · rw [if_pos e1, if_pos e1]
      · rw [if_neg e1, if_neg e1]
        by_cases e2 : c = w.count
        · rw [if_pos e2, if_pos e2]
          show (if other = w.count then [] else X other) = X other
          rw [if_neg (Ne.symm hne)]
        · rw [if_neg e2, if_neg e2]
          show (if c = w.count then [] else X c) = X c
          rw [if_neg e2]
    rw [hX] at h1
    exact h1

/-- The move assignment between two different vectors. -/
theorem move_assign_step (fuel : Nat) (w : World T) (X : Nat → List T) (l other : Nat)
    (hinv : Inv w X) (hl : l < w.count) (ho : other < w.count) (hne : l ≠ other)
    (hf1 : (X l).length < fuel) :
    ∃ w', move_assign fuel w l other = some w' ∧ w'.obj l = w.obj other ∧
      w'.obj other = null ∧ w'.count = w.count ∧
      (∀ c, c ≠ l → c ≠ other → w'.obj c = w.obj c) ∧
      Inv w' (fun c => if c = other then [] else if c = l then X other else X c) := by
  obtain ⟨m0, c1, c2, c3, c4⟩ := clear_full fuel w.mem (w.obj l) (X l) (hinv.2.1 l hl) hf1
  have h0 := inv_set w X l m0 _ [] hinv hl c2 c3 (by omega)
  refine ⟨(w.set l m0 (w.obj other)).set other m0 null, ?_, ?_, ?_, rfl, ?_, ?_⟩
  · unfold move_assign
    rw [if_pos hne]
    simp only [c1]
    rfl
  · simp [hne]
  · simp
  · intro c h1 h2
    simp [h1, h2]
  · have h1 := inv_steal _ ((w.set l m0 (w.obj other)).set other m0 null) _ l other h0
      ho rfl rfl (by
        intro c
        simp only [set_obj]
        by_cases e1 : c = other
        · rw [if_pos e1, if_pos e1]
        · rw [if_neg e1, if_neg e1]
          by_cases e2 : c = l
          · rw [if_pos e2, if_pos e2, if_neg (Ne.symm hne)]
          · rw [if_neg e2, if_neg e2, if_neg e2])
    have hX : (fun c => if c = other then ([] : List T) else if c = l then
        (fun c => if c = l then [] else X c) other
        else (fun c => if c = l then [] else X c) c) =
        (fun c => if c = other then [] else if c = l then X other else X c) := by
      funext c
      by_cases e1 : c = other
      · rw [if_pos e1, if_pos e1]
      · rw [if_neg e1, if_neg e1]
        by_cases e2 : c = l
        · rw [if_pos e2, if_pos e2]
          show (if other = l then [] else X other) = X other
          rw [if_neg (Ne.symm hne)]
        · rw [if_neg e2, if_neg e2]
          show (if c = l then [] else X c) = X c
          rw [if_neg e2]
    rw [hX] at h1
    exact h1

end vector

namespace vector

theorem keeps_size (w : World T) (X : Nat → List T) (hinv : Inv w X) (l : Nat)
    (hl : l < w.count) : (w.obj l).size = (X l).length :=
  holds_size (hinv.2.1 l hl)

/-- Every valid operation returns and keeps the invariant. -/
theorem exec_keeps (w : World T) (X : Nat → List T) (hinv : Inv w X) (op : Op T)
    (hv : op.valid w = true) : ∃ w' X', exec w op = some w' ∧ Inv w' X' := by
  unfold exec
  rw [if_pos hv]
  cases op with
  | construct =>
    exact ⟨_, _, rfl,
      inv_add w X w.mem null [] hinv (holds_null _ hinv.1) (frame_refl _ _) (le_refl _)⟩
  | construct_ilist init =>
    simp only [Op.valid, decide_eq_true_eq] at hv
    obtain ⟨m', v', e1, e2, _, e4, e5, e6⟩ :=
      ctor_ilist_full SIZE_MOD w.mem init hinv.1 hv (by decide)
    refine ⟨_, _, by simp only [e1]; rfl, inv_add w X m' v' init hinv e2 ?_ e5⟩
    intro x hx _
    refine ⟨e4 x hx, ?_⟩
    by_contra hc
    have := e6 x (by omega) (by omega)
    omega
  | copy_construct other =>
    simp only [Op.valid, decide_eq_true_eq] at hv
    obtain ⟨m', v', e1, _, _, _, _, e5⟩ := copy_ctor_step SIZE_MOD w X other hinv hv
      (holds_length_lt (hinv.2.1 other hv))
    exact ⟨_, _, by simp only [e1]; rfl, e5⟩
  | move_construct other =>
    simp only [Op.valid, decide_eq_true_eq] at hv
    exact ⟨_, _, rfl, (move_ctor_step w X other hinv hv).2.2.2⟩
  | push_back l value =>
    simp only [Op.valid, decide_eq_true_eq] at hv
    obtain ⟨m', v', e1, e2, e3, e4⟩ := push_back_full SIZE_MOD w.mem (w.obj l) (X l) value
      (hinv.2.1 l hv.1) hv.2 (holds_length_lt (hinv.2.1 l hv.1))
    exact ⟨_, _, by simp only [e1]; rfl, inv_set w X l m' v' _ hinv hv.1 e2 e3 e4⟩
  | push_back_const l value =>
    simp only [Op.valid, decide_eq_true_eq] at hv
    obtain ⟨m', v', e1, e2, e3, e4⟩ := push_back_const_full SIZE_MOD w.mem (w.obj l) (X l)
      value (hinv.2.1 l hv.1) hv.2 (holds_length_lt (hinv.2.1 l hv.1))
    exact ⟨_, _, by simp only [e1]; rfl, inv_set w X l m' v' _ hinv hv.1 e2 e3 e4⟩
  | pop_back l =>
    simp only [Op.valid, decide_eq_true_eq] at hv
    obtain ⟨e2, e3, e4⟩ := pop_back_full w.mem (w.obj l) (X l) (hinv.2.1 l hv)
    exact ⟨_, _, rfl, inv_set w X l _ _ _ hinv hv e2 e3 e4⟩
  | reserve l n =>
    simp only [Op.valid, decide_eq_true_eq] at hv
    obtain ⟨m', v', e1, e2, e3, e4, _⟩ := reserve_full SIZE_MOD w.mem (w.obj l) (X l) n
      (hinv.2.1 l hv.1) hv.2 (holds_length_lt (hinv.2.1 l hv.1))
    exact ⟨_, _, by simp only [e1]; rfl, inv_set w X l m' v' _ hinv hv.1 e2 e3 e4⟩
  | clear l =>
    simp only [Op.valid, decide_eq_true_eq] at hv
    obtain ⟨m', e1, e2, e3, e4⟩ := clear_full SIZE_MOD w.mem (w.obj l) (X l)
      (hinv.2.1 l hv) (holds_length_lt (hinv.2.1 l hv))
    exact ⟨_, _, by simp only [e1]; rfl, inv_set w X l m' _ _ hinv hv e2 e3 (by omega)⟩
  | insert l idx value =>
    simp only [Op.valid, decide_eq_true_eq] at hv
    obtain ⟨hl, hidx, h2⟩ := hv
    rw [keeps_size w X hinv l hl] at hidx
    obtain ⟨m', v', e1, _, e2, e3, e4⟩ := insert_full SIZE_MOD w.mem (w.obj l) (X l) idx
      value (hinv.2.1 l hl) hidx h2 (holds_length_lt (hinv.2.1 l hl))
    exact ⟨_, _, by simp only [e1]; rfl, inv_set w X l m' v' _ hinv hl e2 e3 e4⟩
  | insert_move l idx value =>
    simp only [Op.valid, decide_eq_true_eq] at hv
    obtain ⟨hl, hidx, h2⟩ := hv
    rw [keeps_size w X hinv l hl] at hidx
    obtain ⟨m', v', _, e1, e2, e3, e4⟩ := insert_full SIZE_MOD w.mem (w.obj l) (X l) idx
      value (hinv.2.1 l hl) hidx h2 (holds_length_lt (hinv.2.1 l hl))
    exact ⟨_, _, by simp only [e1]; rfl, inv_set w X l m' v' _ hinv hl e2 e3 e4⟩
  | insert_n l idx count value =>
    simp only [Op.valid, decide_eq_true_eq] at hv
    obtain ⟨hl, hidx, hk⟩ := hv
    rw [keeps_size w X hinv l hl] at hidx hk
    obtain ⟨m', v', e1, e2, e3, e4⟩ := insert_n_full SIZE_MOD w.mem (w.obj l) (X l) idx count
      value (hinv.2.1 l hl) hidx hk (holds_length_lt (hinv.2.1 l hl))
    exact ⟨_, _, by simp only [e1]; rfl, inv_set w X l m' v' _ hinv hl e2 e3 e4⟩
  | insert_range l idx src i j =>
    simp only [Op.valid, decide_eq_true_eq] at hv
    obtain ⟨hl, hs, hne, hidx, hij, hj, hk⟩ := hv
    rw [keeps_size w X hinv l hl] at hidx hk
    rw [keeps_size w X hinv src hs] at hj
    have hlen : (((X src).drop i).take (j - i)).length = j - i := by
      simp only [List.length_take, List.length_drop]; omega
    have hS := hinv.2.1 src hs
    have hlast : (w.obj src)._start + (j : Int)
        = (w.obj src)._start + i + (((X src).drop i).take (j - i)).length := by
      rw [hlen]; omega
    obtain ⟨m', v', e1, e2, e3, e4⟩ := insert_range_pw SIZE_MOD w.mem (w.obj l) (X l) idx
      ((w.obj src)._start + i) (((X src).drop i).take (j - i)) (hinv.2.1 l hl) hidx
      (by rw [hlen]; exact hk) (holds_length_lt (hinv.2.1 l hl))
      (by
        intro t ht
        rw [hlen] at ht
        rw [get?_slice (X src) i j t ht, ← hS.2.2.2.2.2 (i + t) (by omega)]
        congr 1; push_cast; omega)
      (by
        intro t ht
        rw [hlen] at ht
        obtain ⟨h1, h2, h3, h4, h5, h6⟩ := hS
        exact ⟨hinv.2.2 src l hs hl (Ne.symm hne) _ (by omega) (by omega), by omega⟩)
    rw [← hlast] at e1
    exact ⟨_, _, by simp only [e1]; rfl, inv_set w X l m' v' _ hinv hl e2 e3 e4⟩
  | insert_ilist l idx init =>
    simp only [Op.valid, decide_eq_true_eq] at hv
    obtain ⟨hl, hidx, hk⟩ := hv
    rw [keeps_size w X hinv l hl] at hidx hk
    have hL := hinv.2.1 l hl
    obtain ⟨f1, f2⟩ := fill_spec init (w.mem.allocate init.length).1 w.mem.brk
    have hfr0 : Frame w.mem (w.obj l) (fill (w.mem.allocate init.length).1 w.mem.brk init)
        (w.obj l) := by
      intro x hx hout
      refine ⟨?_, hout⟩
      rw [f1, if_neg (by omega)]
      rfl
    have hb0 : w.mem.brk ≤ (fill (w.mem.allocate init.length).1 w.mem.brk init).brk := by
      rw [f2]
      show w.mem.brk ≤ w.mem.brk + init.length
      omega
    have hL2 : Holds (fill (w.mem.allocate init.length).1 w.mem.brk init) (w.obj l) (X l) := by
      refine holds_keep w.mem _ (w.obj l) (X l) hL ?_ hb0
      intro x hx1 hx2
      obtain ⟨h1, h2, h3, _, _, _⟩ := hL
      rw [f1, if_neg (by omega)]
      rfl
    obtain ⟨m', v', _, e1, e2, e3, e4⟩ := insert_range_full SIZE_MOD _ (w.obj l) (X l) idx
      w.mem.brk init hL2 hidx hk (holds_length_lt hL)
      (by
        intro t ht
        rw [f1, if_pos (by omega)]
        congr 1; omega)
      (by
        right
        refine ⟨hL.2.2.1, ?_⟩
        rw [f2]
        exact le_refl _)
    refine ⟨w.set l m' v', _, ?_, inv_set w X l m' v' _ hinv hl e2
      (frame_trans w.mem _ m' (w.obj l) (w.obj l) v' hfr0 hb0 e3) (le_trans hb0 e4)⟩
    show Option.map _ (insert_ilist SIZE_MOD (fill (w.mem.allocate init.length).1 w.mem.brk init)
      (w.obj l) ((w.obj l)._start + idx) w.mem.brk (w.mem.brk + init.length)) = _
    rw [e1]; rfl
  | erase l idx =>
    simp only [Op.valid, decide_eq_true_eq] at hv
    obtain ⟨hl, hidx⟩ := hv
    rw [keeps_size w X hinv l hl] at hidx
    obtain ⟨e2, e3, e4⟩ := erase_full w.mem (w.obj l) (X l) idx (hinv.2.1 l hl) hidx
    exact ⟨_, _, rfl, inv_set w X l _ _ _ hinv hl e2 e3 e4⟩
  | erase_range l i j =>
    simp only [Op.valid, decide_eq_true_eq] at hv
    obtain ⟨hl, hij, hj⟩ := hv
    rw [keeps_size w X hinv l hl] at hj
    have hlt := holds_length_lt (hinv.2.1 l hl)
    obtain ⟨m', v', e1, e2, e3, e4⟩ := erase_range_full SIZE_MOD w.mem (w.obj l) (X l) i j
      (hinv.2.1 l hl) hij hj (by omega)
    exact ⟨_, _, by simp only [e1]; rfl, inv_set w X l m' v' _ hinv hl e2 e3 e4⟩
  | copy_assign l other =>
    simp only [Op.valid, decide_eq_true_eq] at hv
    obtain ⟨hl, ho⟩ := hv
    by_cases hne : l = other
    · refine ⟨w, X, ?_, hinv⟩
      show copy_assign SIZE_MOD w l other = some w
      unfold copy_assign
      rw [if_neg (by simpa using hne)]
    · obtain ⟨m', v', e1, _, _, _, _, e6⟩ := copy_assign_step SIZE_MOD w X l other hinv hl ho
        hne (holds_length_lt (hinv.2.1 l hl)) (holds_length_lt (hinv.2.1 other ho))
      exact ⟨_, _, e1, e6⟩
  | move_assign l other =>
    simp only [Op.valid, decide_eq_true_eq] at hv
    obtain ⟨hl, ho⟩ := hv
    by_cases hne : l = other
    · refine ⟨w, X, ?_, hinv⟩
      show move_assign SIZE_MOD w l other = some w
      unfold move_assign
      rw [if_neg (by simpa using hne)]
    · obtain ⟨w', e1, _, _, _, _, e6⟩ := move_assign_step SIZE_MOD w X l other hinv hl ho
        hne (holds_length_lt (hinv.2.1 l hl))
      exact ⟨_, _, e1, e6⟩

/-- A run of valid operations keeps the invariant. -/
theorem run_keeps (ops : List (Op T)) :
    ∀ (w w' : World T) (X : Nat → List T), Inv w X → run w ops = some w' →
      ∃ X', Inv w' X' := by
  induction ops with
  | nil =>
    intro w w' X hinv hr
    simp only [run] at hr
    obtain rfl := Option.some.inj hr
    exact ⟨X, hinv⟩
  | cons op ops ih =>
    intro w w' X hinv hr
    simp only [run] at hr
    cases he : exec w op with
    | none => rw [he] at hr; simp at hr
    | some w1 =>
      rw [he] at hr
      have hv : op.valid w = true := by
        by_contra hc
        unfold exec at he
        rw [if_neg hc] at he
        simp at he
      obtain ⟨w2, X2, h1, h2⟩ := exec_keeps w X hinv op hv
      rw [he] at h1
      obtain rfl := Option.some.inj h1
      exact ih w1 w' X2 h2 hr

/-- The world without vectors satisfies the invariant. -/
theorem init_keeps : Inv (World.init : World T) (fun _ => []) := by
  refine ⟨(by decide : (0 : Int) ≤ 1), ?_, ?_⟩
  · intro l hl
    exact absurd hl (Nat.not_lt_zero _)
  · intro l₁ l₂ h1
    exact absurd h1 (Nat.not_lt_zero _)

end vector

/-! ## Contiguous sequence: after a copy and after a move -/

namespace vector

/-- Two vectors of a world that hold the same elements compare equal, and a
`push_back` on the second one leaves the first one alone. -/
theorem after_copy [DecidableEq T] (fuel : Nat) (w1 : World T) (X1 : Nat → List T) (a c : Nat)
    (xs : List T) (value : T) (hinv : Inv w1 X1) (ha : a < w1.count) (hc : c < w1.count)
    (hne : a ≠ c) (hxa : X1 a = xs) (hxc : X1 c = xs) (hf : xs.length < fuel)
    (h2 : 2 * (w1.obj c).capacity < SIZE_MOD) :
    vector.eq fuel w1.mem (w1.obj a) (w1.obj c) = some true ∧
    (∃ (m2 : VMem T) (v2 : vector),
      vector.push_back fuel w1.mem (w1.obj c) value = some (m2, v2) ∧
      Holds m2 v2 (xs ++ [value]) ∧ Holds m2 (w1.obj a) xs ∧
      vector.ne fuel m2 (w1.obj a) v2 = some true) ∧
    (∃ (m3 : VMem T) (v3 : vector),
      push_back_const fuel w1.mem (w1.obj c) value = some (m3, v3) ∧
      Holds m3 v3 xs ∧ Holds m3 (w1.obj a) xs) := by
  have hA : Holds w1.mem (w1.obj a) xs := hxa ▸ hinv.2.1 a ha
  have hC : Holds w1.mem (w1.obj c) xs := hxc ▸ hinv.2.1 c hc
  have hd := hinv.2.2 a c ha hc hne
  refine ⟨?_, ?_, ?_⟩
  · obtain ⟨r, e1, _, e3⟩ := eq_spec fuel w1.mem (w1.obj a) (w1.obj c) xs xs hA hC hf
    have : r = true := e3.2 rfl
    rw [e1, this]
  · obtain ⟨m2, v2, p1, p2, p3, p4⟩ := push_back_full fuel w1.mem (w1.obj c) xs value hC h2 hf
    have hA2 := holds_frame w1.mem m2 (w1.obj c) v2 (w1.obj a) xs hA p3 p4 hd
    refine ⟨m2, v2, p1, p2, hA2, ?_⟩
    obtain ⟨r, e1, _, e3⟩ := eq_spec fuel m2 (w1.obj a) v2 xs (xs ++ [value]) hA2 p2 hf
    have : r = false := by
      cases r with
      | false => rfl
      | true =>
        have h := e3.1 rfl
        have := congrArg List.length h
        simp at this
    unfold vector.ne
    rw [e1, this]; rfl
  · obtain ⟨m3, v3, p1, p2, p3, p4⟩ :=
      push_back_const_full fuel w1.mem (w1.obj c) xs value hC h2 hf
    exact ⟨m3, v3, p1, p2, holds_frame w1.mem m3 (w1.obj c) v3 (w1.obj a) xs hA p3 p4 hd⟩

/-- A moved-from vector is null and takes a `push_back`, which leaves the vector
moved to alone. -/
theorem after_move (fuel : Nat) (w1 : World T) (X1 : Nat → List T) (a c : Nat)
    (value : T) (hinv : Inv w1 X1) (hc : c < w1.count) (hnull : w1.obj a = null)
    (hf : 0 < fuel) :
    (w1.obj a).size = 0 ∧ (w1.obj a).capacity = 0 ∧ (w1.obj a).empty = true ∧
    ∃ (m2 : VMem T) (v2 : vector),
      vector.push_back fuel w1.mem (w1.obj a) value = some (m2, v2) ∧ v2.size = 1 ∧
      Holds m2 v2 [value] ∧ Holds m2 (w1.obj c) (X1 c) := by
  rw [hnull]
  refine ⟨by decide, by decide, by decide, ?_⟩
  obtain ⟨m2, v2, p1, p2, p3, p4⟩ := push_back_full fuel w1.mem null [] value
    (holds_null _ hinv.1) (by decide) (by simpa using hf)
  refine ⟨m2, v2, p1, ?_, p2, ?_⟩
  · rw [holds_size p2]; rfl
  · exact holds_frame w1.mem m2 null v2 (w1.obj c) (X1 c) (hinv.2.1 c hc) p3 p4
      (fun x _ _ => null_out x)

end vector

theorem demoTwo_inv : vector.Inv demoTwo demoTwoX := by
  have e0 : demoTwo.obj 0 = ⟨2, 4, 4⟩ := by decide
  have e1 : demoTwo.obj 1 = ⟨4, 5, 5⟩ := by decide
  have ec : demoTwo.count = 2 := by decide
  refine ⟨by decide, by decide, ?_⟩
  intro l₁ l₂ h1 h2 hne x hx1 hx2
  rw [ec] at h1 h2
  interval_cases l₁ <;> interval_cases l₂ <;> simp only [e0, e1] at hx1 hx2 ⊢ <;>
    first | exact absurd rfl hne | omega

theorem demoVecWorld_run : vector.run vector.World.init demoVecOps = some demoVecWorld := rfl

/-! ## Linked sequence: copy construction -/

/-- `push_back` on a list all of whose nodes are at or above `b0` writes no node
below `b0` and no other list object. -/
theorem push_back_frame (st : State T) (l : Nat) (v : T) (ms : List Nat) (b0 : Nat)
    (h : IsList st l ms) (hb : ∀ x ∈ st.sentinel l :: ms, b0 ≤ x) :
    (∀ x, x < b0 → (push_back st l v).mem x = st.mem x) ∧
      (∀ c, c ≠ l → (push_back st l v).obj c = st.obj c) ∧
      (push_back st l v).obj l = ⟨st.sentinel l, st.msize l + 1⟩ ∧
      (push_back st l v).brk = st.brk + 1 := by
  have hp : st.prev (st.sentinel l) = lastOf (st.sentinel l) ms := by
    have := ring_prev_pos st (st.sentinel l) ms [] (by simpa using h.1)
    simpa using this
  have hpm : b0 ≤ st.prev (st.sentinel l) := hp ▸ hb _ (lastOf_mem_cons ms _)
  have hs : b0 ≤ st.sentinel l := hb _ (List.mem_cons_self _ _)
  have hk : st.sentinel l < st.brk := h.2.2.1 _ (List.mem_cons_self _ _)
  refine ⟨?_, ?_, ?_, ?_⟩
  · intro x hx
    have e1 : x ≠ st.brk := by omega
    have e2 : x ≠ st.sentinel l := by omega
    have e3 : x ≠ st.prev (st.sentinel l) := by omega
    have e4 : st.sentinel l ≠ st.brk := by omega
    simp only [State.prev, State.sentinel] at e2 e3 e4
    simp [push_back, _M_insert_node, _M_create_node_val, allocate, State.wnext, State.wprev,
      State.wdata, State.wsize, State.prev, State.sentinel, State.next, e1, e2, e3, e4]
  · intro c hc
    simp [push_back, _M_insert_node, _M_create_node_val, allocate, State.wnext, State.wprev,
      State.wdata, State.wsize, hc]
  · simp [push_back, _M_insert_node, _M_create_node_val, allocate, State.wnext, State.wprev,
      State.wdata, State.wsize, State.sentinel, State.msize]
  · simp [push_back, _M_insert_node, _M_create_node_val, allocate, State.wnext, State.wprev,
      State.wdata, State.wsize]

/-- A ring all of whose nodes are below `b0` is the same ring in every state
that agrees below `b0` and on the list object. -/
theorem isList_below (st st' : State T) (c : Nat) (nc : List Nat) (b0 : Nat)
    (h : IsList st c nc) (hlt : ∀ x ∈ st.sentinel c :: nc, x < b0)
    (hm : ∀ x, x < b0 → st'.mem x = st.mem x) (ho : st'.obj c = st.obj c)
    (hb : st.brk ≤ st'.brk) : IsList st' c nc := by
  refine isList_frame st st' c nc h ?_ ?_ ?_ ?_ hb
  · intro x hx
    simp only [State.next, hm x (hlt x hx)]
  · intro x hx
    simp only [State.prev, hm x (hlt x hx)]
  · simp only [State.sentinel, ho]
  · simp only [State.msize, ho]

/-- The loop of the copy constructor: the payloads of the remaining nodes `C` of
the source are appended, in order, and nothing below `b0` is written. -/
theorem copy_nodes_run (this other b0 : Nat) (hne : this ≠ other) (C : List Nat) :
    ∀ (A : List Nat) (st : State T) (ms : List Nat) (fuel : Nat),
      IsList st this ms → (∀ x ∈ st.sentinel this :: ms, b0 ≤ x) →
      IsList st other (A ++ C) → (∀ x ∈ st.sentinel other :: (A ++ C), x < b0) →
      C.length < fuel →
      ∃ st' ms', copy_nodes this (st.sentinel other) fuel st (nodeAt (st.sentinel other) C 0)
          = some st' ∧
        IsList st' this ms' ∧ elems st' ms' = elems st ms ++ elems st C ∧
        (∀ x ∈ st'.sentinel this :: ms', b0 ≤ x) ∧
        (∀ x, x < b0 → st'.mem x = st.mem x) ∧ (∀ c, c ≠ this → st'.obj c = st.obj c) ∧
        st.brk ≤ st'.brk := by
  induction C with
  | nil =>
    intro A st ms fuel h1 h2 _ _ hf
    obtain ⟨fuel, rfl⟩ : ∃ k, fuel = k + 1 := ⟨fuel - 1, by simp at hf; omega⟩
    refine ⟨st, ms, ?_, h1, by simp [elems], h2, fun _ _ => rfl, fun _ _ => rfl, le_refl _⟩
    simp [copy_nodes, nodeAt]
  | cons c C ih =>
    intro A st ms fuel h1 h2 h3 h4 hf
    obtain ⟨fuel, rfl⟩ : ∃ k, fuel = k + 1 := ⟨fuel - 1, by simp at hf; omega⟩
    have hnd := h3.2.1
    have hcs : c ≠ st.sentinel other := by
      intro e
      have : (st.sentinel other :: (A ++ c :: C)).Nodup := hnd
      rw [List.nodup_cons] at this
      exact this.1 (e ▸ by simp)
    have hcb : c < b0 := h4 c (by simp)
    obtain ⟨p1, p2⟩ := push_back_isList st this (st.data c) ms h1
    obtain ⟨f1, f2, f3, f4⟩ := push_back_frame st this (st.data c) ms b0 h1 h2
    have hso : (push_back st this (st.data c)).sentinel other = st.sentinel other := by
      simp only [State.sentinel, f2 other (Ne.symm hne)]
    have hst : (push_back st this (st.data c)).sentinel this = st.sentinel this := by
      simp only [State.sentinel, f3]
    have h3' : IsList (push_back st this (st.data c)) other ((A ++ [c]) ++ C) := by
      have := isList_below st (push_back st this (st.data c)) other (A ++ c :: C) b0 h3 h4 f1
        (f2 other (Ne.symm hne)) (by omega)
      simpa using this
    have hnext : (push_back st this (st.data c)).next c = nodeAt (st.sentinel other) C 0 := by
      have := ring_next st (st.sentinel other) c A C (by simpa using h3.1)
      simpa only [State.next, f1 c hcb] using this
    have hbk : b0 ≤ st.brk := le_trans (h2 _ (List.mem_cons_self _ _))
      (le_of_lt (h1.2.2.1 _ (List.mem_cons_self _ _)))
    obtain ⟨st', ms', r1, r2, r3, r4, r5, r6, r7⟩ := ih (A ++ [c])
      (push_back st this (st.data c)) (ms ++ [st.brk]) fuel p1
      (by
        intro x hx
        rw [hst] at hx
        simp only [List.mem_cons, List.mem_append, List.mem_singleton, List.not_mem_nil,
          or_false] at hx
        rcases hx with hx | hx | hx
        · exact h2 x (hx ▸ List.mem_cons_self _ _)
        · exact h2 x (List.mem_cons_of_mem _ hx)
        · omega)
      h3'
      (by
        intro x hx
        rw [hso] at hx
        exact h4 x (by simpa using hx))
      (by simp at hf; omega)
    refine ⟨st', ms', ?_, r2, ?_, r4, ?_, ?_, ?_⟩
    · rw [hso] at r1
      simp only [copy_nodes, nodeAt_cons, ne_eq, hcs, not_false_eq_true, if_true]
      rw [hnext]
      exact r1
    · rw [r3, p2]
      have e1 : elems (push_back st this (st.data c)) C = elems st C := by
        unfold elems
        apply List.map_congr_left
        intro x hx
        show ((push_back st this (st.data c)).mem x).data = (st.mem x).data
        rw [f1 x (h4 x (by simp [hx]))]
      rw [e1]
      simp [elems]
    · intro x hx
      rw [r5 x hx, f1 x hx]
    · intro d hd
      rw [r6 d hd, f2 d hd]
    · rw [f4] at r7
      omega

/-- `list()` writes no node below the old `brk` and no other list object. -/
theorem list_ctor_frame (st : State T) (l : Nat) :
    (∀ x, x < st.brk → (list_ctor st l).mem x = st.mem x) ∧
      (∀ c, c ≠ l → (list_ctor st l).obj c = st.obj c) ∧
      (list_ctor st l).sentinel l = st.brk ∧ (list_ctor st l).brk = st.brk + 1 := by
  refine ⟨?_, ?_, ?_, ?_⟩
  · intro x hx
    have : x ≠ st.brk := by omega
    simp [list_ctor, _M_create_node, allocate, State.wnext, State.wprev, State.wsize,
      State.wnode, State.sentinel, this]
  · intro c hc
    simp [list_ctor, _M_create_node, allocate, State.wnext, State.wprev, State.wsize,
      State.wnode, hc]
  · simp [list_ctor, _M_create_node, allocate, State.wnext, State.wprev, State.wsize,
      State.wnode, State.sentinel]
  · simp [list_ctor, _M_create_node, allocate, State.wnext, State.wprev, State.wsize,
      State.wnode]

/-- The copy constructor: the new list `this` holds the payloads of `other` in
order, on nodes that did not exist before, and nothing that existed before is
written. -/
theorem list_copy_ctor_spec (fuel : Nat) (st : State T) (this other : Nat) (ns : List Nat)
    (hne : this ≠ other) (h : IsList st other ns) (hf : ns.length < fuel) :
    ∃ st' ms, list_copy_ctor fuel st this other = some st' ∧
      IsList st' this ms ∧ elems st' ms = elems st ns ∧
      (∀ x ∈ st'.sentinel this :: ms, st.brk ≤ x) ∧
      (∀ x, x < st.brk → st'.mem x = st.mem x) ∧ (∀ c, c ≠ this → st'.obj c = st.obj c) ∧
      st.brk ≤ st'.brk := by
  obtain ⟨c1, c2, c3, c4⟩ := list_ctor_frame st this
  have hlt := h.2.2.1
  have ho : IsList (list_ctor st this) other ([] ++ ns) :=
    isList_below st _ other ns st.brk h hlt c1 (c2 other (Ne.symm hne)) (by omega)
  have hso : (list_ctor st this).sentinel other = st.sentinel other := by
    simp only [State.sentinel, c2 other (Ne.symm hne)]
  obtain ⟨st', ms', r1, r2, r3, r4, r5, r6, r7⟩ := copy_nodes_run this other st.brk hne ns []
    (list_ctor st this) [] fuel (list_ctor_isList st this)
    (by intro x hx; simp only [c3, List.mem_cons, List.not_mem_nil, or_false] at hx; omega)
    ho (by intro x hx; rw [hso] at hx; exact hlt x (by simpa using hx)) hf
  refine ⟨st', ms', ?_, r2, ?_, r4, ?_, ?_, ?_⟩
  · have e := ring_next_sentinel _ _ _ ho.1
    simp only [List.nil_append] at e
    simp only [list_copy_ctor, list_end, list_begin, e]
    exact r1
  · rw [r3]
    have e2 : elems (list_ctor st this) ns = elems st ns := by
      unfold elems
      apply List.map_congr_left
      intro x hx
      show ((list_ctor st this).mem x).data = (st.mem x).data
      rw [c1 x (hlt x (List.mem_cons_of_mem _ hx))]
    rw [e2]
    simp [elems]
  · intro x hx
    rw [r5 x hx, c1 x hx]
  · intro d hd
    rw [r6 d hd, c2 d hd]
  · omega

/-! ## Linked sequence: swap, move construction, assignment -/

/-- `swap` exchanges the two list objects and writes nothing else. -/
theorem swap_obj (st : State T) (a b : Nat) :
    (swap st a b).obj a = st.obj b ∧ (swap st a b).obj b = st.obj a ∧
      (∀ c, c ≠ a → c ≠ b → (swap st a b).obj c = st.obj c) ∧
      (swap st a b).mem = st.mem ∧ (swap st a b).brk = st.brk ∧
      (swap st a b).alive = st.alive := by
  by_cases hab : a = b
  · subst hab
    refine ⟨?_, ?_, ?_, rfl, rfl, rfl⟩
    · simp [swap, State.wnode, State.wsize, State.sentinel, State.msize]
    · simp [swap, State.wnode, State.wsize, State.sentinel, State.msize]
    · intro c h1 _
      simp [swap, State.wnode, State.wsize, State.sentinel, State.msize, h1]
  · have hba : b ≠ a := Ne.symm hab
    refine ⟨?_, ?_, ?_, rfl, rfl, rfl⟩
    · simp [swap, State.wnode, State.wsize, State.sentinel, State.msize, hab, hba]
    · simp [swap, State.wnode, State.wsize, State.sentinel, State.msize, hab, hba]
    · intro c h1 h2
      simp [swap, State.wnode, State.wsize, State.sentinel, State.msize, h1, h2]

/-- A ring seen through another list object with the same members. -/
theorem isList_obj (st st' : State T) (a b : Nat) (ns : List Nat) (h : IsList st b ns)
    (hm : st'.mem = st.mem) (hb : st'.brk = st.brk) (ho : st'.obj a = st.obj b) :
    IsList st' a ns := by
  obtain ⟨hc, hnd, hlt, hs⟩ := h
  have e1 : st'.sentinel a = st.sentinel b := by simp only [State.sentinel, ho]
  have e2 : st'.msize a = st.msize b := by simp only [State.msize, ho]
  refine ⟨?_, ?_, ?_, ?_⟩
  · rw [e1]
    exact cyc_frame st st' _ hc (fun x _ => by simp only [State.next, hm])
      (fun x _ => by simp only [State.prev, hm])
  · rw [e1]; exact hnd
  · rw [e1, hb]; exact hlt
  · rw [e2]; exact hs

/-- `swap` applied twice is the identity on the store. -/
theorem swap_swap (st : State T) (a b : Nat) : swap (swap st a b) a b = st := by
  obtain ⟨o1, o2, o3, o4, o5, o6⟩ := swap_obj st a b
  obtain ⟨p1, p2, p3, p4, p5, p6⟩ := swap_obj (swap st a b) a b
  have hobj : (swap (swap st a b) a b).obj = st.obj := by
    funext c
    by_cases h1 : c = a
    · subst h1; rw [p1, o2]
    · by_cases h2 : c = b
      · subst h2; rw [p2, o1]
      · rw [p3 c h1 h2, o3 c h1 h2]
  have hmem : (swap (swap st a b) a b).mem = st.mem := by rw [p4, o4]
  have hbrk : (swap (swap st a b) a b).brk = st.brk := by rw [p5, o5]
  have hal : (swap (swap st a b) a b).alive = st.alive := by rw [p6, o6]
  cases hh : swap (swap st a b) a b with
  | mk m al bk ob =>
    rw [hh] at hobj hmem hbrk hal
    cases st with
    | mk m0 al0 bk0 ob0 =>
      simp only at hobj hmem hbrk hal
      subst hobj hmem hbrk hal
      rfl

/-- The move constructor: `this` takes over the ring of `other`, `other` is an
empty ring on a new sentinel, and nothing else is written. -/
theorem list_move_ctor_spec (st : State T) (this other : Nat) (ns : List Nat)
    (hne : this ≠ other) (h : IsList st other ns) :
    IsList (list_move_ctor st this other) this ns ∧
      IsList (list_move_ctor st this other) other [] ∧
      (list_move_ctor st this other).sentinel this = st.sentinel other ∧
      (list_move_ctor st this other).sentinel other = st.brk ∧
      (∀ x, x < st.brk → (list_move_ctor st this other).mem x = st.mem x) ∧
      (∀ c, c ≠ this → c ≠ other → (list_move_ctor st this other).obj c = st.obj c) ∧
      (list_move_ctor st this other).brk = st.brk + 1 := by
  have hon : other ≠ this := Ne.symm hne
  have hlt := h.2.2.1
  have hm : ∀ x, x < st.brk → (list_move_ctor st this other).mem x = st.mem x := by
    intro x hx
    have : x ≠ st.brk := by omega
    simp [list_move_ctor, _M_create_node, allocate, State.wnext, State.wprev, State.wsize,
      State.wnode, State.sentinel, State.msize, this]
  have hs1 : (list_move_ctor st this other).sentinel this = st.sentinel other := by
    simp [list_move_ctor, _M_create_node, allocate, State.wnext, State.wprev, State.wsize,
      State.wnode, State.sentinel, State.msize, hne]
  have hz1 : (list_move_ctor st this other).msize this = st.msize other := by
    simp [list_move_ctor, _M_create_node, allocate, State.wnext, State.wprev, State.wsize,
      State.wnode, State.sentinel, State.msize, hne]
  refine ⟨?_, ?_, hs1, ?_, hm, ?_, ?_⟩
  · obtain ⟨hc, hnd, hl, hs⟩ := h
    refine ⟨?_, ?_, ?_, ?_⟩
    · rw [hs1]
      exact cyc_frame st _ _ hc (fun x hx => by simp only [State.next, hm x (hl x hx)])
        (fun x hx => by simp only [State.prev, hm x (hl x hx)])
    · rw [hs1]; exact hnd
    · rw [hs1]
      intro n hn
      have hn1 := hl n hn
      have e : (list_move_ctor st this other).brk = st.brk + 1 := by
        simp [list_move_ctor, _M_create_node, allocate, State.wnext, State.wprev, State.wsize,
          State.wnode]
      omega
    · rw [hz1]; exact hs
  · refine ⟨?_, ?_, ?_, ?_⟩ <;>
      simp [list_move_ctor, _M_create_node, allocate, State.wnext, State.wprev, State.wsize,
        State.wnode, State.sentinel, State.msize, State.next, State.prev, Cyc, Linked, Adj, hon]
  · simp [list_move_ctor, _M_create_node, allocate, State.wnext, State.wprev, State.wsize,
      State.wnode, State.sentinel, State.msize, hon]
  · intro c h1 h2
    simp [list_move_ctor, _M_create_node, allocate, State.wnext, State.wprev, State.wsize,
      State.wnode, State.sentinel, State.msize, h1, h2]
  · simp [list_move_ctor, _M_create_node, allocate, State.wnext, State.wprev, State.wsize,
      State.wnode]

/-- The destructor of a well-formed list returns; it writes the links of the
sentinel and the size of the list only. -/
theorem list_dtor_spec (fuel : Nat) (st : State T) (l : Nat) (ns : List Nat)
    (h : IsList st l ns) (hf : ns.length < fuel) :
    ∃ st', list_dtor fuel st l = some st' ∧
      (∀ x, x ≠ st.sentinel l → st'.next x = st.next x ∧ st'.prev x = st.prev x) ∧
      (∀ x, st'.data x = st.data x) ∧ (∀ c, st'.sentinel c = st.sentinel c) ∧
      (∀ c, c ≠ l → st'.msize c = st.msize c) ∧ st'.brk = st.brk := by
  obtain ⟨st1, h1, _, h3, h4, h5, h6, h7⟩ := clear_isList fuel st l ns h hf
  refine ⟨st1, ?_, h3, h4, h5, h6, h7⟩
  simp [list_dtor, h1, _M_destroy_node]

/-! ## Growable buffer: the store -/

namespace SMem

variable {C : Type}

@[simp] theorem cell_set (m : SMem C) (p : Int) (oc : Option C) (x : Int) :
    (m.set p oc).cell x = if x = p then oc else m.cell x := rfl

@[simp] theorem brk_set (m : SMem C) (p : Int) (oc : Option C) : (m.set p oc).brk = m.brk := rfl

@[simp] theorem blk_set (m : SMem C) (p : Int) (oc : Option C) : (m.set p oc).blk = m.blk := rfl

@[simp] theorem cell_put (m : SMem C) (p : Int) (c : C) (x : Int) :
    (m.write p c).cell x = if x = p then some c else m.cell x := rfl

@[simp] theorem brk_put (m : SMem C) (p : Int) (c : C) : (m.write p c).brk = m.brk := rfl

@[simp] theorem blk_put (m : SMem C) (p : Int) (c : C) : (m.write p c).blk = m.blk := rfl

@[simp] theorem cell_alloc (m : SMem C) (n : Nat) : (m.allocate n).1.cell = m.cell := rfl

@[simp] theorem brk_alloc (m : SMem C) (n : Nat) : (m.allocate n).1.brk = m.brk + n := rfl

@[simp] theorem blk_alloc (m : SMem C) (n : Nat) (x : Int) :
    (m.allocate n).1.blk x = if x = m.brk then n else m.blk x := rfl

@[simp] theorem ret_alloc (m : SMem C) (n : Nat) : (m.allocate n).2 = m.brk := rfl

@[simp] theorem cell_dealloc (m : SMem C) (p : Int) : (m.deallocate p).cell = m.cell := rfl

@[simp] theorem brk_dealloc (m : SMem C) (p : Int) : (m.deallocate p).brk = m.brk := rfl

@[simp] theorem blk_dealloc (m : SMem C) (p x : Int) :
    (m.deallocate p).blk x = if x = p then 0 else m.blk x := rfl

@[simp] theorem cell_move (m : SMem C) (dest src : Int) (n : Nat) (x : Int) :
    (m.move dest src n).cell x
      = if dest ≤ x ∧ x < dest + n then m.cell (src + (x - dest)) else m.cell x := rfl

@[simp] theorem brk_move (m : SMem C) (dest src : Int) (n : Nat) :
    (m.move dest src n).brk = m.brk := rfl

@[simp] theorem blk_move (m : SMem C) (dest src : Int) (n : Nat) :
    (m.move dest src n).blk = m.blk := rfl

/-- `length` of a C string holding `t` returns the length of `t`, given more
passes than that. -/
theorem length_loop_run [DecidableEq C] [Zero C] (m : SMem C) (p : Int) (t : List C)
    (h : basic_string.CStr m p t) :
    ∀ (d k fuel : Nat), t.length - k = d → k ≤ t.length → d < fuel →
      length_loop m p fuel k = some t.length := by
  intro d
  induction d with
  | zero =>
    intro k fuel hd h1 h2
    obtain ⟨fuel, rfl⟩ : ∃ f, fuel = f + 1 := ⟨fuel - 1, by omega⟩
    have e : k = t.length := by omega
    subst e
    simp [length_loop, h.2.1]
  | succ d ih =>
    intro k fuel hd h1 h2
    obtain ⟨fuel, rfl⟩ : ∃ f, fuel = f + 1 := ⟨fuel - 1, by omega⟩
    have hlt : k < t.length := by omega
    have hc := h.1 k hlt
    have hne : m.cell (p + k) ≠ some 0 := by
      rw [hc, List.get?_eq_get hlt]
      intro e
      exact h.2.2 _ (List.get_mem t k hlt) (Option.some.inj e)
    simp only [length_loop, hne, if_false]
    have e2 := ih (k + 1) fuel (by omega) (by omega) (by omega)
    simpa using e2

theorem length_spec [DecidableEq C] [Zero C] (m : SMem C) (p : Int) (t : List C) (fuel : Nat)
    (h : basic_string.CStr m p t) (hf : t.length < fuel) : length fuel m p = some t.length :=
  length_loop_run m p t h t.length 0 fuel rfl (Nat.zero_le _) hf

end SMem

/-! ## Growable buffer: the set searches -/

namespace basic_string

variable {C : Type} [DecidableEq C]

/-- The inner loop of the set searches finds `c` exactly if one of the slots it
passes holds `c`. -/
theorem member_loop_iff (m : SMem C) (chars : basic_string) (c : Option C) :
    ∀ (n j : Nat), member_loop m chars c n j = true ↔
      ∃ k, j ≤ k ∧ k < j + n ∧ c = m.cell (chars._data + k) := by
  intro n
  induction n with
  | zero =>
    intro j
    simp only [member_loop, Bool.false_eq_true, false_iff]
    rintro ⟨k, h1, h2, _⟩
    omega
  | succ n ih =>
    intro j
    by_cases hc : c = m.cell (chars._data + j)
    · simp only [member_loop, hc, if_true, true_iff]
      exact ⟨j, le_refl _, by omega, rfl⟩
    · simp only [member_loop, hc, if_false]
      rw [ih (j + 1)]
      constructor
      · rintro ⟨k, h1, h2, h3⟩
        exact ⟨k, by omega, by omega, h3⟩
      · rintro ⟨k, h1, h2, h3⟩
        have hkj : k ≠ j := by
          intro e
          subst e
          exact hc h3
        exact ⟨k, by omega, by omega, h3⟩

/-- Membership in a buffer that holds the characters `ks`. -/
theorem member_spec (m : SMem C) (chars : basic_string) (ks : List C)
    (hk : Chars m.toVMem chars ks) (x : C) :
    member_loop m chars (some x) chars.size 0 = true ↔ x ∈ ks := by
  rw [member_loop_iff]
  obtain ⟨h1, h2⟩ := hk
  unfold size
  rw [h1]
  constructor
  · rintro ⟨k, _, hk2, hk3⟩
    have hlt : k < ks.length := by omega
    rw [h2 k hlt, List.get?_eq_get hlt] at hk3
    rw [Option.some.inj hk3]
    exact List.get_mem ks k hlt
  · intro hx
    obtain ⟨⟨k, hlt⟩, hk⟩ := List.get_of_mem hx
    refine ⟨k, Nat.zero_le _, by omega, ?_⟩
    rw [h2 k hlt, List.get?_eq_get hlt, hk]

/-- The outer loop of `find_first_of`: the least index it passes whose slot is
a member, or `npos`. -/
theorem first_of_loop_spec (m : SMem C) (this chars : basic_string) :
    ∀ (n i : Nat),
      (first_of_loop m this chars n i = npos ∧
        ∀ k, i ≤ k → k < i + n →
          member_loop m chars (m.cell (this._data + k)) chars.size 0 = false) ∨
      (i ≤ first_of_loop m this chars n i ∧ first_of_loop m this chars n i < i + n ∧
        member_loop m chars (m.cell (this._data + (first_of_loop m this chars n i : Nat)))
          chars.size 0 = true ∧
        ∀ k, i ≤ k → k < first_of_loop m this chars n i →
          member_loop m chars (m.cell (this._data + k)) chars.size 0 = false) := by
  intro n
  induction n with
  | zero =>
    intro i
    left
    exact ⟨rfl, fun k h1 h2 => by omega⟩
  | succ n ih =>
    intro i
    by_cases hc : member_loop m chars (m.cell (this._data + i)) chars.size 0 = true
    · right
      simp only [first_of_loop, hc, if_true]
      exact ⟨le_refl _, by omega, trivial, fun k h1 h2 => by omega⟩
    · simp only [first_of_loop, hc, if_false, Bool.false_eq_true]
      have hf : member_loop m chars (m.cell (this._data + i)) chars.size 0 = false := by
        simpa using hc
      rcases ih (i + 1) with ⟨h1, h2⟩ | ⟨h1, h2, h3, h4⟩
      · left
        refine ⟨h1, fun k k1 k2 => ?_⟩
        by_cases e : k = i
        · subst e; exact hf
        · exact h2 k (by omega) (by omega)
      · right
        refine ⟨by omega, by omega, h3, fun k k1 k2 => ?_⟩
        by_cases e : k = i
        · subst e; exact hf
        · exact h4 k (by omega) k2

/-- The outer loop of `find_first_not_of`: the least index it passes whose slot
is not a member, or `npos`. -/
theorem first_not_of_loop_spec (m : SMem C) (this chars : basic_string) :
    ∀ (n i : Nat),
      (first_not_of_loop m this chars n i = npos ∧
        ∀ k, i ≤ k → k < i + n →
          member_loop m chars (m.cell (this._data + k)) chars.size 0 = true) ∨
      (i ≤ first_not_of_loop m this chars n i ∧ first_not_of_loop m this chars n i < i + n ∧
        member_loop m chars (m.cell (this._data + (first_not_of_loop m this chars n i : Nat)))
          chars.size 0 = false ∧
        ∀ k, i ≤ k → k < first_not_of_loop m this chars n i →
          member_loop m chars (m.cell (this._data + k)) chars.size 0 = true) := by
  intro n
  induction n with
  | zero =>
    intro i
    left
    exact ⟨rfl, fun k h1 h2 => by omega⟩
  | succ n ih =>
    intro i
    by_cases hc : member_loop m chars (m.cell (this._data + i)) chars.size 0 = true
    · simp only [first_not_of_loop, hc, Bool.not_true, Bool.false_eq_true, if_false]
      rcases ih (i + 1) with ⟨h1, h2⟩ | ⟨h1, h2, h3, h4⟩
      · left
        refine ⟨h1, fun k k1 k2 => ?_⟩
        by_cases e : k = i
        · subst e; exact hc
        · exact h2 k (by omega) (by omega)
      · right
        refine ⟨by omega, by omega, h3, fun k k1 k2 => ?_⟩
        by_cases e : k = i
        · subst e; exact hc
        · exact h4 k (by omega) k2
    · have hf : member_loop m chars (m.cell (this._data + i)) chars.size 0 = false := by
        simpa using hc
      right
      simp only [first_not_of_loop, hf, Bool.not_false, if_true]
      exact ⟨le_refl _, by omega, trivial, fun k h1 h2 => by omega⟩

end basic_string

/-! ## Growable buffer: growth -/

namespace basic_string

variable {C : Type}

/-- `grow_recommend(need)` is at least `need`, and one more than it is still a
`size_t` as long as `need + 1` is. -/
theorem grow_recommend_bounds (s : basic_string) (need : Nat) (hn : need + 1 < SIZE_MOD) :
    need ≤ grow_recommend s need ∧ grow_recommend s need + 1 < SIZE_MOD ∧
      (s._cap = 0 → grow_recommend s need = max 8 need) := by
  unfold grow_recommend
  have hM : SIZE_MOD = 18446744073709551616 := by unfold SIZE_MOD; norm_num
  by_cases hc : s._cap ≠ 0
  · simp only [hc, if_true]
    have h2 : (s._cap * 2) % SIZE_MOD + 1 < SIZE_MOD := by
      rw [hM]
      omega
    split_ifs with h
    · exact ⟨le_refl _, hn, fun e => e.elim⟩
    · exact ⟨by omega, h2, fun e => e.elim⟩
  · simp only [hc, if_false]
    split_ifs with h
    · exact ⟨le_refl _, hn, fun _ => by omega⟩
    · exact ⟨by omega, by rw [hM]; omega, fun _ => by omega⟩

/-- `ensure_capacity(need)` with enough capacity does nothing. -/
theorem ensure_capacity_enough [Zero C] (m : SMem C) (s : basic_string) (need : Nat)
    (h : need ≤ s._cap) : ensure_capacity m s need = (m, s) := by
  simp [ensure_capacity, h]

/-- `ensure_capacity(need)` beyond the capacity: the buffer moves to a new block
of `grow_recommend(need) + 1` slots at the allocator's next free address, the
characters are copied there if the old pointer is not null, the terminator is
written after them, and the old block is given back. -/
theorem ensure_capacity_grow [Zero C] (m : SMem C) (s : basic_string) (need : Nat)
    (h : s._cap < need) (hn : need + 1 < SIZE_MOD) :
    (ensure_capacity m s need).2 = ⟨m.brk, s._size, grow_recommend s need⟩ ∧
      (ensure_capacity m s need).1.brk = m.brk + (grow_recommend s need + 1 : Nat) ∧
      (∀ x, (ensure_capacity m s need).1.blk x
        = if s._data ≠ 0 ∧ x = s._data then 0
          else if x = m.brk then grow_recommend s need + 1 else m.blk x) ∧
      (∀ x, (ensure_capacity m s need).1.cell x
        = if x = m.brk + s._size then some 0
          else if s._data ≠ 0 ∧ m.brk ≤ x ∧ x < m.brk + s._size
            then m.cell (s._data + (x - m.brk)) else m.cell x) := by
  obtain ⟨_, g2, _⟩ := grow_recommend_bounds s need hn
  have hmod : (grow_recommend s need + 1) % SIZE_MOD = grow_recommend s need + 1 :=
    Nat.mod_eq_of_lt g2
  have hnot : ¬ need ≤ s._cap := by omega
  by_cases hd : s._data ≠ 0
  · refine ⟨?_, ?_, ?_, ?_⟩
    · simp [ensure_capacity, hnot, hd]
    · simp [ensure_capacity, hnot, hd, hmod]
    · intro x
      simp [ensure_capacity, hnot, hd, hmod]
    · intro x
      simp [ensure_capacity, hnot, hd, hmod]
  · refine ⟨?_, ?_, ?_, ?_⟩
    · simp [ensure_capacity, hnot, hd]
    · simp [ensure_capacity, hnot, hd, hmod]
    · intro x
      simp [ensure_capacity, hnot, hd, hmod]
    · intro x
      simp [ensure_capacity, hnot, hd, hmod]

end basic_string

/-! ## Growable buffer: the substring search within the size -/

namespace basic_string

variable {C : Type}

/-- The inner loop of the substring searches reports a match exactly if each of
the slots it passes equals the slot of the needle. -/
theorem match_loop_iff [DecidableEq C] (m : SMem C) (data : Int) (i : Nat) (s : Int) :
    ∀ (n j : Nat), match_loop m data i s n j = true ↔
      ∀ k, j ≤ k → k < j + n → m.cell (data + ((i + k) % SIZE_MOD : Nat)) = m.cell (s + k) := by
  intro n
  induction n with
  | zero =>
    intro j
    simp only [match_loop, true_iff]
    intro k h1 h2
    omega
  | succ n ih =>
    intro j
    by_cases hc : m.cell (data + ((i + j) % SIZE_MOD : Nat)) = m.cell (s + j)
    · simp only [match_loop, hc, ne_eq, not_true_eq_false, if_false]
      rw [ih (j + 1)]
      constructor
      · intro h k k1 k2
        by_cases e : k = j
        · subst e; exact hc
        · exact h k (by omega) (by omega)
      · intro h k k1 k2
        exact h k (by omega) (by omega)
    · simp only [match_loop, ne_eq, hc, not_false_eq_true, if_true, Bool.false_eq_true,
        false_iff]
      intro h
      exact hc (h j (le_refl _) (by omega))

/-- The outer loop of the substring searches, when the needle is not longer than
the buffer: it returns, with the least start offset from `i` on at which the
inner loop reports a match, or with `npos` when there is none up to
`_size - s_len`. -/
theorem find_loop_run [DecidableEq C] (m : SMem C) (this : basic_string) (s : Int)
    (s_len : Nat) (hle : s_len ≤ this._size) (hz : this._size < SIZE_MOD) (h0 : 0 < s_len) :
    ∀ (d i fuel : Nat), this._size - s_len + 1 - i = d → d < fuel →
      ∃ r, find_loop m this s s_len fuel i = some r ∧
        ((r = npos ∧ ∀ k, i ≤ k → k ≤ this._size - s_len →
            match_loop m this._data k s s_len 0 = false) ∨
          (i ≤ r ∧ r ≤ this._size - s_len ∧ match_loop m this._data r s s_len 0 = true ∧
            ∀ k, i ≤ k → k < r → match_loop m this._data k s s_len 0 = false)) := by
  have hsub : size_sub this._size s_len = this._size - s_len := by
    unfold size_sub
    rw [if_pos hle]
  intro d
  induction d with
  | zero =>
    intro i fuel hd hf
    obtain ⟨fuel, rfl⟩ : ∃ f, fuel = f + 1 := ⟨fuel - 1, by omega⟩
    have hgt : ¬ i ≤ this._size - s_len := by omega
    refine ⟨npos, ?_, Or.inl ⟨rfl, fun k k1 k2 => by omega⟩⟩
    simp only [find_loop, hsub, hgt, if_false]
  | succ d ih =>
    intro i fuel hd hf
    obtain ⟨fuel, rfl⟩ : ∃ f, fuel = f + 1 := ⟨fuel - 1, by omega⟩
    have hi : i ≤ this._size - s_len := by omega
    have hmod : (i + 1) % SIZE_MOD = i + 1 := Nat.mod_eq_of_lt (by omega)
    by_cases hm : match_loop m this._data i s s_len 0 = true
    · refine ⟨i, ?_, Or.inr ⟨le_refl _, hi, hm, fun k k1 k2 => by omega⟩⟩
      simp only [find_loop, hsub, hi, if_true, hm]
    · have hmf : match_loop m this._data i s s_len 0 = false := by simpa using hm
      obtain ⟨r, h1, h2⟩ := ih (i + 1) fuel (by omega) (by omega)
      refine ⟨r, ?_, ?_⟩
      · simp only [find_loop, hsub, hi, if_true, hmf, Bool.false_eq_true, if_false, hmod]
        exact h1
      · rcases h2 with ⟨e, h3⟩ | ⟨h3, h4, h5, h6⟩
        · left
          refine ⟨e, fun k k1 k2 => ?_⟩
          by_cases ek : k = i
          · subst ek; exact hmf
          · exact h3 k (by omega) k2
        · right
          refine ⟨by omega, h4, h5, fun k k1 k2 => ?_⟩
          by_cases ek : k = i
          · subst ek; exact hmf
          · exact h6 k (by omega) k2

/-- A match of the inner loop at offset `i` of a buffer holding `cs`, against a
C string holding `t`, with `i + |t| <= size`: the characters `cs[i..i+|t|)` are
those of `t`. -/
theorem match_at [DecidableEq C] [Zero C] (m : SMem C) (this : basic_string) (p : Int)
    (cs t : List C) (hs : Chars m.toVMem this cs) (hc : CStr m p t) (i : Nat)
    (hi : i + t.length ≤ cs.length) (hz : cs.length < SIZE_MOD) :
    match_loop m this._data i p t.length 0 = true ↔
      ∀ k, k < t.length → cs.get? (i + k) = t.get? k := by
  rw [match_loop_iff]
  constructor
  · intro h k hk
    have := h k (Nat.zero_le _) (by omega)
    rw [Nat.mod_eq_of_lt (by omega), hs.2 (i + k) (by omega), hc.1 k hk] at this
    exact this
  · intro h k _ hk
    rw [Nat.mod_eq_of_lt (by omega), hs.2 (i + k) (by omega), hc.1 k (by omega)]
    exact h k (by omega)

/-- `find(const CharT*, pos)` for a needle that is not longer than the buffer:
for a buffer holding `cs` and a non-null C string holding the non-empty run `t`
with `|t| <= size`, the call returns the least offset `i >= pos` with
`i + |t| <= size` and `cs[i..i+|t|) = t`, and `npos` if there is none. -/
theorem find_within_size [DecidableEq C] [Zero C] (m : SMem C) (this : basic_string) (p : Int)
    (cs t : List C) (pos fuel : Nat) (hs : Chars m.toVMem this cs) (hc : CStr m p t)
    (hp : p ≠ 0) (ht : t ≠ []) (hle : t.length ≤ this.size) (hz : this.size < SIZE_MOD)
    (hf : this.size + 1 < fuel) :
    ∃ r, find fuel m this p pos = some r ∧
      ((r = npos ∧ ∀ i, pos ≤ i → i + t.length ≤ this.size →
          ¬ ∀ k, k < t.length → cs.get? (i + k) = t.get? k) ∨
        (pos ≤ r ∧ r + t.length ≤ this.size ∧ r ≠ npos ∧
          (∀ k, k < t.length → cs.get? (r + k) = t.get? k) ∧
          ∀ i, pos ≤ i → i < r → ¬ ∀ k, k < t.length → cs.get? (i + k) = t.get? k)) := by
  unfold size at hle hz hf ⊢
  have hsz : this._size = cs.length := hs.1
  have hpos : 0 < t.length := List.length_pos.2 ht
  have hlen := SMem.length_spec m p t fuel hc (by omega)
  by_cases hg : pos ≥ this._size
  · refine ⟨npos, ?_, Or.inl ⟨rfl, fun i i1 i2 => by omega⟩⟩
    simp [find, hg]
  · have hne : this._size ≠ 0 := by omega
    have hfind : find fuel m this p pos = find_loop m this p t.length fuel pos := by
      simp only [find, hp, hne, hg, or_self, if_false, hlen]
      rw [if_neg (by omega)]
    obtain ⟨r, h1, h2⟩ := find_loop_run m this p t.length hle hz hpos
      (this._size - t.length + 1 - pos) pos fuel rfl (by omega)
    refine ⟨r, by rw [hfind, h1], ?_⟩
    rcases h2 with ⟨e, h3⟩ | ⟨h3, h4, h5, h6⟩
    · left
      refine ⟨e, fun i i1 i2 hall => ?_⟩
      have hk := h3 i i1 (by omega)
      rw [(match_at m this p cs t hs hc i (by omega) (by omega)).2 hall] at hk
      exact absurd hk (by simp)
    · right
      refine ⟨h3, by omega, by unfold npos; omega, ?_, fun i i1 i2 hall => ?_⟩
      · exact (match_at m this p cs t hs hc r (by omega) (by omega)).1 h5
      · have hk := h6 i i1 i2
        rw [(match_at m this p cs t hs hc i (by omega) (by omega)).2 hall] at hk
        exact absurd hk (by simp)

end basic_string

/-! ## Growable buffer: the set searches where the code is right -/

namespace basic_string

variable {C : Type}

/-- The membership test on the slot of index `k` of a buffer holding `cs`,
against a buffer holding `ks`, as a statement on the characters. -/
theorem member_chars [DecidableEq C] (m : SMem C) (s chars : basic_string) (cs ks : List C)
    (hs : Chars m.toVMem s cs) (hk : Chars m.toVMem chars ks) (k : Nat) (hlt : k < cs.length) :
    (member_loop m chars (m.cell (s._data + k)) chars.size 0 = true ↔
        ∃ c ∈ ks, cs.get? k = some c) ∧
      (member_loop m chars (m.cell (s._data + k)) chars.size 0 = false ↔
        ¬ ∃ c ∈ ks, cs.get? k = some c) := by
  have h1 : member_loop m chars (m.cell (s._data + k)) chars.size 0 = true ↔
      ∃ c ∈ ks, cs.get? k = some c := by
    rw [hs.2 k hlt, List.get?_eq_get hlt, member_spec m chars ks hk]
    constructor
    · intro h
      exact ⟨_, h, rfl⟩
    · rintro ⟨c, hc, e⟩
      rw [Option.some.inj e]
      exact hc
  refine ⟨h1, ?_⟩
  rw [← h1]
  simp

/-- `find_first_not_of(chars, pos)` for a non-empty set: for a buffer holding
`cs` and a set buffer holding the non-empty `ks`, the call returns the least
offset `i` with `pos <= i < size` whose character is none of `ks`, and `npos` if
there is none. -/
theorem find_first_not_of_nonempty [DecidableEq C] (m : SMem C) (s chars : basic_string)
    (cs ks : List C) (pos : Nat) (hs : Chars m.toVMem s cs) (hk : Chars m.toVMem chars ks)
    (hne : ks ≠ []) (hz : s.size < SIZE_MOD) :
    (∃ i, pos ≤ i ∧ i < s.size ∧ (¬ ∃ c ∈ ks, cs.get? i = some c) ∧
        (∀ k, pos ≤ k → k < i → ∃ c ∈ ks, cs.get? k = some c) ∧
        find_first_not_of m s chars pos = i ∧ i ≠ npos) ∨
      ((∀ k, pos ≤ k → k < s.size → ∃ c ∈ ks, cs.get? k = some c) ∧
        find_first_not_of m s chars pos = npos) := by
  unfold size at hz ⊢
  have hsz : s._size = cs.length := hs.1
  have hce : ¬ chars.empty = true := by
    have : chars._size ≠ 0 := by
      rw [hk.1]
      exact fun e => hne (List.length_eq_zero.1 e)
    simpa [empty] using this
  by_cases hg : s._size = 0 ∨ pos ≥ s._size
  · right
    refine ⟨fun k k1 k2 => by omega, ?_⟩
    have : chars.empty = true ∨ s._size = 0 ∨ pos ≥ s._size := Or.inr hg
    simp only [find_first_not_of, this, if_true]
  · have hfo : find_first_not_of m s chars pos
        = first_not_of_loop m s chars (s._size - pos) pos := by
      have : ¬ (chars.empty = true ∨ s._size = 0 ∨ pos ≥ s._size) := by
        rintro (h | h)
        · exact hce h
        · exact hg h
      simp only [find_first_not_of, this, if_false]
    rw [hfo]
    rcases first_not_of_loop_spec m s chars (s._size - pos) pos with
      ⟨h1, h2⟩ | ⟨h1, h2, h3, h4⟩
    · right
      refine ⟨fun k k1 k2 => ?_, h1⟩
      exact (member_chars m s chars cs ks hs hk k (by omega)).1.1 (h2 k k1 (by omega))
    · left
      refine ⟨_, h1, by omega, ?_, ?_, rfl, by unfold npos; omega⟩
      · exact (member_chars m s chars cs ks hs hk _ (by omega)).2.1 h3
      · intro k k1 k2
        exact (member_chars m s chars cs ks hs hk k (by omega)).1.1 (h4 k k1 k2)

/-- The loop of `find_last_of` from `n`: the greatest index below `n` whose slot
is a member, or `npos`. -/
theorem last_of_loop_spec [DecidableEq C] (m : SMem C) (this chars : basic_string) :
    ∀ (n : Nat),
      (last_of_loop m this chars n = npos ∧
        ∀ k, k < n → member_loop m chars (m.cell (this._data + k)) chars.size 0 = false) ∨
      (last_of_loop m this chars n < n ∧
        member_loop m chars (m.cell (this._data + (last_of_loop m this chars n : Nat)))
          chars.size 0 = true ∧
        ∀ k, last_of_loop m this chars n < k → k < n →
          member_loop m chars (m.cell (this._data + k)) chars.size 0 = false) := by
  intro n
  induction n with
  | zero =>
    left
    exact ⟨rfl, fun k h => by omega⟩
  | succ n ih =>
    by_cases hc : member_loop m chars (m.cell (this._data + n)) chars.size 0 = true
    · right
      simp only [last_of_loop, hc, if_true]
      exact ⟨by omega, trivial, fun k k1 k2 => by omega⟩
    · have hf : member_loop m chars (m.cell (this._data + n)) chars.size 0 = false := by
        simpa using hc
      simp only [last_of_loop, hf, Bool.false_eq_true, if_false]
      rcases ih with ⟨h1, h2⟩ | ⟨h1, h2, h3⟩
      · left
        refine ⟨h1, fun k k1 => ?_⟩
        by_cases e : k = n
        · subst e; exact hf
        · exact h2 k (by omega)
      · right
        refine ⟨by omega, h2, fun k k1 k2 => ?_⟩
        by_cases e : k = n
        · subst e; exact hf
        · exact h3 k k1 (by omega)

/-- The loop of `find_last_not_of` from `n`: the greatest index below `n` whose
slot is not a member, or `npos`. -/
theorem last_not_of_loop_spec [DecidableEq C] (m : SMem C) (this chars : basic_string) :
    ∀ (n : Nat),
      (last_not_of_loop m this chars n = npos ∧
        ∀ k, k < n → member_loop m chars (m.cell (this._data + k)) chars.size 0 = true) ∨
      (last_not_of_loop m this chars n < n ∧
        member_loop m chars (m.cell (this._data + (last_not_of_loop m this chars n : Nat)))
          chars.size 0 = false ∧
        ∀ k, last_not_of_loop m this chars n < k → k < n →
          member_loop m chars (m.cell (this._data + k)) chars.size 0 = true) := by
  intro n
  induction n with
  | zero =>
    left
    exact ⟨rfl, fun k h => by omega⟩
  | succ n ih =>
    by_cases hc : member_loop m chars (m.cell (this._data + n)) chars.size 0 = true
    · simp only [last_not_of_loop, hc, Bool.not_true, Bool.false_eq_true, if_false]
      rcases ih with ⟨h1, h2⟩ | ⟨h1, h2, h3⟩
      · left
        refine ⟨h1, fun k k1 => ?_⟩
        by_cases e : k = n
        · subst e; exact hc
        · exact h2 k (by omega)
      · right
        refine ⟨by omega, h2, fun k k1 k2 => ?_⟩
        by_cases e : k = n
        · subst e; exact hc
        · exact h3 k k1 (by omega)
    · have hf : member_loop m chars (m.cell (this._data + n)) chars.size 0 = false := by
        simpa using hc
      right
      simp only [last_not_of_loop, hf, Bool.not_false, if_true]
      exact ⟨by omega, trivial, fun k k1 k2 => by omega⟩

/-- The start of the backward loops: for `pos = npos` or `pos < size` on a
non-empty buffer, the loop starts at `q + 1` with `q = size - 1` in the first
case and `q = pos` in the second. -/
theorem last_start (size pos : Nat) (hz : size < SIZE_MOD) (h0 : size ≠ 0)
    (hp : pos = npos ∨ pos < size) :
    ((if pos = npos then size - 1 else pos) + 1) % SIZE_MOD
        = (if pos = npos then size - 1 else pos) + 1 ∧
      (if pos = npos then size - 1 else pos) < size := by
  by_cases e : pos = npos
  · simp only [e, if_true]
    exact ⟨Nat.mod_eq_of_lt (by omega), by omega⟩
  · simp only [e, if_false]
    have : pos < size := by
      rcases hp with h | h
      · exact absurd h e
      · exact h
    exact ⟨Nat.mod_eq_of_lt (by omega), this⟩

/-- `find_last_of(chars, pos)` and `find_last_not_of(chars, pos)` for
`pos = npos` or `pos < size`: with `q` the last offset in the first case and
`pos` in the second, the calls return the greatest offset `i <= q` whose
character is (respectively is not) one of `ks`, and `npos` if there is none. -/
theorem find_last_in_range [DecidableEq C] (m : SMem C) (s chars : basic_string)
    (cs ks : List C) (pos : Nat) (hs : Chars m.toVMem s cs) (hk : Chars m.toVMem chars ks)
    (hz : s.size < SIZE_MOD) (hp : pos = npos ∨ pos < s.size) :
    ((∃ i, i ≤ (if pos = npos then s.size - 1 else pos) ∧ i < s.size ∧
          (∃ c ∈ ks, cs.get? i = some c) ∧
          (∀ k, i < k → k ≤ (if pos = npos then s.size - 1 else pos) →
            ¬ ∃ c ∈ ks, cs.get? k = some c) ∧
          find_last_of m s chars pos = i ∧ i ≠ npos) ∨
        ((∀ k, k ≤ (if pos = npos then s.size - 1 else pos) → k < s.size →
            ¬ ∃ c ∈ ks, cs.get? k = some c) ∧
          find_last_of m s chars pos = npos)) ∧
      ((∃ i, i ≤ (if pos = npos then s.size - 1 else pos) ∧ i < s.size ∧
          (¬ ∃ c ∈ ks, cs.get? i = some c) ∧
          (∀ k, i < k → k ≤ (if pos = npos then s.size - 1 else pos) →
            ∃ c ∈ ks, cs.get? k = some c) ∧
          find_last_not_of m s chars pos = i ∧ i ≠ npos) ∨
        ((∀ k, k ≤ (if pos = npos then s.size - 1 else pos) → k < s.size →
            ∃ c ∈ ks, cs.get? k = some c) ∧
          find_last_not_of m s chars pos = npos)) := by
  unfold size at hz hp ⊢
  have hsz : s._size = cs.length := hs.1
  by_cases h0 : s._size = 0
  · constructor
    · right
      exact ⟨fun k _ k2 => by omega, by simp only [find_last_of, h0, if_true]⟩
    · right
      exact ⟨fun k _ k2 => by omega, by simp only [find_last_not_of, h0, if_true]⟩
  · obtain ⟨q1, q2⟩ := last_start s._size pos hz h0 hp
    have e1 : find_last_of m s chars pos
        = last_of_loop m s chars ((if pos = npos then s._size - 1 else pos) + 1) := by
      simp only [find_last_of, h0, if_false, q1]
    have e2 : find_last_not_of m s chars pos
        = last_not_of_loop m s chars ((if pos = npos then s._size - 1 else pos) + 1) := by
      simp only [find_last_not_of, h0, if_false, q1]
    rw [e1, e2]
    generalize (if pos = npos then s._size - 1 else pos) = q at q1 q2 ⊢
    constructor
    · rcases last_of_loop_spec m s chars (q + 1) with ⟨h1, h2⟩ | ⟨h1, h2, h3⟩
      · right
        refine ⟨fun k k1 k2 => ?_, h1⟩
        exact (member_chars m s chars cs ks hs hk k (by omega)).2.1 (h2 k (by omega))
      · left
        refine ⟨_, by omega, by omega, ?_, ?_, rfl, by unfold npos; omega⟩
        · exact (member_chars m s chars cs ks hs hk _ (by omega)).1.1 h2
        · intro k k1 k2
          exact (member_chars m s chars cs ks hs hk k (by omega)).2.1 (h3 k k1 (by omega))
    · rcases last_not_of_loop_spec m s chars (q + 1) with ⟨h1, h2⟩ | ⟨h1, h2, h3⟩
      · right
        refine ⟨fun k k1 k2 => ?_, h1⟩
        exact (member_chars m s chars cs ks hs hk k (by omega)).1.1 (h2 k (by omega))
      · left
        refine ⟨_, by omega, by omega, ?_, ?_, rfl, by unfold npos; omega⟩
        · exact (member_chars m s chars cs ks hs hk _ (by omega)).2.1 h2
        · intro k k1 k2
          exact (member_chars m s chars cs ks hs hk k (by omega)).1.1 (h3 k k1 (by omega))

end basic_string

/-! ## Growable buffer: the terminator slot where nothing wraps -/

namespace basic_string

variable {C : Type}

@[simp] theorem blk_fill (data : Int) (c : C) :
    ∀ (n : Nat) (m : SMem C) (i : Nat), (SMem.fill data c n m i).blk = m.blk := by
  intro n
  induction n with
  | zero => intro m i; rfl
  | succ n ih => intro m i; simp [SMem.fill, ih]

@[simp] theorem blk_shift_loop (data : Int) (k : Nat) :
    ∀ (n : Nat) (m : SMem C) (i : Nat), (shift_loop data k n m i).blk = m.blk := by
  intro n
  induction n with
  | zero => intro m i; rfl
  | succ n ih => intro m i; simp [shift_loop, ih]

@[simp] theorem blk_copy_in_loop (data : Int) :
    ∀ (n : Nat) (m : SMem C) (it : Int) (idx : Nat),
      (copy_in_loop data n m it idx).blk = m.blk := by
  intro n
  induction n with
  | zero => intro m it idx; rfl
  | succ n ih => intro m it idx; simp [copy_in_loop, ih]

@[simp] theorem blk_erase_loop (data : Int) :
    ∀ (n : Nat) (m : SMem C) (i : Nat), (erase_loop data n m i).blk = m.blk := by
  intro n
  induction n with
  | zero => intro m i; rfl
  | succ n ih => intro m i; simp [erase_loop, ih]

theorem blk_insert_ch_loop (data : Int) (pos : Nat) :
    ∀ (fuel : Nat) (m m' : SMem C) (i : Nat),
      insert_ch_loop data pos fuel m i = some m' → m'.blk = m.blk := by
  intro fuel
  induction fuel with
  | zero => intro m m' i h; simp [insert_ch_loop] at h
  | succ fuel ih =>
    intro m m' i h
    by_cases hc : i ≥ pos
    · simp only [insert_ch_loop, hc, if_true] at h
      rw [ih _ _ _ h]
      simp
    · simp only [insert_ch_loop, hc, if_false, Option.some.injEq] at h
      rw [h]

/-- The conditional call `if (need > _cap) ensure_capacity(need)` is
`ensure_capacity(need)`. -/
theorem ite_ensure_capacity [Zero C] (m : SMem C) (s : basic_string) (need : Nat) :
    (if need > s._cap then ensure_capacity m s need else (m, s)) = ensure_capacity m s need := by
  by_cases h : need > s._cap
  · rw [if_pos h]
  · rw [if_neg h, ensure_capacity_enough m s need (by omega)]

/-- `ensure_capacity(need)` keeps the terminator slot accounted for: on a buffer
whose block has `capacity() + 1` slots and was allocated before, the result has
the same size, a capacity of at least `need` and not less than before, and a
block of `capacity() + 1` slots allocated before the next free address. -/
theorem ensure_capacity_slot [Zero C] (m : SMem C) (s : basic_string) (need : Nat)
    (hS : Slot m s) (hd : s._data < m.brk) (hn : need + 1 < SIZE_MOD) :
    (ensure_capacity m s need).2._size = s._size ∧
      need ≤ (ensure_capacity m s need).2._cap ∧
      s._cap ≤ (ensure_capacity m s need).2._cap ∧
      (ensure_capacity m s need).1.blk (ensure_capacity m s need).2._data
        = (ensure_capacity m s need).2._cap + 1 ∧
      (ensure_capacity m s need).2._data < (ensure_capacity m s need).1.brk := by
  by_cases h : need ≤ s._cap
  · rw [ensure_capacity_enough m s need h]
    exact ⟨rfl, h, le_refl _, hS.2, hd⟩
  · obtain ⟨e1, e2, e3, _⟩ := ensure_capacity_grow m s need (by omega) hn
    obtain ⟨g1, _, _⟩ := grow_recommend_bounds s need hn
    rw [e3, e2, e1]
    refine ⟨rfl, g1, by simp only; omega, ?_, by simp only; omega⟩
    have : ¬ (s._data ≠ 0 ∧ m.brk = s._data) := by
      rintro ⟨_, e⟩
      omega
    simp only [this, if_false, if_true]

/-- The terminator slot stays accounted for (`size() <= capacity()`, a block of
`capacity() + 1` slots) through the constructors and through every mutating
operation whose sizes and counts do not leave the range of `size_t`: for
`erase(pos, count)` that is `pos + count < 2^64`, for the iterator forms a range
inside the buffer. -/
theorem slot_kept [DecidableEq C] [Zero C] (m : SMem C) (s : basic_string)
    (hS : Slot m s) (hd : s._data < m.brk) :
    Slot (ctor m).1 (ctor m).2 ∧
      (∀ other : basic_string, other._size + 1 < SIZE_MOD →
        Slot (ctor_copy m other).1 (ctor_copy m other).2) ∧
      (∀ (fuel : Nat) (p : Int) (r : SMem C × basic_string), ctor_cstr fuel m p = some r →
        r.2._size + 2 < SIZE_MOD → Slot r.1 r.2) ∧
      (∀ ch : C, s._size + 2 < SIZE_MOD → Slot (push_back m s ch).1 (push_back m s ch).2) ∧
      (∀ (fuel : Nat) (p : Int) (r : SMem C × basic_string), append fuel m s p = some r →
        (∀ len, SMem.length fuel m p = some len → s._size + len + 1 < SIZE_MOD) →
        Slot r.1 r.2) ∧
      (∀ (n : Nat) (c : C), n + 2 < SIZE_MOD →
        Slot (resize_c m s n c).1 (resize_c m s n c).2) ∧
      Slot m (pop_back s) ∧ Slot m (clear s) ∧
      (∀ (other : basic_string) (same : Bool), other._size + 1 < SIZE_MOD →
        Slot (copy_assign m s other same).1 (copy_assign m s other same).2) ∧
      (∀ pos count : Nat, pos + count < SIZE_MOD →
        Slot (erase m s pos count).1 (erase m s pos count).2.1) ∧
      (∀ it : Int, Slot (erase_it m s it).1 (erase_it m s it).2.1) ∧
      (∀ first last : Int, s._data ≤ first → first ≤ last → last ≤ s._data + s._size →
        s._size < SIZE_MOD →
        Slot (erase_range m s first last).1 (erase_range m s first last).2.1) := by
  obtain ⟨hz, hb⟩ := hS
  refine ⟨?_, ?_, ?_, ?_, ?_, ?_, ?_, ?_, ?_, ?_, ?_, ?_⟩
  · simp [Slot, ctor]
  · intro other ho
    have : (other._size + 1) % SIZE_MOD = other._size + 1 := Nat.mod_eq_of_lt ho
    simp [Slot, ctor_copy, this]
  · intro fuel p r hr hlt
    unfold ctor_cstr at hr
    cases hl : SMem.length fuel m p with
    | none => simp [hl] at hr
    | some len =>
      simp only [hl, Option.some.injEq] at hr
      subst hr
      simp only at hlt
      have hmod : (len + 1) % SIZE_MOD = len + 1 := Nat.mod_eq_of_lt (by omega)
      obtain ⟨e1, _, e3, _⟩ := ensure_capacity_grow m ⟨0, 0, 0⟩ (len + 1) (Nat.succ_pos _)
        (by omega)
      obtain ⟨g1, _, _⟩ := grow_recommend_bounds ⟨0, 0, 0⟩ (len + 1) (by omega)
      simp only [Slot, hmod, SMem.blk_put, SMem.blk_move, e1, e3]
      refine ⟨by omega, ?_⟩
      simp
  · intro ch hlt
    have hmod : (s._size + 1) % SIZE_MOD = s._size + 1 := Nat.mod_eq_of_lt (by omega)
    obtain ⟨a1, a2, _, a4, _⟩ := ensure_capacity_slot m s (s._size + 1) ⟨hz, hb⟩ hd (by omega)
    simp only [Slot, push_back, hmod, SMem.blk_put, a1]
    exact ⟨a2, a4⟩
  · intro fuel p r hr hlen
    unfold append at hr
    by_cases hp : p = 0
    · simp only [hp, if_true, Option.some.injEq] at hr
      subst hr
      exact ⟨hz, hb⟩
    · simp only [hp, if_false] at hr
      cases hl : SMem.length fuel m p with
      | none => simp [hl] at hr
      | some len =>
        have hlt := hlen len hl
        simp only [hl, Option.some.injEq] at hr
        subst hr
        have hmod : (s._size + len) % SIZE_MOD = s._size + len := Nat.mod_eq_of_lt (by omega)
        obtain ⟨a1, a2, _, a4, _⟩ := ensure_capacity_slot m s (s._size + len) ⟨hz, hb⟩ hd
          (by omega)
        simp only [Slot, hmod, SMem.blk_put, SMem.blk_move, a1]
        exact ⟨a2, a4⟩
  · intro n c hlt
    unfold resize_c
    by_cases h1 : n > s._size
    · have hmod : (n + 1) % SIZE_MOD = n + 1 := Nat.mod_eq_of_lt (by omega)
      simp only [h1, if_true, hmod]
      by_cases h2 : n > s._cap
      · obtain ⟨a1, a2, _, a4, _⟩ := ensure_capacity_slot m s (n + 1) ⟨hz, hb⟩ hd (by omega)
        simp only [h2, if_true, Slot, blk_fill]
        exact ⟨by omega, a4⟩
      · simp only [h2, if_false, Slot, blk_fill]
        exact ⟨by omega, hb⟩
    · simp only [h1, if_false]
      by_cases h3 : n < s._size
      · simp only [h3, if_true, Slot]
        exact ⟨by omega, hb⟩
      · simp only [h3, if_false]
        exact ⟨hz, hb⟩
  · unfold pop_back
    by_cases h : s._size = 0
    · simp only [h, if_true]
      exact ⟨by omega, hb⟩
    · simp only [h, if_false, Slot]
      exact ⟨by omega, hb⟩
  · exact ⟨Nat.zero_le _, hb⟩
  · intro other same ho
    have hmod : (other._size + 1) % SIZE_MOD = other._size + 1 := Nat.mod_eq_of_lt ho
    cases same with
    | true => exact ⟨hz, hb⟩
    | false =>
      unfold copy_assign
      by_cases h : s._cap < other._size
      · have hne : ¬ m.brk = s._data := by omega
        simp [Slot, h, hmod, hne]
      · simp only [Bool.false_eq_true, if_false, h, Slot, SMem.blk_put, SMem.blk_move]
        exact ⟨by omega, hb⟩
  · intro pos count hw
    have hmod : (pos + count) % SIZE_MOD = pos + count := Nat.mod_eq_of_lt hw
    unfold erase
    by_cases h1 : pos ≥ s._size
    · simp only [h1, if_true]
      exact ⟨hz, hb⟩
    · simp only [h1, if_false, hmod]
      by_cases h2 : pos + count > s._size
      · simp only [h2, if_true]
        by_cases h3 : s._size - pos = 0
        · simp only [h3, if_true]
          exact ⟨hz, hb⟩
        · simp only [h3, if_false, Slot, SMem.blk_put, SMem.blk_move]
          refine ⟨?_, hb⟩
          rw [size_sub_of_le _ _ (Nat.sub_le _ _)]
          omega
      · simp only [h2, if_false]
        by_cases h3 : count = 0
        · simp only [h3, if_true]
          exact ⟨hz, hb⟩
        · simp only [h3, if_false, Slot, SMem.blk_put, SMem.blk_move]
          refine ⟨?_, hb⟩
          rw [size_sub_of_le _ _ (by omega)]
          omega
  · intro it
    unfold erase_it
    by_cases h : to_size (it - s._data) ≥ s._size
    · simp only [h, if_true]
      exact ⟨hz, hb⟩
    · simp only [h, if_false, Slot, blk_erase_loop]
      exact ⟨by omega, hb⟩
  · intro first last h1 h2 h3 hlt
    have b1 : (to_size (first - s._data) : Int) = first - s._data :=
      vector.to_size_of_bounds _ (by omega) (by omega)
    have b2 : (to_size (last - s._data) : Int) = last - s._data :=
      vector.to_size_of_bounds _ (by omega) (by omega)
    unfold erase_range
    have hle : to_size (first - s._data) ≤ to_size (last - s._data) := by omega
    simp only []
    rw [size_sub_of_le _ _ hle]
    by_cases h : to_size (last - s._data) - to_size (first - s._data) = 0
    · simp only [h, if_true]
      exact ⟨hz, hb⟩
    · simp only [h, if_false, Slot, SMem.blk_put, SMem.blk_move]
      refine ⟨?_, hb⟩
      rw [size_sub_of_le _ _ (by omega)]
      omega

/-- The terminator slot stays accounted for through every `insert` overload
that returns, as long as the new size does not leave the range of `size_t`. -/
theorem slot_kept_insert [DecidableEq C] [Zero C] (m : SMem C) (s : basic_string)
    (hS : Slot m s) (hd : s._data < m.brk) :
    (∀ (fuel pos : Nat) (ch : C) (r : SMem C × basic_string),
        insert_ch fuel m s pos ch = some r → s._size + 2 < SIZE_MOD → Slot r.1 r.2) ∧
      (∀ (pos n : Nat) (ch : C), s._size + n + 1 < SIZE_MOD →
        Slot (insert_n m s pos n ch).1 (insert_n m s pos n ch).2) ∧
      (∀ (fuel pos : Nat) (p : Int) (r : SMem C × basic_string),
        insert_cstr fuel m s pos p = some r →
        (∀ len, SMem.length fuel m p = some len → s._size + len + 1 < SIZE_MOD) →
        Slot r.1 r.2) ∧
      (∀ (fuel pos : Nat) (p : Int) (n : Nat) (r : SMem C × basic_string),
        insert_cstr_n fuel m s pos p n = some r →
        (∀ len, SMem.length fuel m p = some len → s._size + min len n + 1 < SIZE_MOD) →
        Slot r.1 r.2) ∧
      (∀ (pos : Nat) (str : basic_string), s._size + str._size + 1 < SIZE_MOD →
        Slot (insert_str m s pos str).1 (insert_str m s pos str).2) ∧
      (∀ (pos : Nat) (str : basic_string) (subpos sublen : Nat),
        s._size + sublen + 1 < SIZE_MOD →
        Slot (insert_substr m s pos str subpos sublen).1
          (insert_substr m s pos str subpos sublen).2) ∧
      (∀ (pos first last : Int), s._size + to_size (last - first) + 1 < SIZE_MOD →
        Slot (insert_range m s pos first last).1 (insert_range m s pos first last).2) ∧
      (∀ (pos : Int) (n : Nat) (ch : C), s._size + n + 1 < SIZE_MOD →
        Slot (insert_it_n m s pos n ch).1 (insert_it_n m s pos n ch).2) := by
  have key : ∀ k : Nat, s._size + k + 1 < SIZE_MOD →
      (s._size + k) % SIZE_MOD = s._size + k ∧
      (ensure_capacity m s (s._size + k)).2._size = s._size ∧
      s._size + k ≤ (ensure_capacity m s (s._size + k)).2._cap ∧
      (ensure_capacity m s (s._size + k)).1.blk (ensure_capacity m s (s._size + k)).2._data
        = (ensure_capacity m s (s._size + k)).2._cap + 1 := by
    intro k hk
    obtain ⟨a1, a2, _, a4, _⟩ := ensure_capacity_slot m s (s._size + k) hS hd hk
    exact ⟨Nat.mod_eq_of_lt (by omega), a1, a2, a4⟩
  refine ⟨?_, ?_, ?_, ?_, ?_, ?_, ?_, ?_⟩
  · intro fuel pos ch r hr hlt
    obtain ⟨k1, k2, k3, k4⟩ := key 1 (by omega)
    unfold insert_ch at hr
    by_cases hp : pos > s._size
    · simp only [hp, if_true, Option.some.injEq] at hr
      subst hr
      exact hS
    · simp only [hp, if_false, ite_ensure_capacity, k1] at hr
      cases hl : insert_ch_loop (ensure_capacity m s (s._size + 1)).2._data pos fuel
          (ensure_capacity m s (s._size + 1)).1
          (size_sub (ensure_capacity m s (s._size + 1)).2._size 1) with
      | none => simp [hl] at hr
      | some m' =>
        simp only [hl, Option.some.injEq] at hr
        subst hr
        have hbk := blk_insert_ch_loop _ _ _ _ _ _ hl
        simp only [Slot, SMem.blk_put, hbk, k2, k1]
        exact ⟨k3, k4⟩
  · intro pos n ch hlt
    obtain ⟨k1, k2, k3, k4⟩ := key n hlt
    unfold insert_n
    by_cases hp : pos > s._size
    · simp only [hp, if_true]
      exact hS
    · simp only [hp, if_false, k1, Slot, blk_fill, blk_shift_loop, k2]
      exact ⟨k3, k4⟩
  · intro fuel pos p r hr hlen
    unfold insert_cstr at hr
    by_cases hp : pos > s._size
    · simp only [hp, if_true, Option.some.injEq] at hr
      subst hr
      exact hS
    · simp only [hp, if_false] at hr
      cases hl : SMem.length fuel m p with
      | none => simp [hl] at hr
      | some len =>
        obtain ⟨k1, k2, k3, k4⟩ := key len (hlen len hl)
        simp only [hl, ite_ensure_capacity, Option.some.injEq] at hr
        subst hr
        simp only [k1, Slot, SMem.blk_move, blk_shift_loop, k2]
        exact ⟨k3, k4⟩
  · intro fuel pos p n r hr hlen
    unfold insert_cstr_n at hr
    by_cases hp : pos > s._size
    · simp only [hp, if_true, Option.some.injEq] at hr
      subst hr
      exact hS
    · simp only [hp, if_false] at hr
      cases hl : SMem.length fuel m p with
      | none => simp [hl] at hr
      | some len =>
        obtain ⟨k1, k2, k3, k4⟩ := key (min len n) (hlen len hl)
        simp only [hl, ite_ensure_capacity, Option.some.injEq] at hr
        subst hr
        simp only [k1, Slot, SMem.blk_move, blk_shift_loop, k2]
        exact ⟨k3, k4⟩
  · intro pos str hlt
    obtain ⟨k1, k2, k3, k4⟩ := key str._size hlt
    unfold insert_str
    by_cases hp : pos > s._size
    · simp only [hp, if_true]
      exact hS
    · simp only [hp, if_false, ite_ensure_capacity, k1, Slot, SMem.blk_move, blk_shift_loop, k2]
      exact ⟨k3, k4⟩
  · intro pos str subpos sublen hlt
    obtain ⟨k1, k2, k3, k4⟩ := key sublen hlt
    unfold insert_substr
    by_cases hp : pos > s._size
    · simp only [hp, if_true]
      exact hS
    · simp only [hp, if_false, ite_ensure_capacity, k1, Slot, SMem.blk_move, blk_shift_loop, k2]
      exact ⟨k3, k4⟩
  · intro pos first last hlt
    obtain ⟨k1, k2, k3, k4⟩ := key (to_size (last - first)) hlt
    unfold insert_range
    by_cases hn : to_size (last - first) = 0
    · simp only [hn, if_true]
      exact hS
    · simp only [hn, if_false, k1, Slot, blk_copy_in_loop, blk_shift_loop, k2]
      exact ⟨k3, k4⟩
  · intro pos n ch hlt
    obtain ⟨k1, k2, k3, k4⟩ := key n hlt
    unfold insert_it_n
    by_cases hp : to_size (pos - s._data) > s._size
    · simp only [hp, if_true]
      exact hS
    · simp only [hp, if_false, ite_ensure_capacity, k1, Slot, blk_fill, blk_shift_loop, k2]
      exact ⟨k3, k4⟩

end basic_string

/-- C1. Ring consistency: in every world reached from the empty one by a finite
sequence of list constructions, `push_back`, `push_front`, `pop_back`,
`pop_front`, `insert`, `emplace`, `clear`, the three `splice` forms and `merge`
(positions belonging to the stated list, the position of a range splice within
one list outside the range), every list is consistent: each node reached from the
sentinel has `n.next.prev == n` and `n.prev.next == n`, and the walk from the
sentinel, forward and backward, is back at the sentinel after `size()` data
nodes and not earlier.  Moreover every further valid operation returns. -/
theorem ring_consistency (lt : T → T → Bool) (d : T) (ops : List (Op T)) (w : World T)
    (h : run lt (World.init d) ops = some w) :
    (∀ l, l < w.count → RingOK w.st l) ∧
      (∀ op : Op T, op.valid w = true → ∃ w', exec lt w op = some w') := by
  obtain ⟨R, hinv⟩ := run_inv lt ops (World.init d) w (fun _ => []) (init_inv d) h
  constructor
  · intro l hl
    exact ringOK_of_isList w.st l (R l) (hinv.1 l hl)
  · intro op hv
    obtain ⟨w', _, h1, _⟩ := exec_inv lt w R hinv op hv
    exact ⟨w', h1⟩

theorem demoWorld_run :
    run (fun x y => decide (x < y)) (World.init 0) demoOps = some demoWorld := rfl

/-- C1 on a sequence that uses every operation on two lists. -/
theorem ring_consistency_witness :
    run (fun x y => decide (x < y)) (World.init 0) demoOps = some demoWorld ∧
    (demoWorld.count = 2 ∧ size demoWorld.st 0 = 5 ∧ size demoWorld.st 1 = 0 ∧
      elems demoWorld.st [6, 4, 7, 3, 8] = [2, 3, 7, 1, 9]) ∧
    (∀ l, l < demoWorld.count → RingOK demoWorld.st l) ∧
      (∀ op : Op Nat, op.valid demoWorld = true →
        ∃ w', exec (fun x y => decide (x < y)) demoWorld op = some w') :=
  ⟨demoWorld_run, ⟨rfl, rfl, rfl, rfl⟩,
    ring_consistency (fun x y => decide (x < y)) 0 demoOps demoWorld demoWorld_run⟩

/-! ## The claims on the linked sequence -/

/-- C4. Whole-list splice: for two different lists `a` (data nodes `na`) and `b`
(data nodes `nb`) and a position `p ≤ size(a)`, after `a.splice(pos, b)` the
list `a` is linked through `na[0..p) ++ nb ++ na[p..)`, its elements are
`A[0..p) ++ B ++ A[p..)`, its size has grown by the old size of `b`, and `b` is
an empty ring of size 0; when `b` is empty the state is unchanged. -/
theorem splice_whole_list (st : State T) (a b p : Nat) (na nb : List Nat)
    (hab : a ≠ b) (ha : IsList st a na) (hb : IsList st b nb)
    (hdis : ∀ x ∈ st.sentinel a :: na, x ∉ st.sentinel b :: nb) (hp : p ≤ na.length) :
    IsList (splice st a (nodeAt (st.sentinel a) na p) b) a (na.take p ++ nb ++ na.drop p) ∧
    elems (splice st a (nodeAt (st.sentinel a) na p) b) (na.take p ++ nb ++ na.drop p) =
      (elems st na).take p ++ elems st nb ++ (elems st na).drop p ∧
    size (splice st a (nodeAt (st.sentinel a) na p) b) a = size st a + size st b ∧
    IsList (splice st a (nodeAt (st.sentinel a) na p) b) b [] ∧
    size (splice st a (nodeAt (st.sentinel a) na p) b) b = 0 ∧
    (nb = [] → splice st a (nodeAt (st.sentinel a) na p) b = st) := by
  cases nb with
  | nil =>
    have h0 : st.msize b = 0 := hb.2.2.2
    rw [splice_noop st a b _ (Or.inl h0)]
    refine ⟨by simpa using ha, by simp [elems, ← List.map_append], ?_, hb, ?_, fun _ => rfl⟩
    · simp [size, h0]
    · simp [size, h0]
  | cons r rs =>
    have ht := splice_transfer st a b (nodeAt (st.sentinel a) na p) r rs hab hb
    have ha' : IsList st a (na.take p ++ na.drop p) := by simpa using ha
    obtain ⟨h1, h2⟩ := transfer_distinct st _ a b _ r (na.take p) (na.drop p) [] rs [] hab ha'
      (by simpa using hb) (by simpa using hdis) (nodeAt_drop _ na p hp) ht
    obtain ⟨_, _, td, _, tz, _⟩ := ht
    refine ⟨by simpa using h1, ?_, ?_, by simpa using h2, ?_, fun h => by simp at h⟩
    · rw [elems_congr st _ _ td]
      simp [elems, List.map_take, List.map_drop]
    · simp only [size, tz, if_true, if_neg hab, hb.2.2.2, List.length_cons]
    · simp only [size, tz, if_neg (Ne.symm hab), if_true, hb.2.2.2, List.length_cons,
        size_sub_of_le _ _ (le_refl _), Nat.sub_self]

/-- C4 at `A = {1, 2, 3}`, `B = {4, 5}`, `A.splice(A.end(), B)`: `A` becomes
`{1, 2, 3, 4, 5}` with size 5 and `B` is empty. -/
theorem splice_whole_list_witness :
    (IsList demoSplice 0 [2, 3, 4] ∧ IsList demoSplice 1 [6, 7] ∧
      elems demoSplice [2, 3, 4] = [1, 2, 3] ∧ elems demoSplice [6, 7] = [4, 5] ∧
      elems (splice demoSplice 0 (list_end demoSplice 0) 1) [2, 3, 4, 6, 7] = [1, 2, 3, 4, 5] ∧
      size (splice demoSplice 0 (list_end demoSplice 0) 1) 0 = 5) ∧
    (IsList (splice demoSplice 0 (nodeAt (demoSplice.sentinel 0) [2, 3, 4] 3) 1) 0
        (List.take 3 [2, 3, 4] ++ [6, 7] ++ List.drop 3 [2, 3, 4]) ∧
      elems (splice demoSplice 0 (nodeAt (demoSplice.sentinel 0) [2, 3, 4] 3) 1)
        (List.take 3 [2, 3, 4] ++ [6, 7] ++ List.drop 3 [2, 3, 4]) =
        (elems demoSplice [2, 3, 4]).take 3 ++ elems demoSplice [6, 7] ++
          (elems demoSplice [2, 3, 4]).drop 3 ∧
      size (splice demoSplice 0 (nodeAt (demoSplice.sentinel 0) [2, 3, 4] 3) 1) 0 =
        size demoSplice 0 + size demoSplice 1 ∧
      IsList (splice demoSplice 0 (nodeAt (demoSplice.sentinel 0) [2, 3, 4] 3) 1) 1 [] ∧
      size (splice demoSplice 0 (nodeAt (demoSplice.sentinel 0) [2, 3, 4] 3) 1) 1 = 0 ∧
      (([6, 7] : List Nat) = [] →
        splice demoSplice 0 (nodeAt (demoSplice.sentinel 0) [2, 3, 4] 3) 1 = demoSplice)) :=
  ⟨by decide,
    splice_whole_list demoSplice 0 1 3 [2, 3, 4] [6, 7] (by decide) (by decide) (by decide)
      (by decide) (by decide)⟩

/-- C5. Range splice: for two different lists `a` and `b`, a position
`p ≤ size(a)` and a range `[i, j)` of `b` with `i ≤ j ≤ size(b)`, the call
`a.splice(pos, b, first, last)` returns (the counting loop needs `j - i` steps),
`a` is linked through `na[0..p) ++ nb[i..j) ++ na[p..)` and holds the
corresponding elements, `b` is linked through `nb[0..i) ++ nb[j..)`, the sizes
change by `j - i`, and an empty range leaves the state unchanged. -/
theorem splice_range_list (fuel : Nat) (st : State T) (a b p i j : Nat) (na nb : List Nat)
    (hab : a ≠ b) (ha : IsList st a na) (hb : IsList st b nb)
    (hdis : ∀ x ∈ st.sentinel a :: na, x ∉ st.sentinel b :: nb) (hp : p ≤ na.length)
    (hij : i ≤ j) (hj : j ≤ nb.length) (hf : j - i < fuel) :
    ∃ st', splice_range fuel st a (nodeAt (st.sentinel a) na p) b
        (nodeAt (st.sentinel b) nb i) (nodeAt (st.sentinel b) nb j) = some st' ∧
      IsList st' a (na.take p ++ (nb.drop i).take (j - i) ++ na.drop p) ∧
      elems st' (na.take p ++ (nb.drop i).take (j - i) ++ na.drop p) =
        (elems st na).take p ++ ((elems st nb).drop i).take (j - i) ++ (elems st na).drop p ∧
      IsList st' b (nb.take i ++ nb.drop j) ∧
      elems st' (nb.take i ++ nb.drop j) = (elems st nb).take i ++ (elems st nb).drop j ∧
      size st' a = size st a + (j - i) ∧ size st' b = size st b - (j - i) ∧
      (i = j → st' = st) := by
  have hsplit := split_range nb i j hij
  have hi : i ≤ nb.length := le_trans hij hj
  rcases Nat.eq_or_lt_of_le hij with e | hlt
  · subst e
    refine ⟨st, splice_range_empty fuel st a b _ _, ?_, ?_, ?_, ?_, ?_, ?_, fun _ => rfl⟩
    · simpa using ha
    · simp [elems, ← List.map_append]
    · simpa using hb
    · simp [elems, ← List.map_append]
    · simp
    · simp
  · have hlen : ((nb.drop i).take (j - i)).length = j - i := by
      simp [List.length_take, List.length_drop]; omega
    obtain ⟨r, rs, hR⟩ : ∃ r rs, (nb.drop i).take (j - i) = r :: rs := by
      cases h : (nb.drop i).take (j - i) with
      | nil => rw [h] at hlen; simp at hlen; omega
      | cons r rs => exact ⟨r, rs, rfl⟩
    have hrs : rs.length + 1 = j - i := by rw [← hlen, hR]; simp
    rw [hR] at hsplit ⊢
    have hfirst : nodeAt (st.sentinel b) nb i = r := by
      rw [nodeAt_drop _ nb i hi]
      have : nb.drop i = r :: rs ++ nb.drop j := by
        have h1 := congrArg (List.drop i) hsplit
        rw [List.append_assoc, List.drop_left' (by simp [List.length_take]; omega)] at h1
        exact h1
      rw [this]; rfl
    have hlast : nodeAt (st.sentinel b) nb j = nodeAt (st.sentinel b) (nb.drop j) 0 :=
      nodeAt_drop _ nb j hj
    have hb' : IsList st b (nb.take i ++ r :: rs ++ nb.drop j) := by rw [← hsplit]; exact hb
    have ha' : IsList st a (na.take p ++ na.drop p) := by simpa using ha
    have hdis' : ∀ x ∈ st.sentinel a :: (na.take p ++ na.drop p),
        x ∉ st.sentinel b :: (nb.take i ++ r :: rs ++ nb.drop j) := by
      rw [← hsplit]; simpa using hdis
    have hposm : nodeAt (st.sentinel a) na p ∈ st.sentinel a :: na := by
      rw [nodeAt_drop _ na p hp]
      have := nodeAt_zero_mem (st.sentinel a) (na.take p) (na.drop p)
      simpa using this
    have hlastm : nodeAt (st.sentinel b) (nb.drop j) 0 ∈ st.sentinel b :: nb := by
      have := nodeAt_zero_mem (st.sentinel b) (nb.take j) (nb.drop j)
      simpa using this
    have hpne : nodeAt (st.sentinel a) na p ≠ nodeAt (st.sentinel b) (nb.drop j) 0 :=
      ne_of_zones hdis hposm hlastm
    obtain ⟨st', h1, ht⟩ := splice_range_transfer fuel st a b (nodeAt (st.sentinel a) na p) r
      (nb.take i) rs (nb.drop j) hb' hpne (by omega)
    obtain ⟨h2, h3⟩ := transfer_distinct st st' a b _ r (na.take p) (na.drop p) (nb.take i) rs
      (nb.drop j) hab ha' hb' hdis' (nodeAt_drop _ na p hp) ht
    obtain ⟨_, _, td, _, tz, _⟩ := ht
    have hd : elems st (r :: rs) = ((elems st nb).drop i).take (j - i) := by
      rw [← hR]; simp [elems, List.map_take, List.map_drop]
    refine ⟨st', by rw [hfirst, hlast]; exact h1, h2, ?_, h3, ?_, ?_, ?_, fun e => by omega⟩
    · rw [elems_congr st _ _ td, elems_append, elems_append, hd, elems_take, elems_drop]
    · rw [elems_congr st _ _ td, elems_append, elems_take, elems_drop]
    · simp only [size, tz, if_true, if_neg hab, hrs]
    · simp only [size, tz, if_neg (Ne.symm hab), if_true, hrs]
      rw [size_sub_of_le]
      rw [hb.2.2.2]; omega

/-- C5 at `A = {1, 2, 3}`, `B = {4, 5}`: moving the range `[0, 1)` of `B` before
index 1 of `A` gives `A = {1, 4, 2, 3}` and `B = {5}`. -/
theorem splice_range_list_witness :
    (IsList demoSplice 0 [2, 3, 4] ∧ IsList demoSplice 1 [6, 7] ∧
      (splice_range 2 demoSplice 0 3 1 6 7).map (fun s => (elems s [2, 6, 3, 4], elems s [7],
        size s 0, size s 1)) = some ([1, 4, 2, 3], [5], 4, 1)) ∧
    ∃ st', splice_range 2 demoSplice 0 (nodeAt (demoSplice.sentinel 0) [2, 3, 4] 1) 1
        (nodeAt (demoSplice.sentinel 1) [6, 7] 0) (nodeAt (demoSplice.sentinel 1) [6, 7] 1) =
          some st' ∧
      IsList st' 0 (List.take 1 [2, 3, 4] ++ (List.drop 0 [6, 7]).take (1 - 0) ++
        List.drop 1 [2, 3, 4]) ∧
      elems st' (List.take 1 [2, 3, 4] ++ (List.drop 0 [6, 7]).take (1 - 0) ++
          List.drop 1 [2, 3, 4]) =
        (elems demoSplice [2, 3, 4]).take 1 ++ ((elems demoSplice [6, 7]).drop 0).take (1 - 0) ++
          (elems demoSplice [2, 3, 4]).drop 1 ∧
      IsList st' 1 (List.take 0 [6, 7] ++ List.drop 1 [6, 7]) ∧
      elems st' (List.take 0 [6, 7] ++ List.drop 1 [6, 7]) =
        (elems demoSplice [6, 7]).take 0 ++ (elems demoSplice [6, 7]).drop 1 ∧
      size st' 0 = size demoSplice 0 + (1 - 0) ∧ size st' 1 = size demoSplice 1 - (1 - 0) ∧
      (0 = 1 → st' = demoSplice) :=
  ⟨by decide,
    splice_range_list 2 demoSplice 0 1 1 0 1 [2, 3, 4] [6, 7] (by decide) (by decide)
      (by decide) (by decide) (by decide) (by decide) (by decide) (by decide)⟩

/-- C6. Single-node splice `a.splice(pos, b, it)` with `pos` at index
`p ≤ size(a)` and `it` the data node at index `k` of `b`.  Between two
different lists the node leaves `b` (whose size drops by 1) and stands
immediately before `pos` in `a` (whose size grows by 1).  Within one list the
node is taken out and put back immediately before the node that stood at index
`p`, the size is unchanged, and for `pos` the node itself or its successor the
state is unchanged.  No payload is written. -/
theorem splice_single_node (st : State T) (a b p k : Nat) (na nb : List Nat)
    (ha : IsList st a na) (hb : IsList st b nb)
    (hdis : a ≠ b → ∀ x ∈ st.sentinel a :: na, x ∉ st.sentinel b :: nb)
    (hsame : a = b → na = nb) (hp : p ≤ na.length) (hk : k < nb.length) :
    (∀ x, (splice_one st a (nodeAt (st.sentinel a) na p) b
      (nodeAt (st.sentinel b) nb k)).data x = st.data x) ∧
    (a ≠ b →
      IsList (splice_one st a (nodeAt (st.sentinel a) na p) b (nodeAt (st.sentinel b) nb k)) a
        (na.take p ++ nodeAt (st.sentinel b) nb k :: na.drop p) ∧
      IsList (splice_one st a (nodeAt (st.sentinel a) na p) b (nodeAt (st.sentinel b) nb k)) b
        (nb.eraseIdx k) ∧
      size (splice_one st a (nodeAt (st.sentinel a) na p) b (nodeAt (st.sentinel b) nb k)) a =
        size st a + 1 ∧
      size (splice_one st a (nodeAt (st.sentinel a) na p) b (nodeAt (st.sentinel b) nb k)) b =
        size st b - 1) ∧
    (a = b →
      IsList (splice_one st a (nodeAt (st.sentinel a) na p) b (nodeAt (st.sentinel b) nb k)) a
        ((na.take p).erase (nodeAt (st.sentinel b) nb k) ++
          nodeAt (st.sentinel b) nb k :: (na.drop p).erase (nodeAt (st.sentinel b) nb k)) ∧
      size (splice_one st a (nodeAt (st.sentinel a) na p) b (nodeAt (st.sentinel b) nb k)) a =
        size st a ∧
      (p = k ∨ p = k + 1 →
        splice_one st a (nodeAt (st.sentinel a) na p) b (nodeAt (st.sentinel b) nb k) = st)) := by
  refine ⟨?_, ?_, ?_⟩
  · by_cases hab : a = b
    · subst hab
      have := hsame rfl
      subst this
      exact (splice_one_same st a p k na ha hp hk).2.1.2.1
    · exact (splice_one_distinct st a b p k na nb hab ha hb (hdis hab) hp hk).2.2.1.2.1
  · intro hab
    obtain ⟨h1, h2, _, h4, h5⟩ := splice_one_distinct st a b p k na nb hab ha hb (hdis hab) hp hk
    exact ⟨h1, h2, h4, h5⟩
  · intro hab
    subst hab
    have := hsame rfl
    subst this
    obtain ⟨h1, _, h3⟩ := splice_one_same st a p k na ha hp hk
    refine ⟨h1, ?_, h3⟩
    have e1 := h1.2.2.2
    simp only [size]
    rw [e1, length_move na _ p (List.nodup_cons.1 ha.2.1).2 (nodeAt_mem _ na k hk), ha.2.2.2]

/-- C6 at `A = {1, 2, 3}`, `B = {4, 5}`: `A.splice(pos at index 1, B, node at
index 0)` gives `A = {1, 4, 2, 3}`, `B = {5}`. -/
theorem splice_single_node_witness :
    (IsList demoSplice 0 [2, 3, 4] ∧ IsList demoSplice 1 [6, 7]) ∧
    IsList (splice_one demoSplice 0 3 1 6) 0 [2, 6, 3, 4] ∧
    IsList (splice_one demoSplice 0 3 1 6) 1 [7] ∧
    elems (splice_one demoSplice 0 3 1 6) [2, 6, 3, 4] = [1, 4, 2, 3] ∧
    size (splice_one demoSplice 0 3 1 6) 0 = size demoSplice 0 + 1 ∧
    size (splice_one demoSplice 0 3 1 6) 1 = size demoSplice 1 - 1 :=
  have h := (splice_single_node demoSplice 0 1 1 0 [2, 3, 4] [6, 7] (by decide) (by decide)
    (by decide) (by decide) (by decide) (by decide)).2.1 (by decide)
  ⟨by decide, h.1, h.2.1, by decide, h.2.2.1, h.2.2.2⟩

/-- C2. For two different lists `dst` and `src`, each ascending by `lt`
(`operator<`, a strict weak order), `dst.merge(src)` returns (the loop needs at
most `size(dst) + size(src)` passes), the destination is ascending, its
elements are a permutation of those of both lists, its size is the sum of the
two sizes, and the source is an empty ring of size 0. -/
theorem merge_sorted_lists (lt : T → T → Bool)
    (hasym : ∀ x y, lt x y = true → lt y x = false)
    (htrans : ∀ x y z, lt y x = false → lt z y = false → lt z x = false)
    (fuel : Nat) (st : State T) (dst src : Nat) (nd ns : List Nat) (hne : dst ≠ src)
    (hd : IsList st dst nd) (hs : IsList st src ns)
    (hdis : ∀ x ∈ st.sentinel dst :: nd, x ∉ st.sentinel src :: ns)
    (hsd : (elems st nd).Pairwise (fun x y => lt y x = false))
    (hss : (elems st ns).Pairwise (fun x y => lt y x = false))
    (hf : nd.length + ns.length < fuel) :
    ∃ st', merge lt fuel st dst src = some st' ∧
      IsList st' dst (mergeNodes lt st.data nd ns) ∧
      (elems st' (mergeNodes lt st.data nd ns)).Pairwise (fun x y => lt y x = false) ∧
      (elems st' (mergeNodes lt st.data nd ns)).Perm (elems st nd ++ elems st ns) ∧
      size st' dst = size st dst + size st src ∧
      IsList st' src [] ∧ size st' src = 0 := by
  obtain ⟨st', h1, h2, h3, _, h5, _, _, _⟩ := merge_spec lt fuel st dst src nd ns hne hd hs hdis hf
  refine ⟨st', h1, h2, ?_, ?_, ?_, h3, h3.2.2.2⟩
  · rw [elems_congr st st' _ h5]
    simp only [elems, List.pairwise_map] at hsd hss ⊢
    exact mergeNodes_sorted lt st.data hasym htrans nd ns hsd hss
  · rw [elems_congr st st' _ h5, ← elems_append]
    exact (mergeNodes_perm lt st.data nd ns).map _
  · simp only [size]
    rw [h2.2.2.2, (mergeNodes_perm lt st.data nd ns).length_eq, List.length_append,
      hd.2.2.2, hs.2.2.2]

/-- C2 at `dst = {2, 4, 6}`, `src = {1, 3, 5}`: the merge gives
`{1, 2, 3, 4, 5, 6}` of size 6 and leaves the source empty. -/
theorem merge_sorted_lists_witness :
    (IsList demoMerge 0 [2, 3, 4] ∧ IsList demoMerge 1 [6, 7, 8] ∧
      elems demoMerge [2, 3, 4] = [2, 4, 6] ∧ elems demoMerge [6, 7, 8] = [1, 3, 5] ∧
      (merge (fun x y => decide (x < y)) 7 demoMerge 0 1).map
        (fun s => (elems s [6, 2, 7, 3, 8, 4], size s 0, size s 1, s.next (s.sentinel 1),
          s.prev (s.sentinel 1) == s.sentinel 1)) =
        some ([1, 2, 3, 4, 5, 6], 6, 0, 5, true)) ∧
    ∃ st', merge (fun x y => decide (x < y)) 7 demoMerge 0 1 = some st' ∧
      IsList st' 0 (mergeNodes (fun x y => decide (x < y)) demoMerge.data [2, 3, 4] [6, 7, 8]) ∧
      (elems st' (mergeNodes (fun x y => decide (x < y)) demoMerge.data [2, 3, 4]
        [6, 7, 8])).Pairwise (fun x y => decide (y < x) = false) ∧
      (elems st' (mergeNodes (fun x y => decide (x < y)) demoMerge.data [2, 3, 4]
        [6, 7, 8])).Perm (elems demoMerge [2, 3, 4] ++ elems demoMerge [6, 7, 8]) ∧
      size st' 0 = size demoMerge 0 + size demoMerge 1 ∧
      IsList st' 1 [] ∧ size st' 1 = 0 :=
  ⟨by decide,
    merge_sorted_lists (fun x y => decide (x < y))
      (by intro x y h; simp at h ⊢; omega) (by intro x y z h1 h2; simp at h1 h2 ⊢; omega)
      7 demoMerge 0 1 [2, 3, 4] [6, 7, 8] (by decide) (by decide) (by decide) (by decide)
      (by decide) (by decide) (by decide)⟩

/-- C3. `merge` is stable: for two different lists with the destination
ascending by `lt` (`operator<`, with
incomparability transitive), in the merged ring the nodes of the destination keep their
relative order, the nodes of the source keep theirs, no payload is written, a
source node stands before a destination node only when its payload is less,
and a destination node equivalent to a source node stands before it. -/
theorem merge_stable (lt : T → T → Bool)
    (htrans : ∀ x y z, lt y x = false → lt z y = false → lt z x = false)
    (fuel : Nat) (st : State T) (dst src : Nat) (nd ns : List Nat) (hne : dst ≠ src)
    (hd : IsList st dst nd) (hs : IsList st src ns)
    (hdis : ∀ x ∈ st.sentinel dst :: nd, x ∉ st.sentinel src :: ns)
    (hsd : (elems st nd).Pairwise (fun x y => lt y x = false))
    (hf : nd.length + ns.length < fuel) :
    ∃ st', merge lt fuel st dst src = some st' ∧
      IsList st' dst (mergeNodes lt st.data nd ns) ∧ (∀ x, st'.data x = st.data x) ∧
      nd.Sublist (mergeNodes lt st.data nd ns) ∧ ns.Sublist (mergeNodes lt st.data nd ns) ∧
      (mergeNodes lt st.data nd ns).Pairwise
        (fun x y => x ∈ ns → y ∈ nd → lt (st.data x) (st.data y) = true) ∧
      (∀ d ∈ nd, ∀ s ∈ ns, lt (st.data d) (st.data s) = false →
        lt (st.data s) (st.data d) = false → [d, s].Sublist (mergeNodes lt st.data nd ns)) := by
  obtain ⟨st', h1, h2, _, _, h5, _, _, _⟩ := merge_spec lt fuel st dst src nd ns hne hd hs hdis hf
  have hdis' : ∀ x ∈ nd, x ∉ ns := fun x hx hy =>
    hdis x (List.mem_cons_of_mem _ hx) (List.mem_cons_of_mem _ hy)
  have hsd' : nd.Pairwise (fun x y => lt (st.data y) (st.data x) = false) := by
    simpa only [elems, List.pairwise_map] using hsd
  have hcross := mergeNodes_cross lt st.data htrans nd ns hsd' hdis'
  refine ⟨st', h1, h2, h5, mergeNodes_sublist_left lt st.data nd ns,
    mergeNodes_sublist_right lt st.data nd ns, hcross, ?_⟩
  intro d hdm s hsm _ h2'
  have hmem := (mergeNodes_perm lt st.data nd ns).symm.subset
  have hne' : d ≠ s := fun e => hdis' d hdm (e ▸ hsm)
  rcases pair_sublist _ d s (hmem (List.mem_append_left _ hdm))
    (hmem (List.mem_append_right _ hsm)) hne' with h | h
  · exact h
  · have := (hcross.sublist h)
    rw [List.pairwise_pair] at this
    have := this hsm hdm
    rw [h2'] at this
    exact absurd this (by simp)

/-- C3 at `dst = {2, 4, 6}`, `src = {1, 3, 5}`. -/
theorem merge_stable_witness :
    (IsList demoMerge 0 [2, 3, 4] ∧ IsList demoMerge 1 [6, 7, 8]) ∧
    ∃ st', merge (fun x y => decide (x < y)) 7 demoMerge 0 1 = some st' ∧
      IsList st' 0 (mergeNodes (fun x y => decide (x < y)) demoMerge.data [2, 3, 4] [6, 7, 8]) ∧
      (∀ x, st'.data x = demoMerge.data x) ∧
      [2, 3, 4].Sublist (mergeNodes (fun x y => decide (x < y)) demoMerge.data [2, 3, 4]
        [6, 7, 8]) ∧
      [6, 7, 8].Sublist (mergeNodes (fun x y => decide (x < y)) demoMerge.data [2, 3, 4]
        [6, 7, 8]) ∧
      (mergeNodes (fun x y => decide (x < y)) demoMerge.data [2, 3, 4] [6, 7, 8]).Pairwise
        (fun x y => x ∈ [6, 7, 8] → y ∈ [2, 3, 4] →
          decide (demoMerge.data x < demoMerge.data y) = true) ∧
      (∀ d ∈ [2, 3, 4], ∀ s ∈ [6, 7, 8], decide (demoMerge.data d < demoMerge.data s) = false →
        decide (demoMerge.data s < demoMerge.data d) = false →
        [d, s].Sublist (mergeNodes (fun x y => decide (x < y)) demoMerge.data [2, 3, 4]
          [6, 7, 8])) :=
  ⟨by decide,
    merge_stable (fun x y => decide (x < y))
      (by intro x y z h1 h2; simp at h1 h2 ⊢; omega)
      7 demoMerge 0 1 [2, 3, 4] [6, 7, 8] (by decide) (by decide) (by decide) (by decide)
      (by decide) (by decide)⟩

/-! ## The claims on the contiguous sequence -/

/-- C7 (evaluation at the failing input). On an empty vector one copying
`push_back(const T&)` returns with `size() == 0`, and a second one still with
`size() == 0`, the second element overwriting the first in the slot at `_end`;
the moving `push_back(T&&)` gives `size() == 1` on the same input. -/
theorem vector_push_back_const_size :
    (vector.push_back_const 4 (VMem.init : VMem Nat) vector.null 1).map
        (fun r => (r.2.size, r.2.capacity)) = some (0, 1) ∧
    ((vector.push_back_const 4 (VMem.init : VMem Nat) vector.null 1).bind
        (fun r => vector.push_back_const 4 r.1 r.2 2)).map
        (fun r => (r.2.size, r.1.cell r.2._end)) = some (0, some 2) ∧
    (vector.push_back 4 (VMem.init : VMem Nat) vector.null 1).map
        (fun r => (r.2.size, r.2.capacity)) = some (1, 1) := by
  decide

/-- A reference to an object that is not an element of the vector reads the
same after the growth step and the shift of `insert(pos, count, value)`. -/
theorem read_after_shift (m : VMem T) (v : vector) (xs : List T) (idx k : Nat)
    (value : Arg T) (x : T) (m1 : VMem T) (v1 : vector) (h1 : vector.Holds m1 v1 xs)
    (hidx : idx ≤ xs.length) (hroom : v1._end + k ≤ v1._cap) (hfr : vector.Frame m v m1 v1)
    (hr : value.read m = some x) (ho : value.Outside m v) :
    value.read (vector.move_backward m1 (v1._start + idx) v1._end (v1._end + k)) = some x := by
  cases value with
  | obj y => simpa only [Arg.read] using hr
  | slot p =>
    simp only [Arg.read] at hr ⊢
    simp only [Arg.Outside] at ho
    obtain ⟨q1, q2⟩ := hfr p ho.1 ho.2
    obtain ⟨a1, a2, _, _, a5, _⟩ := h1
    rw [(vector.open_gap m1 v1 xs idx k ⟨a1, a2, ‹_›, ‹_›, a5, ‹_›⟩ hidx).1, if_neg (by omega),
      q1, hr]

/-- The construction loop with a reference that designates the object `x` and
no slot the loop writes constructs `x` in every pass. -/
theorem construct_loop_outside (n : Nat) :
    ∀ (m : VMem T) (p : Int) (value : Arg T) (x : T), value.read m = some x →
      (∀ q, value = .slot q → q < p ∨ p + n ≤ q) →
      vector.construct_loop n m p value = vector.construct_loop n m p (.obj x) := by
  induction n with
  | zero => intro m p value x _ _; rfl
  | succ n ih =>
    intro m p value x hr hq
    rw [vector.construct_loop, vector.construct_loop, hr]
    simp only [Arg.read]
    refine ih _ _ value x ?_ ?_
    · cases value with
      | obj y => simpa only [Arg.read] using hr
      | slot q =>
        simp only [Arg.read, vector.cell_write] at hr ⊢
        have := hq q rfl
        rw [if_neg (by push_cast at this; omega)]
        exact hr
    · intro q e
      have := hq q e
      push_cast at this
      omega

/-- Single-element insert with an argument that is not an element of the
vector: for a vector holding `xs`, an index `idx ≤ size` and a reference `value`
to an object `x` outside the block of the vector, both `insert(begin + idx,
value)` overloads return (the reallocation loop, when there is one, needs `size`
passes), the vector then holds `xs[0..idx) ++ [x] ++ xs[idx..)`, its size has
grown by exactly 1, and the iterator returned is at index `idx` of the new
storage.  Twice the capacity is representable in `size_type`; elements are
values for which the assignments of the shift store the value assigned. -/
theorem insert_outside_argument (fuel : Nat) (m : VMem T) (v : vector) (xs : List T)
    (idx : Nat) (value : Arg T) (x : T) (h : vector.Holds m v xs) (hidx : idx ≤ xs.length)
    (h2 : 2 * v.capacity < SIZE_MOD) (hf : xs.length < fuel)
    (hr : value.read m = some x) (ho : value.Outside m v) :
    ∃ (m' : VMem T) (v' : vector),
      vector.insert fuel m v (v._start + idx) value = some (m', v', v'._start + idx) ∧
      vector.insert_move fuel m v (v._start + idx) value = some (m', v', v'._start + idx) ∧
      vector.Holds m' v' (xs.take idx ++ x :: xs.drop idx) ∧
      v'.size = v.size + 1 := by
  obtain ⟨m', v', e1, e2, e3⟩ := vector.insert_spec fuel m v xs idx x h hidx h2 hf
  obtain ⟨m1, v1, g1, g2, g3, g4, _⟩ := vector.grow_full fuel m v xs h h2 hf
  have hread := read_after_shift m v xs idx 1 value x m1 v1 g2 hidx
    (by simp only [Nat.cast_one]; omega) g4 hr ho
  simp only [Nat.cast_one] at hread
  have hi : idx < SIZE_MOD := by
    have hcap := vector.holds_capacity h
    obtain ⟨a1, a2, a3, a4, a5, a6⟩ := h
    have : (idx : Int) < SIZE_MOD := by omega
    exact_mod_cast this
  have q1 : vector.insert fuel m v (v._start + idx) value
      = vector.insert fuel m v (v._start + idx) (.obj x) := by
    unfold vector.insert
    rw [vector.to_size_pos v idx hi]
    simp only [g1, hread]
    rfl
  have q2 : vector.insert_move fuel m v (v._start + idx) value
      = vector.insert_move fuel m v (v._start + idx) (.obj x) := by
    unfold vector.insert_move
    rw [vector.to_size_pos v idx hi]
    simp only [g1, hread]
    rfl
  have e3' : vector.Holds m' v' (xs.take idx ++ x :: xs.drop idx) := by
    simpa only [List.append_assoc, List.singleton_append] using e3
  refine ⟨m', v', q1.trans e1, q2.trans e2, e3', ?_⟩
  rw [vector.holds_size h, vector.holds_size e3']
  simp only [List.length_append, List.length_take, List.length_cons, List.length_drop]
  omega

/-- Multi-element insert with sources that are not elements of the vector:
for a vector holding `xs`, an index `idx ≤ size` and `k` new elements with
`size + k` representable, `insert(begin + idx, k, value)` with a reference to
an object `x` outside the block of the vector returns and leaves
`xs[0..idx) ++ [x; k] ++ xs[idx..)`; and for a range `[first, first + |ys|)`
of slots holding `ys` outside the block of the vector,
`insert(begin + idx, first, last)` and the `initializer_list` form return and
leave `xs[0..idx) ++ ys ++ xs[idx..)`.  In each case the size has grown by
exactly the number of new elements, the capacity is at least the new size, the
iterator returned is at index `idx`, and with no new element the store and the
vector are unchanged. -/
theorem insert_multi_outside (fuel : Nat) (m : VMem T) (v : vector) (xs : List T)
    (idx k : Nat) (value : Arg T) (x : T) (first : Int) (ys : List T)
    (h : vector.Holds m v xs) (hidx : idx ≤ xs.length)
    (hk : xs.length + k < SIZE_MOD) (hys : xs.length + ys.length < SIZE_MOD)
    (hf : xs.length < fuel) (hr : value.read m = some x) (ho : value.Outside m v)
    (hsrc : ∀ i : Nat, i < ys.length → m.cell (first + i) = ys.get? i)
    (hdis : first + ys.length ≤ v._start ∨ (v._cap ≤ first ∧ first + ys.length ≤ m.brk)) :
    (∃ (m' : VMem T) (v' : vector),
      vector.insert_n fuel m v (v._start + idx) k value = some (m', v', v'._start + idx) ∧
      vector.Holds m' v' (xs.take idx ++ List.replicate k x ++ xs.drop idx) ∧
      v'.size = v.size + k ∧ v'.size ≤ v'.capacity ∧ (k = 0 → m' = m ∧ v' = v)) ∧
    (∃ (m' : VMem T) (v' : vector),
      vector.insert_range fuel m v (v._start + idx) first (first + ys.length)
        = some (m', v', v'._start + idx) ∧
      vector.insert_ilist fuel m v (v._start + idx) first (first + ys.length)
        = some (m', v', v'._start + idx) ∧
      vector.Holds m' v' (xs.take idx ++ ys ++ xs.drop idx) ∧
      v'.size = v.size + ys.length ∧ v'.size ≤ v'.capacity ∧
      (ys = [] → m' = m ∧ v' = v)) := by
  constructor
  · obtain ⟨m', v', e1, e2, e3⟩ := vector.insert_n_spec fuel m v xs idx k x h hidx hk hf
    obtain ⟨m1, v1, g1, g2, g3, g4, _⟩ := vector.grow_by_full fuel m v xs k h hk hf
    have hread := read_after_shift m v xs idx k value x m1 v1 g2 hidx g3 g4 hr ho
    have hi : idx < SIZE_MOD := by omega
    have hq : ∀ q, value = .slot q → q < v1._start + idx ∨ v1._start + idx + k ≤ q := by
      intro q e
      subst e
      simp only [Arg.Outside] at ho
      obtain ⟨_, q2⟩ := g4 q ho.1 ho.2
      obtain ⟨a1, a2, a3, a4, a5, a6⟩ := g2
      omega
    have q1 : vector.insert_n fuel m v (v._start + idx) k value
        = vector.insert_n fuel m v (v._start + idx) k (.obj x) := by
      unfold vector.insert_n
      rw [vector.to_size_pos v idx hi]
      simp only [g1]
      rw [construct_loop_outside k _ _ value x hread hq]
    refine ⟨m', v', q1.trans e1, e2, ?_, vector.holds_size_le e2, e3⟩
    rw [vector.holds_size h, vector.holds_size e2]
    simp only [List.length_append, List.length_take, List.length_replicate, List.length_drop]
    omega
  · obtain ⟨m', v', e1, e2, e3, e4⟩ :=
      vector.insert_range_spec fuel m v xs idx first ys h hidx hys hf hsrc hdis
    refine ⟨m', v', e1, e2, e3, ?_, vector.holds_size_le e3, e4⟩
    rw [vector.holds_size h, vector.holds_size e3]
    simp only [List.length_append, List.length_take, List.length_drop]
    omega

/-- C8: on the vector `{1, 2, 3}` built by three `push_back` calls (capacity 4,
the slot at `_end` raw), `insert(begin() + 1, 4)` gives `{1, 4, 2, 3}` of size
4 with either overload, as in the scenario.  But `insert(begin(), v[1])`, where
`{2, 1, 2, 3}` is due, gives `{1, 1, 2, 3}` with either overload: the reference
is read after `std::move_backward`, when slot 1 holds the old `v[0]`.  On the
vector `{1, 2, 3}` of capacity 3 the same call reallocates first, and the
reference is read in the block that `reserve` has emptied, so that no element
is constructed at index 0.  In each of these calls `std::move_backward`
assigns to the slot at `_end`, which holds no object. -/
theorem insert_reads_argument_after_shift :
    (vector.Holds demoMem demoV [1, 2, 3] ∧ demoV.capacity = 4 ∧
      demoMem.cell demoV._end = none) ∧
    ((vector.insert 4 demoMem demoV (demoV._start + 1) (.obj 4)).map
        (fun r => (vector.toList r.1 r.2.1, r.2.1.size, r.2.2 - r.2.1._start))
        = some ([some 1, some 4, some 2, some 3], 4, 1) ∧
      (vector.insert_move 4 demoMem demoV (demoV._start + 1) (.obj 4)).map
        (fun r => (vector.toList r.1 r.2.1, r.2.1.size, r.2.2 - r.2.1._start))
        = some ([some 1, some 4, some 2, some 3], 4, 1)) ∧
    (demoMem.cell (demoV._start + 1) = some 2 ∧
      (vector.insert 4 demoMem demoV demoV._start (.slot (demoV._start + 1))).map
        (fun r => (vector.toList r.1 r.2.1, r.2.1.size))
        = some ([some 1, some 1, some 2, some 3], 4) ∧
      (vector.insert_move 4 demoMem demoV demoV._start (.slot (demoV._start + 1))).map
        (fun r => (vector.toList r.1 r.2.1, r.2.1.size))
        = some ([some 1, some 1, some 2, some 3], 4)) ∧
    (vector.Holds demoIlist.1 demoIlist.2 [1, 2, 3] ∧ demoIlist.2.capacity = 3 ∧
      (vector.insert 4 demoIlist.1 demoIlist.2 demoIlist.2._start
          (.slot (demoIlist.2._start + 1))).map
        (fun r => (vector.toList r.1 r.2.1, r.2.1.size, r.2.1.capacity))
        = some ([none, some 1, some 2, some 3], 4, 6)) ∧
    (vector.raw_targets demoMem (demoV._start + 1) demoV._end (demoV._end + 1) = [demoV._end] ∧
      vector.raw_targets demoMem demoV._start demoV._end (demoV._end + 1) = [demoV._end]) := by
  decide

/-- C9: on the vector `{1, 2, 3}` of capacity 4, `insert(begin() + 1, 3, 7)`
gives `{1, 7, 7, 7, 2, 3}` and the range `{7, 8}` of a second vector inserted at
index 1 gives `{1, 7, 8, 2, 3}`, as claimed.  But `insert(begin(), 1, v[1])`,
where `{2, 1, 2, 3}` is due, gives `{1, 1, 2, 3}`: the reference is read in the
construction loop, after `std::move_backward`.  After `reserve(8)`,
`insert(begin(), 2, v[2])` gives `{1, 1, 1, 2, 3}` where `{3, 3, 1, 2, 3}` is
due: the first pass reads slot 2, which holds the old `v[0]`, and the second
pass likewise.  With capacity 4 the same call reallocates first and reads the
reference in the block that `reserve` has emptied.  In these calls
`std::move_backward` assigns to the slots from `_end` on, which hold no
object. -/
theorem insert_n_reads_argument_after_shift :
    (vector.Holds demoMem2 demoV [1, 2, 3] ∧ vector.Holds demoMem2 demoW [7, 8] ∧
      demoV.capacity = 4) ∧
    ((vector.insert_n 4 demoMem2 demoV (demoV._start + 1) 3 (.obj 7)).map
        (fun r => (vector.toList r.1 r.2.1, r.2.1.size, r.2.1.capacity))
        = some ([some 1, some 7, some 7, some 7, some 2, some 3], 6, 8) ∧
      (vector.insert_range 4 demoMem2 demoV (demoV._start + 1) demoW._start demoW._end).map
        (fun r => (vector.toList r.1 r.2.1, r.2.1.size, r.2.1.capacity))
        = some ([some 1, some 7, some 8, some 2, some 3], 5, 8)) ∧
    (demoMem2.cell (demoV._start + 1) = some 2 ∧
      (vector.insert_n 4 demoMem2 demoV demoV._start 1 (.slot (demoV._start + 1))).map
        (fun r => (vector.toList r.1 r.2.1, r.2.1.size))
        = some ([some 1, some 1, some 2, some 3], 4)) ∧
    (vector.Holds demoReserved.1 demoReserved.2 [1, 2, 3] ∧ demoReserved.2.capacity = 8 ∧
      demoReserved.1.cell (demoReserved.2._start + 2) = some 3 ∧
      (vector.insert_n 4 demoReserved.1 demoReserved.2 demoReserved.2._start 2
          (.slot (demoReserved.2._start + 2))).map
        (fun r => (vector.toList r.1 r.2.1, r.2.1.size))
        = some ([some 1, some 1, some 1, some 2, some 3], 5)) ∧
    ((vector.insert_n 4 demoMem2 demoV demoV._start 2 (.slot (demoV._start + 2))).map
        (fun r => (vector.toList r.1 r.2.1, r.2.1.size))
        = some ([none, none, some 1, some 2, some 3], 5)) ∧
    vector.raw_targets demoReserved.1 demoReserved.2._start demoReserved.2._end
      (demoReserved.2._end + 2) = [demoReserved.2._end + 1, demoReserved.2._end] := by
  decide

/-- C10. Erase: for a vector holding `xs` and indices `i ≤ j ≤ size`,
`erase(begin + i, begin + j)` returns (the destruction loop needs `j - i`
passes), the vector then holds `xs[0..i) ++ xs[j..)`, its size has dropped by
exactly `j - i`, its capacity is unchanged, and the iterator returned is at
index `i`; and `erase(begin + i)` gives the same store, vector and iterator as
`erase(begin + i, begin + i + 1)`. -/
theorem vector_erase_contract (fuel : Nat) (m : VMem T) (v : vector) (xs : List T) (i j : Nat)
    (h : vector.Holds m v xs) (hij : i ≤ j) (hj : j ≤ xs.length) (hf : j - i + 1 < fuel) :
    (∃ (m' : VMem T) (v' : vector),
      vector.erase_range fuel m v (v._start + i) (v._start + j) = some (m', v', v'._start + i) ∧
      vector.Holds m' v' (xs.take i ++ xs.drop j) ∧
      v'.size + (j - i) = v.size ∧ v'.capacity = v.capacity) ∧
    (i < xs.length →
      vector.erase_range fuel m v (v._start + i) (v._start + i + 1)
        = some (vector.erase m v (v._start + i)) ∧
      vector.Holds (vector.erase m v (v._start + i)).1 (vector.erase m v (v._start + i)).2.1
        (xs.take i ++ xs.drop (i + 1)) ∧
      (vector.erase m v (v._start + i)).2.2 = (vector.erase m v (v._start + i)).2.1._start + i) := by
  constructor
  · obtain ⟨m', v', e1, e2, e3, e4⟩ :=
      vector.erase_range_spec fuel m v xs i j h hij hj (by omega)
    refine ⟨m', v', e1, e2, ?_, ?_⟩
    · rw [vector.holds_size h, vector.holds_size e2]
      simp only [List.length_append, List.length_take, List.length_drop]
      omega
    · unfold vector.capacity; rw [e3, e4]
  · intro hi
    obtain ⟨f2, rfl⟩ : ∃ f2, fuel = f2 + 2 := ⟨fuel - 2, by omega⟩
    have e0 := vector.erase_eq f2 m v (v._start + i)
    obtain ⟨m', v', e1, e2, _, _⟩ :=
      vector.erase_range_spec (f2 + 2) m v xs i (i + 1) h (by omega) (by omega) (by omega)
    have e5 : v._start + ((i + 1 : Nat) : Int) = v._start + i + 1 := by push_cast; omega
    rw [e5, e0] at e1
    have e6 := Option.some.inj e1
    refine ⟨e0, ?_, ?_⟩
    · rw [e6]; exact e2
    · rw [e6]

/-- C10 at `{1, 2, 3}`: `erase(begin(), begin() + 2)` gives `{3}` and
`erase(begin() + 1)` gives `{1, 3}`, capacity 4 in both cases; the general
statement is taken at `i = 1`, `j = 3`. -/
theorem vector_erase_contract_witness :
    (vector.Holds demoMem demoV [1, 2, 3] ∧
      (vector.erase_range 4 demoMem demoV demoV._start (demoV._start + 2)).map
        (fun r => (vector.toList r.1 r.2.1, r.2.1.size, r.2.1.capacity, r.2.2 - r.2.1._start))
        = some ([some 3], 1, 4, 0) ∧
      (fun r : VMem Nat × vector × Int =>
          (vector.toList r.1 r.2.1, r.2.1.size, r.2.1.capacity, r.2.2 - r.2.1._start))
        (vector.erase demoMem demoV (demoV._start + 1)) = ([some 1, some 3], 2, 4, 1)) ∧
    ((∃ (m' : VMem Nat) (v' : vector),
      vector.erase_range 4 demoMem demoV (demoV._start + (1 : Nat)) (demoV._start + (3 : Nat))
        = some (m', v', v'._start + (1 : Nat)) ∧
      vector.Holds m' v' (List.take 1 [1, 2, 3] ++ List.drop 3 [1, 2, 3]) ∧
      v'.size + (3 - 1) = demoV.size ∧ v'.capacity = demoV.capacity) ∧
    (1 < ([1, 2, 3] : List Nat).length →
      vector.erase_range 4 demoMem demoV (demoV._start + (1 : Nat)) (demoV._start + (1 : Nat) + 1)
        = some (vector.erase demoMem demoV (demoV._start + (1 : Nat))) ∧
      vector.Holds (vector.erase demoMem demoV (demoV._start + (1 : Nat))).1
        (vector.erase demoMem demoV (demoV._start + (1 : Nat))).2.1
        (List.take 1 [1, 2, 3] ++ List.drop (1 + 1) [1, 2, 3]) ∧
      (vector.erase demoMem demoV (demoV._start + (1 : Nat))).2.2 =
        (vector.erase demoMem demoV (demoV._start + (1 : Nat))).2.1._start + (1 : Nat))) :=
  ⟨by decide,
    vector_erase_contract 4 demoMem demoV [1, 2, 3] 1 3 (by decide) (by decide) (by decide)
      (by decide)⟩

/-! ## Further claims on the linked sequence -/

/-- The result of `pop_back` then `pop_front`, and of `pop_front` then
`pop_back`, on a well-formed list. -/
theorem pop_pop_isList (st : State T) (l : Nat) (ns : List Nat) (h : IsList st l ns) :
    IsList (pop_front (pop_back st l) l) l ns.tail.dropLast ∧
      IsList (pop_back (pop_front st l) l) l ns.tail.dropLast := by
  cases ns with
  | nil =>
    have e := pop_empty st l h.2.2.2
    rw [e.1, e.2, e.1]
    exact ⟨h, h⟩
  | cons a rest =>
    by_cases hr : rest = []
    · subst hr
      have h1 : IsList (pop_back st l) l [] := pop_back_isList st l a [] (by simpa using h)
      have h2 : IsList (pop_front st l) l [] := pop_front_isList st l a [] h
      rw [(pop_empty _ l h1.2.2.2).2, (pop_empty _ l h2.2.2.2).1]
      exact ⟨h1, h2⟩
    · obtain ⟨mid, b, rfl⟩ : ∃ mid b, rest = mid ++ [b] :=
        ⟨rest.dropLast, rest.getLast hr, (List.dropLast_append_getLast hr).symm⟩
      have h1 : IsList (pop_back st l) l (a :: mid) :=
        pop_back_isList st l b (a :: mid) (by simpa using h)
      have h2 : IsList (pop_front st l) l (mid ++ [b]) := pop_front_isList st l a _ h
      simp only [List.tail_cons, List.dropLast_concat]
      exact ⟨pop_front_isList _ l a mid h1, pop_back_isList _ l b mid h2⟩

/-- C18. `pop_back` and `pop_front` on an empty list are no-ops: the state is
the one before the call, so `size()` is still 0 and the `next` and `prev` links
of the sentinel still point to the sentinel. -/
theorem pop_on_empty_list (st : State T) (l : Nat) (h : IsList st l []) :
    pop_back st l = st ∧ pop_front st l = st ∧
    size (pop_back st l) l = 0 ∧ size (pop_front st l) l = 0 ∧
    (pop_back st l).next ((pop_back st l).sentinel l) = (pop_back st l).sentinel l ∧
    (pop_back st l).prev ((pop_back st l).sentinel l) = (pop_back st l).sentinel l ∧
    (pop_front st l).next ((pop_front st l).sentinel l) = (pop_front st l).sentinel l ∧
    (pop_front st l).prev ((pop_front st l).sentinel l) = (pop_front st l).sentinel l := by
  obtain ⟨e1, e2⟩ := pop_empty st l h.2.2.2
  have hz : size st l = 0 := h.2.2.2
  have hc : st.next (st.sentinel l) = st.sentinel l ∧ st.prev (st.sentinel l) = st.sentinel l := by
    have := h.1
    simp only [Cyc, List.nil_append, Linked, Adj, and_true] at this
    exact this
  rw [e1, e2]
  exact ⟨rfl, rfl, hz, hz, hc.1, hc.2, hc.1, hc.2⟩

/-- C18 on the default-constructed list. -/
theorem pop_on_empty_list_witness :
    IsList demoEmpty 0 [] ∧
    (pop_back demoEmpty 0 = demoEmpty ∧ pop_front demoEmpty 0 = demoEmpty ∧
    size (pop_back demoEmpty 0) 0 = 0 ∧ size (pop_front demoEmpty 0) 0 = 0 ∧
    (pop_back demoEmpty 0).next ((pop_back demoEmpty 0).sentinel 0)
      = (pop_back demoEmpty 0).sentinel 0 ∧
    (pop_back demoEmpty 0).prev ((pop_back demoEmpty 0).sentinel 0)
      = (pop_back demoEmpty 0).sentinel 0 ∧
    (pop_front demoEmpty 0).next ((pop_front demoEmpty 0).sentinel 0)
      = (pop_front demoEmpty 0).sentinel 0 ∧
    (pop_front demoEmpty 0).prev ((pop_front demoEmpty 0).sentinel 0)
      = (pop_front demoEmpty 0).sentinel 0) :=
  ⟨by decide, pop_on_empty_list demoEmpty 0 (by decide)⟩

/-- C19 (as stated, at a one-element list). On the list `{1}` both
`pop_back(); pop_front()` and `pop_front(); pop_back()` leave size 0: the size
has dropped by 1, not by 2, the second call being the no-op on an empty list. -/
theorem pop_both_ends_singleton :
    IsList demoOne 0 [2] ∧ elems demoOne [2] = [1] ∧ size demoOne 0 = 1 ∧
    size (pop_front (pop_back demoOne 0) 0) 0 = 0 ∧
    size (pop_back (pop_front demoOne 0) 0) 0 = 0 ∧
    size (pop_front (pop_back demoOne 0) 0) 0 + 2 ≠ size demoOne 0 ∧
    size (pop_back (pop_front demoOne 0) 0) 0 + 2 ≠ size demoOne 0 ∧
    size (pop_front (pop_back demoOne 0) 0) 0 ≠ size_sub (size demoOne 0) 2 ∧
    size (pop_back (pop_front demoOne 0) 0) 0 ≠ size_sub (size demoOne 0) 2 := by
  decide

/-- C19 (amended). For every list with elements `xs`, `pop_back` then
`pop_front`, and `pop_front` then `pop_back`, leave the elements of `xs`
without the first and the last one, in their original order; with at least two
elements `size()` drops by exactly 2, and with one element the list ends up
empty (the size drops by 1). -/
theorem pop_both_ends (st : State T) (l : Nat) (ns : List Nat) (h : IsList st l ns) :
    (toSeq (pop_front (pop_back st l) l) l = (toSeq st l).tail.dropLast ∧
      toSeq (pop_back (pop_front st l) l) l = (toSeq st l).tail.dropLast) ∧
    (2 ≤ size st l →
      size (pop_front (pop_back st l) l) l + 2 = size st l ∧
      size (pop_back (pop_front st l) l) l + 2 = size st l) ∧
    (size st l = 1 →
      size (pop_front (pop_back st l) l) l = 0 ∧ size (pop_back (pop_front st l) l) l = 0) := by
  obtain ⟨h1, h2⟩ := pop_pop_isList st l ns h
  have hs : size st l = ns.length := h.2.2.2
  have hs1 : size (pop_front (pop_back st l) l) l = ns.tail.dropLast.length := h1.2.2.2
  have hs2 : size (pop_back (pop_front st l) l) l = ns.tail.dropLast.length := h2.2.2.2
  have hlen : ns.tail.dropLast.length = ns.length - 2 := by
    simp only [List.length_dropLast, List.length_tail]; omega
  refine ⟨⟨?_, ?_⟩, fun h2l => ?_, fun h1l => ?_⟩
  · rw [toSeq_eq _ l _ h1, toSeq_eq st l ns h]
    simp only [elems, List.map_dropLast, List.map_tail]
    congr 2
    apply List.map_congr_left
    intro x _
    rw [(pop_data _ l x).2, (pop_data _ l x).1]
  · rw [toSeq_eq _ l _ h2, toSeq_eq st l ns h]
    simp only [elems, List.map_dropLast, List.map_tail]
    congr 2
    apply List.map_congr_left
    intro x _
    rw [(pop_data _ l x).1, (pop_data _ l x).2]
  · rw [hs1, hs2, hlen, hs]; rw [hs] at h2l; omega
  · rw [hs1, hs2, hlen]; rw [hs] at h1l; omega

/-- C19 (amended) at `{1, 2, 3}`: both orders leave `{2}`. -/
theorem pop_both_ends_witness :
    (IsList demoSplice 0 [2, 3, 4] ∧ toSeq demoSplice 0 = [1, 2, 3] ∧
      toSeq (pop_front (pop_back demoSplice 0) 0) 0 = [2] ∧
      size (pop_front (pop_back demoSplice 0) 0) 0 = 1) ∧
    ((toSeq (pop_front (pop_back demoSplice 0) 0) 0 = (toSeq demoSplice 0).tail.dropLast ∧
      toSeq (pop_back (pop_front demoSplice 0) 0) 0 = (toSeq demoSplice 0).tail.dropLast) ∧
    (2 ≤ size demoSplice 0 →
      size (pop_front (pop_back demoSplice 0) 0) 0 + 2 = size demoSplice 0 ∧
      size (pop_back (pop_front demoSplice 0) 0) 0 + 2 = size demoSplice 0) ∧
    (size demoSplice 0 = 1 →
      size (pop_front (pop_back demoSplice 0) 0) 0 = 0 ∧
      size (pop_back (pop_front demoSplice 0) 0) 0 = 0)) :=
  ⟨by decide, pop_both_ends demoSplice 0 [2, 3, 4] (by decide)⟩

/-- C20. The sentinel ring refines a double-ended sequence: with `toSeq` reading
the data nodes forward from the sentinel, `push_back(v)` gives `xs ++ [v]`,
`push_front(v)` gives `[v] ++ xs`, `pop_back` and `pop_front` remove the last
and the first element, `front()` and `back()` of a non-empty list are the first
and the last element, `clear()` returns (the loop needs `size` passes) and gives
the empty sequence, and before and after each operation `size()` is the length
of the sequence. -/
theorem list_refines_deque (fuel : Nat) (st : State T) (l : Nat) (ns : List Nat) (v : T)
    (h : IsList st l ns) (hf : ns.length < fuel) :
    size st l = spec_size (toSeq st l) ∧
    (toSeq (push_back st l v) l = spec_push_back (toSeq st l) v ∧
      size (push_back st l v) l = spec_size (toSeq (push_back st l v) l)) ∧
    (toSeq (push_front st l v) l = spec_push_front (toSeq st l) v ∧
      size (push_front st l v) l = spec_size (toSeq (push_front st l v) l)) ∧
    (toSeq (pop_back st l) l = spec_pop_back (toSeq st l) ∧
      size (pop_back st l) l = spec_size (toSeq (pop_back st l) l)) ∧
    (toSeq (pop_front st l) l = spec_pop_front (toSeq st l) ∧
      size (pop_front st l) l = spec_size (toSeq (pop_front st l) l)) ∧
    (toSeq st l ≠ [] →
      some (front st l) = spec_front (toSeq st l) ∧ some (back st l) = spec_back (toSeq st l)) ∧
    (∃ st', clear fuel st l = some st' ∧ toSeq st' l = spec_clear (toSeq st l) ∧
      size st' l = spec_size (toSeq st' l)) := by
  have hx := toSeq_eq st l ns h
  have hsz : ∀ (s : State T) (ms : List Nat), IsList s l ms → size s l = spec_size (toSeq s l) := by
    intro s ms hm
    rw [toSeq_eq s l ms hm, spec_size, elems_length]
    exact hm.2.2.2
  obtain ⟨b1, b2⟩ := push_back_isList st l v ns h
  obtain ⟨f1, f2⟩ := push_front_isList st l v ns h
  have hpb : ∃ ms, IsList (pop_back st l) l ms ∧ elems (pop_back st l) ms = (elems st ns).dropLast := by
    by_cases hn : ns = []
    · subst hn
      rw [(pop_empty st l h.2.2.2).1]
      exact ⟨[], h, rfl⟩
    · obtain ⟨ms, b, rfl⟩ : ∃ ms b, ns = ms ++ [b] :=
        ⟨ns.dropLast, ns.getLast hn, (List.dropLast_append_getLast hn).symm⟩
      refine ⟨ms, pop_back_isList st l b ms h, ?_⟩
      simp only [elems, List.map_append, List.map_cons, List.map_nil, List.dropLast_concat]
      exact List.map_congr_left (fun x _ => (pop_data st l x).1)
  have hpf : ∃ ms, IsList (pop_front st l) l ms ∧ elems (pop_front st l) ms = (elems st ns).tail := by
    cases ns with
    | nil =>
      rw [(pop_empty st l h.2.2.2).2]
      exact ⟨[], h, rfl⟩
    | cons a ms =>
      refine ⟨ms, pop_front_isList st l a ms h, ?_⟩
      simp only [elems, List.map_cons, List.tail_cons]
      exact List.map_congr_left (fun x _ => (pop_data st l x).2)
  obtain ⟨mb, pb1, pb2⟩ := hpb
  obtain ⟨mf, pf1, pf2⟩ := hpf
  obtain ⟨st', c1, c2, _⟩ := clear_isList fuel st l ns h hf
  refine ⟨hsz st ns h, ⟨?_, hsz _ _ b1⟩, ⟨?_, hsz _ _ f1⟩, ⟨?_, hsz _ _ pb1⟩, ⟨?_, hsz _ _ pf1⟩,
    ?_, ⟨st', c1, ?_, hsz _ _ c2⟩⟩
  · rw [toSeq_eq _ l _ b1, b2, hx]; rfl
  · rw [toSeq_eq _ l _ f1, f2, hx]; rfl
  · rw [toSeq_eq _ l _ pb1, pb2, hx]; rfl
  · rw [toSeq_eq _ l _ pf1, pf2, hx]; rfl
  · intro hne
    rw [hx] at hne ⊢
    have hns : ns ≠ [] := by
      intro e; subst e; exact hne rfl
    exact front_back_eq st l ns h hns
  · rw [toSeq_eq _ l _ c2]; rfl

/-- C20 at `{1, 2, 3}` with `v = 9`. -/
theorem list_refines_deque_witness :
    (IsList demoSplice 0 [2, 3, 4] ∧ toSeq demoSplice 0 = [1, 2, 3] ∧
      toSeq (push_back demoSplice 0 9) 0 = [1, 2, 3, 9] ∧
      toSeq (push_front demoSplice 0 9) 0 = [9, 1, 2, 3] ∧
      toSeq (pop_back demoSplice 0) 0 = [1, 2] ∧ toSeq (pop_front demoSplice 0) 0 = [2, 3] ∧
      front demoSplice 0 = 1 ∧ back demoSplice 0 = 3 ∧
      (clear 4 demoSplice 0).map (fun s => (toSeq s 0, size s 0)) = some ([], 0)) ∧
    (size demoSplice 0 = spec_size (toSeq demoSplice 0) ∧
    (toSeq (push_back demoSplice 0 9) 0 = spec_push_back (toSeq demoSplice 0) 9 ∧
      size (push_back demoSplice 0 9) 0 = spec_size (toSeq (push_back demoSplice 0 9) 0)) ∧
    (toSeq (push_front demoSplice 0 9) 0 = spec_push_front (toSeq demoSplice 0) 9 ∧
      size (push_front demoSplice 0 9) 0 = spec_size (toSeq (push_front demoSplice 0 9) 0)) ∧
    (toSeq (pop_back demoSplice 0) 0 = spec_pop_back (toSeq demoSplice 0) ∧
      size (pop_back demoSplice 0) 0 = spec_size (toSeq (pop_back demoSplice 0) 0)) ∧
    (toSeq (pop_front demoSplice 0) 0 = spec_pop_front (toSeq demoSplice 0) ∧
      size (pop_front demoSplice 0) 0 = spec_size (toSeq (pop_front demoSplice 0) 0)) ∧
    (toSeq demoSplice 0 ≠ [] →
      some (front demoSplice 0) = spec_front (toSeq demoSplice 0) ∧
      some (back demoSplice 0) = spec_back (toSeq demoSplice 0)) ∧
    (∃ st', clear 4 demoSplice 0 = some st' ∧ toSeq st' 0 = spec_clear (toSeq demoSplice 0) ∧
      size st' 0 = spec_size (toSeq st' 0))) :=
  ⟨by decide, list_refines_deque 4 demoSplice 0 [2, 3, 4] 9 (by decide) (by decide)⟩

/-! ## Further claims on the contiguous sequence -/

/-- C11 (evaluation at the failing input). On the default-constructed vector
and on the vector `{1, 2, 3}` emptied by `clear()` (capacity 4), the
single-position `erase(begin())` leaves `size() == 2^64 - 1`, above the
capacity; the range form `erase(begin(), end())` leaves the vector as it was,
with size 0. -/
theorem vector_erase_empty_underflow :
    ((vector.null.size = 0 ∧ demoCleared.2.size = 0 ∧ demoCleared.2.capacity = 4) ∧
      (vector.erase (VMem.init : VMem Nat) vector.null vector.null._start).2.1.size
        = 18446744073709551615 ∧
      (vector.erase (VMem.init : VMem Nat) vector.null vector.null._start).2.1.capacity = 0 ∧
      (vector.erase demoCleared.1 demoCleared.2 demoCleared.2._start).2.1.size
        = 18446744073709551615 ∧
      (vector.erase demoCleared.1 demoCleared.2 demoCleared.2._start).2.1.capacity = 4) ∧
    ((vector.erase_range 4 (VMem.init : VMem Nat) vector.null vector.null._start
        vector.null._end).map (fun r => (r.2.1, r.2.1.size)) = some (vector.null, 0) ∧
      (vector.erase_range 4 demoCleared.1 demoCleared.2 demoCleared.2._start
        demoCleared.2._end).map (fun r => (r.2.1, r.2.1.size)) = some (demoCleared.2, 0)) := by
  decide

/-- C12. `reserve(n)` on a vector holding `xs`: with `n <= capacity()` the call
returns the store and the vector as they were; otherwise it returns (the loop
needs `size` passes) with `capacity() == n`, the same `size()` and the same
elements `xs` in order. -/
theorem vector_reserve_contract (fuel : Nat) (m : VMem T) (v : vector) (xs : List T) (n : Nat)
    (h : vector.Holds m v xs) (hn : n < SIZE_MOD) (hf : xs.length < fuel) :
    (n ≤ v.capacity → vector.reserve fuel m v n = some (m, v)) ∧
    (v.capacity < n → ∃ (m' : VMem T) (v' : vector),
      vector.reserve fuel m v n = some (m', v') ∧ vector.Holds m' v' xs ∧
      v'.capacity = n ∧ v'.size = v.size) := by
  constructor
  · intro hle
    unfold vector.reserve
    rw [if_pos hle]
  · intro hlt
    obtain ⟨m', e1, e2, _, _⟩ := vector.reserve_spec fuel m v xs n h hlt hn hf
    refine ⟨m', _, e1, e2, ?_, ?_⟩
    · have := vector.holds_capacity e2
      simp only [add_sub_cancel_left] at this
      exact_mod_cast this
    · rw [vector.holds_size e2, vector.holds_size h]

/-- C12 at `{1, 2, 3}` with capacity 4: `reserve(2)` changes nothing and
`reserve(10)` gives capacity 10 with the same elements. -/
theorem vector_reserve_contract_witness :
    (vector.Holds demoMem demoV [1, 2, 3] ∧ demoV.capacity = 4 ∧
      (vector.reserve 4 demoMem demoV 10).map
        (fun r => (vector.toList r.1 r.2, r.2.size, r.2.capacity))
        = some ([some 1, some 2, some 3], 3, 10)) ∧
    ((10 ≤ demoV.capacity → vector.reserve 4 demoMem demoV 10 = some (demoMem, demoV)) ∧
    (demoV.capacity < 10 → ∃ (m' : VMem Nat) (v' : vector),
      vector.reserve 4 demoMem demoV 10 = some (m', v') ∧ vector.Holds m' v' [1, 2, 3] ∧
      v'.capacity = 10 ∧ v'.size = demoV.size)) :=
  ⟨by decide,
    vector_reserve_contract 4 demoMem demoV [1, 2, 3] 10 (by decide) (by decide) (by decide)⟩

/-- C14. Checked access: for a vector holding `xs` and for a buffer holding the
characters `cs`, `at(i)` throws `std::out_of_range` exactly when `i >= size()`;
for `i < size()` it returns the element at index `i`, the value of
`operator[](i)`; in both cases the store and the object after the call are
those before it. -/
theorem checked_access {C : Type} (m : VMem T) (v : vector) (xs : List T) (i : Nat)
    (sm : VMem C) (s : basic_string) (cs : List C) (j : Nat)
    (h : vector.Holds m v xs) (hs : basic_string.Chars sm s cs) :
    (((∃ e, (vector.at_ m v i).1 = .error e) ↔ v.size ≤ i) ∧
      (i < v.size → (vector.at_ m v i).1 = .ok (vector.index m v i) ∧
        vector.index m v i = xs.get? i ∧ (xs.get? i).isSome) ∧
      (vector.at_ m v i).2 = (m, v)) ∧
    (((∃ e, (basic_string.at_ sm s j).1 = .error e) ↔ s.size ≤ j) ∧
      (j < s.size → (basic_string.at_ sm s j).1 = .ok (basic_string.index sm s j) ∧
        basic_string.index sm s j = cs.get? j ∧ (cs.get? j).isSome) ∧
      (basic_string.at_ sm s j).2 = (sm, s)) := by
  have hsz := vector.holds_size h
  refine ⟨⟨?_, ?_, rfl⟩, ⟨?_, ?_, rfl⟩⟩
  · unfold vector.at_
    by_cases hi : i ≥ v.size
    · simp only [if_pos hi]
      exact ⟨fun _ => hi, fun _ => ⟨_, rfl⟩⟩
    · simp only [if_neg hi]
      constructor
      · rintro ⟨e, he⟩; cases he
      · intro h'; exact absurd h' hi
  · intro hi
    have hi' : i < xs.length := by omega
    refine ⟨?_, h.2.2.2.2.2 i hi', ?_⟩
    · unfold vector.at_ vector.index
      simp only [if_neg (not_le.2 hi)]
    · rw [List.get?_eq_get hi']; rfl
  · unfold basic_string.at_ basic_string.size
    by_cases hj : j ≥ s._size
    · simp only [if_pos hj]
      exact ⟨fun _ => hj, fun _ => ⟨_, rfl⟩⟩
    · simp only [if_neg hj]
      constructor
      · rintro ⟨e, he⟩; cases he
      · intro h'; exact absurd h' hj
  · intro hj
    have hj' : j < cs.length := by rw [← hs.1]; exact hj
    refine ⟨?_, hs.2 j hj', ?_⟩
    · unfold basic_string.at_ basic_string.index
      unfold basic_string.size at hj
      simp only [if_neg (not_le.2 hj)]
    · rw [List.get?_eq_get hj']; rfl

/-- C14 at the vector `{1, 2, 3}` and the buffer `"hi"`: `at(1)` returns the
element, `at(3)` and `at(2)` throw. -/
theorem checked_access_witness :
    (vector.Holds demoMem demoV [1, 2, 3] ∧ basic_string.Chars demoStrMem demoStr [104, 105] ∧
      (vector.at_ demoMem demoV 1).1 = .ok (some 2) ∧
      (vector.at_ demoMem demoV 3).1 = .error "vector" ∧
      (basic_string.at_ demoStrMem demoStr 1).1 = .ok (some 105) ∧
      (basic_string.at_ demoStrMem demoStr 2).1
        = .error "basic_string::at: index out of range") ∧
    ((((∃ e, (vector.at_ demoMem demoV 1).1 = .error e) ↔ demoV.size ≤ 1) ∧
      (1 < demoV.size → (vector.at_ demoMem demoV 1).1 = .ok (vector.index demoMem demoV 1) ∧
        vector.index demoMem demoV 1 = ([1, 2, 3] : List Nat).get? 1 ∧
        (([1, 2, 3] : List Nat).get? 1).isSome) ∧
      (vector.at_ demoMem demoV 1).2 = (demoMem, demoV)) ∧
    (((∃ e, (basic_string.at_ demoStrMem demoStr 2).1 = .error e) ↔ demoStr.size ≤ 2) ∧
      (2 < demoStr.size →
        (basic_string.at_ demoStrMem demoStr 2).1 = .ok (basic_string.index demoStrMem demoStr 2) ∧
        basic_string.index demoStrMem demoStr 2 = ([104, 105] : List Nat).get? 2 ∧
        (([104, 105] : List Nat).get? 2).isSome) ∧
      (basic_string.at_ demoStrMem demoStr 2).2 = (demoStrMem, demoStr))) :=
  ⟨⟨by decide, by decide, rfl, rfl, rfl, rfl⟩,
    checked_access demoMem demoV [1, 2, 3] 1 demoStrMem demoStr [104, 105] 2 (by decide)
      (by decide)⟩

/-- C15. Structural equality: for two vectors holding `xs` and `ys`,
`operator==` returns (the loop needs `size` passes), with `true` exactly when
the sizes are equal and `a[i] == b[i]` for every `i < size`, that is exactly
when `xs = ys`, whatever the two capacities; and `operator!=` returns the
negation. -/
theorem vector_equality [DecidableEq T] (fuel : Nat) (m : VMem T) (a b : vector)
    (xs ys : List T) (ha : vector.Holds m a xs) (hb : vector.Holds m b ys)
    (hf : xs.length < fuel) :
    ∃ r, vector.eq fuel m a b = some r ∧ vector.ne fuel m a b = some (!r) ∧
      (r = true ↔ (a.size = b.size ∧
        ∀ i, i < a.size → vector.index m a i = vector.index m b i)) ∧
      (r = true ↔ xs = ys) := by
  obtain ⟨r, e1, e2, e3⟩ := vector.eq_spec fuel m a b xs ys ha hb hf
  refine ⟨r, e1, ?_, e2, e3⟩
  unfold vector.ne
  rw [e1]; rfl

/-- C15 at `{1, 2, 3}` with capacity 4 against `{1, 2, 3}` with capacity 3
(equal) and against `{7, 8}` (different). -/
theorem vector_equality_witness :
    (vector.Holds demoIlist.1 demoV [1, 2, 3] ∧ vector.Holds demoIlist.1 demoIlist.2 [1, 2, 3] ∧
      demoV.capacity = 4 ∧ demoIlist.2.capacity = 3 ∧
      vector.eq 4 demoIlist.1 demoV demoIlist.2 = some true ∧
      vector.ne 4 demoIlist.1 demoV demoIlist.2 = some false ∧
      vector.eq 4 demoMem2 demoV demoW = some false ∧
      vector.ne 4 demoMem2 demoV demoW = some true) ∧
    ∃ r, vector.eq 4 demoMem2 demoV demoW = some r ∧
      vector.ne 4 demoMem2 demoV demoW = some (!r) ∧
      (r = true ↔ (demoV.size = demoW.size ∧
        ∀ i, i < demoV.size → vector.index demoMem2 demoV i = vector.index demoMem2 demoW i)) ∧
      (r = true ↔ ([1, 2, 3] : List Nat) = [7, 8]) :=
  ⟨by decide,
    vector_equality 4 demoMem2 demoV demoW [1, 2, 3] [7, 8] (by decide) (by decide)
      (by decide)⟩

/-- C13. Size/capacity invariant: in every world reached from the empty one by
a finite sequence of constructions (default, initializer list, copy, move),
`push_back` (both overloads), `pop_back`, `reserve`, `clear`, `insert` (all
overloads, index in `[0, size]`), `erase` (index in `[0, size)`, ranges within
`[0, size]`), copy assignment and move assignment, every vector has
`size() <= capacity()`; and every further such operation returns, again with
`size() <= capacity()` for every vector. -/
theorem vector_size_le_capacity (ops : List (vector.Op T)) (w : vector.World T)
    (h : vector.run vector.World.init ops = some w) :
    (∀ l, l < w.count → (w.obj l).size ≤ (w.obj l).capacity) ∧
    (∀ op : vector.Op T, op.valid w = true →
      ∃ w', vector.exec w op = some w' ∧
        ∀ l, l < w'.count → (w'.obj l).size ≤ (w'.obj l).capacity) := by
  obtain ⟨X, hinv⟩ :=
    vector.run_keeps ops vector.World.init w (fun _ => []) vector.init_keeps h
  constructor
  · intro l hl
    exact vector.holds_size_le (hinv.2.1 l hl)
  · intro op hv
    obtain ⟨w', X', h1, h2⟩ := vector.exec_keeps w X hinv op hv
    exact ⟨w', h1, fun l hl => vector.holds_size_le (h2.2.1 l hl)⟩

/-- C13 on a sequence that uses every operation on four vectors. -/
theorem vector_size_le_capacity_witness :
    vector.run vector.World.init demoVecOps = some demoVecWorld ∧
    (demoVecWorld.count = 4 ∧
      (List.range 4).map (fun l => ((demoVecWorld.obj l).size, (demoVecWorld.obj l).capacity))
        = [(2, 10), (0, 6), (6, 12), (0, 0)]) ∧
    (∀ l, l < demoVecWorld.count → (demoVecWorld.obj l).size ≤ (demoVecWorld.obj l).capacity) ∧
    (∀ op : vector.Op Nat, op.valid demoVecWorld = true →
      ∃ w', vector.exec demoVecWorld op = some w' ∧
        ∀ l, l < w'.count → (w'.obj l).size ≤ (w'.obj l).capacity) :=
  ⟨demoVecWorld_run, by decide, vector_size_le_capacity demoVecOps demoVecWorld demoVecWorld_run⟩

/-- C16. Copy: in a world of well-formed vectors, the vector copy-constructed
from `a`, and a different vector `b` after `b = a`, holds the elements of `a`,
has the size of `a` and compares equal to `a`, while the object `a` and its
elements are as before; a following `push_back(T&&)` on the copy appends to the
copy and leaves the elements of `a` as they were, so that `a != copy`; the
copying `push_back(const T&)` leaves `a` alone as well (and the copy with its
elements). -/
theorem vector_copy_independent [DecidableEq T] (fuel : Nat) (w : vector.World T)
    (X : Nat → List T) (a b : Nat) (value : T) (hinv : vector.Inv w X) (ha : a < w.count)
    (hb : b < w.count) (hab : a ≠ b) (hfa : (X a).length < fuel) (hfb : (X b).length < fuel)
    (hcap : 2 * ((X a).length + (w.obj b).capacity) < SIZE_MOD) :
    (∃ w1, vector.copy_ctor fuel w w.count a = some w1 ∧
      w1.obj a = w.obj a ∧ vector.Holds w1.mem (w1.obj a) (X a) ∧
      vector.Holds w1.mem (w1.obj w.count) (X a) ∧
      (w1.obj w.count).size = (w.obj a).size ∧
      vector.eq fuel w1.mem (w1.obj a) (w1.obj w.count) = some true ∧
      (∃ (m2 : VMem T) (v2 : vector),
        vector.push_back fuel w1.mem (w1.obj w.count) value = some (m2, v2) ∧
        vector.Holds m2 v2 (X a ++ [value]) ∧ vector.Holds m2 (w1.obj a) (X a) ∧
        vector.ne fuel m2 (w1.obj a) v2 = some true) ∧
      (∃ (m3 : VMem T) (v3 : vector),
        vector.push_back_const fuel w1.mem (w1.obj w.count) value = some (m3, v3) ∧
        vector.Holds m3 v3 (X a) ∧ vector.Holds m3 (w1.obj a) (X a))) ∧
    (∃ w1, vector.copy_assign fuel w b a = some w1 ∧
      w1.obj a = w.obj a ∧ vector.Holds w1.mem (w1.obj a) (X a) ∧
      vector.Holds w1.mem (w1.obj b) (X a) ∧
      (w1.obj b).size = (w.obj a).size ∧
      vector.eq fuel w1.mem (w1.obj a) (w1.obj b) = some true ∧
      (∃ (m2 : VMem T) (v2 : vector),
        vector.push_back fuel w1.mem (w1.obj b) value = some (m2, v2) ∧
        vector.Holds m2 v2 (X a ++ [value]) ∧ vector.Holds m2 (w1.obj a) (X a) ∧
        vector.ne fuel m2 (w1.obj a) v2 = some true) ∧
      (∃ (m3 : VMem T) (v3 : vector),
        vector.push_back_const fuel w1.mem (w1.obj b) value = some (m3, v3) ∧
        vector.Holds m3 v3 (X a) ∧ vector.Holds m3 (w1.obj a) (X a))) := by
  have hsa := vector.holds_size (hinv.2.1 a ha)
  constructor
  · obtain ⟨m', v', e1, e2, _, _, e5, e6⟩ := vector.copy_ctor_step fuel w X a hinv ha hfa
    have hac : a ≠ w.count := by omega
    have hoa : (w.set w.count m' v').obj a = w.obj a := by
      rw [vector.set_obj, if_neg hac]
    have hoc : (w.set w.count m' v').obj w.count = v' := by
      rw [vector.set_obj, if_pos rfl]
    have hA := e6.2.1 a (by show a < w.count + 1; omega)
    have hXa : (fun c => if c = w.count then X a else X c) a = X a := by
      show (if a = w.count then X a else X a) = X a
      rw [if_neg hac]
    rw [hXa] at hA
    obtain ⟨q1, q2, q3⟩ := vector.after_copy fuel _ _ a w.count (X a) value e6
      (by show a < w.count + 1; omega) (by show w.count < w.count + 1; omega) hac hXa
      (by show (if w.count = w.count then X a else X w.count) = X a; rw [if_pos rfl]) hfa
      (by
        show 2 * ((w.set w.count m' v').obj w.count).capacity < SIZE_MOD
        rw [hoc, e5]; omega)
    refine ⟨_, e1, hoa, hA, by rw [hoc]; exact e2, ?_, q1, q2, q3⟩
    rw [hoc, vector.holds_size e2, hsa]
  · obtain ⟨m', v', e1, e2, _, _, e5, e6⟩ :=
      vector.copy_assign_step fuel w X b a hinv hb ha (Ne.symm hab) hfb hfa
    have hoa : (w.set b m' v').obj a = w.obj a := by
      rw [vector.set_obj, if_neg hab]
    have hoc : (w.set b m' v').obj b = v' := by
      rw [vector.set_obj, if_pos rfl]
    have hXa : (fun c => if c = b then X a else X c) a = X a := by
      show (if a = b then X a else X a) = X a
      rw [if_neg hab]
    have hA := e6.2.1 a ha
    rw [hXa] at hA
    obtain ⟨q1, q2, q3⟩ := vector.after_copy fuel _ _ a b (X a) value e6 ha hb hab hXa
      (by show (if b = b then X a else X b) = X a; rw [if_pos rfl]) hfa
      (by
        show 2 * ((w.set b m' v').obj b).capacity < SIZE_MOD
        rw [hoc, e5]
        rcases Nat.le_total (w.obj b).capacity (X a).length with hm | hm
        · rw [max_eq_right hm]; omega
        · rw [max_eq_left hm]; omega)
    refine ⟨_, e1, hoa, hA, by rw [hoc]; exact e2, ?_, q1, q2, q3⟩
    rw [hoc, vector.holds_size e2, hsa]

/-- C16 in the world of `{1, 2}` (object 0) and `{7}` (object 1), with `a = 0`,
`b = 1` and `push_back(30)`. -/
theorem vector_copy_independent_witness :
    (vector.Inv demoTwo demoTwoX ∧ demoTwo.count = 2 ∧ demoTwoX 0 = [1, 2] ∧
      (vector.copy_ctor 4 demoTwo 2 0).map
        (fun w1 => (vector.toList w1.mem (w1.obj 0), vector.toList w1.mem (w1.obj 2)))
        = some ([some 1, some 2], [some 1, some 2]) ∧
      (vector.copy_assign 4 demoTwo 1 0).map
        (fun w1 => (vector.toList w1.mem (w1.obj 0), vector.toList w1.mem (w1.obj 1)))
        = some ([some 1, some 2], [some 1, some 2])) ∧
    ((∃ w1, vector.copy_ctor 4 demoTwo demoTwo.count 0 = some w1 ∧
      w1.obj 0 = demoTwo.obj 0 ∧ vector.Holds w1.mem (w1.obj 0) (demoTwoX 0) ∧
      vector.Holds w1.mem (w1.obj demoTwo.count) (demoTwoX 0) ∧
      (w1.obj demoTwo.count).size = (demoTwo.obj 0).size ∧
      vector.eq 4 w1.mem (w1.obj 0) (w1.obj demoTwo.count) = some true ∧
      (∃ (m2 : VMem Nat) (v2 : vector),
        vector.push_back 4 w1.mem (w1.obj demoTwo.count) 30 = some (m2, v2) ∧
        vector.Holds m2 v2 (demoTwoX 0 ++ [30]) ∧ vector.Holds m2 (w1.obj 0) (demoTwoX 0) ∧
        vector.ne 4 m2 (w1.obj 0) v2 = some true) ∧
      (∃ (m3 : VMem Nat) (v3 : vector),
        vector.push_back_const 4 w1.mem (w1.obj demoTwo.count) 30 = some (m3, v3) ∧
        vector.Holds m3 v3 (demoTwoX 0) ∧ vector.Holds m3 (w1.obj 0) (demoTwoX 0))) ∧
    (∃ w1, vector.copy_assign 4 demoTwo 1 0 = some w1 ∧
      w1.obj 0 = demoTwo.obj 0 ∧ vector.Holds w1.mem (w1.obj 0) (demoTwoX 0) ∧
      vector.Holds w1.mem (w1.obj 1) (demoTwoX 0) ∧
      (w1.obj 1).size = (demoTwo.obj 0).size ∧
      vector.eq 4 w1.mem (w1.obj 0) (w1.obj 1) = some true ∧
      (∃ (m2 : VMem Nat) (v2 : vector),
        vector.push_back 4 w1.mem (w1.obj 1) 30 = some (m2, v2) ∧
        vector.Holds m2 v2 (demoTwoX 0 ++ [30]) ∧ vector.Holds m2 (w1.obj 0) (demoTwoX 0) ∧
        vector.ne 4 m2 (w1.obj 0) v2 = some true) ∧
      (∃ (m3 : VMem Nat) (v3 : vector),
        vector.push_back_const 4 w1.mem (w1.obj 1) 30 = some (m3, v3) ∧
        vector.Holds m3 v3 (demoTwoX 0) ∧ vector.Holds m3 (w1.obj 0) (demoTwoX 0)))) :=
  ⟨⟨demoTwo_inv, by decide, rfl, by decide, by decide⟩,
    vector_copy_independent 4 demoTwo demoTwoX 0 1 30 demoTwo_inv (by decide) (by decide)
      (by decide) (by decide) (by decide) (by decide)⟩

/-- C17. Move: in a world of well-formed vectors, after move-constructing a
vector from `a`, and after the move assignment `b = std::move(a)` into a
different vector `b`, the target is the former object `a` (its pointers, hence
its elements in order, its size and its capacity), and `a` is null: size 0,
capacity 0, empty; a following `push_back(T&&)` on `a` returns with size 1 and
leaves the target alone. -/
theorem vector_move_transfers (fuel : Nat) (w : vector.World T) (X : Nat → List T)
    (a b : Nat) (value : T) (hinv : vector.Inv w X) (ha : a < w.count) (hb : b < w.count)
    (hab : a ≠ b) (hf : 0 < fuel) (hfb : (X b).length < fuel) :
    ((vector.move_ctor w w.count a).obj w.count = w.obj a ∧
      vector.Holds (vector.move_ctor w w.count a).mem
        ((vector.move_ctor w w.count a).obj w.count) (X a) ∧
      ((vector.move_ctor w w.count a).obj w.count).size = (w.obj a).size ∧
      ((vector.move_ctor w w.count a).obj w.count).capacity = (w.obj a).capacity ∧
      ((vector.move_ctor w w.count a).obj a).size = 0 ∧
      ((vector.move_ctor w w.count a).obj a).capacity = 0 ∧
      ((vector.move_ctor w w.count a).obj a).empty = true ∧
      ∃ (m2 : VMem T) (v2 : vector),
        vector.push_back fuel (vector.move_ctor w w.count a).mem
          ((vector.move_ctor w w.count a).obj a) value = some (m2, v2) ∧
        v2.size = 1 ∧ vector.Holds m2 v2 [value] ∧
        vector.Holds m2 ((vector.move_ctor w w.count a).obj w.count) (X a)) ∧
    (∃ w1, vector.move_assign fuel w b a = some w1 ∧ w1.obj b = w.obj a ∧
      vector.Holds w1.mem (w1.obj b) (X a) ∧
      (w1.obj b).size = (w.obj a).size ∧ (w1.obj b).capacity = (w.obj a).capacity ∧
      (w1.obj a).size = 0 ∧ (w1.obj a).capacity = 0 ∧ (w1.obj a).empty = true ∧
      ∃ (m2 : VMem T) (v2 : vector),
        vector.push_back fuel w1.mem (w1.obj a) value = some (m2, v2) ∧
        v2.size = 1 ∧ vector.Holds m2 v2 [value] ∧ vector.Holds m2 (w1.obj b) (X a)) := by
  constructor
  · obtain ⟨s1, s2, _, s4⟩ := vector.move_ctor_step w X a hinv ha
    have hca : w.count ≠ a := by omega
    have hX : (fun c => if c = a then ([] : List T) else if c = w.count then X a else X c)
        w.count = X a := by
      show (if w.count = a then [] else if w.count = w.count then X a else X w.count) = X a
      rw [if_neg hca, if_pos rfl]
    have hT := s4.2.1 w.count (by show w.count < w.count + 1; omega)
    rw [hX] at hT
    obtain ⟨q1, q2, q3, m2, v2, q4, q5, q6, q7⟩ := vector.after_move fuel _ _ a w.count value s4
      (by show w.count < w.count + 1; omega) s2 hf
    rw [if_neg hca, if_pos rfl] at q7
    exact ⟨s1, hT, by rw [s1], by rw [s1], q1, q2, q3, m2, v2, q4, q5, q6, q7⟩
  · obtain ⟨w1, e1, e2, e3, e4, _, e6⟩ :=
      vector.move_assign_step fuel w X b a hinv hb ha (Ne.symm hab) hfb
    have hX : (fun c => if c = a then ([] : List T) else if c = b then X a else X c) b = X a := by
      show (if b = a then [] else if b = b then X a else X b) = X a
      rw [if_neg (Ne.symm hab), if_pos rfl]
    have hT := e6.2.1 b (by rw [e4]; exact hb)
    rw [hX] at hT
    obtain ⟨q1, q2, q3, m2, v2, q4, q5, q6, q7⟩ := vector.after_move fuel w1 _ a b value e6
      (by rw [e4]; exact hb) e3 hf
    rw [if_neg (Ne.symm hab), if_pos rfl] at q7
    exact ⟨w1, e1, e2, hT, by rw [e2], by rw [e2], q1, q2, q3, m2, v2, q4, q5, q6, q7⟩

/-- C17 in the world of `{1, 2}` (object 0) and `{7}` (object 1), with `a = 0`,
`b = 1` and `push_back(9)`. -/
theorem vector_move_transfers_witness :
    (vector.Inv demoTwo demoTwoX ∧ demoTwo.count = 2 ∧ demoTwoX 0 = [1, 2] ∧
      (fun w1 : vector.World Nat => (vector.toList w1.mem (w1.obj 2), (w1.obj 2).capacity,
        w1.obj 0)) (vector.move_ctor demoTwo 2 0) = ([some 1, some 2], 2, vector.null) ∧
      (vector.move_assign 4 demoTwo 1 0).map (fun w1 =>
        (vector.toList w1.mem (w1.obj 1), (w1.obj 1).capacity, w1.obj 0))
        = some ([some 1, some 2], 2, vector.null)) ∧
    (((vector.move_ctor demoTwo demoTwo.count 0).obj demoTwo.count = demoTwo.obj 0 ∧
      vector.Holds (vector.move_ctor demoTwo demoTwo.count 0).mem
        ((vector.move_ctor demoTwo demoTwo.count 0).obj demoTwo.count) (demoTwoX 0) ∧
      ((vector.move_ctor demoTwo demoTwo.count 0).obj demoTwo.count).size
        = (demoTwo.obj 0).size ∧
      ((vector.move_ctor demoTwo demoTwo.count 0).obj demoTwo.count).capacity
        = (demoTwo.obj 0).capacity ∧
      ((vector.move_ctor demoTwo demoTwo.count 0).obj 0).size = 0 ∧
      ((vector.move_ctor demoTwo demoTwo.count 0).obj 0).capacity = 0 ∧
      ((vector.move_ctor demoTwo demoTwo.count 0).obj 0).empty = true ∧
      ∃ (m2 : VMem Nat) (v2 : vector),
        vector.push_back 4 (vector.move_ctor demoTwo demoTwo.count 0).mem
          ((vector.move_ctor demoTwo demoTwo.count 0).obj 0) 9 = some (m2, v2) ∧
        v2.size = 1 ∧ vector.Holds m2 v2 [9] ∧
        vector.Holds m2 ((vector.move_ctor demoTwo demoTwo.count 0).obj demoTwo.count)
          (demoTwoX 0)) ∧
    (∃ w1, vector.move_assign 4 demoTwo 1 0 = some w1 ∧ w1.obj 1 = demoTwo.obj 0 ∧
      vector.Holds w1.mem (w1.obj 1) (demoTwoX 0) ∧
      (w1.obj 1).size = (demoTwo.obj 0).size ∧ (w1.obj 1).capacity = (demoTwo.obj 0).capacity ∧
      (w1.obj 0).size = 0 ∧ (w1.obj 0).capacity = 0 ∧ (w1.obj 0).empty = true ∧
      ∃ (m2 : VMem Nat) (v2 : vector),
        vector.push_back 4 w1.mem (w1.obj 0) 9 = some (m2, v2) ∧
        v2.size = 1 ∧ vector.Holds m2 v2 [9] ∧ vector.Holds m2 (w1.obj 1) (demoTwoX 0))) :=
  ⟨⟨demoTwo_inv, by decide, rfl, by decide, by decide⟩,
    vector_move_transfers 4 demoTwo demoTwoX 0 1 9 demoTwo_inv (by decide) (by decide)
      (by decide) (by decide) (by decide)⟩

/-! ## Claims C21 to C23: positional insert, copy, swap and move of lists -/

/-- The position of index `i` in a ring into which a node was put at index `i`. -/
theorem nodeAt_inserted (s b : Nat) (ns : List Nat) (i : Nat) (hi : i ≤ ns.length) :
    nodeAt s (ns.take i ++ b :: ns.drop i) i = b := by
  unfold nodeAt
  have hl : (ns.take i).length = i := by simp [hi]
  rw [List.getD_eq_getElem?_getD, List.append_assoc, List.getElem?_append_right (by omega)]
  simp [hl]

/-- C21: for a well-formed list `l` with nodes `ns` (elements `xs = toSeq st l`)
and an index `i <= size`, `insert` at the iterator `std::next(begin(), i)`
(which is `end()` for `i = size`) leaves `xs[0..i) ++ [value] ++ xs[i..)`, makes
the size one more, and returns the new node, which is the node at index `i` of
the result and carries `value`; the ring is the old ring with the new node put
in at index `i`, so the old nodes keep their order, and each of them keeps its
payload. -/
theorem list_insert_positional (st : State T) (l : Nat) (ns : List Nat) (i : Nat) (v : T)
    (h : IsList st l ns) (hi : i ≤ size st l) :
    IsList (insert st l (iterAt st l i) v).1 l
        (ns.take i ++ (insert st l (iterAt st l i) v).2 :: ns.drop i) ∧
      toSeq (insert st l (iterAt st l i) v).1 l
        = (toSeq st l).take i ++ v :: (toSeq st l).drop i ∧
      size (insert st l (iterAt st l i) v).1 l = size st l + 1 ∧
      iterAt (insert st l (iterAt st l i) v).1 l i = (insert st l (iterAt st l i) v).2 ∧
      (insert st l (iterAt st l i) v).1.data (insert st l (iterAt st l i) v).2 = v ∧
      (insert st l (iterAt st l i) v).2 ∉ st.sentinel l :: ns ∧
      (∀ x ∈ ns, (insert st l (iterAt st l i) v).1.data x = st.data x) := by
  have hlen : i ≤ ns.length := by
    have := h.2.2.2
    unfold size at hi
    omega
  have hpos : iterAt st l i = nodeAt (st.sentinel l) (ns.drop i) 0 := by
    rw [iterAt_eq st l ns h i hlen, nodeAt_drop _ _ _ hlen]
  have h1 := insert_node_isList st l (iterAt st l i) v (ns.take i) (ns.drop i)
    (by rw [List.take_append_drop]; exact h) hpos
  have hd := insert_node_data st l (iterAt st l i) v
  have hlt := h.2.2.1
  have hold : ∀ x ∈ ns, (_M_insert_node st l (iterAt st l i) v).1.data x = st.data x := by
    intro x hx
    have := hlt x (List.mem_cons_of_mem _ hx)
    rw [hd, if_neg (by omega)]
  have hnew : st.brk ∉ st.sentinel l :: ns := by
    intro hm
    exact absurd (hlt _ hm) (lt_irrefl _)
  unfold insert
  rw [insert_node_ret]
  refine ⟨h1, ?_, ?_, ?_, ?_, hnew, hold⟩
  · rw [toSeq_eq _ _ _ h1, toSeq_eq _ _ _ h]
    simp only [elems, List.map_append, List.map_cons, hd, if_true, List.map_take, List.map_drop]
    have e1 : ∀ (k : List Nat), (∀ x ∈ k, x ∈ ns) →
        k.map (_M_insert_node st l (iterAt st l i) v).1.data = k.map st.data := by
      intro k hk
      apply List.map_congr_left
      intro x hx
      exact hold x (hk x hx)
    rw [e1 ns (fun x hx => hx)]
  · have := h1.2.2.2
    unfold size
    rw [this, h.2.2.2]
    simp
    omega
  · rw [iterAt_eq _ l _ h1 i (by simp; omega)]
    exact nodeAt_inserted _ _ ns i hlen
  · rw [hd, if_pos rfl]

/-- C21 at the list `{1, 2, 3}` and `i = 1`. -/
theorem list_insert_positional_witness :
    (IsList demoSplice 0 [2, 3, 4] ∧ 1 ≤ size demoSplice 0) ∧
      toSeq (insert demoSplice 0 (iterAt demoSplice 0 1) 9).1 0
        = (toSeq demoSplice 0).take 1 ++ 9 :: (toSeq demoSplice 0).drop 1 :=
  ⟨⟨by decide, by decide⟩,
    (list_insert_positional demoSplice 0 [2, 3, 4] 1 9 (by decide) (by decide)).2.1⟩

/-- C22: for a well-formed list `l1` (elements `xs`), the copy constructor run
on a new object `tmp` returns and leaves `tmp` with exactly `xs` and the size of
`l1`; copy assignment `l2 = l1` to a well-formed list `l2` of any contents
(`tmp` being the by-value parameter that is copied, swapped and destroyed)
returns and leaves `l2` with exactly `xs` and the size of `l1`; in both cases
`l1` is the same ring of the same nodes with the same elements and size. -/
theorem list_copy_keeps_source (st : State T) (l1 l2 tmp : Nat) (ns ps : List Nat)
    (h1 : IsList st l1 ns) (h2 : IsList st l2 ps)
    (hd : l2 ≠ l1 → st.sentinel l2 ∉ st.sentinel l1 :: ns)
    (ht1 : tmp ≠ l1) (ht2 : tmp ≠ l2) :
    (∃ st', list_copy_ctor st.brk st tmp l1 = some st' ∧
      toSeq st' tmp = toSeq st l1 ∧ size st' tmp = size st l1 ∧
      IsList st' l1 ns ∧ toSeq st' l1 = toSeq st l1 ∧ size st' l1 = size st l1) ∧
    (∃ st', assign st.brk st l2 l1 tmp = some st' ∧
      toSeq st' l2 = toSeq st l1 ∧ size st' l2 = size st l1 ∧
      (l2 ≠ l1 → IsList st' l1 ns) ∧ toSeq st' l1 = toSeq st l1 ∧
      size st' l1 = size st l1) := by
  have hf1 : ns.length < st.brk := by
    have := length_le_of_nodup_lt _ _ h1.2.1 h1.2.2.1
    simp at this; omega
  have hf2 : ps.length < st.brk := by
    have := length_le_of_nodup_lt _ _ h2.2.1 h2.2.2.1
    simp at this; omega
  obtain ⟨s1, ms, c1, c2, c3, c4, c5, c6, c7⟩ :=
    list_copy_ctor_spec st.brk st tmp l1 ns ht1 h1 hf1
  have hl1 : IsList s1 l1 ns :=
    isList_below st s1 l1 ns st.brk h1 h1.2.2.1 c5 (c6 l1 (Ne.symm ht1)) c7
  have hl2 : IsList s1 l2 ps :=
    isList_below st s1 l2 ps st.brk h2 h2.2.2.1 c5 (c6 l2 (Ne.symm ht2)) c7
  have hdat : ∀ x, x < st.brk → s1.data x = st.data x := by
    intro x hx
    simp only [State.data, c5 x hx]
  have hel : elems s1 ns = elems st ns := by
    unfold elems
    apply List.map_congr_left
    intro x hx
    exact hdat x (h1.2.2.1 x (List.mem_cons_of_mem _ hx))
  have hsz : ∀ (s : State T) (c : Nat) (k : List Nat), IsList s c k → size s c = k.length :=
    fun s c k hk => hk.2.2.2
  have hlen : ms.length = ns.length := by
    have := congrArg List.length c3
    simpa [elems] using this
  refine ⟨⟨s1, c1, ?_, ?_, hl1, ?_, ?_⟩, ?_⟩
  · rw [toSeq_eq _ _ _ c2, toSeq_eq _ _ _ h1, c3]
  · rw [hsz _ _ _ c2, hsz _ _ _ h1, hlen]
  · rw [toSeq_eq _ _ _ hl1, toSeq_eq _ _ _ h1, hel]
  · rw [hsz _ _ _ hl1, hsz _ _ _ h1]
  · obtain ⟨o1, o2, o3, o4, o5, _⟩ := swap_obj s1 l2 tmp
    have w2 : IsList (swap s1 l2 tmp) l2 ms := isList_obj s1 _ l2 tmp ms c2 o4 o5 o1
    have wt : IsList (swap s1 l2 tmp) tmp ps := isList_obj s1 _ tmp l2 ps hl2 o4 o5 o2
    have hst : (swap s1 l2 tmp).sentinel tmp = st.sentinel l2 := by
      simp only [State.sentinel, o2, c6 l2 (Ne.symm ht2)]
    have hs2 : (swap s1 l2 tmp).sentinel l2 = s1.sentinel tmp := by
      simp only [State.sentinel, o1]
    obtain ⟨s3, d1, d2, d3, d4, d5, d6⟩ :=
      list_dtor_spec st.brk (swap s1 l2 tmp) tmp ps wt hf2
    have hold : st.sentinel l2 < st.brk := h2.2.2.1 _ (List.mem_cons_self _ _)
    have g2 : IsList s3 l2 ms := by
      refine isList_frame _ s3 l2 ms w2 ?_ ?_ (d4 l2) (d5 l2 (Ne.symm ht2)) (by omega)
      · intro x hx
        rw [hs2] at hx
        have := c4 x hx
        exact (d2 x (by rw [hst]; omega)).1
      · intro x hx
        rw [hs2] at hx
        have := c4 x hx
        exact (d2 x (by rw [hst]; omega)).2
    have hd3 : ∀ x, s3.data x = s1.data x := by
      intro x
      rw [d3 x]
      simp only [State.data, o4]
    have e2 : toSeq s3 l2 = toSeq st l1 := by
      rw [toSeq_eq _ _ _ g2, toSeq_eq _ _ _ h1, ← c3]
      exact elems_congr _ _ _ hd3
    have z2 : size s3 l2 = size st l1 := by
      rw [hsz _ _ _ g2, hsz _ _ _ h1, hlen]
    have hassign : assign st.brk st l2 l1 tmp = some s3 := by
      simp only [assign, c1]
      exact d1
    by_cases hne : l2 = l1
    · subst hne
      exact ⟨s3, hassign, e2, z2, fun hx => absurd rfl hx, e2, z2⟩
    · have w1 : IsList (swap s1 l2 tmp) l1 ns := by
        refine isList_frame s1 _ l1 ns hl1 ?_ ?_ ?_ ?_ (by omega)
        · intro x _; simp only [State.next, o4]
        · intro x _; simp only [State.prev, o4]
        · simp only [State.sentinel, o3 l1 (Ne.symm hne) (Ne.symm ht1)]
        · simp only [State.msize, o3 l1 (Ne.symm hne) (Ne.symm ht1)]
      have hs1 : (swap s1 l2 tmp).sentinel l1 = st.sentinel l1 := by
        simp only [State.sentinel, o3 l1 (Ne.symm hne) (Ne.symm ht1), c6 l1 (Ne.symm ht1)]
      have g1 : IsList s3 l1 ns := by
        refine isList_frame _ s3 l1 ns w1 ?_ ?_ (d4 l1) (d5 l1 (Ne.symm ht1)) (by omega)
        · intro x hx
          rw [hs1] at hx
          exact (d2 x (by rw [hst]; intro e; exact hd hne (e ▸ hx))).1
        · intro x hx
          rw [hs1] at hx
          exact (d2 x (by rw [hst]; intro e; exact hd hne (e ▸ hx))).2
      refine ⟨s3, hassign, e2, z2, fun _ => g1, ?_, ?_⟩
      · rw [toSeq_eq _ _ _ g1, toSeq_eq _ _ _ h1, ← hel]
        exact elems_congr _ _ _ hd3
      · rw [hsz _ _ _ g1, hsz _ _ _ h1]

/-- The copy of `{1, 2, 3}` as object 2. -/
theorem demoSplice_copy :
    (list_copy_ctor demoSplice.brk demoSplice 2 0).map (fun s => (toSeq s 2, toSeq s 0))
      = some ([1, 2, 3], [1, 2, 3]) := by decide

/-- C22 at `l1 = {1, 2, 3}` and `l2 = {4, 5}`. -/
theorem list_copy_keeps_source_witness :
    (IsList demoSplice 0 [2, 3, 4] ∧ IsList demoSplice 1 [6, 7] ∧
      ((1 : Nat) ≠ 0 → demoSplice.sentinel 1 ∉ demoSplice.sentinel 0 :: [2, 3, 4])) ∧
    (∃ st', assign demoSplice.brk demoSplice 1 0 2 = some st' ∧
      toSeq st' 1 = toSeq demoSplice 0 ∧ size st' 1 = size demoSplice 0 ∧
      ((1 : Nat) ≠ 0 → IsList st' 0 [2, 3, 4]) ∧ toSeq st' 0 = toSeq demoSplice 0 ∧
      size st' 0 = size demoSplice 0) :=
  ⟨⟨by decide, by decide, by decide⟩,
    (list_copy_keeps_source demoSplice 0 1 2 [2, 3, 4] [6, 7] (by decide) (by decide)
      (by decide) (by decide) (by decide)).2⟩

/-- C23: `swap(a, b)` on two well-formed lists exchanges the element sequences
and the sizes, and a second `swap(a, b)` gives back the very same store; the
move constructor run on a new object `l3` with source `l1` leaves `l3` with the
former elements and size of `l1`, and `l1` an empty well-formed list (size 0,
the sentinel linked to itself in both directions) on which `push_back(v)` gives
the one-element list `{v}`. -/
theorem list_swap_and_move (st : State T) (a b l1 l3 : Nat) (na nb n1 : List Nat) (v : T)
    (ha : IsList st a na) (hb : IsList st b nb) (h1 : IsList st l1 n1) (hne : l3 ≠ l1) :
    (toSeq (swap st a b) a = toSeq st b ∧ toSeq (swap st a b) b = toSeq st a ∧
      size (swap st a b) a = size st b ∧ size (swap st a b) b = size st a ∧
      swap (swap st a b) a b = st) ∧
    (toSeq (list_move_ctor st l3 l1) l3 = toSeq st l1 ∧
      size (list_move_ctor st l3 l1) l3 = size st l1 ∧
      IsList (list_move_ctor st l3 l1) l1 [] ∧
      toSeq (list_move_ctor st l3 l1) l1 = [] ∧
      size (list_move_ctor st l3 l1) l1 = 0 ∧
      (list_move_ctor st l3 l1).next ((list_move_ctor st l3 l1).sentinel l1)
        = (list_move_ctor st l3 l1).sentinel l1 ∧
      (list_move_ctor st l3 l1).prev ((list_move_ctor st l3 l1).sentinel l1)
        = (list_move_ctor st l3 l1).sentinel l1 ∧
      toSeq (push_back (list_move_ctor st l3 l1) l1 v) l1 = [v] ∧
      size (push_back (list_move_ctor st l3 l1) l1 v) l1 = 1) := by
  obtain ⟨o1, o2, _, o4, o5, _⟩ := swap_obj st a b
  have wa : IsList (swap st a b) a nb := isList_obj st _ a b nb hb o4 o5 o1
  have wb : IsList (swap st a b) b na := isList_obj st _ b a na ha o4 o5 o2
  have hdat : ∀ x, (swap st a b).data x = st.data x := by
    intro x
    simp only [State.data, o4]
  obtain ⟨m1, m2, m3, m4, m5, _, _⟩ := list_move_ctor_spec st l3 l1 n1 hne h1
  have hdm : elems (list_move_ctor st l3 l1) n1 = elems st n1 := by
    unfold elems
    apply List.map_congr_left
    intro x hx
    show ((list_move_ctor st l3 l1).mem x).data = (st.mem x).data
    rw [m5 x (h1.2.2.1 x (List.mem_cons_of_mem _ hx))]
  obtain ⟨q1, q2⟩ := push_back_isList (list_move_ctor st l3 l1) l1 v [] m2
  refine ⟨⟨?_, ?_, ?_, ?_, swap_swap st a b⟩, ?_, ?_, m2, ?_, ?_, ?_, ?_, ?_, ?_⟩
  · rw [toSeq_eq _ _ _ wa, toSeq_eq _ _ _ hb]
    exact elems_congr _ _ _ hdat
  · rw [toSeq_eq _ _ _ wb, toSeq_eq _ _ _ ha]
    exact elems_congr _ _ _ hdat
  · simp only [size, State.msize, o1]
  · simp only [size, State.msize, o2]
  · rw [toSeq_eq _ _ _ m1, toSeq_eq _ _ _ h1, hdm]
  · show (list_move_ctor st l3 l1).msize l3 = st.msize l1
    rw [m1.2.2.2, h1.2.2.2]
  · rw [toSeq_eq _ _ _ m2]; rfl
  · exact m2.2.2.2
  · have := ring_next_sentinel _ _ _ m2.1
    simpa using this
  · have := ring_prev_pos (list_move_ctor st l3 l1) ((list_move_ctor st l3 l1).sentinel l1)
      [] [] (by simpa using m2.1)
    simpa using this
  · rw [toSeq_eq _ _ _ q1, q2]; rfl
  · exact q1.2.2.2

/-- C23 at `a = {1, 2, 3}`, `b = {4, 5}`, and a move of `{1, 2, 3}` into a new
object 2. -/
theorem list_swap_and_move_witness :
    (IsList demoSplice 0 [2, 3, 4] ∧ IsList demoSplice 1 [6, 7]) ∧
    (toSeq (swap demoSplice 0 1) 0 = toSeq demoSplice 1 ∧
      toSeq (swap demoSplice 0 1) 1 = toSeq demoSplice 0 ∧
      size (swap demoSplice 0 1) 0 = size demoSplice 1 ∧
      size (swap demoSplice 0 1) 1 = size demoSplice 0 ∧
      swap (swap demoSplice 0 1) 0 1 = demoSplice) :=
  ⟨⟨by decide, by decide⟩,
    (list_swap_and_move demoSplice 0 1 0 2 [2, 3, 4] [6, 7] [2, 3, 4] 9 (by decide) (by decide)
      (by decide) (by decide)).1⟩

/-! ## Claims C25 to C27: the set searches of the growable buffer -/

/-- C25: for a buffer `s` holding the characters `cs`, a buffer `chars` holding
`ks` and every `pos`, `find_first_of(chars, pos)` is the least offset `i` with
`pos <= i < size` whose character `cs[i]` is one of `ks` (and then it is not
`npos`), and it is `npos` if there is no such offset; in particular it is `npos`
for an empty set. -/
theorem find_first_of_membership {C : Type} [DecidableEq C] (m : SMem C)
    (s chars : basic_string) (cs ks : List C) (pos : Nat)
    (hs : basic_string.Chars m.toVMem s cs) (hk : basic_string.Chars m.toVMem chars ks)
    (hz : s.size < SIZE_MOD) :
    ((∃ i, pos ≤ i ∧ i < s.size ∧ (∃ c ∈ ks, cs.get? i = some c) ∧
        (∀ k, pos ≤ k → k < i → ¬ ∃ c ∈ ks, cs.get? k = some c) ∧
        basic_string.find_first_of m s chars pos = i ∧ i ≠ npos) ∨
      ((∀ k, pos ≤ k → k < s.size → ¬ ∃ c ∈ ks, cs.get? k = some c) ∧
        basic_string.find_first_of m s chars pos = npos)) ∧
      (ks = [] → basic_string.find_first_of m s chars pos = npos) := by
  have hsz : s._size = cs.length := hs.1
  have hkz : chars._size = ks.length := hk.1
  have hempty : ks = [] → basic_string.find_first_of m s chars pos = npos := by
    intro e
    have : chars._size = 0 := by rw [hkz, e]; rfl
    simp [basic_string.find_first_of, basic_string.empty, this]
  refine ⟨?_, hempty⟩
  unfold basic_string.size at hz ⊢
  by_cases hg : chars.empty = true ∨ s._size = 0 ∨ pos ≥ s._size
  · right
    refine ⟨?_, by simp only [basic_string.find_first_of, hg, if_true]⟩
    intro k k1 k2
    rcases hg with hg | hg | hg
    · have : ks = [] := by
        have : chars._size = 0 := by simpa [basic_string.empty] using hg
        exact List.length_eq_zero.1 (by omega)
      subst this
      simp
    · omega
    · omega
  · have hfo : basic_string.find_first_of m s chars pos
        = basic_string.first_of_loop m s chars (s._size - pos) pos := by
      simp only [basic_string.find_first_of, hg, if_false]
    have hpos : pos < s._size := by
      by_contra hh
      exact hg (Or.inr (Or.inr (by omega)))
    rw [hfo]
    rcases basic_string.first_of_loop_spec m s chars (s._size - pos) pos with
      ⟨h1, h2⟩ | ⟨h1, h2, h3, h4⟩
    · right
      refine ⟨fun k k1 k2 hex => ?_, h1⟩
      have := h2 k k1 (by omega)
      rw [(basic_string.member_chars m s chars cs ks hs hk k (by omega)).1.2 hex] at this
      exact absurd this (by simp)
    · left
      refine ⟨_, h1, by omega, ?_, ?_, rfl, ?_⟩
      · exact (basic_string.member_chars m s chars cs ks hs hk _ (by omega)).1.1 h3
      · intro k k1 k2 hex
        have := h4 k k1 k2
        rw [(basic_string.member_chars m s chars cs ks hs hk k (by omega)).1.2 hex] at this
        exact absurd this (by simp)
      · unfold npos
        omega

/-- The buffers `"hello world"` and `"world"`, the second built next to the
first. -/
theorem demoHello_chars :
    basic_string.Chars demoHelloWorld.1.toVMem demoHello.2 txtHello ∧
      basic_string.Chars demoHelloWorld.1.toVMem demoHelloWorld.2 [119, 111, 114, 108, 100] := by
  decide

/-- C25 at `"hello world".find_first_of("world", 0)`, which is 2. -/
theorem find_first_of_membership_witness :
    (basic_string.Chars demoHelloWorld.1.toVMem demoHello.2 txtHello ∧
      basic_string.Chars demoHelloWorld.1.toVMem demoHelloWorld.2 [119, 111, 114, 108, 100] ∧
      demoHello.2.size < SIZE_MOD) ∧
    basic_string.find_first_of demoHelloWorld.1 demoHello.2 demoHelloWorld.2 0 = 2 ∧
    ((∃ i, 0 ≤ i ∧ i < demoHello.2.size ∧
        (∃ c ∈ [119, 111, 114, 108, 100], txtHello.get? i = some c) ∧
        (∀ k, 0 ≤ k → k < i → ¬ ∃ c ∈ [119, 111, 114, 108, 100], txtHello.get? k = some c) ∧
        basic_string.find_first_of demoHelloWorld.1 demoHello.2 demoHelloWorld.2 0 = i ∧
        i ≠ npos) ∨
      ((∀ k, 0 ≤ k → k < demoHello.2.size →
          ¬ ∃ c ∈ [119, 111, 114, 108, 100], txtHello.get? k = some c) ∧
        basic_string.find_first_of demoHelloWorld.1 demoHello.2 demoHelloWorld.2 0 = npos)) :=
  ⟨⟨demoHello_chars.1, demoHello_chars.2, by decide⟩, by decide,
    (find_first_of_membership demoHelloWorld.1 demoHello.2 demoHelloWorld.2 txtHello
      [119, 111, 114, 108, 100] 0 demoHello_chars.1 demoHello_chars.2 (by decide)).1⟩

/-! ## Claim C28: substring extraction -/

/-- C24: `find(const CharT*, pos)` is right on the two searches of the scenario,
`"hello world".find("world") = 6` and `"hello world".find("xyz") = npos`, but
not for a needle longer than the buffer.  After `basic_string s("ab");
s.pop_back();` the buffer holds `"a"` (size 1), and `s.find("ab")` returns 0,
although `0 + 2 <= size` fails: the bound `_size - s_len` of the loop has wrapped
to `2^64 - 1`, and the comparison reads offset 1, beyond the size.  On the fresh
buffer `"ab"`, `find("abc")` has not returned after 64 passes of that loop,
where `npos` is due at once. -/
theorem find_needle_longer_than_buffer :
    basic_string.find 64 demoHello.1 demoHello.2 13 0 = some 6 ∧
      basic_string.find 64 demoHello.1 demoHello.2 19 0 = some npos ∧
      basic_string.CStr demoAb.1 23 [97, 98] ∧
      basic_string.Chars demoAb.1.toVMem (basic_string.pop_back demoAb.2) [97] ∧
      (basic_string.pop_back demoAb.2).size = 1 ∧
      basic_string.find 64 demoAb.1 (basic_string.pop_back demoAb.2) 23 0 = some 0 ∧
      size_sub (basic_string.pop_back demoAb.2).size 2 = SIZE_MOD - 1 ∧
      basic_string.CStr demoAb.1 26 [97, 98, 99] ∧
      basic_string.Chars demoAb.1.toVMem demoAb.2 [97, 98] ∧
      basic_string.find 64 demoAb.1 demoAb.2 26 0 = none := by
  decide

/-- C26: with `basic_string s("abc")` and an empty buffer `e`,
`s.find_first_not_of(e, 0)` is `npos`, although offset 0 is the least offset
whose character equals no character of the empty set; the sibling
`s.find_last_not_of(e)` does return an offset, 2, for the same set. -/
theorem find_first_not_of_empty_set :
    basic_string.Chars demoAbcEmpty.1.toVMem demoAbc.2 [97, 98, 99] ∧
      basic_string.Chars demoAbcEmpty.1.toVMem demoAbcEmpty.2 [] ∧
      basic_string.find_first_not_of demoAbcEmpty.1 demoAbc.2 demoAbcEmpty.2 0 = npos ∧
      npos ≠ 0 ∧
      basic_string.find_last_not_of demoAbcEmpty.1 demoAbc.2 demoAbcEmpty.2 npos = 2 := by
  decide

/-- C27: with `basic_string s("abc")` and its copy `t`, `s.find_last_not_of(t, 3)`
returns 3, an offset that is not below the size 3 (the slot read there is the
terminator), where no offset below the size carries a character outside the
set; and after `basic_string u("ab"); u.pop_back();` (the buffer `"a"`) and
`basic_string b("b")`, `u.find_last_of(b, 1)` returns 1, again not below the
size 1.  Both calls are right for `pos = npos`. -/
theorem find_last_beyond_size :
    basic_string.Chars demoAbcCopy.1.toVMem demoAbc.2 [97, 98, 99] ∧
      basic_string.Chars demoAbcCopy.1.toVMem demoAbcCopy.2 [97, 98, 99] ∧
      demoAbc.2.size = 3 ∧
      basic_string.find_last_not_of demoAbcCopy.1 demoAbc.2 demoAbcCopy.2 3 = 3 ∧
      basic_string.find_last_not_of demoAbcCopy.1 demoAbc.2 demoAbcCopy.2 npos = npos ∧
      basic_string.Chars demoAbB.1.toVMem (basic_string.pop_back demoAb.2) [97] ∧
      basic_string.Chars demoAbB.1.toVMem demoAbB.2 [98] ∧
      (basic_string.pop_back demoAb.2).size = 1 ∧
      basic_string.find_last_of demoAbB.1 (basic_string.pop_back demoAb.2) demoAbB.2 1 = 1 ∧
      basic_string.find_last_of demoAbB.1 (basic_string.pop_back demoAb.2) demoAbB.2 npos
        = npos := by
  decide

/-! ## Claims C29 and C30: the terminator and its slot -/

/-- The loop of the single-character `erase` moves each of the `n` slots from
index `i` one place down. -/
theorem erase_loop_cell {C : Type} (data : Int) :
    ∀ (n : Nat) (m : SMem C) (i : Nat) (x : Int),
      (basic_string.erase_loop data n m i).cell x
        = if data + i ≤ x ∧ x < data + i + n then m.cell (x + 1) else m.cell x := by
  intro n
  induction n with
  | zero =>
    intro m i x
    have : ¬ (data + i ≤ x ∧ x < data + i + (0 : Nat)) := by omega
    simp only [basic_string.erase_loop, this, if_false]
  | succ n ih =>
    intro m i x
    simp only [basic_string.erase_loop]
    rw [ih]
    simp only [SMem.cell_set]
    push_cast
    split_ifs <;> first | rfl | (exfalso; omega) | (congr 1; omega)

/-- C29: on `basic_string s("abc")`, whose terminator is in
place, `pop_back()` leaves `'c'` at offset `size()`, `clear()` leaves `'a'`
there and `resize(1)` leaves `'b'`; `insert(1, 'x')` and `substr(1, npos)` leave
the slot at offset `size()` of the result unwritten, and so does `push_back` on
the copy of `s`, whose capacity is its size; an `erase(9, 1)` after that
`push_back` is out of range, writes nothing, and leaves the slot as it is. -/
theorem terminator_not_kept :
    basic_string.Term demoAbc.1 demoAbc.2 ∧
      demoAbc.1.cell ((basic_string.pop_back demoAbc.2)._data
        + (basic_string.pop_back demoAbc.2).size) = some 99 ∧
      ¬ basic_string.Term demoAbc.1 (basic_string.pop_back demoAbc.2) ∧
      demoAbc.1.cell ((basic_string.clear demoAbc.2)._data
        + (basic_string.clear demoAbc.2).size) = some 97 ∧
      ¬ basic_string.Term demoAbc.1 (basic_string.clear demoAbc.2) ∧
      ¬ basic_string.Term (basic_string.resize demoAbc.1 demoAbc.2 1).1
        (basic_string.resize demoAbc.1 demoAbc.2 1).2 ∧
      (basic_string.insert_ch 64 demoAbc.1 demoAbc.2 1 120).map
        (fun r => decide (basic_string.Term r.1 r.2)) = some false ∧
      (match basic_string.substr demoAbc.1 demoAbc.2 1 npos with
        | .ok r => decide (basic_string.Term r.1 r.2)
        | .error _ => true) = false ∧
      basic_string.Term demoAbcCopy.1 demoAbcCopy.2 ∧
      ¬ basic_string.Term (basic_string.push_back demoAbcCopy.1 demoAbcCopy.2 100).1
        (basic_string.push_back demoAbcCopy.1 demoAbcCopy.2 100).2 ∧
      ¬ basic_string.Term
        (basic_string.erase (basic_string.push_back demoAbcCopy.1 demoAbcCopy.2 100).1
          (basic_string.push_back demoAbcCopy.1 demoAbcCopy.2 100).2 9 1).1
        (basic_string.erase (basic_string.push_back demoAbcCopy.1 demoAbcCopy.2 100).1
          (basic_string.push_back demoAbcCopy.1 demoAbcCopy.2 100).2 9 1).2.1 := by
  decide

/-- The operations that do write the terminator: it is at offset `size()`
after the default constructor, the constructor from a C string, the copy
constructor, `append` of a C string, copy assignment from another buffer, and
`c_str()`; and on a buffer whose terminator is in place it is in place again
after self-assignment, after `erase(pos, count)`, after `erase(first, last)`
and after `erase(it)`. -/
theorem terminator_where_written {C : Type} [DecidableEq C] [Zero C] (m : SMem C)
    (s other : basic_string) (p : Int) (t : List C) (fuel pos count : Nat)
    (first last it : Int)
    (hc : basic_string.CStr m p t) (hp : p ≠ 0) (hf : t.length < fuel) :
    basic_string.Term (basic_string.ctor m).1 (basic_string.ctor m).2 ∧
      (∃ r, basic_string.ctor_cstr fuel m p = some r ∧ basic_string.Term r.1 r.2) ∧
      basic_string.Term (basic_string.ctor_copy m other).1 (basic_string.ctor_copy m other).2 ∧
      (∃ r, basic_string.append fuel m s p = some r ∧ basic_string.Term r.1 r.2) ∧
      basic_string.Term (basic_string.c_str m s).1 s ∧
      basic_string.Term (basic_string.copy_assign m s other false).1
        (basic_string.copy_assign m s other false).2 ∧
      (basic_string.Term m s →
        basic_string.Term (basic_string.copy_assign m s s true).1
          (basic_string.copy_assign m s s true).2 ∧
        basic_string.Term (basic_string.erase m s pos count).1
          (basic_string.erase m s pos count).2.1 ∧
        basic_string.Term (basic_string.erase_range m s first last).1
          (basic_string.erase_range m s first last).2.1 ∧
        basic_string.Term (basic_string.erase_it m s it).1
          (basic_string.erase_it m s it).2.1) := by
  have hlen := SMem.length_spec m p t fuel hc hf
  refine ⟨?_, ?_, ?_, ?_, ?_, ?_, fun hT => ⟨?_, ?_, ?_, ?_⟩⟩
  · simp [basic_string.Term, basic_string.ctor]
  · simp only [basic_string.ctor_cstr, hlen]
    exact ⟨_, rfl, by simp [basic_string.Term]⟩
  · simp [basic_string.Term, basic_string.ctor_copy]
  · simp only [basic_string.append, hp, if_false, hlen]
    exact ⟨_, rfl, by simp [basic_string.Term]⟩
  · simp [basic_string.Term, basic_string.c_str]
  · simp [basic_string.Term, basic_string.copy_assign]
  · simpa [basic_string.copy_assign] using hT
  · unfold basic_string.erase
    by_cases h1 : pos ≥ s._size
    · simpa only [h1, if_true] using hT
    · simp only [h1, if_false]
      generalize (if (pos + count) % SIZE_MOD > s._size then s._size - pos else count) = c
      by_cases h2 : c = 0
      · simpa only [h2, if_true] using hT
      · simp [h2, basic_string.Term]
  · simp only [basic_string.erase_range]
    by_cases h1 : size_sub (to_size (last - s._data)) (to_size (first - s._data)) = 0
    · simpa only [h1, if_true] using hT
    · simp [h1, basic_string.Term]
  · simp only [basic_string.erase_it]
    by_cases h1 : to_size (it - s._data) ≥ s._size
    · simpa only [h1, if_true] using hT
    · have hlt : to_size (it - s._data) < s._size := by omega
      simp only [h1, if_false]
      show (basic_string.erase_loop s._data (s._size - to_size (it - s._data)) m
        (to_size (it - s._data))).cell (s._data + ((s._size - 1 : Nat) : Int)) = some 0
      rw [erase_loop_cell, if_pos (by constructor <;> omega)]
      have e : s._data + ((s._size - 1 : Nat) : Int) + 1 = s._data + (s._size : Int) := by omega
      rw [e]
      exact hT

/-- The buffer `"abc"` of `demoAbc` has its terminator in place and the literal
`"ab"` is a C string. -/
theorem demoAbc_term :
    basic_string.Term demoAbc.1 demoAbc.2 ∧ basic_string.CStr demoAbc.1 23 [97, 98] := by
  decide

/-- The operations that write the terminator, at `basic_string s("abc")` with
`append("ab")`, `erase(1, 1)`, and the erasure of the character at offset 1
through iterators. -/
theorem terminator_where_written_demo :
    (basic_string.CStr demoAbc.1 23 [97, 98] ∧ (23 : Int) ≠ 0 ∧ [97, 98].length < 64 ∧
      basic_string.Term demoAbc.1 demoAbc.2) ∧
    (∃ r, basic_string.append 64 demoAbc.1 demoAbc.2 23 = some r ∧ basic_string.Term r.1 r.2) ∧
    basic_string.Term (basic_string.erase demoAbc.1 demoAbc.2 1 1).1
      (basic_string.erase demoAbc.1 demoAbc.2 1 1).2.1 ∧
    basic_string.Term (basic_string.erase_it demoAbc.1 demoAbc.2 (demoAbc.2._data + 1)).1
      (basic_string.erase_it demoAbc.1 demoAbc.2 (demoAbc.2._data + 1)).2.1 :=
  ⟨⟨demoAbc_term.2, by decide, by decide, demoAbc_term.1⟩,
    (terminator_where_written demoAbc.1 demoAbc.2 demoAbc.2 23 [97, 98] 64 1 1
      (demoAbc.2._data + 1) (demoAbc.2._data + 2) (demoAbc.2._data + 1)
      demoAbc_term.2 (by decide) (by decide)).2.2.2.1,
    ((terminator_where_written demoAbc.1 demoAbc.2 demoAbc.2 23 [97, 98] 64 1 1
      (demoAbc.2._data + 1) (demoAbc.2._data + 2) (demoAbc.2._data + 1)
      demoAbc_term.2 (by decide) (by decide)).2.2.2.2.2.2 demoAbc_term.1).2.1,
    ((terminator_where_written demoAbc.1 demoAbc.2 demoAbc.2 23 [97, 98] 64 1 1
      (demoAbc.2._data + 1) (demoAbc.2._data + 2) (demoAbc.2._data + 1)
      demoAbc_term.2 (by decide) (by decide)).2.2.2.2.2.2 demoAbc_term.1).2.2.2⟩

/-- C30: `basic_string a("abc"); basic_string s(a); s.erase(1, npos);`.  The
copy has size 3, capacity 3 and a block of 4 slots; `1 + npos` wraps to 0, so
the count is not clamped, and `_size -= count` leaves size 4, above the
capacity 3 and equal to the number of slots of the block, so that offset
`size()` is outside the allocation. -/
theorem erase_npos_breaks_slot :
    basic_string.Slot demoAbcCopy.1 demoAbcCopy.2 ∧
      demoAbcCopy.2.size = 3 ∧ demoAbcCopy.2.capacity = 3 ∧
      (1 + npos) % SIZE_MOD = 0 ∧
      (basic_string.erase demoAbcCopy.1 demoAbcCopy.2 1 npos).2.1.size = 4 ∧
      (basic_string.erase demoAbcCopy.1 demoAbcCopy.2 1 npos).2.1.capacity = 3 ∧
      (basic_string.erase demoAbcCopy.1 demoAbcCopy.2 1 npos).1.blk
        (basic_string.erase demoAbcCopy.1 demoAbcCopy.2 1 npos).2.1._data = 4 ∧
      ¬ basic_string.Slot (basic_string.erase demoAbcCopy.1 demoAbcCopy.2 1 npos).1
        (basic_string.erase demoAbcCopy.1 demoAbcCopy.2 1 npos).2.1 := by
  decide

/-! ## Contiguous sequence: the capacity after `push_back` -/

namespace vector

/-- Size and capacity agree exactly when `_end` has reached `_cap`. -/
theorem full_iff {m : VMem T} {v : vector} {xs : List T} (h : Holds m v xs) :
    v.size = v.capacity ↔ v._end = v._cap := by
  have h1 := holds_capacity h
  have h2 := holds_size h
  obtain ⟨_, _, _, _, h5, _⟩ := h
  constructor
  · intro e
    rw [h2] at e
    omega
  · intro e
    rw [h2]
    omega

/-- The growth step gives capacity `max(1, 2 * capacity)` to a full vector and
leaves the capacity of any other vector as it is. -/
theorem grow_capacity (fuel : Nat) (m : VMem T) (v : vector) (xs : List T)
    (h : Holds m v xs) (h2 : 2 * v.capacity < SIZE_MOD) (hf : xs.length < fuel) :
    ∃ m1 v1, grow fuel m v = some (m1, v1) ∧
      v1.capacity = if v.size = v.capacity then max 1 (2 * v.capacity) else v.capacity := by
  by_cases he : v._end = v._cap
  · have hfull := (full_iff h).2 he
    have hnc : (if v.capacity = 0 then 1 else (v.capacity * 2) % SIZE_MOD)
        = max 1 (2 * v.capacity) := by
      by_cases h0 : v.capacity = 0
      · rw [if_pos h0, h0]; rfl
      · rw [if_neg h0, Nat.mod_eq_of_lt (by omega)]
        omega
    have hlt : v.capacity < max 1 (2 * v.capacity) := by omega
    have hS : 1 < SIZE_MOD := by decide
    obtain ⟨m', e1, _, _, _⟩ := reserve_spec fuel m v xs _ h hlt (by omega) hf
    refine ⟨m', ⟨m.brk, m.brk + xs.length, m.brk + (max 1 (2 * v.capacity) : Nat)⟩, ?_, ?_⟩
    · unfold grow
      rw [if_pos he, hnc]
      exact e1
    · rw [if_pos hfull]
      show to_size (m.brk + (max 1 (2 * v.capacity) : Nat) - m.brk) = _
      rw [add_sub_cancel_left]
      exact to_size_natCast _ (by omega)
  · have hnf : ¬ v.size = v.capacity := fun e => he ((full_iff h).1 e)
    refine ⟨m, v, ?_, ?_⟩
    · unfold grow
      rw [if_neg he]
    · rw [if_neg hnf]

/-- Both `push_back` overloads return, the moving one with the element
appended, and give capacity `max(1, 2 * capacity)` to a full vector and leave
the capacity of any other vector as it is. -/
theorem push_back_capacity (fuel : Nat) (m : VMem T) (v : vector) (xs : List T) (value : T)
    (h : Holds m v xs) (h2 : 2 * v.capacity < SIZE_MOD) (hf : xs.length < fuel) :
    (∃ (m' : VMem T) (v' : vector), vector.push_back fuel m v value = some (m', v') ∧
      Holds m' v' (xs ++ [value]) ∧
      v'.capacity = if v.size = v.capacity then max 1 (2 * v.capacity) else v.capacity) ∧
    (∃ (m' : VMem T) (v' : vector), push_back_const fuel m v value = some (m', v') ∧
      v'.capacity = if v.size = v.capacity then max 1 (2 * v.capacity) else v.capacity) := by
  obtain ⟨m1, v1, e1, e2⟩ := grow_capacity fuel m v xs h h2 hf
  obtain ⟨m', v', p1, p2⟩ := push_back_spec fuel m v xs value h h2 hf
  have hm : (m1.write v1._end (some value), ({ v1 with _end := v1._end + 1 } : vector))
      = (m', v') := by
    have q := p1
    unfold vector.push_back at q
    simp only [e1] at q
    exact Option.some.inj q
  obtain ⟨rfl, rfl⟩ := Prod.mk.inj hm
  refine ⟨⟨_, _, p1, p2, e2⟩, ⟨m1.write v1._end (some value), v1, ?_, e2⟩⟩
  unfold push_back_const
  simp only [e1]

/-- Twice a power of two that is the least one above a number up to `2^62`
is a `size_t` value. -/
theorem pow2_bound (n k : Nat) (hn : n ≤ 2 ^ 62) (hk : k = 0 ∨ 2 ^ (k - 1) < n) :
    2 * 2 ^ k < SIZE_MOD := by
  have hk62 : k ≤ 62 := by
    by_contra hc
    rcases hk with hk | hk
    · omega
    · have : 2 ^ 62 ≤ 2 ^ (k - 1) := Nat.pow_le_pow_right (by norm_num) (by omega)
      omega
  have : 2 ^ k ≤ 2 ^ 62 := Nat.pow_le_pow_right (by norm_num) hk62
  have e : SIZE_MOD = 2 * 2 ^ 62 * 2 := by decide
  omega

/-- The capacity after a run of moving `push_back` calls: it stays `0` with no
element, or the least power of two that is at least the size. -/
theorem push_back_all_capacity (fuel : Nat) :
    ∀ (ys : List T) (m : VMem T) (v : vector) (xs : List T), Holds m v xs →
      ((xs.length = 0 ∧ v.capacity = 0) ∨
        ∃ k, v.capacity = 2 ^ k ∧ xs.length ≤ 2 ^ k ∧ (k = 0 ∨ 2 ^ (k - 1) < xs.length)) →
      xs.length + ys.length ≤ 2 ^ 62 → xs.length + ys.length ≤ fuel →
      ∃ m' v', push_back_all fuel m v ys = some (m', v') ∧ Holds m' v' (xs ++ ys) ∧
        (((xs ++ ys).length = 0 ∧ v'.capacity = 0) ∨
          ∃ k, v'.capacity = 2 ^ k ∧ (xs ++ ys).length ≤ 2 ^ k ∧
            (k = 0 ∨ 2 ^ (k - 1) < (xs ++ ys).length)) := by
  intro ys
  induction ys with
  | nil =>
    intro m v xs h hc _ _
    exact ⟨m, v, rfl, by simpa using h, by simpa using hc⟩
  | cons y ys ih =>
    intro m v xs h hc hn hf
    simp only [List.length_cons] at hn hf
    have hsz := holds_size h
    have h2 : 2 * v.capacity < SIZE_MOD := by
      rcases hc with ⟨_, c0⟩ | ⟨k, c1, c2, c3⟩
      · rw [c0]; decide
      · rw [c1]
        exact pow2_bound xs.length k (by omega) c3
    obtain ⟨⟨m1, v1, p1, p2, p3⟩, _⟩ := push_back_capacity fuel m v xs y h h2 (by omega)
    have hc1 : ((xs ++ [y]).length = 0 ∧ v1.capacity = 0) ∨
        ∃ k, v1.capacity = 2 ^ k ∧ (xs ++ [y]).length ≤ 2 ^ k ∧
          (k = 0 ∨ 2 ^ (k - 1) < (xs ++ [y]).length) := by
      right
      simp only [List.length_append, List.length_singleton]
      rw [p3, hsz]
      rcases hc with ⟨n0, c0⟩ | ⟨k, c1, c2, c3⟩
      · refine ⟨0, ?_, by rw [n0]; norm_num, Or.inl rfl⟩
        rw [n0, c0]; rfl
      · rw [c1]
        by_cases hfull : xs.length = 2 ^ k
        · have h1 : 1 ≤ 2 ^ k := Nat.one_le_two_pow
          refine ⟨k + 1, ?_, ?_, Or.inr ?_⟩
          · rw [if_pos hfull, pow_succ]; omega
          · rw [pow_succ]; omega
          · rw [Nat.add_sub_cancel]; omega
        · refine ⟨k, by rw [if_neg hfull], by omega, ?_⟩
          rcases c3 with c3 | c3
          · exact Or.inl c3
          · exact Or.inr (by omega)
    obtain ⟨m', v', q1, q2, q3⟩ := ih m1 v1 (xs ++ [y]) p2 hc1
      (by simp only [List.length_append, List.length_singleton]; omega)
      (by simp only [List.length_append, List.length_singleton]; omega)
    refine ⟨m', v', ?_, by simpa using q2, by simpa using q3⟩
    simp only [push_back_all, p1]
    exact q1

end vector

/-! ## Fixed array: the comparison loops -/

namespace array

variable {N : Nat}

theorem toList_length (a : array T N) : a.toList.length = N := by
  simp [toList]

/-- From index `i` on, the elements are the element at `i` and the rest. -/
theorem drop_toList (a : array T N) (i : Nat) (h : i < N) :
    a.toList.drop i = a.index i h :: a.toList.drop (i + 1) := by
  rw [List.drop_eq_getElem_cons (by rw [toList_length]; exact h)]
  congr 1
  simp [toList]

theorem drop_toList_end (a : array T N) : a.toList.drop N = [] := by
  rw [List.drop_eq_nil_iff]
  exact le_of_eq (toList_length a)

/-- The loop of `operator==` compares the elements from `i` on. -/
theorem eq_loop_iff (eq : T → T → Bool) (heq : ∀ x y, eq x y = true ↔ x = y)
    (a b : array T N) :
    ∀ (k i : Nat), i + k = N →
      (eq_loop eq a b k i = true ↔ a.toList.drop i = b.toList.drop i) := by
  intro k
  induction k with
  | zero =>
    intro i hi
    have e : i = N := by omega
    subst e
    simp [eq_loop, drop_toList_end]
  | succ k ih =>
    intro i hi
    have h : i < N := by omega
    rw [drop_toList a i h, drop_toList b i h]
    have hstep : eq_loop eq a b (k + 1) i
        = (if !(eq (a.index i h) (b.index i h)) then false else eq_loop eq a b k (i + 1)) := by
      simp only [eq_loop, h, dite_true]
    have ih2 := ih (i + 1) (by omega)
    rw [hstep]
    generalize a.index i h = x
    generalize b.index i h = y
    by_cases hx : eq x y = true
    · have exy := (heq _ _).1 hx
      subst exy
      simp only [hx, Bool.not_true, Bool.false_eq_true, if_false, List.cons.injEq, true_and]
      exact ih2
    · have hne : ¬ x = y := fun e => hx ((heq _ _).2 e)
      have hf : eq x y = false := by simpa using hx
      simp only [hf, Bool.not_false, if_true, Bool.false_eq_true, List.cons.injEq, hne,
        false_and]

/-- The loop of `operator<` is the lexicographic order of the elements from
`i` on. -/
theorem lt_loop_iff (lt : T → T → Bool) (hirr : ∀ x, lt x x = false)
    (htot : ∀ x y, lt x y = false → lt y x = false → x = y) (a b : array T N) :
    ∀ (k i : Nat), i + k = N →
      (lt_loop lt a b k i = true ↔
        List.Lex (fun x y => lt x y = true) (a.toList.drop i) (b.toList.drop i)) := by
  intro k
  induction k with
  | zero =>
    intro i hi
    have e : i = N := by omega
    subst e
    rw [drop_toList_end, drop_toList_end]
    simp only [lt_loop, Bool.false_eq_true, false_iff]
    intro hc
    cases hc
  | succ k ih =>
    intro i hi
    have h : i < N := by omega
    rw [drop_toList a i h, drop_toList b i h]
    have hstep : lt_loop lt a b (k + 1) i
        = (if lt (a.index i h) (b.index i h) then true
          else if lt (b.index i h) (a.index i h) then false
          else lt_loop lt a b k (i + 1)) := by
      simp only [lt_loop, h, dite_true]
    have ih2 := ih (i + 1) (by omega)
    rw [hstep]
    generalize a.index i h = x
    generalize b.index i h = y
    by_cases h1 : lt x y = true
    · simp only [h1, if_true, true_iff]
      exact List.Lex.rel h1
    · by_cases h2 : lt y x = true
      · simp only [h1, h2, if_true, if_false, Bool.false_eq_true, false_iff]
        intro hc
        cases hc with
        | cons hc => rw [hirr] at h2; exact absurd h2 (by simp)
        | rel hc => exact h1 hc
      · have e : x = y := htot _ _ (by simpa using h1) (by simpa using h2)
        subst e
        simp only [h1, if_false]
        constructor
        · intro hc
          exact List.Lex.cons (ih2.1 hc)
        · intro hc
          cases hc with
          | cons hc => exact ih2.2 hc
          | rel hc => exact absurd hc h1

/-- `operator==` holds exactly when the `N` elements agree. -/
theorem eq_iff (eq : T → T → Bool) (heq : ∀ x y, eq x y = true ↔ x = y) (a b : array T N) :
    array.eq eq a b = true ↔ a.toList = b.toList := by
  have := eq_loop_iff eq heq a b N 0 (by omega)
  simpa [array.eq] using this

/-- `operator<` is the lexicographic order of the `N` elements. -/
theorem lt_iff (lt : T → T → Bool) (hirr : ∀ x, lt x x = false)
    (htot : ∀ x y, lt x y = false → lt y x = false → x = y) (a b : array T N) :
    array.lt lt a b = true ↔ List.Lex (fun x y => lt x y = true) a.toList b.toList := by
  have := lt_loop_iff lt hirr htot a b N 0 (by omega)
  simpa [array.lt] using this

end array

/-! ## Growable buffer: the two `find` overloads on a non-empty needle -/

namespace basic_string

variable {C : Type}

/-- Writing to a slot the character it holds leaves the store as it is. -/
theorem write_held (m : SMem C) (p : Int) (c : C) (h : m.cell p = some c) : m.write p c = m := by
  cases m with
  | mk vm blk =>
    cases vm with
    | mk cell brk =>
      simp only [SMem.write, SMem.set, SMem.mk.injEq, VMem.mk.injEq, and_true]
      funext x
      by_cases hx : x = p
      · subst hx
        simp only [if_true]
        exact h.symm
      · simp only [hx, if_false]

/-- For a needle buffer `t` that is not empty and whose storage holds its
`size()` characters, none of them the terminator, followed by the terminator,
`find(t.c_str(), pos)` and `find(t, pos)` return the same value. -/
theorem find_overloads_agree [DecidableEq C] [Zero C] (fuel : Nat) (m : SMem C)
    (s t : basic_string) (cs : List C) (pos : Nat) (hc : CStr m t._data cs)
    (hl : t._size = cs.length) (h0 : 0 < t._size) (hp : t._data ≠ 0) (hf : cs.length < fuel) :
    find fuel (c_str m t).1 s (c_str m t).2 pos = find_str fuel m s t pos := by
  have hterm : m.cell (t._data + t._size) = some 0 := by rw [hl]; exact hc.2.1
  have hlen := SMem.length_spec m t._data cs fuel hc hf
  have hne : ¬ cs.length = 0 := by omega
  have hemp : ¬ (t._size == 0) = true := by simp; omega
  have hcs : c_str m t = (m, t._data) := by
    simp only [c_str, write_held m _ 0 hterm]
  rw [hcs]
  simp only [find, find_str, hp, false_or, hlen, hne, if_false, empty, size, hemp]
  rw [hl]
  simp only [hne, if_false, Bool.false_eq_true, false_or]

end basic_string

/-! ## Linked sequence: the counted `insert` -/

/-- The loop of the counted `insert`: `k` passes put `k` fresh nodes carrying
`v` before `pos`, in the order of their creation; the iterator returned is the
first of them when the loop starts at `i = 0`, and `firstInserted` as it was
otherwise (or when no pass is made). -/
theorem insert_n_loop_spec (l pos : Nat) (v : T) (C : List Nat) :
    ∀ (k i : Nat) (st : State T) (A : List Nat) (fi : Nat), IsList st l (A ++ C) →
      pos = nodeAt (st.sentinel l) C 0 →
      ∃ news : List Nat, news.length = k ∧
        IsList (insert_n_loop l pos v k i st fi).1 l (A ++ news ++ C) ∧
        (∀ x ∈ news, (insert_n_loop l pos v k i st fi).1.data x = v) ∧
        (∀ x, x < st.brk → (insert_n_loop l pos v k i st fi).1.data x = st.data x) ∧
        (insert_n_loop l pos v k i st fi).2 = (if i = 0 then news.headD fi else fi) := by
  intro k
  induction k with
  | zero =>
    intro i st A fi h _
    refine ⟨[], rfl, by simpa [insert_n_loop] using h, by simp, fun x _ => rfl, ?_⟩
    simp [insert_n_loop]
  | succ k ih =>
    intro i st A fi h hpos
    have h1 := insert_node_isList st l pos v A C h hpos
    have hs : (_M_insert_node st l pos v).1.sentinel l = st.sentinel l := by
      simp only [_M_insert_node, _M_create_node_val, _M_create_node, allocate, sentinel_wsize,
        sentinel_wprev, sentinel_wnext, sentinel_wdata]
      rfl
    have hb : (_M_insert_node st l pos v).1.brk = st.brk + 1 := by
      simp [_M_insert_node, _M_create_node_val, _M_create_node, allocate]
    have hd := insert_node_data st l pos v
    obtain ⟨news, n1, n2, n3, n4, n5⟩ := ih (i + 1) (_M_insert_node st l pos v).1
      (A ++ [st.brk]) (if i = 0 then (_M_insert_node st l pos v).2 else fi)
      (by simpa using h1) (by rw [hs]; exact hpos)
    refine ⟨st.brk :: news, by simp [n1], ?_, ?_, ?_, ?_⟩
    · simpa [insert_n_loop] using n2
    · intro x hx
      simp only [insert_n_loop]
      rcases List.mem_cons.1 hx with e | hx
      · rw [e, n4 _ (by omega), hd, if_pos rfl]
      · exact n3 x hx
    · intro x hx
      simp only [insert_n_loop]
      rw [n4 x (by omega), hd, if_neg (by omega)]
    · simp only [insert_n_loop]
      rw [n5, if_neg (by omega), insert_node_ret]
      rfl

/-- `insert(pos, count, value)` at index `i <= size` of a well-formed list:
the sequence becomes `xs[0..i) ++ (count copies of value) ++ xs[i..)`, the
size grows by `count`, and the iterator returned is the one at index `i` of the
result when `count > 0`, and the null iterator when `count = 0`. -/
theorem list_insert_n_spec (st : State T) (l : Nat) (ns : List Nat) (i count : Nat) (v : T)
    (h : IsList st l ns) (hi : i ≤ ns.length) :
    toSeq (insert_n st l (iterAt st l i) count v).1 l
        = (toSeq st l).take i ++ List.replicate count v ++ (toSeq st l).drop i ∧
      size (insert_n st l (iterAt st l i) count v).1 l = size st l + count ∧
      (0 < count → (insert_n st l (iterAt st l i) count v).2
        = iterAt (insert_n st l (iterAt st l i) count v).1 l i) ∧
      (count = 0 → (insert_n st l (iterAt st l i) count v).2 = 0) := by
  have hpos : iterAt st l i = nodeAt (st.sentinel l) (ns.drop i) 0 := by
    rw [iterAt_eq st l ns h i hi, nodeAt_drop _ _ _ hi]
  unfold insert_n
  obtain ⟨news, n1, n2, n3, n4, n5⟩ := insert_n_loop_spec l (iterAt st l i) v (ns.drop i)
    count 0 st (ns.take i) 0 (by rw [List.take_append_drop]; exact h) hpos
  have hlt := h.2.2.1
  have hold : ∀ (k : List Nat), (∀ x ∈ k, x ∈ ns) →
      k.map (insert_n_loop l (iterAt st l i) v count 0 st 0).1.data = k.map st.data := by
    intro k hk
    apply List.map_congr_left
    intro x hx
    exact n4 x (hlt x (List.mem_cons_of_mem _ (hk x hx)))
  have hnew : news.map (insert_n_loop l (iterAt st l i) v count 0 st 0).1.data
      = List.replicate count v := by
    rw [List.eq_replicate_iff]
    refine ⟨by simp [n1], ?_⟩
    intro b hb
    obtain ⟨x, hx, rfl⟩ := List.mem_map.1 hb
    exact n3 x hx
  refine ⟨?_, ?_, ?_, ?_⟩
  · rw [toSeq_eq _ _ _ n2, toSeq_eq _ _ _ h]
    simp only [elems, List.map_append]
    rw [hnew, hold _ (fun x hx => List.mem_of_mem_take hx),
      hold _ (fun x hx => List.mem_of_mem_drop hx), List.map_take, List.map_drop]
  · unfold size
    rw [n2.2.2.2, h.2.2.2]
    have := List.length_take_of_le hi
    simp only [List.length_append, List.length_drop, n1, this]
    omega
  · intro hc
    rw [iterAt_eq _ l _ n2 i (by simp; omega), n5, if_pos rfl]
    cases news with
    | nil => simp at n1; omega
    | cons b bs =>
      unfold nodeAt
      have hl : (ns.take i).length = i := by simp [hi]
      rw [List.getD_eq_getElem?_getD, List.append_assoc, List.append_assoc,
        List.getElem?_append_right (by omega)]
      simp [hl]
  · intro hc
    subst hc
    rfl

/-! ## Growable buffer: `erase(pos, count)` where `pos + count` does not wrap -/

namespace basic_string

variable {C : Type}

/-- For `pos < size`, a count `count > 0` and `pos + count` in the range of
`size_t`, `erase(pos, count)` removes the `k = min(count, size - pos)`
characters from offset `pos` on, writes the terminator at the new size and
returns the iterator at offset `pos`. -/
theorem erase_clamps [Zero C] (m : SMem C) (s : basic_string) (cs : List C) (pos count : Nat)
    (h : Chars m.toVMem s cs) (hp : pos < s._size) (hw : pos + count < SIZE_MOD)
    (hc : 0 < count) :
    Chars (erase m s pos count).1.toVMem (erase m s pos count).2.1
        (cs.take pos ++ cs.drop (pos + min count (s._size - pos))) ∧
      (erase m s pos count).2.1._size = s._size - min count (s._size - pos) ∧
      (erase m s pos count).1.cell ((erase m s pos count).2.1._data
        + (erase m s pos count).2.1._size) = some 0 ∧
      (erase m s pos count).2.2 = s._data + pos := by
  obtain ⟨hs, hcell⟩ := h
  have hk : (if (pos + count) % SIZE_MOD > s._size then s._size - pos else count)
      = min count (s._size - pos) := by
    rw [Nat.mod_eq_of_lt hw]
    by_cases hgt : pos + count > s._size
    · rw [if_pos hgt, min_eq_right (by omega)]
    · rw [if_neg hgt, min_eq_left (by omega)]
  have hk0 : ¬ min count (s._size - pos) = 0 := by
    have : 0 < min count (s._size - pos) := lt_min hc (by omega)
    omega
  have hkle : min count (s._size - pos) ≤ s._size - pos := min_le_right _ _
  have e1 : size_sub (size_sub s._size pos) (min count (s._size - pos))
      = s._size - pos - min count (s._size - pos) := by
    rw [size_sub_of_le s._size pos (by omega), size_sub_of_le _ _ hkle]
  have e2 : size_sub s._size (min count (s._size - pos))
      = s._size - min count (s._size - pos) := size_sub_of_le _ _ (by omega)
  have he : erase m s pos count
      = ((m.move (s._data + pos) (s._data + pos + (min count (s._size - pos) : Nat))
            (s._size - pos - min count (s._size - pos))).write
          (s._data + (s._size - min count (s._size - pos) : Nat)) 0,
        { s with _size := s._size - min count (s._size - pos) }, s._data + pos) := by
    simp only [erase, ge_iff_le, not_le.2 hp, if_false, hk, hk0, e1, e2]
  rw [he]
  generalize min count (s._size - pos) = k at hk0 hkle
  refine ⟨⟨?_, ?_⟩, rfl, ?_, rfl⟩
  · show s._size - k = _
    simp only [List.length_append, List.length_take, List.length_drop]
    omega
  · intro i hi
    simp only [List.length_append, List.length_take, List.length_drop] at hi
    show ((m.move _ _ _).write _ 0).cell (s._data + i) = _
    simp only [SMem.cell_put, SMem.cell_move]
    rw [if_neg (by omega)]
    by_cases hip : i < pos
    · rw [if_neg (by omega), List.get?_eq_getElem?, List.getElem?_append_left (by simp; omega),
        List.getElem?_take_of_lt hip, ← List.get?_eq_getElem?]
      exact hcell i (by omega)
    · rw [if_pos (by constructor <;> omega), List.get?_eq_getElem?,
        List.getElem?_append_right (by simp; omega), List.getElem?_drop,
        ← List.get?_eq_getElem?]
      have hl : (List.take pos cs).length = pos := by simp; omega
      rw [hl]
      have := hcell (pos + k + (i - pos)) (by omega)
      rw [← this]
      congr 1
      push_cast
      omega
  · show ((m.move _ _ _).write _ 0).cell (s._data + ((s._size - k : Nat) : Int)) = _
    simp only [SMem.cell_put, if_true]

/-- With `count = 0` and `pos < size`, `erase(pos, count)` returns at once: the
buffer and the store are as before. -/
theorem erase_nothing [Zero C] (m : SMem C) (s : basic_string) (pos : Nat) (hp : pos < s._size)
    (hw : pos < SIZE_MOD) : erase m s pos 0 = (m, s, s._data + pos) := by
  simp only [erase, ge_iff_le, not_le.2 hp, if_false, Nat.add_zero, Nat.mod_eq_of_lt hw,
    gt_iff_lt, not_lt.2 (le_of_lt hp), if_true]

end basic_string

/-! ## Claims C31, C32, C36: insertion and removal by offset -/

/-- With `pos = 0` the test `i >= pos` of the loop of `insert(size_t, CharT)`
holds for every `size_t` value of `i`: no number of passes ends the loop. -/
theorem insert_ch_loop_front {C : Type} (data : Int) (fuel : Nat) :
    ∀ (m : SMem C) (i : Nat), basic_string.insert_ch_loop data 0 fuel m i = none := by
  induction fuel with
  | zero => intro m i; rfl
  | succ fuel ih =>
    intro m i
    simp only [basic_string.insert_ch_loop, ge_iff_le, Nat.zero_le, if_true]
    exact ih _ _

/-- `insert(0, ch)` does not return, whatever the buffer. -/
theorem insert_ch_front {C : Type} [DecidableEq C] [Zero C] (fuel : Nat) (m : SMem C)
    (s : basic_string) (ch : C) : basic_string.insert_ch fuel m s 0 ch = none := by
  simp only [basic_string.insert_ch, gt_iff_lt, Nat.not_lt_zero, if_false, insert_ch_loop_front]

/-- C31: on `basic_string s("abc")`, `s.insert(1, 'x')` returns with `"axbc"`,
size 4, and `s.insert(3, 'x')` with `"abcx"`; but `s.insert(0, 'x')` does not
return for any number of passes of the shifting loop, and neither does
`e.insert(0, 'x')` on the empty buffer `e`: with `pos = 0` the test `i >= pos`
on `size_t` never fails.  On the empty buffer the loop starts at `i = _size - 1`,
wrapped to `2^64 - 1`, an offset outside the allocation of 1 slot. -/
theorem insert_at_front_never_returns :
    basic_string.Chars demoAbc.1.toVMem demoAbc.2 [97, 98, 99] ∧
      ((basic_string.insert_ch 64 demoAbc.1 demoAbc.2 1 120).map
        (fun r => (basic_string.toList r.1 r.2, r.2.size))
        = some ([some 97, some 120, some 98, some 99], 4)) ∧
      ((basic_string.insert_ch 64 demoAbc.1 demoAbc.2 3 120).map
        (fun r => (basic_string.toList r.1 r.2, r.2.size))
        = some ([some 97, some 98, some 99, some 120], 4)) ∧
      (∀ fuel, basic_string.insert_ch fuel demoAbc.1 demoAbc.2 0 120 = none) ∧
      demoAbcEmpty.2.size = 0 ∧
      (∀ fuel, basic_string.insert_ch fuel demoAbcEmpty.1 demoAbcEmpty.2 0 120 = none) ∧
      size_sub demoAbcEmpty.2.size 1 = SIZE_MOD - 1 ∧
      demoAbcEmpty.1.blk demoAbcEmpty.2._data = 1 :=
  ⟨by decide, by decide, by decide, fun fuel => insert_ch_front fuel _ _ _, by decide,
    fun fuel => insert_ch_front fuel _ _ _, by decide, by decide⟩

/-- C32: with `basic_string s("abc")`, its copy `t` and the literal `"world"`,
`t.insert(1, "world", 20)` inserts the 5 characters of the literal
(`min(20, 5)`) and `t.insert(1, s, 1, 2)` inserts `"bc"`; but
`t.insert(1, s, 1, 20)` inserts 20 slots read from `s._data + 1` on, where
`min(20, 3 - 1) = 2` characters are due: the size becomes 23 instead of 5, and
the slots inserted after `'b'`, `'c'` are the terminator of `s` and slots beyond
it. -/
theorem insert_substr_not_clamped :
    basic_string.Chars demoAbcCopy.1.toVMem demoAbc.2 [97, 98, 99] ∧
      basic_string.Chars demoAbcCopy.1.toVMem demoAbcCopy.2 [97, 98, 99] ∧
      basic_string.CStr demoAbcCopy.1 13 [119, 111, 114, 108, 100] ∧
      ((basic_string.insert_cstr_n 64 demoAbcCopy.1 demoAbcCopy.2 1 13 20).map
        (fun r => (basic_string.toList r.1 r.2, r.2.size))
        = some ([some 97, some 119, some 111, some 114, some 108, some 100, some 98, some 99],
            8)) ∧
      basic_string.toList (basic_string.insert_substr demoAbcCopy.1 demoAbcCopy.2 1 demoAbc.2 1 2).1
        (basic_string.insert_substr demoAbcCopy.1 demoAbcCopy.2 1 demoAbc.2 1 2).2
        = [some 97, some 98, some 99, some 98, some 99] ∧
      min 20 (demoAbc.2.size - 1) = 2 ∧
      (basic_string.insert_substr demoAbcCopy.1 demoAbcCopy.2 1 demoAbc.2 1 20).2.size = 23 ∧
      (basic_string.toList (basic_string.insert_substr demoAbcCopy.1 demoAbcCopy.2 1 demoAbc.2 1 20).1
        (basic_string.insert_substr demoAbcCopy.1 demoAbcCopy.2 1 demoAbc.2 1 20).2).take 6
        = [some 97, some 98, some 99, some 0, none, none] := by
  decide

/-- C36: on the copy `t` of `basic_string s("abc")` (size 3), `t.erase(1, 100)`
removes `min(100, 2) = 2` characters and leaves `"a"` with the terminator at
offset 1, and `t.erase(0, npos)` leaves size 0; but `t.erase(1, npos)`, where
the same 2 characters are due as for the count 100, leaves
size 4: `1 + npos` wraps to 0, the count is not clamped, and `_size -= count`
wraps to `3 + 1`.  The slots at offsets 1 to 3 then hold no character. -/
theorem erase_count_wraps :
    basic_string.Chars demoAbcCopy.1.toVMem demoAbcCopy.2 [97, 98, 99] ∧
      (basic_string.toList (basic_string.erase demoAbcCopy.1 demoAbcCopy.2 1 100).1
          (basic_string.erase demoAbcCopy.1 demoAbcCopy.2 1 100).2.1 = [some 97] ∧
        basic_string.Term (basic_string.erase demoAbcCopy.1 demoAbcCopy.2 1 100).1
          (basic_string.erase demoAbcCopy.1 demoAbcCopy.2 1 100).2.1 ∧
        (basic_string.erase demoAbcCopy.1 demoAbcCopy.2 1 100).2.2 = demoAbcCopy.2._data + 1) ∧
      (basic_string.erase demoAbcCopy.1 demoAbcCopy.2 0 npos).2.1.size = 0 ∧
      min npos (demoAbcCopy.2.size - 1) = 2 ∧
      (1 + npos) % SIZE_MOD = 0 ∧
      (basic_string.erase demoAbcCopy.1 demoAbcCopy.2 1 npos).2.1.size = 4 ∧
      basic_string.toList (basic_string.erase demoAbcCopy.1 demoAbcCopy.2 1 npos).1
        (basic_string.erase demoAbcCopy.1 demoAbcCopy.2 1 npos).2.1
        = [some 97, none, none, none] := by
  decide

/-! ## Claims C37, C38, C40: concatenation, the search overloads, counted insert -/

/-- C37: with `basic_string a("abc")` and its copy `b`, `a + b` is `"abcabc"`
of size 6, as it should be.  After `b.pop_back()` the buffer `b` holds `"ab"`
(size 2), but `a + b` and `a += b` again give `"abcabc"` of size 6, where
`"abcab"` of size 5 is due; and after `b.clear()` (size 0) `a + b` is still
`"abcabc"`, where `"abc"` is due.  Both operators pass `other._data` to
`append(const CharT*)`, which reads up to the terminator that `pop_back` and
`clear` leave at offset 3. -/
theorem concat_reads_to_stale_terminator :
    basic_string.Chars demoAbcCopy.1.toVMem demoAbc.2 [97, 98, 99] ∧
      basic_string.Chars demoAbcCopy.1.toVMem demoAbcCopy.2 [97, 98, 99] ∧
      ((basic_string.operator_plus 64 demoAbcCopy.1 demoAbc.2 demoAbcCopy.2).map
        (fun r => (basic_string.toList r.1 r.2, r.2.size))
        = some ([some 97, some 98, some 99, some 97, some 98, some 99], 6)) ∧
      basic_string.Chars demoAbcPopped.1.toVMem demoAbcPopped.2 [97, 98] ∧
      demoAbc.2.size + demoAbcPopped.2.size = 5 ∧
      ((basic_string.operator_plus 64 demoAbcPopped.1 demoAbc.2 demoAbcPopped.2).map
        (fun r => (basic_string.toList r.1 r.2, r.2.size))
        = some ([some 97, some 98, some 99, some 97, some 98, some 99], 6)) ∧
      ((basic_string.operator_plus_assign 64 demoAbcPopped.1 demoAbc.2 demoAbcPopped.2).map
        (fun r => (basic_string.toList r.1 r.2, r.2.size))
        = some ([some 97, some 98, some 99, some 97, some 98, some 99], 6)) ∧
      (basic_string.clear demoAbcCopy.2).size = 0 ∧
      ((basic_string.operator_plus 64 demoAbcCopy.1 demoAbc.2
          (basic_string.clear demoAbcCopy.2)).map
        (fun r => (basic_string.toList r.1 r.2, r.2.size))
        = some ([some 97, some 98, some 99, some 97, some 98, some 99], 6)) := by
  decide

/-- C38: with `basic_string s("abc")`, its copy `t` and the empty buffer `e`
(terminated at offset 0), `s.find(t, 0)` and `s.find(t.c_str(), 0)` are both 0,
but `s.find(e, 0)` is `npos` while `s.find(e.c_str(), 0)` is 0: the buffer
overload returns `npos` on `str.empty()` before it reaches its own
`if (s_len == 0) return pos`. -/
theorem find_overloads_differ_on_empty_needle :
    basic_string.Chars demoAbcEmpty.1.toVMem demoAbc.2 [97, 98, 99] ∧
      (basic_string.find_str 64 demoAbcCopy.1 demoAbc.2 demoAbcCopy.2 0 = some 0 ∧
        basic_string.find 64 (basic_string.c_str demoAbcCopy.1 demoAbcCopy.2).1 demoAbc.2
          (basic_string.c_str demoAbcCopy.1 demoAbcCopy.2).2 0 = some 0) ∧
      demoAbcEmpty.2.size = 0 ∧ basic_string.Term demoAbcEmpty.1 demoAbcEmpty.2 ∧
      basic_string.find_str 64 demoAbcEmpty.1 demoAbc.2 demoAbcEmpty.2 0 = some npos ∧
      basic_string.find 64 (basic_string.c_str demoAbcEmpty.1 demoAbcEmpty.2).1 demoAbc.2
        (basic_string.c_str demoAbcEmpty.1 demoAbcEmpty.2).2 0 = some 0 ∧
      npos ≠ 0 := by
  decide

/-- C40: on the list `{1, 2, 3}`, `insert(begin(), 2, 9)` gives `{9, 9, 1, 2, 3}`
of size 5 and returns the iterator to the first inserted element, and the
range form inserts `{7, 8}` before `end()` and returns the iterator to the `7`;
but `insert(begin(), 0, 9)` and the range form with an empty range, which
leave the list as it was, return the default-constructed iterator (node
`nullptr`), not `pos`. -/
theorem counted_insert_of_nothing_returns_null :
    toSeq demoThree 0 = [1, 2, 3] ∧
      (toSeq (insert_n demoThree 0 (list_begin demoThree 0) 2 9).1 0 = [9, 9, 1, 2, 3] ∧
        size (insert_n demoThree 0 (list_begin demoThree 0) 2 9).1 0 = 5 ∧
        (insert_n demoThree 0 (list_begin demoThree 0) 2 9).2
          = list_begin (insert_n demoThree 0 (list_begin demoThree 0) 2 9).1 0) ∧
      (toSeq (insert_range demoThree 0 (list_end demoThree 0) [7, 8]).1 0 = [1, 2, 3, 7, 8] ∧
        (insert_range demoThree 0 (list_end demoThree 0) [7, 8]).2
          = iterAt (insert_range demoThree 0 (list_end demoThree 0) [7, 8]).1 0 3) ∧
      list_begin demoThree 0 = 2 ∧
      (toSeq (insert_n demoThree 0 (list_begin demoThree 0) 0 9).1 0 = [1, 2, 3] ∧
        (insert_n demoThree 0 (list_begin demoThree 0) 0 9).2 = 0) ∧
      (toSeq (insert_range demoThree 0 (list_begin demoThree 0) []).1 0 = [1, 2, 3] ∧
        (insert_range demoThree 0 (list_begin demoThree 0) []).2 = 0) := by
  decide

/-! ## Claim C39: `merge` without sortedness -/

/-- C39. For two different lists `dst` and `src`, sorted or not, `dst.merge(src)`
returns (the loop needs at most `size(dst) + size(src)` passes); the source is
left empty, with size 0 and its sentinel linked to itself in both directions;
the size of the destination is the sum of the two sizes; no payload is written;
the nodes of the destination are a permutation of the nodes of both lists in
which the nodes of each list keep their relative order; and so the sequence
read off the destination is a permutation of the two original sequences with
each of them as a subsequence. -/
theorem merge_conserves_elements (lt : T → T → Bool) (fuel : Nat) (st : State T)
    (dst src : Nat) (nd ns : List Nat) (hne : dst ≠ src)
    (hd : IsList st dst nd) (hs : IsList st src ns)
    (hdis : ∀ x ∈ st.sentinel dst :: nd, x ∉ st.sentinel src :: ns)
    (hf : nd.length + ns.length < fuel) :
    ∃ st', merge lt fuel st dst src = some st' ∧
      (toSeq st' src = [] ∧ size st' src = 0 ∧
        st'.next (st'.sentinel src) = st'.sentinel src ∧
        st'.prev (st'.sentinel src) = st'.sentinel src) ∧
      size st' dst = size st dst + size st src ∧
      (∀ x, st'.data x = st.data x) ∧
      (∃ ms, IsList st' dst ms ∧ ms.Perm (nd ++ ns) ∧ nd.Sublist ms ∧ ns.Sublist ms) ∧
      (toSeq st' dst).Perm (toSeq st dst ++ toSeq st src) ∧
      (toSeq st dst).Sublist (toSeq st' dst) ∧ (toSeq st src).Sublist (toSeq st' dst) := by
  obtain ⟨st', h1, h2, h3, _, h5, _, _, _⟩ := merge_spec lt fuel st dst src nd ns hne hd hs hdis hf
  have hp := mergeNodes_perm lt st.data nd ns
  have hl := mergeNodes_sublist_left lt st.data nd ns
  have hr := mergeNodes_sublist_right lt st.data nd ns
  have e1 : toSeq st' dst = elems st (mergeNodes lt st.data nd ns) := by
    rw [toSeq_eq st' dst _ h2, elems_congr st st' _ h5]
  have hadj : Adj st' (st'.sentinel src) (st'.sentinel src) := by
    have hc := h3.1
    simp only [Cyc, List.nil_append, Linked, and_true] at hc
    exact hc
  refine ⟨st', h1, ⟨?_, h3.2.2.2, hadj.1, hadj.2⟩, ?_, h5, ⟨_, h2, hp, hl, hr⟩, ?_, ?_, ?_⟩
  · rw [toSeq_eq st' src [] h3]; rfl
  · simp only [size]
    rw [h2.2.2.2, hp.length_eq, List.length_append, hd.2.2.2, hs.2.2.2]
  · rw [e1, toSeq_eq st dst nd hd, toSeq_eq st src ns hs, ← elems_append]
    exact hp.map _
  · rw [e1, toSeq_eq st dst nd hd]
    exact hl.map _
  · rw [e1, toSeq_eq st src ns hs]
    exact hr.map _

/-- C39 at the unsorted lists `dst = {3, 1, 2}`, `src = {2, 0}`: the merge
gives `{2, 0, 3, 1, 2}` of size 5 and leaves the source empty. -/
theorem merge_conserves_elements_witness :
    (IsList demoUnsorted 0 [2, 3, 4] ∧ IsList demoUnsorted 1 [6, 7] ∧
      toSeq demoUnsorted 0 = [3, 1, 2] ∧ toSeq demoUnsorted 1 = [2, 0] ∧
      (merge (fun x y => decide (x < y)) 6 demoUnsorted 0 1).map
        (fun s => (toSeq s 0, size s 0, toSeq s 1, size s 1)) =
        some ([2, 0, 3, 1, 2], 5, [], 0)) ∧
    ∃ st', merge (fun x y => decide (x < y)) 6 demoUnsorted 0 1 = some st' ∧
      (toSeq st' 1 = [] ∧ size st' 1 = 0 ∧
        st'.next (st'.sentinel 1) = st'.sentinel 1 ∧
        st'.prev (st'.sentinel 1) = st'.sentinel 1) ∧
      size st' 0 = size demoUnsorted 0 + size demoUnsorted 1 ∧
      (∀ x, st'.data x = demoUnsorted.data x) ∧
      (∃ ms, IsList st' 0 ms ∧ ms.Perm ([2, 3, 4] ++ [6, 7]) ∧ [2, 3, 4].Sublist ms ∧
        [6, 7].Sublist ms) ∧
      (toSeq st' 0).Perm (toSeq demoUnsorted 0 ++ toSeq demoUnsorted 1) ∧
      (toSeq demoUnsorted 0).Sublist (toSeq st' 0) ∧
      (toSeq demoUnsorted 1).Sublist (toSeq st' 0) :=
  ⟨by decide,
    merge_conserves_elements (fun x y => decide (x < y)) 6 demoUnsorted 0 1 [2, 3, 4] [6, 7]
      (by decide) (by decide) (by decide) (by decide) (by decide)⟩

/-! ## Claim C33: `clear` twice -/

/-- Writing a link with the value it has changes nothing. -/
theorem wnext_self (st : State T) (a : Nat) : st.wnext a (st.next a) = st := by
  cases st with
  | mk mem alive brk obj =>
    simp only [State.wnext, State.next, State.mk.injEq, and_true, true_and]
    funext x
    split_ifs with h
    · subst h; rfl
    · rfl

theorem wprev_self (st : State T) (a : Nat) : st.wprev a (st.prev a) = st := by
  cases st with
  | mk mem alive brk obj =>
    simp only [State.wprev, State.prev, State.mk.injEq, and_true, true_and]
    funext x
    split_ifs with h
    · subst h; rfl
    · rfl

theorem wsize_self (st : State T) (l : Nat) : st.wsize l (st.msize l) = st := by
  cases st with
  | mk mem alive brk obj =>
    simp only [State.wsize, State.msize, State.mk.injEq, true_and]
    funext x
    split_ifs with h
    · subst h; rfl
    · rfl

/-- `clear()` on an empty list returns and leaves the state as it is. -/
theorem clear_of_empty (fuel : Nat) (st : State T) (l : Nat) (h : IsList st l [])
    (hf : 0 < fuel) : clear fuel st l = some st := by
  obtain ⟨f1, rfl⟩ : ∃ f1, fuel = f1 + 1 := ⟨fuel - 1, by omega⟩
  have hc := h.1
  simp only [Cyc, List.nil_append, Linked, and_true, Adj] at hc
  have hs : st.msize l = 0 := h.2.2.2
  have e1 : st.wnext (st.sentinel l) (st.sentinel l) = st := by
    have e := wnext_self st (st.sentinel l)
    rwa [hc.1] at e
  have e2 : st.wprev (st.sentinel l) (st.sentinel l) = st := by
    have e := wprev_self st (st.sentinel l)
    rwa [hc.2] at e
  have e3 : st.wsize l 0 = st := by
    have e := wsize_self st l
    rwa [hs] at e
  simp only [clear, clear_loop, hc.1, ne_eq, not_true_eq_false, if_false, e1, e2, e3]

/-- C33. `clear()` is idempotent on the three containers.  On a vector holding
`xs` it returns (the loop needs `size` passes) with size 0 and the capacity it
had, and a second `clear()` returns the same store and object.  On a list it
returns with size 0 and the sentinel linked to itself in both directions, and a
second `clear()` returns the same state.  On a buffer it leaves size 0 and the
capacity it had (the store is not written), and a second `clear()` gives the
same object. -/
theorem clear_idempotent (fuel : Nat) (m : VMem T) (v : vector) (xs : List T)
    (hv : vector.Holds m v xs) (hfv : xs.length < fuel)
    (st : State T) (l : Nat) (ns : List Nat) (hl : IsList st l ns) (hfl : ns.length < fuel)
    (s : basic_string) :
    (∃ (m' : VMem T) (v' : vector), vector.clear fuel m v = some (m', v') ∧
      v'.size = 0 ∧ v'.capacity = v.capacity ∧ vector.clear fuel m' v' = some (m', v')) ∧
    (∃ st', clear fuel st l = some st' ∧ size st' l = 0 ∧
      st'.next (st'.sentinel l) = st'.sentinel l ∧
      st'.prev (st'.sentinel l) = st'.sentinel l ∧ clear fuel st' l = some st') ∧
    ((basic_string.clear s).size = 0 ∧ (basic_string.clear s).capacity = s.capacity ∧
      basic_string.clear (basic_string.clear s) = basic_string.clear s) := by
  refine ⟨?_, ?_, rfl, rfl, rfl⟩
  · obtain ⟨m', e1, e2, _, _⟩ := vector.clear_full fuel m v xs hv hfv
    refine ⟨m', _, e1, vector.holds_size e2, rfl, ?_⟩
    obtain ⟨f1, rfl⟩ : ∃ f1, fuel = f1 + 1 := ⟨fuel - 1, by omega⟩
    simp only [vector.clear, ne_eq, not_true_eq_false, if_false]
  · obtain ⟨st', c1, c2, _⟩ := clear_isList fuel st l ns hl hfl
    have hc := c2.1
    simp only [Cyc, List.nil_append, Linked, and_true, Adj] at hc
    exact ⟨st', c1, c2.2.2.2, hc.1, hc.2, clear_of_empty fuel st' l c2 (by omega)⟩

/-- C33 at the vector `{1, 2, 3}` of capacity 4, the list `{1, 2, 3}` and the
buffer `"abc"` of capacity 8. -/
theorem clear_idempotent_witness :
    (vector.Holds demoMem demoV [1, 2, 3] ∧ demoV.capacity = 4 ∧
      IsList demoSplice 0 [2, 3, 4] ∧ toSeq demoSplice 0 = [1, 2, 3] ∧
      demoAbc.2.size = 3 ∧ demoAbc.2.capacity = 8) ∧
    ((∃ (m' : VMem Nat) (v' : vector), vector.clear 4 demoMem demoV = some (m', v') ∧
      v'.size = 0 ∧ v'.capacity = demoV.capacity ∧ vector.clear 4 m' v' = some (m', v')) ∧
    (∃ st', clear 4 demoSplice 0 = some st' ∧ size st' 0 = 0 ∧
      st'.next (st'.sentinel 0) = st'.sentinel 0 ∧
      st'.prev (st'.sentinel 0) = st'.sentinel 0 ∧ clear 4 st' 0 = some st') ∧
    ((basic_string.clear demoAbc.2).size = 0 ∧
      (basic_string.clear demoAbc.2).capacity = demoAbc.2.capacity ∧
      basic_string.clear (basic_string.clear demoAbc.2) = basic_string.clear demoAbc.2)) :=
  ⟨by decide,
    clear_idempotent 4 demoMem demoV [1, 2, 3] (by decide) (by decide) demoSplice 0 [2, 3, 4]
      (by decide) (by decide) demoAbc.2⟩

/-! ## Claim C35: the capacity under repeated `push_back` -/

/-- C35. On a vector holding `xs` (with twice its capacity a `size_t` value),
both `push_back` overloads return (the reallocation needs `size` passes); if
the size equals the capacity the new capacity is `max(1, 2 * capacity)`, else
the capacity is unchanged.  Starting from the default-constructed vector,
the moving `push_back` of the `n` values `ys` (`n` up to `2^62`) returns with
the vector holding `ys`, and its capacity is 0 when `n = 0` and otherwise
`2^k` for the least `k` with `n <= 2^k`. -/
theorem capacity_doubling (fuel : Nat) (m : VMem T) (v : vector) (xs : List T) (value : T)
    (h : vector.Holds m v xs) (h2 : 2 * v.capacity < SIZE_MOD) (hf : xs.length < fuel)
    (m0 : VMem T) (h0 : 0 ≤ m0.brk) (ys : List T) (hn : ys.length ≤ 2 ^ 62)
    (hfn : ys.length ≤ fuel) :
    ((∃ (m' : VMem T) (v' : vector), vector.push_back fuel m v value = some (m', v') ∧
        v'.capacity = if v.size = v.capacity then max 1 (2 * v.capacity) else v.capacity) ∧
      (∃ (m' : VMem T) (v' : vector), vector.push_back_const fuel m v value = some (m', v') ∧
        v'.capacity = if v.size = v.capacity then max 1 (2 * v.capacity) else v.capacity)) ∧
    ∃ (m' : VMem T) (v' : vector), vector.push_back_all fuel m0 vector.null ys = some (m', v') ∧
      vector.Holds m' v' ys ∧ v'.size = ys.length ∧
      (ys.length = 0 → v'.capacity = 0) ∧
      (0 < ys.length →
        ∃ k, v'.capacity = 2 ^ k ∧ ys.length ≤ 2 ^ k ∧ ∀ j, ys.length ≤ 2 ^ j → k ≤ j) := by
  obtain ⟨⟨m1, v1, p1, _, p3⟩, q⟩ := vector.push_back_capacity fuel m v xs value h h2 hf
  refine ⟨⟨⟨m1, v1, p1, p3⟩, q⟩, ?_⟩
  obtain ⟨m', v', e1, e2, e3⟩ := vector.push_back_all_capacity fuel ys m0 vector.null []
    (vector.holds_null m0 h0) (Or.inl ⟨rfl, rfl⟩) (by simpa using hn) (by simpa using hfn)
  simp only [List.nil_append] at e2 e3
  refine ⟨m', v', e1, e2, vector.holds_size e2, ?_, ?_⟩
  · intro hz
    have hys : ys = [] := List.length_eq_zero.1 hz
    subst hys
    simp only [vector.push_back_all, Option.some.injEq, Prod.mk.injEq] at e1
    rw [← e1.2]
    rfl
  · intro hp
    rcases e3 with ⟨n0, _⟩ | ⟨k, c1, c2, c3⟩
    · omega
    · refine ⟨k, c1, c2, ?_⟩
      intro j hj
      by_contra hc
      rcases c3 with c3 | c3
      · omega
      · have : 2 ^ j ≤ 2 ^ (k - 1) := Nat.pow_le_pow_right (by norm_num) (by omega)
        omega

/-- C35 at the vector `{1, 2, 3}` of capacity 4 and at five `push_back` calls
on the default-constructed vector, which give the capacities 1, 2, 4, 4, 8. -/
theorem capacity_doubling_witness :
    (vector.Holds demoMem demoV [1, 2, 3] ∧ demoV.capacity = 4 ∧
      (vector.push_back 4 demoMem demoV 9).map (fun r => (r.2.size, r.2.capacity))
        = some (4, 4) ∧
      ((vector.push_back 4 demoMem demoV 9).bind (fun r => vector.push_back 5 r.1 r.2 7)).map
        (fun r => (r.2.size, r.2.capacity)) = some (5, 8) ∧
      [[], [1], [1, 2], [1, 2, 3], [1, 2, 3, 4], [1, 2, 3, 4, 5]].map
        (fun ys => (vector.push_back_all 8 (VMem.init : VMem Nat) vector.null ys).map
          (fun r => r.2.capacity))
        = [some 0, some 1, some 2, some 4, some 4, some 8]) ∧
    (((∃ (m' : VMem Nat) (v' : vector), vector.push_back 8 demoMem demoV 9 = some (m', v') ∧
        v'.capacity = if demoV.size = demoV.capacity then max 1 (2 * demoV.capacity)
          else demoV.capacity) ∧
      (∃ (m' : VMem Nat) (v' : vector),
        vector.push_back_const 8 demoMem demoV 9 = some (m', v') ∧
        v'.capacity = if demoV.size = demoV.capacity then max 1 (2 * demoV.capacity)
          else demoV.capacity)) ∧
    ∃ (m' : VMem Nat) (v' : vector),
      vector.push_back_all 8 (VMem.init : VMem Nat) vector.null [1, 2, 3, 4, 5]
        = some (m', v') ∧
      vector.Holds m' v' [1, 2, 3, 4, 5] ∧ v'.size = [1, 2, 3, 4, 5].length ∧
      ([1, 2, 3, 4, 5].length = 0 → v'.capacity = 0) ∧
      (0 < [1, 2, 3, 4, 5].length →
        ∃ k, v'.capacity = 2 ^ k ∧ [1, 2, 3, 4, 5].length ≤ 2 ^ k ∧
          ∀ j, [1, 2, 3, 4, 5].length ≤ 2 ^ j → k ≤ j)) :=
  ⟨by decide,
    capacity_doubling 8 demoMem demoV [1, 2, 3] 9 (by decide) (by decide) (by decide)
      (VMem.init : VMem Nat) (by decide) [1, 2, 3, 4, 5] (by decide) (by decide)⟩

/-! ## Claim C34: the ordering of fixed arrays -/

/-- C34. Let the element operators `==` (`eq`) and `<` (`lt`) be equality and
a strict total order.  Then for arrays `a`, `b`, `c` of `N` elements:
`operator<` is the lexicographic order of the `N` elements and `operator==` is
their equality; `operator<` is irreflexive and transitive, and so is
transitive the incomparability it leaves; exactly one of `a < b`, `a == b`,
`b < a` holds; and `a > b` is `b < a`, `a <= b` is `!(b < a)`, `a >= b` is
`!(a < b)`, `a != b` is `!(a == b)`. -/
theorem array_ordering (eq lt : T → T → Bool) (heq : ∀ x y, eq x y = true ↔ x = y)
    (hirr : ∀ x, lt x x = false)
    (htr : ∀ x y z, lt x y = true → lt y z = true → lt x z = true)
    (htot : ∀ x y, lt x y = false → lt y x = false → x = y)
    (N : Nat) (a b c : array T N) :
    (array.lt lt a b = true ↔ List.Lex (fun x y => lt x y = true) a.toList b.toList) ∧
    (array.eq eq a b = true ↔ a.toList = b.toList) ∧
    array.lt lt a a = false ∧
    (array.lt lt a b = true → array.lt lt b c = true → array.lt lt a c = true) ∧
    (array.lt lt a b = false ∧ array.lt lt b a = false →
      array.lt lt b c = false ∧ array.lt lt c b = false →
      array.lt lt a c = false ∧ array.lt lt c a = false) ∧
    ((array.lt lt a b = true ∨ array.eq eq a b = true ∨ array.lt lt b a = true) ∧
      ¬ (array.lt lt a b = true ∧ array.eq eq a b = true) ∧
      ¬ (array.lt lt a b = true ∧ array.lt lt b a = true) ∧
      ¬ (array.eq eq a b = true ∧ array.lt lt b a = true)) ∧
    (array.gt lt a b = true ↔ array.lt lt b a = true) ∧
    (array.le lt a b = true ↔ ¬ array.lt lt b a = true) ∧
    (array.ge lt a b = true ↔ ¬ array.lt lt a b = true) ∧
    (array.ne eq a b = true ↔ ¬ array.eq eq a b = true) := by
  haveI hT : IsStrictTotalOrder T (fun x y => lt x y = true) :=
    { trichotomous := fun x y => by
        by_cases h1 : lt x y = true
        · exact Or.inl h1
        · by_cases h2 : lt y x = true
          · exact Or.inr (Or.inr h2)
          · exact Or.inr (Or.inl (htot x y (by simpa using h1) (by simpa using h2)))
      irrefl := fun x h => by rw [hirr] at h; exact absurd h (by simp)
      trans := fun x y z => htr x y z }
  have hL : IsStrictTotalOrder (List T) (List.Lex (fun x y => lt x y = true)) := inferInstance
  have L : ∀ p q : array T N, array.lt lt p q = true ↔
      List.Lex (fun x y => lt x y = true) p.toList q.toList :=
    fun p q => array.lt_iff lt hirr htot p q
  have E : ∀ p q : array T N, array.eq eq p q = true ↔ p.toList = q.toList :=
    fun p q => array.eq_iff eq heq p q
  have F : ∀ p q : array T N, array.lt lt p q = false ↔
      ¬ List.Lex (fun x y => lt x y = true) p.toList q.toList := by
    intro p q
    rw [← L p q]
    simp
  have tri : ∀ p q : array T N, ¬ List.Lex (fun x y => lt x y = true) p.toList q.toList →
      ¬ List.Lex (fun x y => lt x y = true) q.toList p.toList → p.toList = q.toList := by
    intro p q h1 h2
    rcases hL.trichotomous p.toList q.toList with h | h | h
    · exact absurd h h1
    · exact h
    · exact absurd h h2
  refine ⟨L a b, E a b, ?_, ?_, ?_, ⟨?_, ?_, ?_, ?_⟩, ?_, ?_, ?_, ?_⟩
  · rw [F]
    exact hL.irrefl _
  · rw [L, L, L]
    exact fun h1 h2 => hL.trans _ _ _ h1 h2
  · rw [F, F, F, F, F, F]
    intro h1 h2
    have e1 := tri a b h1.1 h1.2
    have e2 := tri b c h2.1 h2.2
    rw [e1, e2]
    exact ⟨hL.irrefl _, hL.irrefl _⟩
  · rw [L, E, L]
    exact hL.trichotomous _ _
  · rw [L, E]
    intro h
    have h1 := h.1
    rw [h.2] at h1
    exact hL.irrefl _ h1
  · rw [L, L]
    intro h
    exact hL.irrefl _ (hL.trans _ _ _ h.1 h.2)
  · rw [L, E]
    intro h
    have h1 := h.2
    rw [h.1] at h1
    exact hL.irrefl _ h1
  · rfl
  · simp [array.le]
  · simp [array.ge]
  · simp [array.ne]

/-- C34 at the arrays `{1, 2, 3}`, `{1, 3, 0}` and `{2, 0, 0}` of `int`. -/
theorem array_ordering_witness :
    (array.lt (fun x y => decide (x < y)) (demoArr 1 2 3) (demoArr 1 3 0) = true ∧
      array.lt (fun x y => decide (x < y)) (demoArr 1 3 0) (demoArr 2 0 0) = true ∧
      array.lt (fun x y => decide (x < y)) (demoArr 1 2 3) (demoArr 2 0 0) = true ∧
      array.lt (fun x y => decide (x < y)) (demoArr 1 3 0) (demoArr 1 2 3) = false ∧
      array.eq (fun x y => decide (x = y)) (demoArr 1 2 3) (demoArr 1 3 0) = false ∧
      array.eq (fun x y => decide (x = y)) (demoArr 1 2 3) (demoArr 1 2 3) = true ∧
      array.le (fun x y => decide (x < y)) (demoArr 1 2 3) (demoArr 1 2 3) = true ∧
      (demoArr 1 2 3).toList = [1, 2, 3]) ∧
    ((array.lt (fun x y => decide (x < y)) (demoArr 1 2 3) (demoArr 1 3 0) = true ↔
      List.Lex (fun x y => decide (x < y) = true) (demoArr 1 2 3).toList (demoArr 1 3 0).toList) ∧
    (array.eq (fun x y => decide (x = y)) (demoArr 1 2 3) (demoArr 1 3 0) = true ↔
      (demoArr 1 2 3).toList = (demoArr 1 3 0).toList) ∧
    array.lt (fun x y => decide (x < y)) (demoArr 1 2 3) (demoArr 1 2 3) = false ∧
    (array.lt (fun x y => decide (x < y)) (demoArr 1 2 3) (demoArr 1 3 0) = true →
      array.lt (fun x y => decide (x < y)) (demoArr 1 3 0) (demoArr 2 0 0) = true →
      array.lt (fun x y => decide (x < y)) (demoArr 1 2 3) (demoArr 2 0 0) = true) ∧
    (array.lt (fun x y => decide (x < y)) (demoArr 1 2 3) (demoArr 1 3 0) = false ∧
        array.lt (fun x y => decide (x < y)) (demoArr 1 3 0) (demoArr 1 2 3) = false →
      array.lt (fun x y => decide (x < y)) (demoArr 1 3 0) (demoArr 2 0 0) = false ∧
        array.lt (fun x y => decide (x < y)) (demoArr 2 0 0) (demoArr 1 3 0) = false →
      array.lt (fun x y => decide (x < y)) (demoArr 1 2 3) (demoArr 2 0 0) = false ∧
        array.lt (fun x y => decide (x < y)) (demoArr 2 0 0) (demoArr 1 2 3) = false) ∧
    ((array.lt (fun x y => decide (x < y)) (demoArr 1 2 3) (demoArr 1 3 0) = true ∨
        array.eq (fun x y => decide (x = y)) (demoArr 1 2 3) (demoArr 1 3 0) = true ∨
        array.lt (fun x y => decide (x < y)) (demoArr 1 3 0) (demoArr 1 2 3) = true) ∧
      ¬ (array.lt (fun x y => decide (x < y)) (demoArr 1 2 3) (demoArr 1 3 0) = true ∧
        array.eq (fun x y => decide (x = y)) (demoArr 1 2 3) (demoArr 1 3 0) = true) ∧
      ¬ (array.lt (fun x y => decide (x < y)) (demoArr 1 2 3) (demoArr 1 3 0) = true ∧
        array.lt (fun x y => decide (x < y)) (demoArr 1 3 0) (demoArr 1 2 3) = true) ∧
      ¬ (array.eq (fun x y => decide (x = y)) (demoArr 1 2 3) (demoArr 1 3 0) = true ∧
        array.lt (fun x y => decide (x < y)) (demoArr 1 3 0) (demoArr 1 2 3) = true)) ∧
    (array.gt (fun x y => decide (x < y)) (demoArr 1 2 3) (demoArr 1 3 0) = true ↔
      array.lt (fun x y => decide (x < y)) (demoArr 1 3 0) (demoArr 1 2 3) = true) ∧
    (array.le (fun x y => decide (x < y)) (demoArr 1 2 3) (demoArr 1 3 0) = true ↔
      ¬ array.lt (fun x y => decide (x < y)) (demoArr 1 3 0) (demoArr 1 2 3) = true) ∧
    (array.ge (fun x y => decide (x < y)) (demoArr 1 2 3) (demoArr 1 3 0) = true ↔
      ¬ array.lt (fun x y => decide (x < y)) (demoArr 1 2 3) (demoArr 1 3 0) = true) ∧
    (array.ne (fun x y => decide (x = y)) (demoArr 1 2 3) (demoArr 1 3 0) = true ↔
      ¬ array.eq (fun x y => decide (x = y)) (demoArr 1 2 3) (demoArr 1 3 0) = true)) :=
  ⟨by decide,
    array_ordering (fun x y => decide (x = y)) (fun x y => decide (x < y))
      (fun x y => by simp) (fun x => by simp)
      (fun x y z h1 h2 => by simp only [decide_eq_true_eq] at h1 h2 ⊢; omega)
      (fun x y h1 h2 => by simp only [decide_eq_false_iff_not] at h1 h2; omega)
      3 (demoArr 1 2 3) (demoArr 1 3 0) (demoArr 2 0 0)⟩

end leistd
